import Mathlib

/-!
# SnapRAID scan subsystem (scan.c): shallow embedding and verified properties

The embedding follows `scan.c` function by function.

Conventions of the embedding

* C pointers to heap objects (`struct snapraid_file*`, `struct snapraid_link*`,
  `struct snapraid_dir*`) are natural numbers indexing a per-disk object memory
  (`filemem`, `linkmem`, `dirmem`); a freed object leaves a `none` cell, so a
  dangling pointer is detectable.  A freshly allocated object always gets the
  next unused index.
* `tommy_list` containers are lists of pointers in list order; `tommy_hashdyn`
  containers are lists of pointers in insertion order, searched front to back.
* A slot of the block array (`tommy_array` of `struct snapraid_block*`) is
  `none` for `BLOCK_EMPTY`, or a `BlockPtr`: the address of block `i` of a file,
  or the address of the block embedded in a `snapraid_deleted` tombstone.
* `exit(EXIT_FAILURE)` is `Except.error` with the kind of failure.  Accesses
  that are undefined behaviour in C (out-of-range array index, dangling
  pointer) are `Fatal.memory_error`.
* `unsigned`, `block_off_t` and the sizes are unbounded naturals: the counters
  count memory-resident objects and the positions index a memory-resident
  array, so the 32/64-bit wrap-around is out of reach.
* Printing (`printf`, `fprintf`, the `gui` log and the `output` listing) has no
  effect on the data and is not represented.
-/

namespace Snapraid

set_option autoImplicit false

/-! ## Failure kinds -/

/-- Kinds of abnormal termination of the scan. -/
inductive Fatal
  /-- scan.c:83 "Internal inconsistency for link". -/
  | link_inconsistency
  /-- scan.c:191 "Internal state inconsistency in scanning for block". -/
  | block_state_inconsistency
  /-- scan.c:294 "Internal inode '%' inconsistency for file" (entry already PRESENT, nlink <= 1). -/
  | inode_present_inconsistency
  /-- scan.c:324 "Internal inode inconsistency for file" (path and inode both differ). -/
  | inode_inconsistency
  /-- scan.c:392 "The file has unexpected zero size!". -/
  | zero_size
  /-- scan.c:503 "Internal inconsistency for dir". -/
  | dir_inconsistency
  /-- scan.c:556 "Error opening directory". -/
  | opendir_error
  /-- scan.c:590 "Unsupported name". -/
  | unsupported_name
  /-- scan.c:616 "Error in stat file/directory". -/
  | stat_error
  /-- scan.c:646 "Error in readlink file. Symlink too long". -/
  | readlink_too_long
  /-- scan.c:852 "All the files previously present in disk ... are now missing or rewritten!". -/
  | empty_disk
  /-- Undefined behaviour of the C program: out-of-range index or dangling pointer. -/
  | memory_error
  deriving DecidableEq, Repr

/-! ## Data model (elem.h, as used by scan.c) -/

/-- Modelled from the spec: the block states of elem.h (`BLOCK_STATE_*`); the
header is not part of the sources.  `EMPTY` is the null block pointer and is
not a state of a block object. -/
inductive BlockState
  | BLK
  | CHG
  | NEW
  | DELETED
  deriving DecidableEq, Repr

/-- Modelled from the spec: `HASH_SIZE` of elem.h, the number of bytes of a block hash. -/
def HASH_SIZE : Nat := 16

/-- Modelled from the spec: `FILE_MTIME_NSEC_INVALID` of elem.h, the sentinel
for an unknown nanosecond part of a modification time. -/
def FILE_MTIME_NSEC_INVALID : Int := -1

/-- Modelled from the spec: `POS_INVALID` of elem.h, the parity position of a
block that has not been allocated yet. -/
def POS_INVALID : Nat := 4294967295

/-- The `struct snapraid_block`: parity position, state and hash. -/
structure snapraid_block where
  parity_pos : Nat
  state : BlockState
  hash : List Nat
  deriving DecidableEq, Repr

/-- The `struct snapraid_deleted`: a tombstone owning one block. -/
structure snapraid_deleted where
  block : snapraid_block
  deriving DecidableEq, Repr

/-- The `struct snapraid_file`.  `blockmax` is the length of `blockvec`;
`present` is the `FILE_IS_PRESENT` bit of the flag word. -/
structure snapraid_file where
  sub : String
  size : Nat
  mtime_sec : Int
  mtime_nsec : Int
  inode : Nat
  present : Bool
  blockvec : List snapraid_block
  deriving DecidableEq, Repr

/-- The number of blocks of a file (`file->blockmax`). -/
def snapraid_file.blockmax (f : snapraid_file) : Nat := f.blockvec.length

/-- The kind bits of a link flag word (`FILE_IS_LINK_MASK`). -/
inductive LinkKind
  | FILE_IS_SYMLINK
  | FILE_IS_HARDLINK
  deriving DecidableEq, Repr

/-- The `struct snapraid_link`.  `kind` is the flag word under
`FILE_IS_LINK_MASK`, `present` its `FILE_IS_PRESENT` bit. -/
structure snapraid_link where
  sub : String
  linkto : String
  kind : LinkKind
  present : Bool
  deriving DecidableEq, Repr

/-- The `struct snapraid_dir`: an empty directory. -/
structure snapraid_dir where
  sub : String
  present : Bool
  deriving DecidableEq, Repr

/-- A non-null `struct snapraid_block*` stored in the block array. -/
inductive BlockPtr
  /-- The address `&file->blockvec[i]`. -/
  | file (file : Nat) (i : Nat)
  /-- The address `&deleted->block` of the tombstone at index `d` of the deleted list. -/
  | deleted (d : Nat)
  deriving DecidableEq, Repr

/-- The `struct snapraid_disk` together with the memory of its objects. -/
structure snapraid_disk where
  name : String
  dir : String
  first_free_block : Nat
  filemem : List (Option snapraid_file)
  linkmem : List (Option snapraid_link)
  dirmem : List (Option snapraid_dir)
  filelist : List Nat
  pathset : List Nat
  inodeset : List Nat
  linklist : List Nat
  linkset : List Nat
  dirlist : List Nat
  dirset : List Nat
  deletedlist : List snapraid_deleted
  blockarr : List (Option BlockPtr)
  deriving DecidableEq, Repr

/-- The fields of `struct snapraid_state` read or written by the scan, apart
from the disk list and the filter lists, which are passed separately. -/
structure snapraid_state where
  need_write : Bool
  find_by_name : Bool
  force_zero : Bool
  force_empty : Bool
  block_size : Nat
  deriving DecidableEq, Repr

/-- The `struct snapraid_scan`: the counters and the three delayed insert lists. -/
structure snapraid_scan where
  count_equal : Nat
  count_moved : Nat
  count_change : Nat
  count_remove : Nat
  count_insert : Nat
  file_insert_list : List Nat
  link_insert_list : List Nat
  dir_insert_list : List Nat
  deriving DecidableEq, Repr

/-- The three objects every function of scan.c works on: `*state`, `*disk` and `*scan`. -/
structure Mem where
  state : snapraid_state
  disk : snapraid_disk
  scan : snapraid_scan
  deriving DecidableEq, Repr

/-- The fields of `struct stat` read by the scan; `st_nsec` is `STAT_NSEC(st)`. -/
structure Stat where
  st_size : Nat
  st_mtime : Int
  st_nsec : Int
  st_ino : Nat
  st_nlink : Nat
  deriving DecidableEq, Repr

/-! ## Object memory and containers -/

/-- Dereference of an object pointer. -/
def heap_get {α : Type} (mem : List (Option α)) (p : Nat) : Except Fatal α :=
  match mem[p]? with
  | some (some x) => .ok x
  | _ => .error .memory_error

/-- Store through an object pointer. -/
def heap_set {α : Type} (mem : List (Option α)) (p : Nat) (x : α) : List (Option α) :=
  mem.set p (some x)

/-- Deallocation (`file_free`, `link_free`, `dir_free`). -/
def heap_free {α : Type} (mem : List (Option α)) (p : Nat) : List (Option α) :=
  mem.set p none

/-- Allocation: the new object lives at the next unused address. -/
def heap_alloc {α : Type} (mem : List (Option α)) (x : α) : List (Option α) × Nat :=
  (mem ++ [some x], mem.length)

/-- The `tommy_hashdyn_search`: the first element of the table whose key,
read through the pointer, compares equal. -/
def tommy_hashdyn_search {α κ : Type} [DecidableEq κ] (mem : List (Option α)) (key : α → κ)
    (set : List Nat) (k : κ) : Option Nat :=
  set.find? (fun p => match mem[p]? with
    | some (some x) => decide (key x = k)
    | _ => false)

/-- The `tommy_array_get`: reading outside the array is undefined. -/
def tommy_array_get (arr : List (Option BlockPtr)) (pos : Nat) : Except Fatal (Option BlockPtr) :=
  match arr[pos]? with
  | some v => .ok v
  | none => .error .memory_error

/-- The `tommy_array_set`: writing outside the array is undefined. -/
def tommy_array_set (arr : List (Option BlockPtr)) (pos : Nat) (v : Option BlockPtr) :
    Except Fatal (List (Option BlockPtr)) :=
  if pos < arr.length then .ok (arr.set pos v) else .error .memory_error

/-- The `tommy_array_grow`: extends the array to `size` slots, the new ones being `BLOCK_EMPTY`. -/
def tommy_array_grow (arr : List (Option BlockPtr)) (size : Nat) : List (Option BlockPtr) :=
  arr ++ List.replicate (size - arr.length) none

/-- The block a block pointer points to. -/
def block_get (disk : snapraid_disk) : BlockPtr → Except Fatal snapraid_block
  | .file file i => do
    let f ← heap_get disk.filemem file
    match f.blockvec[i]? with
    | some b => pure b
    | none => throw .memory_error
  | .deleted d =>
    match disk.deletedlist[d]? with
    | some x => pure x.block
    | none => throw .memory_error

/-- The `block_state_get` of elem.h. -/
def block_state_get (block : snapraid_block) : BlockState := block.state

/-- Modelled from the spec: `block_has_file` of elem.h ("the slot is live"): the
pointer is not `BLOCK_EMPTY` and the block it points to is not in the DELETED state. -/
def block_has_file (disk : snapraid_disk) : Option BlockPtr → Except Fatal Bool
  | none => pure false
  | some p => do
    let b ← block_get disk p
    pure (decide (block_state_get b ≠ BlockState.DELETED))

/-- Modelled from the spec: `deleted_dup` of elem.c: a tombstone owning a copy of
the block, in the DELETED state, with the same parity position and hash. -/
def deleted_dup (block : snapraid_block) : snapraid_deleted :=
  { block := { parity_pos := block.parity_pos, state := BlockState.DELETED, hash := block.hash } }

/-- Modelled from the spec: `file_alloc` of elem.c: a file whose block vector has
`ceil(size / block_size)` blocks, none of them allocated in the parity yet. -/
def file_alloc (block_size : Nat) (sub : String) (size : Nat) (mtime_sec mtime_nsec : Int)
    (inode : Nat) : snapraid_file :=
  { sub := sub, size := size, mtime_sec := mtime_sec, mtime_nsec := mtime_nsec, inode := inode,
    present := false,
    blockvec := List.replicate ((size + block_size - 1) / block_size)
      { parity_pos := POS_INVALID, state := BlockState.NEW, hash := List.replicate HASH_SIZE 0 } }

/-- Modelled from the spec: `link_alloc` of elem.c. -/
def link_alloc (sub linkto : String) (link_flag : LinkKind) : snapraid_link :=
  { sub := sub, linkto := linkto, kind := link_flag, present := false }

/-- Modelled from the spec: `dir_alloc` of elem.c. -/
def dir_alloc (sub : String) : snapraid_dir :=
  { sub := sub, present := false }

/-! ## scan.c: links -/

/-- The `scan_link_remove` (scan.c:45). -/
def scan_link_remove (m : Mem) (link : Nat) : Mem :=
  { m with
    state := { m.state with need_write := true }
    disk := { m.disk with
      linkset := m.disk.linkset.erase link
      linklist := m.disk.linklist.erase link
      linkmem := heap_free m.disk.linkmem link } }

/-- The `scan_link_insert` (scan.c:61). -/
def scan_link_insert (m : Mem) (link : Nat) : Mem :=
  { m with
    state := { m.state with need_write := true }
    disk := { m.disk with
      linkset := m.disk.linkset ++ [link]
      linklist := m.disk.linklist ++ [link] } }

/-- The `scan_link` (scan.c:74). -/
def scan_link (m : Mem) (sub linkto : String) (link_flag : LinkKind) : Except Fatal Mem :=
  match tommy_hashdyn_search m.disk.linkmem snapraid_link.sub m.disk.linkset sub with
  | some link => do
    let l ← heap_get m.disk.linkmem link
    if l.present then
      throw .link_inconsistency
    else
      let l := { l with present := true }
      if l.linkto = linkto ∧ link_flag = l.kind then
        pure { m with
          disk := { m.disk with linkmem := heap_set m.disk.linkmem link l }
          scan := { m.scan with count_equal := m.scan.count_equal + 1 } }
      else
        pure { m with
          disk := { m.disk with
            linkmem := heap_set m.disk.linkmem link { l with linkto := linkto, kind := link_flag } }
          scan := { m.scan with count_change := m.scan.count_change + 1 } }
  | none =>
    let scan := { m.scan with count_insert := m.scan.count_insert + 1 }
    let (linkmem, link) :=
      heap_alloc m.disk.linkmem { link_alloc sub linkto link_flag with present := true }
    pure { m with
      disk := { m.disk with linkmem := linkmem }
      scan := { scan with link_insert_list := scan.link_insert_list ++ [link] } }

/-! ## scan.c: files -/

/-- The body of the loop of `scan_file_remove` (scan.c:158-203) for one block. -/
def scan_file_remove_block (disk : snapraid_disk) (block : snapraid_block) :
    Except Fatal snapraid_disk := do
  let block_pos := block.parity_pos
  let disk :=
    if disk.first_free_block > block_pos then { disk with first_free_block := block_pos } else disk
  let block ← (match block_state_get block with
    | .BLK => pure block
    | .CHG => pure { block with hash := List.replicate HASH_SIZE 0 }
    | .NEW => pure { block with hash := List.replicate HASH_SIZE 0 }
    | _ => throw Fatal.block_state_inconsistency)
  let deleted := deleted_dup block
  let d := disk.deletedlist.length
  let disk := { disk with deletedlist := disk.deletedlist ++ [deleted] }
  let blockarr ← tommy_array_set disk.blockarr block_pos (some (.deleted d))
  pure { disk with blockarr := blockarr }

/-- The `scan_file_remove` (scan.c:150).  The blocks are visited in index
order; the zeroed hash written into the block of the file is visible only
through the tombstone, the file being freed at the end. -/
def scan_file_remove (m : Mem) (file : Nat) : Except Fatal Mem := do
  let f ← heap_get m.disk.filemem file
  let disk ← f.blockvec.foldlM scan_file_remove_block m.disk
  pure { m with
    state := { m.state with need_write := true }
    disk := { disk with
      inodeset := disk.inodeset.erase file
      pathset := disk.pathset.erase file
      filelist := disk.filelist.erase file
      filemem := heap_free disk.filemem file } }

/-- The loop `while (block_pos < block_max && block_has_file(...)) ++block_pos`
(scan.c:233).  The first argument bounds the number of iterations; the loop is
run with `block_max - block_pos`, which it cannot exceed. -/
def find_free_block (disk : snapraid_disk) (block_max : Nat) : Nat → Nat → Except Fatal Nat
  | 0, block_pos => pure block_pos
  | fuel + 1, block_pos =>
    if block_pos < block_max then do
      let p ← tommy_array_get disk.blockarr block_pos
      if (← block_has_file disk p) then
        find_free_block disk block_max fuel (block_pos + 1)
      else
        pure block_pos
    else
      pure block_pos

/-- The local variables of `scan_file_insert` together with the disk. -/
structure InsertLoop where
  disk : snapraid_disk
  block_pos : Nat
  block_max : Nat
  deriving DecidableEq, Repr

/-- The body of the loop of `scan_file_insert` (scan.c:229-260) for block `i`. -/
def scan_file_insert_block (file : Nat) (s : InsertLoop) (i : Nat) : Except Fatal InsertLoop := do
  let block_pos ← find_free_block s.disk s.block_max (s.block_max - s.block_pos) s.block_pos
  let block_max := if block_pos = s.block_max then s.block_max + 1 else s.block_max
  let disk :=
    if block_pos = s.block_max then
      { s.disk with blockarr := tommy_array_grow s.disk.blockarr (s.block_max + 1) }
    else
      s.disk
  let f ← heap_get disk.filemem file
  let b ← (match f.blockvec[i]? with
    | some b => pure b
    | none => throw Fatal.memory_error)
  let b := { b with parity_pos := block_pos }
  let block ← tommy_array_get disk.blockarr block_pos
  let b ← (match block with
    | none => pure { b with state := BlockState.NEW }
    | some p => do
      let old ← block_get disk p
      pure { b with state := BlockState.CHG, hash := old.hash })
  let disk := { disk with filemem := heap_set disk.filemem file { f with blockvec := f.blockvec.set i b } }
  let blockarr ← tommy_array_set disk.blockarr block_pos (some (.file file i))
  pure { disk := { disk with blockarr := blockarr }, block_pos := block_pos, block_max := block_max }

/-- The `scan_file_insert` (scan.c:217). -/
def scan_file_insert (m : Mem) (file : Nat) : Except Fatal Mem := do
  let f ← heap_get m.disk.filemem file
  let s ← (List.range f.blockmax).foldlM (scan_file_insert_block file)
    { disk := m.disk, block_pos := m.disk.first_free_block, block_max := m.disk.blockarr.length }
  let disk :=
    if f.blockmax ≠ 0 then { s.disk with first_free_block := s.block_pos + 1 } else s.disk
  pure { m with
    state := { m.state with need_write := true }
    disk := { disk with filelist := disk.filelist ++ [file] } }

/-- Lines 448-459 of `scan_file`: the new file is allocated, marked PRESENT,
entered in both hash tables and appended to the delayed insert list. -/
def scan_file_add (m : Mem) (sub : String) (st : Stat) : Mem :=
  let f := { file_alloc m.state.block_size sub st.st_size st.st_mtime st.st_nsec st.st_ino with
    present := true }
  let (filemem, file) := heap_alloc m.disk.filemem f
  { m with
    disk := { m.disk with
      filemem := filemem
      inodeset := m.disk.inodeset ++ [file]
      pathset := m.disk.pathset ++ [file] }
    scan := { m.scan with file_insert_list := m.scan.file_insert_list ++ [file] } }

/-- The lookup at the head of `scan_file` (scan.c:277-284): by path when
`find_by_name` is set, by inode otherwise. -/
def scan_file_lookup (m : Mem) (sub : String) (st : Stat) : Option Nat :=
  if m.state.find_by_name then
    tommy_hashdyn_search m.disk.filemem snapraid_file.sub m.disk.pathset sub
  else
    tommy_hashdyn_search m.disk.filemem snapraid_file.inode m.disk.inodeset st.st_ino

/-- The test of scan.c:300-304: size and modification time are those of the live file. -/
def file_unchanged (f : snapraid_file) (st : Stat) : Prop :=
  f.size = st.st_size ∧ f.mtime_sec = st.st_mtime ∧
    (f.mtime_nsec = st.st_nsec ∨ f.mtime_nsec = FILE_MTIME_NSEC_INVALID)

instance (f : snapraid_file) (st : Stat) : Decidable (file_unchanged f st) := by
  unfold file_unchanged; infer_instance

/-- The unchanged case of `scan_file` (scan.c:306-381) for the file `file`,
read as `f`: the file is marked PRESENT, an invalid nanosecond time is
replaced by the live one, and the file is classified moved (new path, or new
inode) or equal. -/
def scan_file_unchanged (m : Mem) (file : Nat) (f : snapraid_file) (sub : String) (st : Stat) :
    Except Fatal Mem :=
  let upgrade : Prop :=
    f.mtime_nsec = FILE_MTIME_NSEC_INVALID ∧ st.st_nsec ≠ FILE_MTIME_NSEC_INVALID
  let f := { f with
    present := true
    mtime_nsec := if upgrade then st.st_nsec else f.mtime_nsec }
  let state := { m.state with need_write := if upgrade then true else m.state.need_write }
  if f.sub ≠ sub then
    if f.inode ≠ st.st_ino then
      throw Fatal.inode_inconsistency
    else
      pure { state := { state with need_write := true }
             disk := { m.disk with
               pathset := m.disk.pathset.erase file ++ [file]
               filemem := heap_set m.disk.filemem file { f with sub := sub } }
             scan := { m.scan with count_moved := m.scan.count_moved + 1 } }
  else if f.inode ≠ st.st_ino then
    pure { state := { state with need_write := true }
           disk := { m.disk with
             inodeset := m.disk.inodeset.erase file ++ [file]
             filemem := heap_set m.disk.filemem file { f with inode := st.st_ino } }
           scan := { m.scan with count_moved := m.scan.count_moved + 1 } }
  else
    pure { state := state
           disk := { m.disk with filemem := heap_set m.disk.filemem file f }
           scan := { m.scan with count_equal := m.scan.count_equal + 1 } }

/-- The changed case of `scan_file` (scan.c:383-432, then 448-459) for the file
`file`, read as `f`: the zero size check, the classification as update or as
removal and addition, the removal of the file and the staging of the new one. -/
def scan_file_changed (m : Mem) (file : Nat) (f : snapraid_file) (sub : String) (st : Stat) :
    Except Fatal Mem :=
  if f.size ≠ 0 ∧ st.st_size = 0 ∧ f.sub = sub ∧ m.state.force_zero = false then
    throw Fatal.zero_size
  else do
    let scan :=
      if f.sub = sub then
        { m.scan with count_change := m.scan.count_change + 1 }
      else
        { m.scan with
          count_remove := m.scan.count_remove + 1
          count_insert := m.scan.count_insert + 1 }
    let m ← scan_file_remove { m with scan := scan } file
    pure (scan_file_add m sub st)

/-- The `scan_file` (scan.c:273). -/
def scan_file (m : Mem) (sub : String) (st : Stat) : Except Fatal Mem :=
  match scan_file_lookup m sub st with
  | some file => do
    let f ← heap_get m.disk.filemem file
    if f.present then
      if st.st_nlink > 1 then
        scan_link m sub f.sub LinkKind.FILE_IS_HARDLINK
      else
        throw Fatal.inode_present_inconsistency
    else if file_unchanged f st then
      scan_file_unchanged m file f sub st
    else
      scan_file_changed m file f sub st
  | none =>
    pure (scan_file_add { m with scan := { m.scan with count_insert := m.scan.count_insert + 1 } }
      sub st)

/-! ## scan.c: empty directories -/

/-- The `scan_emptydir_remove` (scan.c:465). -/
def scan_emptydir_remove (m : Mem) (dir : Nat) : Mem :=
  { m with
    state := { m.state with need_write := true }
    disk := { m.disk with
      dirset := m.disk.dirset.erase dir
      dirlist := m.disk.dirlist.erase dir
      dirmem := heap_free m.disk.dirmem dir } }

/-- The `scan_emptydir_insert` (scan.c:481). -/
def scan_emptydir_insert (m : Mem) (dir : Nat) : Mem :=
  { m with
    state := { m.state with need_write := true }
    disk := { m.disk with
      dirset := m.disk.dirset ++ [dir]
      dirlist := m.disk.dirlist ++ [dir] } }

/-- The `scan_emptydir` (scan.c:494). -/
def scan_emptydir (m : Mem) (sub : String) : Except Fatal Mem :=
  match tommy_hashdyn_search m.disk.dirmem snapraid_dir.sub m.disk.dirset sub with
  | some dir => do
    let d ← heap_get m.disk.dirmem dir
    if d.present then
      throw Fatal.dir_inconsistency
    else
      pure { m with
        disk := { m.disk with dirmem := heap_set m.disk.dirmem dir { d with present := true } }
        scan := { m.scan with count_equal := m.scan.count_equal + 1 } }
  | none =>
    let scan := { m.scan with count_insert := m.scan.count_insert + 1 }
    let (dirmem, dir) := heap_alloc m.disk.dirmem { dir_alloc sub with present := true }
    pure { m with
      disk := { m.disk with dirmem := dirmem }
      scan := { scan with dir_insert_list := scan.dir_insert_list ++ [dir] } }

/-! ## scan.c: the directory walker -/

mutual
/-- A node of the live file tree, as `lstat` and `opendir`/`readlink` report it. -/
inductive FsNode
  /-- A regular file with its `lstat` result. -/
  | reg (st : Stat)
  /-- A symbolic link with the result of `readlink`. -/
  | lnk (linkto : String)
  /-- A directory with the entries `readdir` returns, in order. -/
  | dir (entries : FsEntries)
  /-- A directory that `opendir` cannot open. -/
  | dir_noopen
  /-- A block or character device, fifo or socket. -/
  | special
  /-- An entry for which `lstat` fails. -/
  | nostat
/-- The entries of a directory in `readdir` order. -/
inductive FsEntries
  | nil
  | cons (name : String) (node : FsNode) (rest : FsEntries)
end

/-- The filter predicates and limits of the environment, none of which is
defined in scan.c.  A predicate is `true` when the C function returns non-zero
(the entry is excluded). -/
structure Filters where
  /-- The `filter_hidden(state->filter_hidden, dd)`, by entry name. -/
  filter_hidden : String → Bool
  /-- The `filter_content(&state->contentlist, path)`. -/
  filter_content : String → Bool
  /-- The `filter_path(&state->filterlist, disk->name, sub)`. -/
  filter_path : String → String → Bool
  /-- The `filter_dir(&state->filterlist, disk->name, sub)`. -/
  filter_dir : String → String → Bool
  /-- The constant `PATH_MAX`. -/
  path_max : Nat

/-- Modelled from the spec: `pathslash` of util.c, which is not part of the
sources: the path is terminated by a slash unless it is empty or already ends
with one. -/
def pathslash (p : String) : String :=
  if p.data = [] ∨ p.data.getLast? = some (Char.ofNat 47) then p else p ++ "/"

/-- The test of scan.c:589 for names the content file cannot hold. -/
def name_unsupported (name : String) : Prop :=
  name.data = [] ∨ Char.ofNat 10 ∈ name.data ∨ name.data.getLast? = some (Char.ofNat 13)

instance (name : String) : Decidable (name_unsupported name) := by
  unfold name_unsupported; infer_instance

/-- The loop `while (1)` of `scan_dir` (scan.c:561-693) over the entries still
to be read, with the current value of `processed`.  The recursive call of
`scan_dir` at scan.c:673 on a directory that opens is this loop on the entries
of that directory, started with `processed = 0`. -/
def scan_dir_loop (flt : Filters) (dir sub : String) :
    FsEntries → Mem → Bool → Except Fatal (Mem × Bool)
  | .nil, m, processed => pure (m, processed)
  | .cons name node rest, m, processed =>
    if name = "." ∨ name = ".." then
      scan_dir_loop flt dir sub rest m processed
    else
      let path_next := dir ++ name
      let sub_next := sub ++ name
      if name_unsupported name then
        throw Fatal.unsupported_name
      else if flt.filter_hidden name then
        scan_dir_loop flt dir sub rest m processed
      else if flt.filter_content path_next then
        scan_dir_loop flt dir sub rest m processed
      else
        match node with
        | .nostat => throw Fatal.stat_error
        | .reg st =>
          if flt.filter_path m.disk.name sub_next = false then do
            let m ← scan_file m sub_next st
            scan_dir_loop flt dir sub rest m true
          else
            scan_dir_loop flt dir sub rest m processed
        | .lnk linkto =>
          if flt.filter_path m.disk.name sub_next = false then
            if linkto.length ≥ flt.path_max then
              throw Fatal.readlink_too_long
            else do
              let m ← scan_link m sub_next linkto LinkKind.FILE_IS_SYMLINK
              scan_dir_loop flt dir sub rest m true
          else
            scan_dir_loop flt dir sub rest m processed
        | .dir entries =>
          if flt.filter_dir m.disk.name sub_next = false then do
            let r ← scan_dir_loop flt (pathslash path_next) (pathslash sub_next) entries m false
            let m ← (if r.2 = false then scan_emptydir r.1 sub_next else pure r.1)
            scan_dir_loop flt dir sub rest m true
          else
            scan_dir_loop flt dir sub rest m processed
        | .dir_noopen =>
          if flt.filter_dir m.disk.name sub_next = false then
            throw Fatal.opendir_error
          else
            scan_dir_loop flt dir sub rest m processed
        | .special => scan_dir_loop flt dir sub rest m processed

/-- The `scan_dir` (scan.c:549): `opendir`, then the loop over the entries. -/
def scan_dir (flt : Filters) (dir sub : String) : FsNode → Mem → Except Fatal (Mem × Bool)
  | .dir entries, m => scan_dir_loop flt dir sub entries m false
  | _, _ => throw Fatal.opendir_error

/-! ## scan.c: the driver -/

/-- The removal sweep over the file list (scan.c:732-754) for one file. -/
def sweep_file (m : Mem) (file : Nat) : Except Fatal Mem := do
  let f ← heap_get m.disk.filemem file
  if f.present = false then
    scan_file_remove { m with scan := { m.scan with count_remove := m.scan.count_remove + 1 } } file
  else
    pure m

/-- The removal sweep over the link list (scan.c:756-778) for one link. -/
def sweep_link (m : Mem) (link : Nat) : Except Fatal Mem := do
  let l ← heap_get m.disk.linkmem link
  if l.present = false then
    pure (scan_link_remove
      { m with scan := { m.scan with count_remove := m.scan.count_remove + 1 } } link)
  else
    pure m

/-- The removal sweep over the dir list (scan.c:780-802) for one dir. -/
def sweep_dir (m : Mem) (dir : Nat) : Except Fatal Mem := do
  let d ← heap_get m.disk.dirmem dir
  if d.present = false then
    pure (scan_emptydir_remove
      { m with scan := { m.scan with count_remove := m.scan.count_remove + 1 } } dir)
  else
    pure m

/-- The counters and lists of a new `struct snapraid_scan` (scan.c:716-724). -/
def scan_init : snapraid_scan :=
  { count_equal := 0, count_moved := 0, count_change := 0, count_remove := 0, count_insert := 0,
    file_insert_list := [], link_insert_list := [], dir_insert_list := [] }

/-- The body of the loop over the disks of `state_scan` (scan.c:711-840) for
one disk: the walk, the three removal sweeps, the three delayed insertions.
`fs` gives the live tree found at a directory path. -/
def scan_disk (flt : Filters) (fs : String → FsNode) (state : snapraid_state)
    (disk : snapraid_disk) : Except Fatal Mem := do
  let m : Mem := { state := state, disk := disk, scan := scan_init }
  let (m, _) ← scan_dir flt disk.dir "" (fs disk.dir) m
  let m ← m.disk.filelist.foldlM sweep_file m
  let m ← m.disk.linklist.foldlM sweep_link m
  let m ← m.disk.dirlist.foldlM sweep_dir m
  let m ← m.scan.file_insert_list.foldlM scan_file_insert m
  let m := m.scan.link_insert_list.foldl scan_link_insert m
  let m := m.scan.dir_insert_list.foldl scan_emptydir_insert m
  pure m

/-- The result of `state_scan`: the state, the disks and the per-disk scan records. -/
structure ScanResult where
  state : snapraid_state
  disklist : List snapraid_disk
  scanlist : List snapraid_scan
  deriving DecidableEq, Repr

/-- The loop over the disks of `state_scan` (scan.c:711-840). -/
def state_scan_disks (flt : Filters) (fs : String → FsNode) :
    List snapraid_disk → ScanResult → Except Fatal ScanResult
  | [], r => pure r
  | disk :: rest, r => do
    let m ← scan_disk flt fs r.state disk
    state_scan_disks flt fs rest
      { state := m.state, disklist := r.disklist ++ [m.disk], scanlist := r.scanlist ++ [m.scan] }

/-- The test of scan.c:849 on the counters of one disk. -/
def scan_is_empty (scan : snapraid_scan) : Bool :=
  decide (scan.count_equal = 0 ∧ scan.count_moved = 0 ∧ scan.count_remove ≠ 0)

/-- The `state_scan` (scan.c:703), up to the safety check on emptied disks;
what follows in the C function only prints. -/
def state_scan (flt : Filters) (fs : String → FsNode) (state : snapraid_state)
    (disklist : List snapraid_disk) : Except Fatal ScanResult := do
  let r ← state_scan_disks flt fs disklist { state := state, disklist := [], scanlist := [] }
  if r.state.force_empty = false then
    let has_empty := (List.zip r.disklist r.scanlist).any (fun x => scan_is_empty x.2)
    if has_empty then
      throw Fatal.empty_disk
    else
      pure r
  else
    pure r

/-! ## Predicates of the specification and example data -/

/-- The hash a tombstone receives from the block it replaces (scan.c:174-193):
the hash of the block in state BLK, zero bytes in the states CHG and NEW. -/
def tombstone_hash (block : snapraid_block) : List Nat :=
  if block.state = BlockState.BLK then block.hash else List.replicate HASH_SIZE 0

/-- The disk after the growth test of scan.c:237-240, when the search stopped at `pos`. -/
def insert_grow (s : InsertLoop) (pos : Nat) : snapraid_disk :=
  if pos = s.block_max then
    { s.disk with blockarr := tommy_array_grow s.disk.blockarr (s.block_max + 1) }
  else s.disk

/-- The block written at scan.c:243-256 into a slot that held `c`. -/
def insert_new_block (disk : snapraid_disk) (b : snapraid_block) (pos : Nat) :
    Option BlockPtr → Except Fatal snapraid_block
  | none => .ok { b with parity_pos := pos, state := BlockState.NEW }
  | some p => do
    let old ← block_get disk p
    pure { parity_pos := pos, state := BlockState.CHG, hash := old.hash }

/-- The disk with `file` appended to the file list. -/
def with_file (disk : snapraid_disk) (file : Nat) : snapraid_disk :=
  { disk with filelist := disk.filelist ++ [file] }

/-- Slot ownership of one slot: slot `s` holding `c` is EMPTY, or points to a
block of a file of the file list whose parity position is `s`, or points to the
block of a tombstone in state DELETED whose parity position is `s`. -/
def slot_owned (disk : snapraid_disk) (s : Nat) : Option BlockPtr → Prop
  | none => True
  | some (.file file i) =>
    file ∈ disk.filelist ∧ ∃ b, block_get disk (.file file i) = .ok b ∧ b.parity_pos = s
  | some (.deleted d) =>
    ∃ b, block_get disk (.deleted d) = .ok b ∧ b.state = BlockState.DELETED ∧ b.parity_pos = s

/-- Slot ownership of a disk: every slot of the block array is owned. -/
def slot_ownership (disk : snapraid_disk) : Prop :=
  ∀ s (h : s < disk.blockarr.length), slot_owned disk s disk.blockarr[s]

instance decExOk {ε α : Type} (x : Except ε α) (P : α → Prop) [DecidablePred P] :
    Decidable (∃ b, x = .ok b ∧ P b) :=
  match x with
  | .ok b =>
    if h : P b then isTrue ⟨b, rfl, h⟩
    else isFalse (by rintro ⟨b', hb, hp⟩; cases hb; exact h hp)
  | .error _ => isFalse (by rintro ⟨b', hb, _⟩; cases hb)

instance (disk : snapraid_disk) (s : Nat) (c : Option BlockPtr) :
    Decidable (slot_owned disk s c) := by
  cases c with
  | none => unfold slot_owned; infer_instance
  | some p => cases p <;> (unfold slot_owned; infer_instance)

instance (disk : snapraid_disk) : Decidable (slot_ownership disk) := by
  unfold slot_ownership; infer_instance

/-- A hash of `HASH_SIZE` bytes, all equal to `n`. -/
def ex_hash (n : Nat) : List Nat := List.replicate HASH_SIZE n

/-- Example state: inode lookup, no force option, blocks of 16 bytes. -/
def ex_state : snapraid_state :=
  { need_write := false, find_by_name := false, force_zero := false, force_empty := false,
    block_size := 16 }

/-- Example file of three blocks in the states BLK, CHG and NEW. -/
def ex_file_a : snapraid_file :=
  { sub := "a", size := 40, mtime_sec := 1000, mtime_nsec := 0, inode := 100, present := false,
    blockvec := [{ parity_pos := 0, state := BlockState.BLK, hash := ex_hash 7 },
                 { parity_pos := 2, state := BlockState.CHG, hash := ex_hash 8 },
                 { parity_pos := 3, state := BlockState.NEW, hash := ex_hash 9 }] }

/-- Example file of one block. -/
def ex_file_b : snapraid_file :=
  { sub := "b", size := 10, mtime_sec := 1000, mtime_nsec := 0, inode := 101, present := true,
    blockvec := [{ parity_pos := 1, state := BlockState.BLK, hash := ex_hash 5 }] }

/-- Example of a file just allocated by `scan_file`, of three blocks. -/
def ex_file_c : snapraid_file :=
  { file_alloc 16 "c" 40 2000 0 102 with present := true }

/-- Example disk: files `a` and `b` in the file list, `c` waiting for insertion. -/
def ex_disk : snapraid_disk :=
  { name := "d1", dir := "/mnt/d1/", first_free_block := 4,
    filemem := [some ex_file_a, some ex_file_b, some ex_file_c], linkmem := [], dirmem := [],
    filelist := [0, 1], pathset := [0, 1, 2], inodeset := [0, 1, 2],
    linklist := [], linkset := [], dirlist := [], dirset := [],
    deletedlist := [],
    blockarr := [some (.file 0 0), some (.file 1 0), some (.file 0 1), some (.file 0 2)] }

/-- Example memory around `ex_disk`. -/
def ex_mem : Mem :=
  { state := ex_state, disk := ex_disk, scan := { scan_init with file_insert_list := [2] } }

/-- The memory after `scan_file_remove ex_mem 0`. -/
def ex_mem_removed : Mem :=
  match scan_file_remove ex_mem 0 with
  | .ok m => m
  | .error _ => ex_mem

/-- The memory after `scan_file_insert ex_mem_removed 2`. -/
def ex_mem_inserted : Mem :=
  match scan_file_insert ex_mem_removed 2 with
  | .ok m => m
  | .error _ => ex_mem

/-- The fields of the disk and of the scan record that concern files. -/
def file_part_eq (m m' : Mem) : Prop :=
  m'.state = m.state ∧
  m'.disk.first_free_block = m.disk.first_free_block ∧
  m'.disk.filemem = m.disk.filemem ∧ m'.disk.filelist = m.disk.filelist ∧
  m'.disk.pathset = m.disk.pathset ∧ m'.disk.inodeset = m.disk.inodeset ∧
  m'.disk.deletedlist = m.disk.deletedlist ∧ m'.disk.blockarr = m.disk.blockarr ∧
  m'.scan.file_insert_list = m.scan.file_insert_list

/-- Validity of the file pointers during the scan of a disk: the pointers of the
file list are allocated addresses, and those of the delayed insert list are
allocated addresses, distinct, and not in the file list. -/
def file_ptrs_wf (m : Mem) : Prop :=
  (∀ p ∈ m.disk.filelist, p < m.disk.filemem.length) ∧
  (∀ p ∈ m.scan.file_insert_list, p < m.disk.filemem.length ∧ p ∉ m.disk.filelist) ∧
  m.scan.file_insert_list.Nodup

/-- The invariant of the scan of a disk behind slot ownership. -/
def scan_inv (m : Mem) : Prop := slot_ownership m.disk ∧ file_ptrs_wf m

/-- Example filters: nothing is excluded. -/
def ex_filters : Filters :=
  { filter_hidden := fun _ => false, filter_content := fun _ => false,
    filter_path := fun _ _ => false, filter_dir := fun _ _ => false, path_max := 4096 }

/-- Example live tree: file `b` unchanged, file `a` gone, new file `n` of 40 bytes. -/
def ex_tree : String → FsNode := fun _ =>
  .dir (.cons "." (.dir .nil) (.cons "b"
      (.reg { st_size := 10, st_mtime := 1000, st_nsec := 0, st_ino := 101, st_nlink := 1 })
    (.cons "n"
      (.reg { st_size := 40, st_mtime := 3000, st_nsec := 0, st_ino := 103, st_nlink := 1 })
    .nil)))

/-- Example catalog disk: files `a` (three blocks) and `b` (one block). -/
def ex_catalog : snapraid_disk :=
  { name := "d1", dir := "/mnt/d1/", first_free_block := 4,
    filemem := [some ex_file_a, some { ex_file_b with present := false }],
    linkmem := [], dirmem := [],
    filelist := [0, 1], pathset := [0, 1], inodeset := [0, 1],
    linklist := [], linkset := [], dirlist := [], dirset := [],
    deletedlist := [],
    blockarr := [some (.file 0 0), some (.file 1 0), some (.file 0 1), some (.file 0 2)] }

/-- The result of `state_scan` on the example catalog and tree. -/
def ex_scanned : ScanResult :=
  match state_scan ex_filters ex_tree ex_state [ex_catalog] with
  | .ok r => r
  | .error _ => { state := ex_state, disklist := [], scanlist := [] }

/-- The tombstone `scan_file_remove` leaves for `block`. -/
def tombstone_of (block : snapraid_block) : snapraid_deleted :=
  { block := { parity_pos := block.parity_pos, state := BlockState.DELETED,
               hash := tombstone_hash block } }

/-- Slot `t` of the disk points to the block of tombstone `del`. -/
def slot_has_tombstone (disk : snapraid_disk) (t : Nat) (del : snapraid_deleted) : Prop :=
  ∃ d, disk.blockarr[t]? = some (some (BlockPtr.deleted d)) ∧ disk.deletedlist[d]? = some del

/-- Hash inheritance of one block: `b'` is the block written by
`scan_file_insert` over the allocated block `b0`, `disk0` the disk before the
insertion.  If the slot assigned to the block held a tombstone, the block is in
state CHG with the hash of the tombstone; if the slot was EMPTY or lies beyond
the end of the old array, the block is in state NEW with its hash as allocated. -/
def inherits (disk0 : snapraid_disk) (b0 b' : snapraid_block) : Prop :=
  (∀ d, disk0.blockarr[b'.parity_pos]? = some (some (BlockPtr.deleted d)) →
    b'.state = BlockState.CHG ∧
    ∃ del, disk0.deletedlist[d]? = some del ∧ b'.hash = del.block.hash) ∧
  ((disk0.blockarr[b'.parity_pos]? = some none ∨ disk0.blockarr.length ≤ b'.parity_pos) →
    b'.state = BlockState.NEW ∧ b'.hash = b0.hash)

/-- The invariant of the loop of `scan_file_insert` after `k` iterations:
`disk0` and `f0` are the disk and the file before the loop, `s` the loop state
and `fk` the file as it is now. -/
structure InsertInv (file : Nat) (f0 : snapraid_file) (disk0 : snapraid_disk) (k : Nat)
    (s : InsertLoop) (fk : snapraid_file) : Prop where
  max_eq : s.block_max = s.disk.blockarr.length
  len_ge : disk0.blockarr.length ≤ s.disk.blockarr.length
  deleted_eq : s.disk.deletedlist = disk0.deletedlist
  file_eq : heap_get s.disk.filemem file = .ok fk
  len_eq : fk.blockvec.length = f0.blockvec.length
  rest_eq : ∀ i, k ≤ i → fk.blockvec[i]? = f0.blockvec[i]?
  start : k = 0 → s.block_pos = disk0.first_free_block
  last : ∀ i, i + 1 = k → ∃ b', fk.blockvec[i]? = some b' ∧ b'.parity_pos = s.block_pos
  other : ∀ t, (∀ i b', i < k → fk.blockvec[i]? = some b' → b'.parity_pos ≠ t) →
    s.disk.blockarr[t]? = disk0.blockarr[t]?
  done : ∀ i, i < k → ∃ b0 b', f0.blockvec[i]? = some b0 ∧ fk.blockvec[i]? = some b' ∧
    b'.parity_pos ≤ s.block_pos ∧ disk0.first_free_block ≤ b'.parity_pos ∧
    (b'.state = BlockState.NEW ∨ b'.state = BlockState.CHG) ∧
    s.disk.blockarr[b'.parity_pos]? = some (some (BlockPtr.file file i)) ∧
    inherits disk0 b0 b'
  mono : ∀ i j bi bj, i < j → j < k → fk.blockvec[i]? = some bi → fk.blockvec[j]? = some bj →
    bi.parity_pos < bj.parity_pos

/-- Example memory: the example catalog at the start of the scan of its disk. -/
def ex_scan_start : Mem := { state := ex_state, disk := ex_catalog, scan := scan_init }

/-- Example live entry: the size, time and inode of catalog file `a`. -/
def ex_stat_a : Stat :=
  { st_size := 40, st_mtime := 1000, st_nsec := 0, st_ino := 100, st_nlink := 1 }

/-- The way `scan_file` treats as unchanged the file `file` found by its
lookup: the call stops on the inode inconsistency of the unchanged case, or it
returns with the file still allocated and marked PRESENT, nothing staged for
insertion, and the counters of changes, removals and insertions as they were. -/
def treated_unchanged (m : Mem) (file : Nat) (r : Except Fatal Mem) : Prop :=
  r = .error Fatal.inode_inconsistency ∨
  ∃ m' f', r = .ok m' ∧ heap_get m'.disk.filemem file = .ok f' ∧ f'.present = true ∧
    m'.scan.file_insert_list = m.scan.file_insert_list ∧
    m'.scan.count_change = m.scan.count_change ∧
    m'.scan.count_remove = m.scan.count_remove ∧
    m'.scan.count_insert = m.scan.count_insert ∧
    m'.scan.count_equal + m'.scan.count_moved = m.scan.count_equal + m.scan.count_moved + 1

/-- The counters after the classification of a changed file (scan.c:401-426):
an update when the name is the same, a removal and an addition otherwise. -/
def changed_counters (scan : snapraid_scan) (f : snapraid_file) (sub : String) : snapraid_scan :=
  if f.sub = sub then
    { scan with count_change := scan.count_change + 1 }
  else
    { scan with count_remove := scan.count_remove + 1, count_insert := scan.count_insert + 1 }

/-- Example stored file of 100 bytes in one block of a disk with blocks of 128 bytes. -/
def ex_file_big : snapraid_file :=
  { sub := "a", size := 100, mtime_sec := 1000, mtime_nsec := 0, inode := 100, present := false,
    blockvec := [{ parity_pos := 0, state := BlockState.BLK, hash := ex_hash 7 }] }

/-- Example memory for the zero size check: the catalog holds `ex_file_big`. -/
def ex_mem_zero : Mem :=
  { state := { ex_state with block_size := 128 }
    disk := { ex_catalog with
      filemem := [some ex_file_big], filelist := [0], pathset := [0], inodeset := [0],
      first_free_block := 1, blockarr := [some (.file 0 0)] }
    scan := scan_init }

/-- Example live entry: the file of inode 100, now empty, with a new time. -/
def ex_stat_zero : Stat :=
  { st_size := 0, st_mtime := 2000, st_nsec := 0, st_ino := 100, st_nlink := 1 }

/-- The scan leaves every field of the state but `need_write` as it is. -/
def state_frame (s s' : snapraid_state) : Prop :=
  s'.find_by_name = s.find_by_name ∧ s'.force_zero = s.force_zero ∧
  s'.force_empty = s.force_empty ∧ s'.block_size = s.block_size

/-- Example catalog of five files of one block each. -/
def ex_catalog5 : snapraid_disk :=
  { name := "d1", dir := "/mnt/d1/", first_free_block := 5,
    filemem := (List.range 5).map (fun i => some
      { sub := String.mk [Char.ofNat (97 + i)], size := 10, mtime_sec := 1000, mtime_nsec := 0,
        inode := 100 + i, present := false,
        blockvec := [{ parity_pos := i, state := BlockState.BLK, hash := ex_hash i }] }),
    linkmem := [], dirmem := [],
    filelist := List.range 5, pathset := List.range 5, inodeset := List.range 5,
    linklist := [], linkset := [], dirlist := [], dirset := [],
    deletedlist := [],
    blockarr := (List.range 5).map (fun i => some (BlockPtr.file i 0)) }

/-- Example live tree: an empty directory. -/
def ex_tree_empty : String → FsNode := fun _ => .dir .nil

/-- The result of the loop over the disks on the catalog of five files and the empty tree. -/
def ex_loop5 : ScanResult :=
  match state_scan_disks ex_filters ex_tree_empty [ex_catalog5]
      { state := ex_state, disklist := [], scanlist := [] } with
  | Except.ok r => r
  | Except.error _ => { state := ex_state, disklist := [], scanlist := [] }

/-- Example catalog for the hardlink scenario: file `a` and the link `b` of kind
HARDLINK with target `a`. -/
def ex_catalog_hl : snapraid_disk :=
  { name := "d1", dir := "/mnt/d1/", first_free_block := 1,
    filemem := [some
      { sub := "a", size := 10, mtime_sec := 1000, mtime_nsec := 0, inode := 100,
        present := false,
        blockvec := [{ parity_pos := 0, state := BlockState.BLK, hash := ex_hash 7 }] }],
    linkmem := [some
      { sub := "b", linkto := "a", kind := LinkKind.FILE_IS_HARDLINK, present := false }],
    dirmem := [],
    filelist := [0], pathset := [0], inodeset := [0],
    linklist := [0], linkset := [0], dirlist := [], dirset := [],
    deletedlist := [],
    blockarr := [some (BlockPtr.file 0 0)] }

/-- Example live entry of the hardlink scenario: inode 100 with two names. -/
def ex_stat_hl : Stat :=
  { st_size := 10, st_mtime := 1000, st_nsec := 0, st_ino := 100, st_nlink := 2 }

/-- Example live tree of the hardlink scenario: `a` then `b`, the same inode. -/
def ex_tree_hl : String → FsNode := fun _ =>
  .dir (.cons "a" (.reg ex_stat_hl) (.cons "b" (.reg ex_stat_hl) .nil))

/-- The memory of the hardlink scenario after the walk has visited `a`. -/
def ex_mem_hl : Mem :=
  match scan_file { state := ex_state, disk := ex_catalog_hl, scan := scan_init } "a" ex_stat_hl
    with
  | .ok m => m
  | .error _ => { state := ex_state, disk := ex_catalog_hl, scan := scan_init }

/-- Slot `t` is live: it is inside the array and `block_has_file` holds of its content. -/
def slot_live (disk : snapraid_disk) (t : Nat) : Bool :=
  match disk.blockarr[t]? with
  | some c =>
    (match block_has_file disk c with
     | .ok true => true
     | _ => false)
  | none => false

/-- Slot `t` is occupied by a file block: it holds a pointer to a block of a file. -/
def slot_occupied (disk : snapraid_disk) (t : Nat) : Bool :=
  match disk.blockarr[t]? with
  | some (some (.file _ _)) => true
  | _ => false

/-- The slots occupied by file blocks, in increasing order. -/
def occupied_slots (disk : snapraid_disk) : List Nat :=
  (List.range disk.blockarr.length).filter (slot_occupied disk)

/-- The slots at or above `a` that are not live. -/
def nonlive (disk : snapraid_disk) (a : Nat) : Finset Nat :=
  (Finset.range disk.blockarr.length).filter (fun t => a ≤ t ∧ slot_live disk t = false)

/-- The invariant of the loop of `scan_file_insert` while it reuses free slots
inside the array: after `i` iterations `n` slots at or above the position of
the search are not live, every slot between `lo` and that position is live,
the array has kept its length `len0`, and the slots below `lo` are those of `A`. -/
structure ReuseInv (file lo len0 : Nat) (A : List (Option BlockPtr)) (i : Nat)
    (s : InsertLoop) (n : Nat) : Prop where
  own : slot_ownership (with_file s.disk file)
  idx : ∀ t j : Nat, s.disk.blockarr[t]? = some (some (BlockPtr.file file j)) → j < i
  max_eq : s.block_max = s.disk.blockarr.length
  len_eq : s.disk.blockarr.length = len0
  lo_le : lo ≤ s.block_pos
  below_live : ∀ t, lo ≤ t → t < s.block_pos → slot_live s.disk t = true
  low : ∀ t, t < lo → s.disk.blockarr[t]? = A[t]?
  card_eq : (nonlive s.disk s.block_pos).card = n
  at_live : 0 < i → slot_live s.disk s.block_pos = true

/-- The number of blocks of the file at `file` (0 when nothing is allocated there). -/
def file_blocks (disk : snapraid_disk) (file : Nat) : Nat :=
  match heap_get disk.filemem file with
  | .ok f => f.blockmax
  | .error _ => 0

/-- The total number of blocks of the files of a list. -/
def block_count (disk : snapraid_disk) (files : List Nat) : Nat :=
  (files.map (file_blocks disk)).sum

/-- Live-block ownership of one file: the file is allocated and every block `b`
of it satisfies `block_array[b.parity_pos] == b`. -/
def file_owns_blocks (disk : snapraid_disk) (file : Nat) : Prop :=
  match heap_get disk.filemem file with
  | .ok f => ∀ i (h : i < f.blockvec.length),
      disk.blockarr[(f.blockvec[i]).parity_pos]? = some (some (BlockPtr.file file i))
  | .error _ => False

instance (disk : snapraid_disk) (file : Nat) : Decidable (file_owns_blocks disk file) := by
  unfold file_owns_blocks
  split <;> infer_instance

/-- Example catalog with a hole: file `a` at slot 0, file `b` at slot 2, slot 1 EMPTY. -/
def ex_catalog_hole : snapraid_disk :=
  { name := "d1", dir := "/mnt/d1/", first_free_block := 1,
    filemem := [some
      { sub := "a", size := 10, mtime_sec := 1000, mtime_nsec := 0, inode := 100,
        present := false,
        blockvec := [{ parity_pos := 0, state := BlockState.BLK, hash := ex_hash 7 }] },
      some
      { sub := "b", size := 10, mtime_sec := 1000, mtime_nsec := 0, inode := 101,
        present := false,
        blockvec := [{ parity_pos := 2, state := BlockState.BLK, hash := ex_hash 5 }] }],
    linkmem := [], dirmem := [],
    filelist := [0, 1], pathset := [0, 1], inodeset := [0, 1],
    linklist := [], linkset := [], dirlist := [], dirset := [],
    deletedlist := [],
    blockarr := [some (BlockPtr.file 0 0), none, some (BlockPtr.file 1 0)] }

/-- Example live tree: `a` unchanged, `b` gone, a new file `c` of one block. -/
def ex_tree_hole : String → FsNode := fun _ =>
  .dir (.cons "a"
      (.reg { st_size := 10, st_mtime := 1000, st_nsec := 0, st_ino := 100, st_nlink := 1 })
    (.cons "c"
      (.reg { st_size := 10, st_mtime := 3000, st_nsec := 0, st_ino := 102, st_nlink := 1 })
    .nil))

/-- A call the walk of a directory tree makes, or the failure that ends it. -/
inductive Event
  /-- The call `scan_file(sub, st)` for a regular file. -/
  | file (sub : String) (st : Stat)
  /-- The call `scan_link(sub, linkto, FILE_IS_SYMLINK)` for a symbolic link. -/
  | link (sub linkto : String)
  /-- The call `scan_emptydir(sub)` for a directory in which nothing was processed. -/
  | emptydir (sub : String)
  /-- An `exit(EXIT_FAILURE)` of the walker itself. -/
  | fail (e : Fatal)
  deriving DecidableEq, Repr

/-- The calls the loop of `scan_dir` makes on the entries of a directory, in
order, with the final value of `processed`.  They depend on the tree, the
filters and the name of the disk only. -/
def scan_events (flt : Filters) (disk_name : String) (dir sub : String) :
    FsEntries → Bool → List Event × Bool
  | .nil, processed => ([], processed)
  | .cons name node rest, processed =>
    if name = "." ∨ name = ".." then
      scan_events flt disk_name dir sub rest processed
    else if name_unsupported name then
      ([Event.fail Fatal.unsupported_name], processed)
    else if flt.filter_hidden name then
      scan_events flt disk_name dir sub rest processed
    else if flt.filter_content (dir ++ name) then
      scan_events flt disk_name dir sub rest processed
    else
      match node with
      | .nostat => ([Event.fail Fatal.stat_error], processed)
      | .reg st =>
        if flt.filter_path disk_name (sub ++ name) = false then
          let r := scan_events flt disk_name dir sub rest true
          (Event.file (sub ++ name) st :: r.1, r.2)
        else
          scan_events flt disk_name dir sub rest processed
      | .lnk linkto =>
        if flt.filter_path disk_name (sub ++ name) = false then
          if linkto.length ≥ flt.path_max then
            ([Event.fail Fatal.readlink_too_long], processed)
          else
            let r := scan_events flt disk_name dir sub rest true
            (Event.link (sub ++ name) linkto :: r.1, r.2)
        else
          scan_events flt disk_name dir sub rest processed
      | .dir entries =>
        if flt.filter_dir disk_name (sub ++ name) = false then
          let r1 := scan_events flt disk_name (pathslash (dir ++ name)) (pathslash (sub ++ name))
            entries false
          let r2 := scan_events flt disk_name dir sub rest true
          (r1.1 ++ (if r1.2 = false then [Event.emptydir (sub ++ name)] else []) ++ r2.1, r2.2)
        else
          scan_events flt disk_name dir sub rest processed
      | .dir_noopen =>
        if flt.filter_dir disk_name (sub ++ name) = false then
          ([Event.fail Fatal.opendir_error], processed)
        else
          scan_events flt disk_name dir sub rest processed
      | .special => scan_events flt disk_name dir sub rest processed

/-- The effect of one call of the walk on the memory. -/
def scan_event (m : Mem) : Event → Except Fatal Mem
  | .file sub st => scan_file m sub st
  | .link sub linkto => scan_link m sub linkto LinkKind.FILE_IS_SYMLINK
  | .emptydir sub => scan_emptydir m sub
  | .fail e => .error e

/-- The calls of the walk of the tree of a disk. -/
def disk_events (flt : Filters) (fs : String → FsNode) (disk : snapraid_disk) : List Event :=
  match fs disk.dir with
  | .dir entries => (scan_events flt disk.name disk.dir "" entries false).1
  | _ => [Event.fail Fatal.opendir_error]

/-- The key of the lookup of `scan_file`: a sub-path or an inode. -/
inductive Key
  | path (s : String)
  | inode (n : Nat)
  deriving DecidableEq, Repr

/-- The key of a file of the catalog, by path when `b` (`find_by_name`) is set. -/
def file_key (b : Bool) (f : snapraid_file) : Key :=
  if b then Key.path f.sub else Key.inode f.inode

/-- The key searched for a live entry. -/
def stat_key (b : Bool) (sub : String) (st : Stat) : Key :=
  if b then Key.path sub else Key.inode st.st_ino

/-- The table the lookup of `scan_file` searches. -/
def lookup_set (b : Bool) (d : snapraid_disk) : List Nat :=
  if b then d.pathset else d.inodeset

/-- The catalog file has the path, size, time and inode of the live entry. -/
def file_matches (f : snapraid_file) (sub : String) (st : Stat) : Prop :=
  f.sub = sub ∧ f.size = st.st_size ∧ f.mtime_sec = st.st_mtime ∧ f.mtime_nsec = st.st_nsec ∧
    f.inode = st.st_ino

/-- The call is a `scan_file` with key `k`. -/
def event_first (b : Bool) (k : Key) : Event → Option (String × Stat)
  | .file sub st => if stat_key b sub st = k then some (sub, st) else none
  | .link _ _ => none
  | .emptydir _ => none
  | .fail _ => none

/-- The first call of `scan_file` with key `k` in a history of calls, newest first. -/
def first_file (b : Bool) (k : Key) : List Event → Option (String × Stat)
  | [] => none
  | e :: H => (first_file b k H).or (event_first b k e)

/-- The calls of `scan_link` of a history of calls, newest first: those of
the symbolic links, and those for the regular files whose key was seen before
(hardlinks to the path of the first file with that key). -/
def link_calls (b : Bool) : List Event → List (String × String × LinkKind)
  | [] => []
  | .file sub st :: H =>
    match first_file b (stat_key b sub st) H with
    | some x => (sub, x.1, LinkKind.FILE_IS_HARDLINK) :: link_calls b H
    | none => link_calls b H
  | .link sub linkto :: H => (sub, linkto, LinkKind.FILE_IS_SYMLINK) :: link_calls b H
  | .emptydir _ :: H => link_calls b H
  | .fail _ :: H => link_calls b H

/-- The sub-paths of the calls of `scan_emptydir` of a history. -/
def dir_calls : List Event → List String
  | [] => []
  | .emptydir sub :: H => sub :: dir_calls H
  | .file _ _ :: H => dir_calls H
  | .link _ _ :: H => dir_calls H
  | .fail _ :: H => dir_calls H

/-- The sub-paths of the calls of a history. -/
def event_subs : List Event → List String
  | [] => []
  | .file sub _ :: H => sub :: event_subs H
  | .link sub _ :: H => sub :: event_subs H
  | .emptydir sub :: H => sub :: event_subs H
  | .fail _ :: H => event_subs H

/-- Every regular file whose key was seen before has more than one link. -/
def nlink_ok (b : Bool) : List Event → Prop
  | [] => True
  | .file sub st :: H => (first_file b (stat_key b sub st) H ≠ none → st.st_nlink > 1) ∧ nlink_ok b H
  | .link _ _ :: H => nlink_ok b H
  | .emptydir _ :: H => nlink_ok b H
  | .fail _ :: H => nlink_ok b H

/-- No two allocated files of the lookup table have the same key. -/
def keys_unique (b : Bool) (d : snapraid_disk) : Prop :=
  ∀ p ∈ lookup_set b d, ∀ q ∈ lookup_set b d, ∀ f g,
    heap_get d.filemem p = .ok f → heap_get d.filemem q = .ok g →
    file_key b f = file_key b g → p = q

/-- No two allocated links of the list `set` have the same sub-path. -/
def link_names_unique (mem : List (Option snapraid_link)) (set : List Nat) : Prop :=
  ∀ p ∈ set, ∀ q ∈ set, ∀ x y, heap_get mem p = .ok x → heap_get mem q = .ok y →
    x.sub = y.sub → p = q

/-- No two allocated dirs of the list `set` have the same sub-path. -/
def dir_names_unique (mem : List (Option snapraid_dir)) (set : List Nat) : Prop :=
  ∀ p ∈ set, ∀ q ∈ set, ∀ x y, heap_get mem p = .ok x → heap_get mem q = .ok y →
    x.sub = y.sub → p = q

/-- The files of the catalog during the walk, after the calls `H`: the keys of
the lookup table are unique; the first call with a key has left a PRESENT file
with the data of the live entry; and every PRESENT file is in the lookup table
with the data of the first call with its key. -/
structure FileInv (b : Bool) (m : Mem) (H : List Event) : Prop where
  uniq : keys_unique b m.disk
  mark : ∀ k sub st, first_file b k H = some (sub, st) →
    ∃ g f, g ∈ lookup_set b m.disk ∧ heap_get m.disk.filemem g = .ok f ∧ f.present = true ∧
      file_matches f sub st
  cover : ∀ g f, heap_get m.disk.filemem g = .ok f → f.present = true →
    g ∈ lookup_set b m.disk ∧
      ∃ sub st, first_file b (file_key b f) H = some (sub, st) ∧ file_matches f sub st
  staged : ∀ g ∈ m.scan.file_insert_list, ∃ f, heap_get m.disk.filemem g = .ok f ∧ f.present = true
  nlink : nlink_ok b H

/-- The links of the catalog during the walk, after the calls `C` of
`scan_link`: the names of the links of the table and of the delayed list are
unique; every call has left a PRESENT link with its data; and every PRESENT
link is in the table or in the delayed list, with the data of a call. -/
structure LinkInv (m : Mem) (C : List (String × String × LinkKind)) : Prop where
  uniq : link_names_unique m.disk.linkmem (m.disk.linkset ++ m.scan.link_insert_list)
  mark : ∀ c ∈ C, ∃ l ll, l ∈ m.disk.linkset ++ m.scan.link_insert_list ∧
    heap_get m.disk.linkmem l = .ok ll ∧ ll.present = true ∧
    ll.sub = c.1 ∧ ll.linkto = c.2.1 ∧ ll.kind = c.2.2
  cover : ∀ l ll, heap_get m.disk.linkmem l = .ok ll → ll.present = true →
    l ∈ m.disk.linkset ++ m.scan.link_insert_list ∧ (ll.sub, ll.linkto, ll.kind) ∈ C
  staged : ∀ l ∈ m.scan.link_insert_list,
    ∃ ll, heap_get m.disk.linkmem l = .ok ll ∧ ll.present = true

/-- The dirs of the catalog during the walk, after the calls `C` of `scan_emptydir`. -/
structure DirInv (m : Mem) (C : List String) : Prop where
  uniq : dir_names_unique m.disk.dirmem (m.disk.dirset ++ m.scan.dir_insert_list)
  mark : ∀ c ∈ C, ∃ d dd, d ∈ m.disk.dirset ++ m.scan.dir_insert_list ∧
    heap_get m.disk.dirmem d = .ok dd ∧ dd.present = true ∧ dd.sub = c
  cover : ∀ d dd, heap_get m.disk.dirmem d = .ok dd → dd.present = true →
    d ∈ m.disk.dirset ++ m.scan.dir_insert_list ∧ dd.sub ∈ C
  staged : ∀ d ∈ m.scan.dir_insert_list,
    ∃ dd, heap_get m.disk.dirmem d = .ok dd ∧ dd.present = true

/-- The link part of the memory is unchanged. -/
def link_part_eq (m m' : Mem) : Prop :=
  m'.disk.linkmem = m.disk.linkmem ∧ m'.disk.linkset = m.disk.linkset ∧
  m'.disk.linklist = m.disk.linklist ∧ m'.scan.link_insert_list = m.scan.link_insert_list

/-- The dir part of the memory is unchanged. -/
def dir_part_eq (m m' : Mem) : Prop :=
  m'.disk.dirmem = m.disk.dirmem ∧ m'.disk.dirset = m.disk.dirset ∧
  m'.disk.dirlist = m.disk.dirlist ∧ m'.scan.dir_insert_list = m.scan.dir_insert_list

/-! ### The object memory -/

/-- The catalog of a disk during the walk, after the calls `H` (newest first). -/
structure WalkInv (b : Bool) (m : Mem) (H : List Event) : Prop where
  mode : m.state.find_by_name = b
  files : FileInv b m H
  links : LinkInv m (link_calls b H)
  dirs : DirInv m (dir_calls H)

/-- The file part of the catalog is unchanged. -/
def file_cat_eq (m m' : Mem) : Prop :=
  m'.disk.filemem = m.disk.filemem ∧ m'.disk.pathset = m.disk.pathset ∧
  m'.disk.inodeset = m.disk.inodeset ∧ m'.disk.filelist = m.disk.filelist ∧
  m'.scan.file_insert_list = m.scan.file_insert_list

/-- The file without its blocks: path, size, times, inode and PRESENT flag. -/
def file_core (f : snapraid_file) : snapraid_file := { f with blockvec := [] }

/-- Two file memories hold the same files up to their blocks. -/
def core_eq (mem mem' : List (Option snapraid_file)) : Prop :=
  mem'.map (Option.map file_core) = mem.map (Option.map file_core)

/-- The catalog of the disk `d'` is that of `d` up to the blocks of the files. -/
structure DiskCat (d d' : snapraid_disk) : Prop where
  filemem : core_eq d.filemem d'.filemem
  pathset : d'.pathset = d.pathset
  inodeset : d'.inodeset = d.inodeset
  filelist : d'.filelist = d.filelist
  linkmem : d'.linkmem = d.linkmem
  linkset : d'.linkset = d.linkset
  linklist : d'.linklist = d.linklist
  dirmem : d'.dirmem = d.dirmem
  dirset : d'.dirset = d.dirset
  dirlist : d'.dirlist = d.dirlist
  name : d'.name = d.name
  dir : d'.dir = d.dir

/-- The catalog `d` agrees with a history `H` of calls of the walk: the first
call with each key has a file with the data of the live entry, the calls of
`scan_link` and `scan_emptydir` have their link and dir, the keys and names of
the tables are unique, and every element of the three lists is in its table
and answers a call. -/
structure Settled (b : Bool) (d : snapraid_disk) (H : List Event) : Prop where
  funiq : keys_unique b d
  fmark : ∀ k sub st, first_file b k H = some (sub, st) →
    ∃ g f, g ∈ lookup_set b d ∧ heap_get d.filemem g = .ok f ∧ file_matches f sub st
  fcover : ∀ g ∈ d.filelist, ∃ f, heap_get d.filemem g = .ok f ∧ g ∈ lookup_set b d ∧
    first_file b (file_key b f) H ≠ none
  nlink : nlink_ok b H
  luniq : link_names_unique d.linkmem d.linkset
  lmark : ∀ c ∈ link_calls b H, ∃ l ll, l ∈ d.linkset ∧ heap_get d.linkmem l = .ok ll ∧
    ll.sub = c.1 ∧ ll.linkto = c.2.1 ∧ ll.kind = c.2.2
  lcover : ∀ l ∈ d.linklist, ∃ ll, heap_get d.linkmem l = .ok ll ∧ l ∈ d.linkset ∧
    ll.sub ∈ (link_calls b H).map (fun c => c.1)
  duniq : dir_names_unique d.dirmem d.dirset
  dmark : ∀ c ∈ dir_calls H, ∃ x dd, x ∈ d.dirset ∧ heap_get d.dirmem x = .ok dd ∧ dd.sub = c
  dcover : ∀ x ∈ d.dirlist, ∃ dd, heap_get d.dirmem x = .ok dd ∧ x ∈ d.dirset ∧
    dd.sub ∈ dir_calls H

/-- No object of the catalog has the PRESENT flag. -/
def no_present (d : snapraid_disk) : Prop :=
  (∀ x ∈ d.filemem, x.map snapraid_file.present ≠ some true) ∧
  (∀ x ∈ d.linkmem, x.map snapraid_link.present ≠ some true) ∧
  (∀ x ∈ d.dirmem, x.map snapraid_dir.present ≠ some true)

/-- The keys of the allocated files of the lookup table, in table order. -/
def file_keys (b : Bool) (d : snapraid_disk) : List Key :=
  (lookup_set b d).filterMap (fun p =>
    match heap_get d.filemem p with
    | .ok f => some (file_key b f)
    | .error _ => none)

/-- The sub-paths of the allocated links of the link table, in table order. -/
def link_names (d : snapraid_disk) : List String :=
  d.linkset.filterMap (fun p =>
    match heap_get d.linkmem p with
    | .ok l => some l.sub
    | .error _ => none)

/-- The sub-paths of the allocated dirs of the dir table, in table order. -/
def dir_names (d : snapraid_disk) : List String :=
  d.dirset.filterMap (fun p =>
    match heap_get d.dirmem p with
    | .ok l => some l.sub
    | .error _ => none)

/-- A catalog as it is loaded: no PRESENT flag, and no two entries of the file
lookup table, of the link table or of the dir table with the same key. -/
def catalog_wf (b : Bool) (d : snapraid_disk) : Prop :=
  no_present d ∧ (file_keys b d).Nodup ∧ (link_names d).Nodup ∧ (dir_names d).Nodup

instance (b : Bool) (d : snapraid_disk) : Decidable (catalog_wf b d) := by
  unfold catalog_wf no_present; infer_instance

/-- The file with its PRESENT flag cleared. -/
def file_clear (f : snapraid_file) : snapraid_file := { f with present := false }

/-- The link with its PRESENT flag cleared. -/
def link_clear (l : snapraid_link) : snapraid_link := { l with present := false }

/-- The dir with its PRESENT flag cleared. -/
def dir_clear (d : snapraid_dir) : snapraid_dir := { d with present := false }

/-- The disk with the PRESENT flag of every file, link and dir cleared, as
after the catalog is written and read again (the flag is not stored). -/
def clear_present (disk : snapraid_disk) : snapraid_disk :=
  { disk with
    filemem := disk.filemem.map (Option.map file_clear)
    linkmem := disk.linkmem.map (Option.map link_clear)
    dirmem := disk.dirmem.map (Option.map dir_clear) }

/-- The memory of a second scan after the calls `H` (newest first), on a
catalog `D` left by a first scan: the disk is `D` up to the PRESENT flags; the
PRESENT objects of the tables are those the calls of `H` looked up; nothing
was counted moved, changed, removed or inserted, and nothing waits for
insertion. -/
structure Replay (b : Bool) (D : snapraid_disk) (s : snapraid_state) (m : Mem)
    (H : List Event) : Prop where
  state : m.state = s
  disk : clear_present m.disk = clear_present D
  fflag : ∀ g ∈ lookup_set b D, ∀ f, heap_get m.disk.filemem g = .ok f →
    (f.present = true ↔ first_file b (file_key b f) H ≠ none)
  lflag : ∀ l ∈ D.linkset, ∀ ll, heap_get m.disk.linkmem l = .ok ll →
    (ll.present = true ↔ ll.sub ∈ (link_calls b H).map (fun c => c.1))
  dflag : ∀ x ∈ D.dirset, ∀ dd, heap_get m.disk.dirmem x = .ok dd →
    (dd.present = true ↔ dd.sub ∈ dir_calls H)
  moved : m.scan.count_moved = 0
  change : m.scan.count_change = 0
  remove : m.scan.count_remove = 0
  insert : m.scan.count_insert = 0
  flist : m.scan.file_insert_list = []
  llist : m.scan.link_insert_list = []
  dlist : m.scan.dir_insert_list = []

/-- The counters of a scan that found nothing moved, changed, removed or inserted. -/
def scan_quiet (sc : snapraid_scan) : Prop :=
  sc.count_moved = 0 ∧ sc.count_change = 0 ∧ sc.count_remove = 0 ∧ sc.count_insert = 0

instance (sc : snapraid_scan) : Decidable (scan_quiet sc) := by
  unfold scan_quiet; infer_instance

/-- Example live tree: file `b` unchanged with a second link `h`, file `a`
gone, a symbolic link `s`, an empty directory `e`, and a directory `d` with a
new file `x` of 40 bytes. -/
def ex_tree_links : String → FsNode := fun _ =>
  .dir (.cons "b"
      (.reg { st_size := 10, st_mtime := 1000, st_nsec := 0, st_ino := 101, st_nlink := 2 })
    (.cons "h"
      (.reg { st_size := 10, st_mtime := 1000, st_nsec := 0, st_ino := 101, st_nlink := 2 })
    (.cons "s" (.lnk "b")
    (.cons "e" (.dir .nil)
    (.cons "d" (.dir (.cons "x"
      (.reg { st_size := 40, st_mtime := 3000, st_nsec := 0, st_ino := 103, st_nlink := 1 })
      .nil))
    .nil)))))

/-- The result of `state_scan` on the example catalog and the tree with links. -/
def ex_scanned_links : ScanResult :=
  match state_scan ex_filters ex_tree_links ex_state [ex_catalog] with
  | .ok r => r
  | .error _ => { state := ex_state, disklist := [], scanlist := [] }

/-- The example catalog after the scan of `ex_tree`: `a` removed, `b` kept and
`n` inserted, both with the PRESENT flag the scan has set. -/
def ex_catalog_after : snapraid_disk :=
  { name := "d1", dir := "/mnt/d1/", first_free_block := 4,
    filemem := [none,
      some { sub := "b", size := 10, mtime_sec := 1000, mtime_nsec := 0, inode := 101,
             present := true,
             blockvec := [{ parity_pos := 1, state := BlockState.BLK, hash := ex_hash 5 }] },
      some { sub := "n", size := 40, mtime_sec := 3000, mtime_nsec := 0, inode := 103,
             present := true,
             blockvec := [{ parity_pos := 0, state := BlockState.CHG, hash := ex_hash 7 },
                          { parity_pos := 2, state := BlockState.CHG, hash := ex_hash 0 },
                          { parity_pos := 3, state := BlockState.CHG, hash := ex_hash 0 }] }],
    linkmem := [], dirmem := [],
    filelist := [1, 2], pathset := [1, 2], inodeset := [1, 2],
    linklist := [], linkset := [], dirlist := [], dirset := [],
    deletedlist := [{ block := { parity_pos := 0, state := BlockState.DELETED, hash := ex_hash 7 } },
                    { block := { parity_pos := 2, state := BlockState.DELETED, hash := ex_hash 0 } },
                    { block := { parity_pos := 3, state := BlockState.DELETED, hash := ex_hash 0 } }],
    blockarr := [some (BlockPtr.file 2 0), some (BlockPtr.file 1 0), some (BlockPtr.file 2 1),
                 some (BlockPtr.file 2 2)] }

/-- Scenario 4, the catalog: the file `a` of 10 bytes, time (1000, 0), inode
100, with one block at slot 0 in state BLK with the hash `H`. -/
def ex4_catalog (H : List Nat) : snapraid_disk :=
  { name := "d1", dir := "/mnt/d1/", first_free_block := 1,
    filemem := [some { sub := "a", size := 10, mtime_sec := 1000, mtime_nsec := 0, inode := 100,
                       present := false,
                       blockvec := [{ parity_pos := 0, state := BlockState.BLK, hash := H }] }],
    linkmem := [], dirmem := [],
    filelist := [0], pathset := [0], inodeset := [0],
    linklist := [], linkset := [], dirlist := [], dirset := [],
    deletedlist := [],
    blockarr := [some (BlockPtr.file 0 0)] }

/-- Scenario 4, the live tree: `a` is gone, `c` has 10 bytes, time (2000, 0), inode 101. -/
def ex4_tree : String → FsNode := fun _ =>
  .dir (.cons "c"
    (.reg { st_size := 10, st_mtime := 2000, st_nsec := 0, st_ino := 101, st_nlink := 1 }) .nil)

/-- The example state with `force_empty` set. -/
def ex_state_force : snapraid_state := { ex_state with force_empty := true }

/-- Scenario 4, the memory of the scan of the disk after the walk and the
removal sweep, before the delayed insertion. -/
def ex4_swept (H : List Nat) : Mem :=
  { state := { ex_state_force with need_write := true },
    disk :=
      { name := "d1", dir := "/mnt/d1/", first_free_block := 0,
        filemem := [none,
          some { file_alloc 16 "c" 10 2000 0 101 with present := true }],
        linkmem := [], dirmem := [],
        filelist := [], pathset := [1], inodeset := [1],
        linklist := [], linkset := [], dirlist := [], dirset := [],
        deletedlist := [{ block := { parity_pos := 0, state := BlockState.DELETED, hash := H } }],
        blockarr := [some (BlockPtr.deleted 0)] },
    scan := { count_equal := 0, count_moved := 0, count_change := 0, count_remove := 1,
              count_insert := 1, file_insert_list := [1], link_insert_list := [],
              dir_insert_list := [] } }

/-- Scenario 4, the disk at the end of the scan. -/
def ex4_final (H : List Nat) : snapraid_disk :=
  { name := "d1", dir := "/mnt/d1/", first_free_block := 1,
    filemem := [none,
      some { sub := "c", size := 10, mtime_sec := 2000, mtime_nsec := 0, inode := 101,
             present := true,
             blockvec := [{ parity_pos := 0, state := BlockState.CHG, hash := H }] }],
    linkmem := [], dirmem := [],
    filelist := [1], pathset := [1], inodeset := [1],
    linklist := [], linkset := [], dirlist := [], dirset := [],
    deletedlist := [{ block := { parity_pos := 0, state := BlockState.DELETED, hash := H } }],
    blockarr := [some (BlockPtr.file 1 0)] }

/-- Scenario 8, the catalog: one empty directory `dir`. -/
def ex8_catalog : snapraid_disk :=
  { name := "d1", dir := "/mnt/d1/", first_free_block := 0,
    filemem := [], linkmem := [], dirmem := [some { sub := "dir", present := false }],
    filelist := [], pathset := [], inodeset := [],
    linklist := [], linkset := [], dirlist := [0], dirset := [0],
    deletedlist := [], blockarr := [] }

/-- Scenario 8, the live tree in which `dir` is still empty. -/
def ex8_tree_empty : String → FsNode := fun _ =>
  .dir (.cons "dir" (.dir .nil) .nil)

/-- Scenario 8, the live tree in which `dir` holds the file `f` of 10 bytes. -/
def ex8_tree_file : String → FsNode := fun _ =>
  .dir (.cons "dir" (.dir (.cons "f"
    (.reg { st_size := 10, st_mtime := 2000, st_nsec := 0, st_ino := 101, st_nlink := 1 })
    .nil)) .nil)

/-- Scenario 8, the disk after the scan of the tree in which `dir` holds `f`. -/
def ex8_final : snapraid_disk :=
  { name := "d1", dir := "/mnt/d1/", first_free_block := 1,
    filemem := [some { sub := "dir/f", size := 10, mtime_sec := 2000, mtime_nsec := 0,
                       inode := 101, present := true,
                       blockvec := [{ parity_pos := 0, state := BlockState.NEW,
                                      hash := ex_hash 0 }] }],
    linkmem := [], dirmem := [none],
    filelist := [0], pathset := [0], inodeset := [0],
    linklist := [], linkset := [], dirlist := [], dirset := [],
    deletedlist := [], blockarr := [some (BlockPtr.file 0 0)] }

/-- Example catalog with one symbolic link `l` to `old`. -/
def ex_catalog_link : snapraid_disk :=
  { name := "d1", dir := "/mnt/d1/", first_free_block := 0,
    filemem := [],
    linkmem := [some { sub := "l", linkto := "old", kind := LinkKind.FILE_IS_SYMLINK,
                       present := false }],
    dirmem := [],
    filelist := [], pathset := [], inodeset := [],
    linklist := [0], linkset := [0], dirlist := [], dirset := [],
    deletedlist := [], blockarr := [] }

/-- Example memory at the start of the scan of `ex_catalog_link`. -/
def ex_mem_link : Mem := { state := ex_state, disk := ex_catalog_link, scan := scan_init }

/-- Example live tree: the symbolic link `l` now points to `new`. -/
def ex_tree_link : String → FsNode := fun _ => .dir (.cons "l" (.lnk "new") .nil)

/-- The free hint of a disk: every EMPTY slot `s` of the block array satisfies
`s >= first_free_block`. -/
def free_hint (disk : snapraid_disk) : Prop :=
  ∀ s, s < disk.blockarr.length → disk.blockarr[s]? = some none → disk.first_free_block ≤ s

instance (disk : snapraid_disk) : Decidable (free_hint disk) := by
  unfold free_hint; infer_instance

/-- Live-block ownership of one allocated file: every block `b` of the file
satisfies `block_array[b.parity_pos] == b`. -/
def owns_blocks (disk : snapraid_disk) (file : Nat) (f : snapraid_file) : Prop :=
  ∀ i (h : i < f.blockvec.length),
    disk.blockarr[(f.blockvec[i]).parity_pos]? = some (some (BlockPtr.file file i))

instance (disk : snapraid_disk) (file : Nat) (f : snapraid_file) :
    Decidable (owns_blocks disk file f) := by
  unfold owns_blocks; infer_instance

/-- Live-block ownership of a disk: every block `b` of every file of the file
list satisfies `block_array[b.parity_pos] == b`. -/
def live_block_ownership (disk : snapraid_disk) : Prop :=
  ∀ file ∈ disk.filelist,
    match heap_get disk.filemem file with
    | .ok f => owns_blocks disk file f
    | .error _ => True

instance (disk : snapraid_disk) : Decidable (live_block_ownership disk) := by
  unfold live_block_ownership
  refine @List.decidableBAll _ _ (fun file => ?_) _
  split <;> infer_instance

/-- The file table holds no file outside the file list. -/
def files_listed (disk : snapraid_disk) : Prop :=
  ∀ p (h : p < disk.filemem.length), (disk.filemem[p]).isSome = true → p ∈ disk.filelist

instance (disk : snapraid_disk) : Decidable (files_listed disk) := by
  unfold files_listed; infer_instance

/-- No block of a file is in the state DELETED, the state of the tombstones. -/
def files_live (disk : snapraid_disk) : Prop :=
  ∀ p (h : p < disk.filemem.length),
    match disk.filemem[p] with
    | some f => ∀ b ∈ f.blockvec, b.state ≠ BlockState.DELETED
    | none => True

instance (disk : snapraid_disk) : Decidable (files_live disk) := by
  unfold files_live
  refine @Nat.decidableBallLT _ _ (fun p h => ?_)
  split <;> infer_instance

/-- No two blocks of files of the file list share a parity position. -/
def no_shared_slot (disk : snapraid_disk) : Prop :=
  ∀ g ∈ disk.filelist, ∀ h ∈ disk.filelist,
    ∀ (fg fh : snapraid_file) (i j : Nat) (bi bj : snapraid_block),
    heap_get disk.filemem g = .ok fg → heap_get disk.filemem h = .ok fh →
    fg.blockvec[i]? = some bi → fh.blockvec[j]? = some bj →
    bi.parity_pos = bj.parity_pos → g = h ∧ i = j

/-- Every allocated file outside the list `S` owns its blocks. -/
def own_except (disk : snapraid_disk) (S : List Nat) : Prop :=
  ∀ g f, heap_get disk.filemem g = .ok f → g ∉ S → owns_blocks disk g f

/-- No block of an allocated file is in the state DELETED. -/
def all_live (disk : snapraid_disk) : Prop :=
  ∀ g f, heap_get disk.filemem g = .ok f → ∀ b ∈ f.blockvec, b.state ≠ BlockState.DELETED

/-- The invariant of the loop of `scan_file_insert` for live-block ownership,
after `k` iterations on file `p` of `n` blocks. -/
structure OwnLoop (p : Nat) (S : List Nat) (n k : Nat) (s : InsertLoop) : Prop where
  max_eq : s.block_max = s.disk.blockarr.length
  others : own_except s.disk (p :: S)
  live : all_live s.disk
  len : ∀ f, heap_get s.disk.filemem p = .ok f → f.blockvec.length = n
  mine : ∀ f, heap_get s.disk.filemem p = .ok f → ∀ i (h : i < f.blockvec.length), i < k →
    s.disk.blockarr[(f.blockvec[i]).parity_pos]? = some (some (BlockPtr.file p i))

/-- The invariant of the scan of a disk for live-block ownership: the files
not staged for insertion own their blocks, no block is in the state DELETED,
and the staged files are allocated and PRESENT. -/
structure OwnInv (m : Mem) : Prop where
  own : own_except m.disk m.scan.file_insert_list
  live : all_live m.disk
  staged : ∀ g ∈ m.scan.file_insert_list,
    ∃ f, heap_get m.disk.filemem g = .ok f ∧ f.present = true

/-- Tombstone ownership of a disk: every tombstone `d` of the deleted list
satisfies `block_array[d.block.parity_pos] == d.block` and
`d.block.state == DELETED`. -/
def tombstone_ownership (disk : snapraid_disk) : Prop :=
  ∀ d (h : d < disk.deletedlist.length),
    (disk.deletedlist[d]).block.state = BlockState.DELETED ∧
    disk.blockarr[(disk.deletedlist[d]).block.parity_pos]? = some (some (BlockPtr.deleted d))

instance (disk : snapraid_disk) : Decidable (tombstone_ownership disk) := by
  unfold tombstone_ownership; infer_instance

/-- Every tombstone `d` of the deleted list is in the state DELETED, and
`block_array[d.block.parity_pos]` is `d.block` or a block of a file. -/
def tombstones_kept (disk : snapraid_disk) : Prop :=
  ∀ d (h : d < disk.deletedlist.length),
    (disk.deletedlist[d]).block.state = BlockState.DELETED ∧
    (disk.blockarr[(disk.deletedlist[d]).block.parity_pos]? = some (some (BlockPtr.deleted d)) ∨
     slot_occupied disk (disk.deletedlist[d]).block.parity_pos = true)

instance (disk : snapraid_disk) : Decidable (tombstones_kept disk) := by
  unfold tombstones_kept; infer_instance

/-- The invariant of the walk and of the sweeps for tombstone ownership. -/
structure TombInv (m : Mem) : Prop where
  own : OwnInv m
  tomb : tombstone_ownership m.disk

/-- No stored `mtime_nsec` of the file table is `FILE_MTIME_NSEC_INVALID`. -/
def nsec_valid (disk : snapraid_disk) : Prop :=
  ∀ p (h : p < disk.filemem.length),
    match disk.filemem[p] with
    | some f => f.mtime_nsec ≠ FILE_MTIME_NSEC_INVALID
    | none => True

instance (disk : snapraid_disk) : Decidable (nsec_valid disk) := by
  unfold nsec_valid
  refine @Nat.decidableBallLT _ _ (fun p h => ?_)
  split <;> infer_instance

/-- What a step of the scan that counts nothing but equal entries leaves as it
was: the state, the disk up to the PRESENT flags, and the delayed lists. -/
structure QuietFrame (m m' : Mem) : Prop where
  state_eq : m'.state = m.state
  disk_eq : clear_present m'.disk = clear_present m.disk
  files_eq : m'.scan.file_insert_list = m.scan.file_insert_list
  links_eq : m'.scan.link_insert_list = m.scan.link_insert_list
  dirs_eq : m'.scan.dir_insert_list = m.scan.dir_insert_list

/-- The invariant of the walk of a scan that ends with nothing counted moved,
changed, removed or inserted. -/
def QuietInv (s0 : snapraid_state) (d0 : snapraid_disk) (m : Mem) : Prop :=
  scan_quiet m.scan →
    m.state = s0 ∧ clear_present m.disk = clear_present d0 ∧
    m.scan.file_insert_list = [] ∧ m.scan.link_insert_list = [] ∧ m.scan.dir_insert_list = []

/-- Scenario 1, the live tree: the file `a` as the catalog records it. -/
def ex1_tree : String → FsNode := fun _ =>
  .dir (.cons "a"
    (.reg { st_size := 10, st_mtime := 1000, st_nsec := 0, st_ino := 100, st_nlink := 1 }) .nil)

/-- Scenario 1, the memory after the scan of the disk: `a` is PRESENT. -/
def ex1_scanned (H : List Nat) : Mem :=
  { state := ex_state
    disk := { ex4_catalog H with
      filemem := [some { sub := "a", size := 10, mtime_sec := 1000, mtime_nsec := 0, inode := 100,
                         present := true,
                         blockvec := [{ parity_pos := 0, state := BlockState.BLK, hash := H }] }] }
    scan := { scan_init with count_equal := 1 } }

/-- Example live tree: only the file `b` of the example catalog, unchanged. -/
def ex_tree_b : String → FsNode := fun _ =>
  .dir (.cons "b"
    (.reg { st_size := 10, st_mtime := 1000, st_nsec := 0, st_ino := 101, st_nlink := 1 }) .nil)

/-- Example state with the lookup by name. -/
def ex_state_name : snapraid_state := { ex_state with find_by_name := true }

/-- Example catalog with no entry. -/
def ex_catalog_none : snapraid_disk :=
  { name := "d1", dir := "/mnt/d1/", first_free_block := 0,
    filemem := [], linkmem := [], dirmem := [],
    filelist := [], pathset := [], inodeset := [],
    linklist := [], linkset := [], dirlist := [], dirset := [],
    deletedlist := [], blockarr := [] }

/-- The catalog after the scan, by name, of the tree with the two names `a`
and `b` of inode 100: two files, no link. -/
def ex_catalog_twins : snapraid_disk :=
  { name := "d1", dir := "/mnt/d1/", first_free_block := 2,
    filemem := [some
      { sub := "a", size := 10, mtime_sec := 1000, mtime_nsec := 0, inode := 100,
        present := true,
        blockvec := [{ parity_pos := 0, state := BlockState.NEW,
                       hash := List.replicate HASH_SIZE 0 }] },
      some
      { sub := "b", size := 10, mtime_sec := 1000, mtime_nsec := 0, inode := 100,
        present := true,
        blockvec := [{ parity_pos := 1, state := BlockState.NEW,
                       hash := List.replicate HASH_SIZE 0 }] }],
    linkmem := [], dirmem := [],
    filelist := [0, 1], pathset := [0, 1], inodeset := [0, 1],
    linklist := [], linkset := [], dirlist := [], dirset := [],
    deletedlist := [],
    blockarr := [some (BlockPtr.file 0 0), some (BlockPtr.file 1 0)] }

/-- The memory after the scan of the example catalog against the tree with links. -/
def ex_mem_links : Mem :=
  match scan_disk ex_filters ex_tree_links ex_state ex_catalog with
  | .ok m => m
  | .error _ => ex_scan_start

/-- An inode occurs at most once among the allocated files of the inode table. -/
def inode_unique (d : snapraid_disk) : Prop :=
  ∀ p ∈ d.inodeset, ∀ q ∈ d.inodeset, ∀ f g,
    heap_get d.filemem p = .ok f → heap_get d.filemem q = .ok g → f.inode = g.inode → p = q

/-- The live path `sub` of inode `ino` is recorded: the inode table holds a
file with that inode, which has the path `sub` or is the target of a link of
kind HARDLINK, of the link table, with the path `sub`. -/
def path_recorded (d : snapraid_disk) (sub : String) (ino : Nat) : Prop :=
  ∃ p f, p ∈ d.inodeset ∧ heap_get d.filemem p = .ok f ∧ f.inode = ino ∧
    (f.sub = sub ∨
     ∃ l ll, l ∈ d.linkset ∧ heap_get d.linkmem l = .ok ll ∧ ll.sub = sub ∧
       ll.kind = LinkKind.FILE_IS_HARDLINK ∧ ll.linkto = f.sub)

instance (d : snapraid_disk) : Decidable (no_present d) := by
  unfold no_present; infer_instance

/-- The PRESENT objects of an object memory have sub-paths of the list `S`,
and no two of them have the same sub-path. -/
def PresUnique {α : Type} (sub : α → String) (present : α → Bool) (mem : List (Option α))
    (S : List String) : Prop :=
  (∀ p x, heap_get mem p = .ok x → present x = true → sub x ∈ S) ∧
  (∀ p q x y, heap_get mem p = .ok x → heap_get mem q = .ok y →
    present x = true → present y = true → sub x = sub y → p = q)

/-- The invariant of the walk behind the uniqueness of the paths: after calls
for the sub-paths `S`, the PRESENT files, links and dirs have distinct
sub-paths of `S`, and the objects of the delayed lists are allocated and
PRESENT. -/
structure PathInv (m : Mem) (S : List String) : Prop where
  files : PresUnique snapraid_file.sub snapraid_file.present m.disk.filemem S
  links : PresUnique snapraid_link.sub snapraid_link.present m.disk.linkmem S
  dirs : PresUnique snapraid_dir.sub snapraid_dir.present m.disk.dirmem S
  fstaged : ∀ g ∈ m.scan.file_insert_list,
    ∃ f, heap_get m.disk.filemem g = .ok f ∧ f.present = true
  lstaged : ∀ g ∈ m.scan.link_insert_list,
    ∃ f, heap_get m.disk.linkmem g = .ok f ∧ f.present = true
  dstaged : ∀ g ∈ m.scan.dir_insert_list,
    ∃ f, heap_get m.disk.dirmem g = .ok f ∧ f.present = true

/-- No two allocated files of the list `set` have the same sub-path. -/
def file_names_unique (mem : List (Option snapraid_file)) (set : List Nat) : Prop :=
  ∀ p ∈ set, ∀ q ∈ set, ∀ x y, heap_get mem p = .ok x → heap_get mem q = .ok y →
    x.sub = y.sub → p = q

/-- Unique path of a disk: the entries of the file list, of the link list and
of the dir list are allocated, and no two entries of the same list have the
same sub-path. -/
def unique_paths (d : snapraid_disk) : Prop :=
  (file_names_unique d.filemem d.filelist ∧ ∀ p ∈ d.filelist, ∃ f, heap_get d.filemem p = .ok f) ∧
  (link_names_unique d.linkmem d.linklist ∧ ∀ p ∈ d.linklist, ∃ l, heap_get d.linkmem p = .ok l) ∧
  (dir_names_unique d.dirmem d.dirlist ∧ ∀ p ∈ d.dirlist, ∃ x, heap_get d.dirmem p = .ok x)

/-- Some entry of the tree, at any depth, has a name other than `.` and `..`
that the content file cannot hold. -/
def has_unsupported_name : FsEntries → Prop
  | .nil => False
  | .cons name node rest =>
    (name ≠ "." ∧ name ≠ ".." ∧ name_unsupported name) ∨
    (match node with
     | .dir entries => has_unsupported_name entries
     | _ => False) ∨
    has_unsupported_name rest

/-- Example filters: every entry is hidden and every path is a content file. -/
def ex_filters_all : Filters :=
  { ex_filters with filter_hidden := fun _ => true, filter_content := fun _ => true }

/-- The entry sets `processed`: after `.`, `..`, hidden entries and content
files are skipped, it is a regular file or a symbolic link the path filter
accepts, or a directory the dir filter accepts. -/
def entry_accepted (flt : Filters) (n dir sub name : String) (node : FsNode) : Bool :=
  if name = "." ∨ name = ".." then false
  else if flt.filter_hidden name then false
  else if flt.filter_content (dir ++ name) then false
  else
    match node with
    | .reg _ => !flt.filter_path n (sub ++ name)
    | .lnk _ => !flt.filter_path n (sub ++ name)
    | .dir _ => !flt.filter_dir n (sub ++ name)
    | .dir_noopen => !flt.filter_dir n (sub ++ name)
    | .special => false
    | .nostat => false

/-- Some entry of the directory sets `processed`. -/
def any_accepted (flt : Filters) (n dir sub : String) : FsEntries → Bool
  | .nil => false
  | .cons name node rest => entry_accepted flt n dir sub name node || any_accepted flt n dir sub rest

/-- Example filters: the path `d/x` is excluded. -/
def ex_filters_x : Filters :=
  { ex_filters with filter_path := fun _ sub => decide (sub = "d/x") }

/-- Example entries: the directory `d` holds the excluded file `x` and a
special file `s`; the directory `p` holds only the empty directory `c`. -/
def ex_dirs_entries : FsEntries :=
  .cons "d" (.dir (.cons "x" (.reg ex_stat_a) (.cons "s" .special .nil)))
    (.cons "p" (.dir (.cons "c" (.dir .nil) .nil)) .nil)

/-- Example live tree with the entries `ex_dirs_entries`. -/
def ex_tree_dirs : String → FsNode := fun _ => .dir ex_dirs_entries

/-- The result of the walk of `ex_dirs_entries` on the empty catalog. -/
def ex_dirs_walk : Mem × Bool :=
  match scan_dir_loop ex_filters_x "/mnt/d1/" "" ex_dirs_entries
      { state := ex_state, disk := ex_catalog_none, scan := scan_init } false with
  | .ok r => r
  | .error _ => ({ state := ex_state, disk := ex_catalog_none, scan := scan_init }, false)

/-- The hint is inside the array or at its end: `first_free_block` is at most
the length of the block array. -/
def hint_in_bounds (disk : snapraid_disk) : Prop :=
  disk.first_free_block ≤ disk.blockarr.length

instance (disk : snapraid_disk) : Decidable (hint_in_bounds disk) := by
  unfold hint_in_bounds; infer_instance

/-- Every slot of the block array that is not EMPTY points to a block: no
pointer of the array dangles. -/
def slots_deref (disk : snapraid_disk) : Prop :=
  ∀ t (h : t < disk.blockarr.length),
    match disk.blockarr[t] with
    | some p => (block_get disk p).toOption.isSome = true
    | none => True

instance (disk : snapraid_disk) : Decidable (slots_deref disk) := by
  unfold slots_deref
  refine @Nat.decidableBallLT _ _ (fun t h => ?_)
  split <;> infer_instance

/-- The invariant of the loop of `scan_file_insert` behind its return: the
position of the search is at most `block_max`, which is the length of the
array; the file is allocated with `n` blocks; no pointer of the array dangles. -/
structure BoundsInv (file n : Nat) (s : InsertLoop) : Prop where
  pos_le : s.block_pos ≤ s.block_max
  max_eq : s.block_max = s.disk.blockarr.length
  alloc : ∃ f, heap_get s.disk.filemem file = .ok f ∧ f.blockvec.length = n
  deref : slots_deref s.disk

/-- No slot of the block array points to a block of the file: the file has no
parity position yet. -/
def file_unplaced (disk : snapraid_disk) (file : Nat) : Prop :=
  ∀ c ∈ disk.blockarr,
    match c with
    | some (BlockPtr.file g _) => g ≠ file
    | _ => True

instance (disk : snapraid_disk) (file : Nat) : Decidable (file_unplaced disk file) := by
  unfold file_unplaced
  refine @List.decidableBAll _ _ (fun c => ?_) _
  split <;> infer_instance

/-- The invariant of the loop of `scan_file_insert` behind the choice of the
lowest free slots, after `k` iterations: on top of `InsertInv`, the other
files are as before the loop, every slot assigned so far was not live before
the loop, and every slot between the hint and the position of the search that
was not live before the loop has been assigned. -/
structure LowInv (file : Nat) (f0 : snapraid_file) (disk0 : snapraid_disk) (k : Nat)
    (s : InsertLoop) (fk : snapraid_file) : Prop where
  base : InsertInv file f0 disk0 k s fk
  mem_other : ∀ g, g ≠ file → heap_get s.disk.filemem g = heap_get disk0.filemem g
  free : ∀ (i : Nat) (b : snapraid_block), i < k → fk.blockvec[i]? = some b → slot_live disk0 b.parity_pos = false
  lowest : ∀ t, disk0.first_free_block ≤ t → t < s.block_pos → slot_live disk0 t = false →
    ∃ (i : Nat) (b : snapraid_block), i < k ∧ fk.blockvec[i]? = some b ∧ b.parity_pos = t

/-- The number of entries of the file, link and dir lists of a disk. -/
def list_total (disk : snapraid_disk) : Nat :=
  disk.filelist.length + disk.linklist.length + disk.dirlist.length

/-- The number of objects waiting in the three delayed insert lists. -/
def staged_total (scan : snapraid_scan) : Nat :=
  scan.file_insert_list.length + scan.link_insert_list.length + scan.dir_insert_list.length

/-- The sum of the counters a call of the walk increments. -/
def count_calls (scan : snapraid_scan) : Nat :=
  scan.count_equal + scan.count_moved + scan.count_change + scan.count_insert

/-- Every file of the path table and of the inode table is in the file list. -/
def tables_listed (disk : snapraid_disk) : Prop :=
  ∀ g ∈ disk.pathset ++ disk.inodeset, g ∈ disk.filelist

instance (disk : snapraid_disk) : Decidable (tables_listed disk) := by
  unfold tables_listed; infer_instance

/-- The balance of the lists and the counters during the scan of a disk whose
three lists had `T0` entries: the entries of the lists and the staged objects,
plus the removals counted, are the entries at the start plus the insertions
counted. -/
def scan_total (T0 : Nat) (m : Mem) : Prop :=
  list_total m.disk + staged_total m.scan + m.scan.count_remove = T0 + m.scan.count_insert

/-- The invariant of the walk behind the balance: a file of the tables that is
not marked PRESENT is in the file list, so that its removal shortens the list. -/
structure CountInv (T0 : Nat) (m : Mem) : Prop where
  listed : ∀ g f, g ∈ m.disk.pathset ++ m.disk.inodeset →
    heap_get m.disk.filemem g = .ok f → f.present = false → g ∈ m.disk.filelist
  total : scan_total T0 m

/-- A call of one of the functions of scan.c that take an object out of the
lists of the disk or put one into them. -/
inductive Op
  /-- The call `scan_file_remove(state, disk, file)`. -/
  | file_remove (file : Nat)
  /-- The call `scan_link_remove(state, disk, link)`. -/
  | link_remove (link : Nat)
  /-- The call `scan_emptydir_remove(state, disk, dir)`. -/
  | dir_remove (dir : Nat)
  /-- The call `scan_file_insert(state, disk, file)`. -/
  | file_insert (file : Nat)
  /-- The call `scan_link_insert(state, disk, link)`. -/
  | link_insert (link : Nat)
  /-- The call `scan_emptydir_insert(state, disk, dir)`. -/
  | dir_insert (dir : Nat)
  deriving DecidableEq, Repr

/-- The phase of the scan of a disk a call belongs to: removals, then the
insertion of the files, of the links, of the dirs. -/
def Op.phase : Op → Nat
  | .file_remove _ => 0
  | .link_remove _ => 0
  | .dir_remove _ => 0
  | .file_insert _ => 1
  | .link_insert _ => 2
  | .dir_insert _ => 3

/-- The memory together with the record of the removal and insertion calls
made so far, in the order of the calls. -/
structure Traced where
  mem : Mem
  log : List Op
  deriving DecidableEq, Repr

/-- The result of a function that makes none of the recorded calls. -/
def keep_log (t : Traced) : Except Fatal Mem → Except Fatal Traced
  | .ok m => .ok { mem := m, log := t.log }
  | .error e => .error e

/-- The result of one of the recorded calls, entered in the record when the
call returns. -/
def record (t : Traced) (o : Op) : Except Fatal Mem → Except Fatal Traced
  | .ok m => .ok { mem := m, log := t.log ++ [o] }
  | .error e => .error e

/-- The changed case of `scan_file` (scan.c:383-432, then 448-459) with the
record of its call of `scan_file_remove` (scan.c:428). -/
def scan_file_changed_traced (t : Traced) (file : Nat) (f : snapraid_file) (sub : String)
    (st : Stat) : Except Fatal Traced :=
  if f.size ≠ 0 ∧ st.st_size = 0 ∧ f.sub = sub ∧ t.mem.state.force_zero = false then
    throw Fatal.zero_size
  else do
    let scan :=
      if f.sub = sub then
        { t.mem.scan with count_change := t.mem.scan.count_change + 1 }
      else
        { t.mem.scan with
          count_remove := t.mem.scan.count_remove + 1
          count_insert := t.mem.scan.count_insert + 1 }
    let t ← record t (Op.file_remove file) (scan_file_remove { t.mem with scan := scan } file)
    pure { mem := scan_file_add t.mem sub st, log := t.log }

/-- The `scan_file` (scan.c:273) with the record of the calls. -/
def scan_file_traced (t : Traced) (sub : String) (st : Stat) : Except Fatal Traced :=
  match scan_file_lookup t.mem sub st with
  | some file => do
    let f ← heap_get t.mem.disk.filemem file
    if f.present then
      if st.st_nlink > 1 then
        keep_log t (scan_link t.mem sub f.sub LinkKind.FILE_IS_HARDLINK)
      else
        throw Fatal.inode_present_inconsistency
    else if file_unchanged f st then
      keep_log t (scan_file_unchanged t.mem file f sub st)
    else
      scan_file_changed_traced t file f sub st
  | none =>
    pure { mem := scan_file_add
             { t.mem with scan := { t.mem.scan with count_insert := t.mem.scan.count_insert + 1 } }
             sub st,
           log := t.log }

/-- The loop of `scan_dir` (scan.c:561-693) with the record of the calls. -/
def scan_dir_loop_traced (flt : Filters) (dir sub : String) :
    FsEntries → Traced → Bool → Except Fatal (Traced × Bool)
  | .nil, t, processed => pure (t, processed)
  | .cons name node rest, t, processed =>
    if name = "." ∨ name = ".." then
      scan_dir_loop_traced flt dir sub rest t processed
    else
      let path_next := dir ++ name
      let sub_next := sub ++ name
      if name_unsupported name then
        throw Fatal.unsupported_name
      else if flt.filter_hidden name then
        scan_dir_loop_traced flt dir sub rest t processed
      else if flt.filter_content path_next then
        scan_dir_loop_traced flt dir sub rest t processed
      else
        match node with
        | .nostat => throw Fatal.stat_error
        | .reg st =>
          if flt.filter_path t.mem.disk.name sub_next = false then do
            let t ← scan_file_traced t sub_next st
            scan_dir_loop_traced flt dir sub rest t true
          else
            scan_dir_loop_traced flt dir sub rest t processed
        | .lnk linkto =>
          if flt.filter_path t.mem.disk.name sub_next = false then
            if linkto.length ≥ flt.path_max then
              throw Fatal.readlink_too_long
            else do
              let t ← keep_log t (scan_link t.mem sub_next linkto LinkKind.FILE_IS_SYMLINK)
              scan_dir_loop_traced flt dir sub rest t true
          else
            scan_dir_loop_traced flt dir sub rest t processed
        | .dir entries =>
          if flt.filter_dir t.mem.disk.name sub_next = false then do
            let r ← scan_dir_loop_traced flt (pathslash path_next) (pathslash sub_next) entries t
              false
            let t ← (if r.2 = false then keep_log r.1 (scan_emptydir r.1.mem sub_next)
              else pure r.1)
            scan_dir_loop_traced flt dir sub rest t true
          else
            scan_dir_loop_traced flt dir sub rest t processed
        | .dir_noopen =>
          if flt.filter_dir t.mem.disk.name sub_next = false then
            throw Fatal.opendir_error
          else
            scan_dir_loop_traced flt dir sub rest t processed
        | .special => scan_dir_loop_traced flt dir sub rest t processed

/-- The `scan_dir` (scan.c:549) with the record of the calls. -/
def scan_dir_traced (flt : Filters) (dir sub : String) :
    FsNode → Traced → Except Fatal (Traced × Bool)
  | .dir entries, t => scan_dir_loop_traced flt dir sub entries t false
  | _, _ => throw Fatal.opendir_error

/-- The removal sweep for one file (scan.c:732-754) with the record of its call
of `scan_file_remove`. -/
def sweep_file_traced (t : Traced) (file : Nat) : Except Fatal Traced := do
  let f ← heap_get t.mem.disk.filemem file
  if f.present = false then
    record t (Op.file_remove file) (scan_file_remove
      { t.mem with scan := { t.mem.scan with count_remove := t.mem.scan.count_remove + 1 } } file)
  else
    pure t

/-- The removal sweep for one link (scan.c:756-778) with the record of its call
of `scan_link_remove`. -/
def sweep_link_traced (t : Traced) (link : Nat) : Except Fatal Traced := do
  let l ← heap_get t.mem.disk.linkmem link
  if l.present = false then
    record t (Op.link_remove link) (pure (scan_link_remove
      { t.mem with scan := { t.mem.scan with count_remove := t.mem.scan.count_remove + 1 } } link))
  else
    pure t

/-- The removal sweep for one dir (scan.c:780-802) with the record of its call
of `scan_emptydir_remove`. -/
def sweep_dir_traced (t : Traced) (dir : Nat) : Except Fatal Traced := do
  let d ← heap_get t.mem.disk.dirmem dir
  if d.present = false then
    record t (Op.dir_remove dir) (pure (scan_emptydir_remove
      { t.mem with scan := { t.mem.scan with count_remove := t.mem.scan.count_remove + 1 } } dir))
  else
    pure t

/-- The delayed insertion of one file (scan.c:808) with its record. -/
def scan_file_insert_traced (t : Traced) (file : Nat) : Except Fatal Traced :=
  record t (Op.file_insert file) (scan_file_insert t.mem file)

/-- The delayed insertion of one link (scan.c:819) with its record. -/
def scan_link_insert_traced (t : Traced) (link : Nat) : Traced :=
  { mem := scan_link_insert t.mem link, log := t.log ++ [Op.link_insert link] }

/-- The delayed insertion of one dir (scan.c:830) with its record. -/
def scan_emptydir_insert_traced (t : Traced) (dir : Nat) : Traced :=
  { mem := scan_emptydir_insert t.mem dir, log := t.log ++ [Op.dir_insert dir] }

/-- The body of the loop over the disks of `state_scan` (scan.c:711-840) for
one disk, with the record of the removal and insertion calls it makes. -/
def scan_disk_traced (flt : Filters) (fs : String → FsNode) (state : snapraid_state)
    (disk : snapraid_disk) : Except Fatal Traced := do
  let t : Traced := { mem := { state := state, disk := disk, scan := scan_init }, log := [] }
  let (t, _) ← scan_dir_traced flt disk.dir "" (fs disk.dir) t
  let t ← t.mem.disk.filelist.foldlM sweep_file_traced t
  let t ← t.mem.disk.linklist.foldlM sweep_link_traced t
  let t ← t.mem.disk.dirlist.foldlM sweep_dir_traced t
  let t ← t.mem.scan.file_insert_list.foldlM scan_file_insert_traced t
  let t := t.mem.scan.link_insert_list.foldl scan_link_insert_traced t
  let t := t.mem.scan.dir_insert_list.foldl scan_emptydir_insert_traced t
  pure t

/-- Example live tree: a new symbolic link, a new empty directory, file `a`
rewritten and file `b` gone. -/
def ex_tree_order : String → FsNode := fun _ =>
  .dir (.cons "l" (.lnk "a") (.cons "e" (.dir .nil) (.cons "a"
      (.reg { st_size := 20, st_mtime := 2000, st_nsec := 0, st_ino := 100, st_nlink := 1 })
    .nil)))

/-- The memory after the scan of the example catalog against `ex_tree_order`. -/
def ex_mem_order : Mem :=
  match scan_disk ex_filters ex_tree_order ex_state ex_catalog with
  | .ok m => m
  | .error _ => ex_mem

/-- The memory of a result of the recorded walk. -/
def traced_result (r : Traced × Bool) : Mem × Bool := (r.1.mem, r.2)

/-- Every call recorded so far is a removal. -/
def log_removals (t : Traced) : Prop := ∀ o ∈ t.log, o.phase = 0

/-- The slots of the blocks of the files of a list, as the file memory of the
disk records them. -/
def removed_slots (disk : snapraid_disk) : List Nat → List Nat
  | [] => []
  | g :: rest =>
    (match heap_get disk.filemem g with
     | .ok f => f.blockvec.map (fun b => b.parity_pos)
     | .error _ => []) ++ removed_slots disk rest

/-- Example memory around the catalog with a hole: a new file `c` of one block
is allocated and waits for its insertion. -/
def ex_mem_hole : Mem :=
  { state := ex_state,
    disk := { ex_catalog_hole with
      filemem := ex_catalog_hole.filemem ++
        [some { file_alloc 16 "c" 10 2000 0 102 with present := true }] },
    scan := { scan_init with file_insert_list := [2] } }

/-- The memory after `scan_file_remove ex_mem_hole 0`. -/
def ex_mem_hole_removed : Mem :=
  match scan_file_remove ex_mem_hole 0 with
  | .ok m => m
  | .error _ => ex_mem_hole

/-- The memory after `scan_file_insert ex_mem_hole_removed 2`. -/
def ex_mem_hole_inserted : Mem :=
  match scan_file_insert ex_mem_hole_removed 2 with
  | .ok m => m
  | .error _ => ex_mem_hole

/-! ## Theorems -/

theorem bind_ok {ε α β : Type} {x : Except ε α} {f : α → Except ε β} {b : β} :
    (x >>= f) = .ok b ↔ ∃ a, x = .ok a ∧ f a = .ok b := by
  cases x with
  | error e => simp [bind, Except.bind]
  | ok a => simp [bind, Except.bind]

theorem remove_block_ok {disk disk' : snapraid_disk} {block : snapraid_block}
    (h : scan_file_remove_block disk block = .ok disk') :
    block.parity_pos < disk.blockarr.length ∧ block.state ≠ BlockState.DELETED ∧
    disk' = { disk with
      first_free_block := min disk.first_free_block block.parity_pos
      deletedlist := disk.deletedlist ++
        [{ block := { parity_pos := block.parity_pos, state := BlockState.DELETED,
                      hash := tombstone_hash block } }]
      blockarr := disk.blockarr.set block.parity_pos (some (.deleted disk.deletedlist.length)) } := by
  unfold scan_file_remove_block at h
  by_cases hlt : block.parity_pos < disk.blockarr.length
  · by_cases hff : disk.first_free_block > block.parity_pos <;>
    rcases hs : block.state with _ | _ | _ | _ <;>
    simp [hs, hlt, hff, block_state_get, bind, Except.bind, pure, Except.pure, throw, throwThe,
      MonadExceptOf.throw, tommy_array_set, deleted_dup, tombstone_hash] at h ⊢ <;>
    (subst h; congr 1; omega)
  · by_cases hff : disk.first_free_block > block.parity_pos <;>
    rcases hs : block.state with _ | _ | _ | _ <;>
    simp [hs, hlt, hff, block_state_get, bind, Except.bind, pure, Except.pure, throw, throwThe,
      MonadExceptOf.throw, tommy_array_set, deleted_dup, tombstone_hash] at h

theorem block_get_file_eq {disk disk' : snapraid_disk} (h : disk'.filemem = disk.filemem)
    (file i : Nat) : block_get disk' (.file file i) = block_get disk (.file file i) := by
  simp [block_get, h]

theorem block_get_deleted_append {disk disk' : snapraid_disk} {extra : List snapraid_deleted}
    (h : disk'.deletedlist = disk.deletedlist ++ extra) {d : Nat} {b : snapraid_block}
    (hb : block_get disk (.deleted d) = .ok b) : block_get disk' (.deleted d) = .ok b := by
  simp only [block_get] at hb ⊢
  cases hd : disk.deletedlist[d]? with
  | none => simp [hd, throw, throwThe, MonadExceptOf.throw] at hb
  | some x =>
    have hlt : d < disk.deletedlist.length := by
      rcases List.getElem?_eq_some.1 hd with ⟨hl, _⟩; exact hl
    rw [h, List.getElem?_append_left hlt, hd]
    simpa [hd] using hb

/-- Ownership of a slot survives any change that keeps the file list and the
file memory and only appends tombstones. -/
theorem slot_owned_of_frame {disk disk' : snapraid_disk} {extra : List snapraid_deleted}
    (hl : disk'.filelist = disk.filelist) (hm : disk'.filemem = disk.filemem)
    (hd : disk'.deletedlist = disk.deletedlist ++ extra) {s : Nat} {c : Option BlockPtr}
    (h : slot_owned disk s c) : slot_owned disk' s c := by
  cases c with
  | none => trivial
  | some p =>
    cases p with
    | file file i =>
      simp only [slot_owned] at h ⊢
      rw [hl, block_get_file_eq hm]; exact h
    | deleted d =>
      simp only [slot_owned] at h ⊢
      rcases h with ⟨b, hb, h1, h2⟩
      exact ⟨b, block_get_deleted_append hd hb, h1, h2⟩

theorem remove_loop_inv (file : Nat) : ∀ (rest : List snapraid_block) (disk disk' : snapraid_disk),
    rest.foldlM scan_file_remove_block disk = .ok disk' →
    slot_ownership disk →
    (∀ s (h : s < disk.blockarr.length) i, disk.blockarr[s] = some (.file file i) →
      ∃ b ∈ rest, b.parity_pos = s) →
    slot_ownership disk' ∧
    (∀ s (h : s < disk'.blockarr.length) i, disk'.blockarr[s] ≠ some (.file file i)) ∧
    disk'.filelist = disk.filelist ∧ disk'.filemem = disk.filemem ∧
    ∃ extra, disk'.deletedlist = disk.deletedlist ++ extra := by
  intro rest
  induction rest with
  | nil =>
    intro disk disk' h hown hrest
    simp [pure, Except.pure] at h
    subst h
    refine ⟨hown, ?_, rfl, rfl, [], by simp⟩
    intro s hs i hc
    rcases hrest s hs i hc with ⟨b, hb, _⟩
    simp at hb
  | cons block rest ih =>
    intro disk disk' h hown hrest
    rw [List.foldlM_cons] at h
    rcases bind_ok.1 h with ⟨disk1, h1, h2⟩
    rcases remove_block_ok h1 with ⟨hpos, _, hd1⟩
    have hl1 : disk1.filelist = disk.filelist := by rw [hd1]
    have hm1 : disk1.filemem = disk.filemem := by rw [hd1]
    have hdl1 : disk1.deletedlist = disk.deletedlist ++
        [{ block := { parity_pos := block.parity_pos, state := BlockState.DELETED,
                      hash := tombstone_hash block } }] := by rw [hd1]
    have harr1 : disk1.blockarr =
        disk.blockarr.set block.parity_pos (some (.deleted disk.deletedlist.length)) := by rw [hd1]
    have hown1 : slot_ownership disk1 := by
      intro s hs
      have hs' : s < disk.blockarr.length := by simpa [harr1] using hs
      by_cases hsp : block.parity_pos = s
      · have : disk1.blockarr[s] = some (.deleted disk.deletedlist.length) := by
          simp [harr1, hsp]
        rw [this]
        simp only [slot_owned, block_get]
        rw [hdl1]
        simp [pure, Except.pure, hsp]
      · have : disk1.blockarr[s] = disk.blockarr[s] := by
          simp [harr1, List.getElem_set_ne hsp]
        rw [this]
        exact slot_owned_of_frame hl1 hm1 hdl1 (hown s hs')
    have hrest1 : ∀ s (h : s < disk1.blockarr.length) i, disk1.blockarr[s] = some (.file file i) →
        ∃ b ∈ rest, b.parity_pos = s := by
      intro s hs i hc
      have hs' : s < disk.blockarr.length := by simpa [harr1] using hs
      by_cases hsp : block.parity_pos = s
      · have : disk1.blockarr[s] = some (.deleted disk.deletedlist.length) := by
          simp [harr1, hsp]
        rw [this] at hc
        cases hc
      · have : disk1.blockarr[s] = disk.blockarr[s] := by
          simp [harr1, List.getElem_set_ne hsp]
        rw [this] at hc
        rcases hrest s hs' i hc with ⟨b, hb, hbs⟩
        rcases List.mem_cons.1 hb with rfl | hb
        · exact absurd hbs hsp
        · exact ⟨b, hb, hbs⟩
    rcases ih disk1 disk' h2 hown1 hrest1 with ⟨a1, a2, a3, a4, extra, a5⟩
    refine ⟨a1, a2, a3.trans hl1, a4.trans hm1,
      [{ block := { parity_pos := block.parity_pos, state := BlockState.DELETED,
                    hash := tombstone_hash block } }] ++ extra, ?_⟩
    rw [a5, hdl1, List.append_assoc]

theorem heap_get_ok {α : Type} {mem : List (Option α)} {p : Nat} {x : α} :
    heap_get mem p = .ok x ↔ mem[p]? = some (some x) := by
  unfold heap_get
  split
  · next y hy => simp [hy]
  · next hy =>
    simp
    intro h
    exact hy x h

theorem scan_file_remove_slot_ownership (m m' : Mem) (file : Nat)
    (hown : slot_ownership m.disk) (h : scan_file_remove m file = .ok m') :
    slot_ownership m'.disk := by
  unfold scan_file_remove at h
  rcases bind_ok.1 h with ⟨f, hf, h⟩
  rcases bind_ok.1 h with ⟨disk1, h1, h⟩
  simp only [pure, Except.pure, Except.ok.injEq] at h
  subst h
  have hrest : ∀ s (h : s < m.disk.blockarr.length) i, m.disk.blockarr[s] = some (.file file i) →
      ∃ b ∈ f.blockvec, b.parity_pos = s := by
    intro s hs i hc
    have := hown s hs
    rw [hc] at this
    simp only [slot_owned, block_get] at this
    rcases this with ⟨_, b, hb, hbs⟩
    rw [hf] at hb
    simp only [bind, Except.bind] at hb
    cases hbi : f.blockvec[i]? with
    | none => simp [hbi, throw, throwThe, MonadExceptOf.throw] at hb
    | some b' =>
      simp [hbi, pure, Except.pure] at hb
      subst hb
      exact ⟨b', List.getElem?_mem hbi, hbs⟩
  rcases remove_loop_inv file f.blockvec m.disk disk1 h1 hown hrest with ⟨a1, a2, a3, a4, extra, a5⟩
  intro s hs
  have hs1 : s < disk1.blockarr.length := hs
  have key := a1 s hs1
  show slot_owned _ s disk1.blockarr[s]
  cases hc : disk1.blockarr[s] with
  | none => trivial
  | some p =>
    rw [hc] at key
    cases p with
    | deleted d =>
      simp only [slot_owned, block_get] at key ⊢
      exact key
    | file g i =>
      have hne : g ≠ file := by
        rintro rfl
        exact a2 s hs1 i hc
      simp only [slot_owned, block_get] at key ⊢
      refine ⟨(List.mem_erase_of_ne hne).2 key.1, ?_⟩
      rcases key.2 with ⟨b, hb, hbs⟩
      refine ⟨b, ?_, hbs⟩
      simp only [heap_get, heap_free] at hb ⊢
      rw [List.getElem?_set_ne (Ne.symm hne)]
      exact hb

theorem insert_block_ok {file i : Nat} {s s' : InsertLoop}
    (h : scan_file_insert_block file s i = .ok s') :
    ∃ pos f b c nb,
      find_free_block s.disk s.block_max (s.block_max - s.block_pos) s.block_pos = .ok pos ∧
      heap_get s.disk.filemem file = .ok f ∧
      f.blockvec[i]? = some b ∧
      (insert_grow s pos).blockarr[pos]? = some c ∧
      insert_new_block s.disk b pos c = .ok nb ∧
      s' = { disk := { s.disk with
               filemem := heap_set s.disk.filemem file { f with blockvec := f.blockvec.set i nb }
               blockarr := (insert_grow s pos).blockarr.set pos (some (.file file i)) }
             block_pos := pos
             block_max := if pos = s.block_max then s.block_max + 1 else s.block_max } := by
  unfold scan_file_insert_block at h
  rcases bind_ok.1 h with ⟨pos, hpos, h⟩
  refine ⟨pos, ?_⟩
  have hg : (if pos = s.block_max then
      { s.disk with blockarr := tommy_array_grow s.disk.blockarr (s.block_max + 1) }
    else s.disk) = insert_grow s pos := rfl
  simp only [hg] at h
  have hfm : (insert_grow s pos).filemem = s.disk.filemem := by
    unfold insert_grow; split <;> rfl
  replace h := bind_ok.1 h
  rcases h with ⟨f, hf, h⟩
  rw [hfm] at hf
  replace h := bind_ok.1 h
  rcases h with ⟨b0, hb0, h⟩
  replace h := bind_ok.1 h
  rcases h with ⟨c, hc, h⟩
  replace h := bind_ok.1 h
  rcases h with ⟨nb, hnb, h⟩
  replace h := bind_ok.1 h
  rcases h with ⟨arr, harr, h⟩
  have hb0' : f.blockvec[i]? = some b0 := by
    cases hbi : f.blockvec[i]? with
    | none => simp [hbi, throw, throwThe, MonadExceptOf.throw] at hb0
    | some b' => simp [hbi, pure, Except.pure] at hb0; rw [hb0]
  have hc' : (insert_grow s pos).blockarr[pos]? = some c := by
    unfold tommy_array_get at hc
    split at hc
    · next v hv => cases hc; exact hv
    · cases hc
  have hbg : ∀ p, block_get (insert_grow s pos) p = block_get s.disk p := by
    intro p; unfold insert_grow; split <;> rfl
  have hnb' : insert_new_block s.disk b0 pos c = .ok nb := by
    cases c with
    | none => simpa [insert_new_block, pure, Except.pure] using hnb
    | some p => simpa [insert_new_block, hbg] using hnb
  have harr' : arr = (insert_grow s pos).blockarr.set pos (some (.file file i)) := by
    unfold tommy_array_set at harr
    split at harr
    · cases harr; rfl
    · cases harr
  refine ⟨f, b0, c, nb, hpos, hf, hb0', hc', hnb', ?_⟩
  simp only [pure, Except.pure, Except.ok.injEq] at h
  rw [← h, harr', hfm]
  unfold insert_grow
  split <;> rfl

theorem slot_ownership_iff (disk : snapraid_disk) :
    slot_ownership disk ↔ ∀ t c, disk.blockarr[t]? = some c → slot_owned disk t c := by
  constructor
  · intro h t c hc
    rcases List.getElem?_eq_some.1 hc with ⟨ht, rfl⟩
    exact h t ht
  · intro h t ht
    exact h t _ (List.getElem?_eq_getElem ht)

theorem insert_new_block_pos {disk : snapraid_disk} {b nb : snapraid_block} {pos : Nat}
    {c : Option BlockPtr} (h : insert_new_block disk b pos c = .ok nb) : nb.parity_pos = pos := by
  cases c with
  | none => simp [insert_new_block] at h; rw [← h]
  | some p =>
    simp only [insert_new_block] at h
    rcases bind_ok.1 h with ⟨old, _, h⟩
    simp [pure, Except.pure] at h; rw [← h]

theorem insert_grow_get {s : InsertLoop} {pos t : Nat} {p : BlockPtr}
    (h : (insert_grow s pos).blockarr[t]? = some (some p)) :
    s.disk.blockarr[t]? = some (some p) := by
  unfold insert_grow at h
  split at h
  · simp only [tommy_array_grow] at h
    by_cases ht : t < s.disk.blockarr.length
    · rwa [List.getElem?_append_left ht] at h
    · rw [List.getElem?_append_right (by omega)] at h
      rcases List.getElem?_eq_some.1 h with ⟨_, h2⟩
      simp at h2
  · exact h

theorem heap_get_set_self {α : Type} {mem : List (Option α)} {p : Nat} {x y : α}
    (h : heap_get mem p = .ok x) : heap_get (heap_set mem p y) p = .ok y := by
  rw [heap_get_ok] at h ⊢
  rcases List.getElem?_eq_some.1 h with ⟨hl, _⟩
  simp [heap_set, List.getElem?_set_self hl]

theorem heap_get_set_ne {α : Type} {mem : List (Option α)} {p q : Nat} {y : α}
    (h : p ≠ q) : heap_get (heap_set mem p y) q = heap_get mem q := by
  simp [heap_get, heap_set, List.getElem?_set_ne h]

theorem insert_step_inv {file i : Nat} {s s' : InsertLoop}
    (h : scan_file_insert_block file s i = .ok s')
    (hown : slot_ownership (with_file s.disk file))
    (hidx : ∀ t j : Nat, s.disk.blockarr[t]? = some (some (BlockPtr.file file j)) → j < i) :
    slot_ownership (with_file s'.disk file) ∧
    (∀ t j : Nat, s'.disk.blockarr[t]? = some (some (BlockPtr.file file j)) → j < i + 1) := by
  rcases insert_block_ok h with ⟨pos, f, b, c, nb, hpos, hf, hb, hc, hnb, hs'⟩
  have hposlt : pos < (insert_grow s pos).blockarr.length := by
    rcases List.getElem?_eq_some.1 hc with ⟨hl, _⟩; exact hl
  have hilt : i < f.blockvec.length := by
    rcases List.getElem?_eq_some.1 hb with ⟨hl, _⟩; exact hl
  have harr : s'.disk.blockarr = (insert_grow s pos).blockarr.set pos (some (.file file i)) := by
    rw [hs']
  have hfl : s'.disk.filelist = s.disk.filelist := by rw [hs']
  have hdl : s'.disk.deletedlist = s.disk.deletedlist := by rw [hs']
  have hfm : s'.disk.filemem =
      heap_set s.disk.filemem file { f with blockvec := f.blockvec.set i nb } := by rw [hs']
  rw [slot_ownership_iff] at hown ⊢
  constructor
  · intro t c' hc'
    change s'.disk.blockarr[t]? = some c' at hc'
    rw [harr] at hc'
    by_cases htp : pos = t
    · subst htp
      rw [List.getElem?_set_self hposlt] at hc'
      cases hc'
      simp only [slot_owned, with_file, block_get]
      refine ⟨by simp, nb, ?_, insert_new_block_pos hnb⟩
      rw [hfm, heap_get_set_self hf]
      simp [bind, Except.bind, List.getElem?_set_self hilt, pure, Except.pure]
    · rw [List.getElem?_set_ne htp] at hc'
      cases c' with
      | none => trivial
      | some p =>
        have hold := insert_grow_get hc'
        have key := hown t _ hold
        cases p with
        | deleted d =>
          simp only [slot_owned, with_file, block_get] at key ⊢
          rw [hdl]; exact key
        | file g j =>
          simp only [slot_owned, with_file, block_get] at key ⊢
          rw [hfl]
          refine ⟨key.1, ?_⟩
          by_cases hg : file = g
          · subst hg
            have hj : j < i := hidx t j hold
            rw [hfm, heap_get_set_self hf]
            rw [hf] at key
            simp only [bind, Except.bind] at key ⊢
            rw [List.getElem?_set_ne (by omega)]
            exact key.2
          · rw [hfm, heap_get_set_ne hg]
            exact key.2
  · intro t j hc'
    rw [harr] at hc'
    by_cases htp : pos = t
    · subst htp
      rw [List.getElem?_set_self hposlt] at hc'
      cases hc'; omega
    · rw [List.getElem?_set_ne htp] at hc'
      have := hidx t j (insert_grow_get hc')
      omega

theorem slot_owned_congr {d1 d2 : snapraid_disk} (hl : d2.filelist = d1.filelist)
    (hm : d2.filemem = d1.filemem) (hd : d2.deletedlist = d1.deletedlist)
    (t : Nat) (c : Option BlockPtr) : slot_owned d2 t c ↔ slot_owned d1 t c := by
  cases c with
  | none => simp [slot_owned]
  | some p => cases p <;> simp [slot_owned, block_get, hl, hm, hd]

theorem slot_ownership_congr {d1 d2 : snapraid_disk} (hl : d2.filelist = d1.filelist)
    (hm : d2.filemem = d1.filemem) (hd : d2.deletedlist = d1.deletedlist)
    (ha : d2.blockarr = d1.blockarr) : slot_ownership d2 ↔ slot_ownership d1 := by
  simp only [slot_ownership_iff, ha, slot_owned_congr hl hm hd]

theorem insert_loop_inv (file : Nat) : ∀ (n : Nat) (s0 s : InsertLoop),
    (List.range n).foldlM (scan_file_insert_block file) s0 = .ok s →
    slot_ownership (with_file s0.disk file) →
    (∀ t j : Nat, s0.disk.blockarr[t]? ≠ some (some (BlockPtr.file file j))) →
    slot_ownership (with_file s.disk file) ∧
    (∀ t j : Nat, s.disk.blockarr[t]? = some (some (BlockPtr.file file j)) → j < n) := by
  intro n
  induction n with
  | zero =>
    intro s0 s h hown hno
    simp [pure, Except.pure] at h
    subst h
    exact ⟨hown, fun t j hc => absurd hc (hno t j)⟩
  | succ n ih =>
    intro s0 s h hown hno
    rw [List.range_succ, List.foldlM_append] at h
    rcases bind_ok.1 h with ⟨s1, h1, h2⟩
    rcases ih s0 s1 h1 hown hno with ⟨a1, a2⟩
    simp only [List.foldlM_cons, List.foldlM_nil] at h2
    rcases bind_ok.1 h2 with ⟨s2, h3, h4⟩
    simp only [pure, Except.pure, Except.ok.injEq] at h4
    subst h4
    exact insert_step_inv h3 a1 a2

theorem scan_file_insert_slot_ownership (m m' : Mem) (file : Nat)
    (hown : slot_ownership m.disk) (hfresh : file ∉ m.disk.filelist)
    (h : scan_file_insert m file = .ok m') : slot_ownership m'.disk := by
  unfold scan_file_insert at h
  rcases bind_ok.1 h with ⟨f, hf, h⟩
  rcases bind_ok.1 h with ⟨s, hs, h⟩
  simp only [pure, Except.pure, Except.ok.injEq] at h
  subst h
  rw [slot_ownership_iff] at hown
  have hown0 : slot_ownership (with_file m.disk file) := by
    rw [slot_ownership_iff]
    intro t c hc
    have key := hown t c hc
    cases c with
    | none => trivial
    | some p =>
      cases p with
      | deleted d => simpa [slot_owned, with_file, block_get] using key
      | file g j =>
        simp only [slot_owned, with_file, block_get] at key ⊢
        exact ⟨List.mem_append_left _ key.1, key.2⟩
  have hno : ∀ t j : Nat, m.disk.blockarr[t]? ≠ some (some (BlockPtr.file file j)) := by
    intro t j hc
    have key := hown t _ hc
    simp only [slot_owned] at key
    exact hfresh key.1
  rcases insert_loop_inv file f.blockmax _ s hs hown0 hno with ⟨a1, _⟩
  refine (slot_ownership_congr ?_ ?_ ?_ ?_).2 a1
  all_goals (simp only [with_file]; split <;> rfl)

theorem scan_dir_loop_nil (flt : Filters) (dir sub : String) (m : Mem) (q : Bool) :
    scan_dir_loop flt dir sub .nil m q = .ok (m, q) := rfl

/-- One iteration of the loop of `scan_dir`, by kind of entry. -/
theorem scan_dir_loop_cons (flt : Filters) (dir sub : String) (m : Mem) (q : Bool)
    (name : String) (node : FsNode) (rest : FsEntries) :
    scan_dir_loop flt dir sub (.cons name node rest) m q =
    if name = "." ∨ name = ".." then
      scan_dir_loop flt dir sub rest m q
    else if name_unsupported name then
      .error Fatal.unsupported_name
    else if flt.filter_hidden name then
      scan_dir_loop flt dir sub rest m q
    else if flt.filter_content (dir ++ name) then
      scan_dir_loop flt dir sub rest m q
    else
      match node with
      | .nostat => .error Fatal.stat_error
      | .reg st =>
        if flt.filter_path m.disk.name (sub ++ name) = false then
          scan_file m (sub ++ name) st >>= fun m1 => scan_dir_loop flt dir sub rest m1 true
        else
          scan_dir_loop flt dir sub rest m q
      | .lnk linkto =>
        if flt.filter_path m.disk.name (sub ++ name) = false then
          if linkto.length ≥ flt.path_max then
            .error Fatal.readlink_too_long
          else
            scan_link m (sub ++ name) linkto LinkKind.FILE_IS_SYMLINK >>= fun m1 =>
              scan_dir_loop flt dir sub rest m1 true
        else
          scan_dir_loop flt dir sub rest m q
      | .dir entries =>
        if flt.filter_dir m.disk.name (sub ++ name) = false then
          scan_dir_loop flt (pathslash (dir ++ name)) (pathslash (sub ++ name)) entries m false
            >>= fun r =>
              (if r.2 = false then scan_emptydir r.1 (sub ++ name) else .ok r.1) >>= fun m2 =>
                scan_dir_loop flt dir sub rest m2 true
        else
          scan_dir_loop flt dir sub rest m q
      | .dir_noopen =>
        if flt.filter_dir m.disk.name (sub ++ name) = false then
          .error Fatal.opendir_error
        else
          scan_dir_loop flt dir sub rest m q
      | .special => scan_dir_loop flt dir sub rest m q := by
  cases node <;> rfl

/-- A property of the memory kept by `scan_file`, `scan_link` and
`scan_emptydir` is kept by the walk of a directory. -/
theorem scan_dir_loop_preserves (P : Mem → Prop) (flt : Filters)
    (hf : ∀ m sub st m', P m → scan_file m sub st = .ok m' → P m')
    (hl : ∀ m sub linkto kind m', P m → scan_link m sub linkto kind = .ok m' → P m')
    (hd : ∀ m sub m', P m → scan_emptydir m sub = .ok m' → P m') :
    ∀ (entries : FsEntries) (dir sub : String) (m : Mem) (q : Bool) (r : Mem × Bool),
      P m → scan_dir_loop flt dir sub entries m q = .ok r → P r.1
  | .nil, _, _, m, q, r, hP, h => by
    rw [scan_dir_loop_nil] at h
    cases h; exact hP
  | .cons name node rest, dir, sub, m, q, r, hP, h => by
    rw [scan_dir_loop_cons] at h
    have ih := scan_dir_loop_preserves P flt hf hl hd rest dir sub
    split at h
    · exact ih _ _ _ hP h
    · split at h
      · cases h
      · split at h
        · exact ih _ _ _ hP h
        · split at h
          · exact ih _ _ _ hP h
          · cases node with
            | nostat => cases h
            | reg st =>
              simp only [] at h
              split at h
              · rcases bind_ok.1 h with ⟨m1, h1, h2⟩
                exact ih _ _ _ (hf _ _ _ _ hP h1) h2
              · exact ih _ _ _ hP h
            | lnk linkto =>
              simp only [] at h
              split at h
              · split at h
                · cases h
                · rcases bind_ok.1 h with ⟨m1, h1, h2⟩
                  exact ih _ _ _ (hl _ _ _ _ _ hP h1) h2
              · exact ih _ _ _ hP h
            | dir entries =>
              simp only [] at h
              split at h
              · rcases bind_ok.1 h with ⟨r1, h1, h2⟩
                have hP1 := scan_dir_loop_preserves P flt hf hl hd entries _ _ _ _ _ hP h1
                rcases bind_ok.1 h2 with ⟨m2, h3, h4⟩
                have hP2 : P m2 := by
                  split at h3
                  · exact hd _ _ _ hP1 h3
                  · cases h3; exact hP1
                exact ih _ _ _ hP2 h4
              · exact ih _ _ _ hP h
            | dir_noopen =>
              simp only [] at h
              split at h
              · cases h
              · exact ih _ _ _ hP h
            | special => exact ih _ _ _ hP h

theorem scan_dir_preserves (P : Mem → Prop) (flt : Filters)
    (hf : ∀ m sub st m', P m → scan_file m sub st = .ok m' → P m')
    (hl : ∀ m sub linkto kind m', P m → scan_link m sub linkto kind = .ok m' → P m')
    (hd : ∀ m sub m', P m → scan_emptydir m sub = .ok m' → P m')
    (node : FsNode) (dir sub : String) (m : Mem) (r : Mem × Bool)
    (hP : P m) (h : scan_dir flt dir sub node m = .ok r) : P r.1 := by
  cases node with
  | dir entries => exact scan_dir_loop_preserves P flt hf hl hd entries dir sub m false r hP h
  | _ => cases h

theorem scan_link_file_part {m m' : Mem} {sub linkto : String} {kind : LinkKind}
    (h : scan_link m sub linkto kind = .ok m') : file_part_eq m m' := by
  unfold scan_link at h
  split at h
  · rcases bind_ok.1 h with ⟨l, _, h⟩
    split at h
    · cases h
    · dsimp only at h
      split at h <;>
      · simp only [pure, Except.pure, Except.ok.injEq] at h
        subst h
        simp [file_part_eq]
  · simp only [heap_alloc, pure, Except.pure, Except.ok.injEq] at h
    subst h
    simp [file_part_eq]

theorem scan_emptydir_file_part {m m' : Mem} {sub : String}
    (h : scan_emptydir m sub = .ok m') : file_part_eq m m' := by
  unfold scan_emptydir at h
  split at h
  · rcases bind_ok.1 h with ⟨l, _, h⟩
    split at h
    · cases h
    · simp only [pure, Except.pure, Except.ok.injEq] at h
      subst h
      simp [file_part_eq]
  · simp only [heap_alloc, pure, Except.pure, Except.ok.injEq] at h
    subst h
    simp [file_part_eq]

/-- The effect of the unchanged case on the parts of the memory that concern slots. -/
theorem scan_file_unchanged_ok {m m' : Mem} {file : Nat} {f : snapraid_file} {sub : String}
    {st : Stat} (h : scan_file_unchanged m file f sub st = .ok m') :
    ∃ f', m'.disk.filemem = heap_set m.disk.filemem file f' ∧
      f'.blockvec = f.blockvec ∧ f'.present = true ∧ f'.size = f.size ∧
      m'.disk.filelist = m.disk.filelist ∧ m'.disk.deletedlist = m.disk.deletedlist ∧
      m'.disk.blockarr = m.disk.blockarr ∧
      m'.disk.first_free_block = m.disk.first_free_block ∧
      m'.scan.file_insert_list = m.scan.file_insert_list := by
  unfold scan_file_unchanged at h
  dsimp only at h
  split at h
  · split at h
    · cases h
    · simp only [pure, Except.pure, Except.ok.injEq] at h
      subst h
      exact ⟨_, rfl, rfl, rfl, rfl, rfl, rfl, rfl, rfl, rfl⟩
  · split at h
    · simp only [pure, Except.pure, Except.ok.injEq] at h
      subst h
      exact ⟨_, rfl, rfl, rfl, rfl, rfl, rfl, rfl, rfl, rfl⟩
    · simp only [pure, Except.pure, Except.ok.injEq] at h
      subst h
      exact ⟨_, rfl, rfl, rfl, rfl, rfl, rfl, rfl, rfl, rfl⟩

/-- The effect of the changed case: a removal followed by the staging of a new file. -/
theorem scan_file_changed_ok {m m' : Mem} {file : Nat} {f : snapraid_file} {sub : String}
    {st : Stat} (h : scan_file_changed m file f sub st = .ok m') :
    ∃ scan1 m1, scan1.file_insert_list = m.scan.file_insert_list ∧
      scan_file_remove { m with scan := scan1 } file = .ok m1 ∧
      m' = scan_file_add m1 sub st := by
  unfold scan_file_changed at h
  split at h
  · cases h
  · rcases bind_ok.1 h with ⟨m1, h1, h2⟩
    simp only [pure, Except.pure, Except.ok.injEq] at h2
    exact ⟨_, m1, by split <;> rfl, h1, h2.symm⟩

/-- The outcomes of a successful `scan_file`. -/
theorem scan_file_cases {m m' : Mem} {sub : String} {st : Stat}
    (h : scan_file m sub st = .ok m') :
    (scan_file_lookup m sub st = none ∧
      m' = scan_file_add
        { m with scan := { m.scan with count_insert := m.scan.count_insert + 1 } } sub st) ∨
    (∃ file f, scan_file_lookup m sub st = some file ∧ heap_get m.disk.filemem file = .ok f ∧
      f.present = true ∧ st.st_nlink > 1 ∧
      scan_link m sub f.sub LinkKind.FILE_IS_HARDLINK = .ok m') ∨
    (∃ file f, scan_file_lookup m sub st = some file ∧ heap_get m.disk.filemem file = .ok f ∧
      f.present = false ∧ file_unchanged f st ∧
      scan_file_unchanged m file f sub st = .ok m') ∨
    (∃ file f, scan_file_lookup m sub st = some file ∧ heap_get m.disk.filemem file = .ok f ∧
      f.present = false ∧ ¬ file_unchanged f st ∧
      scan_file_changed m file f sub st = .ok m') := by
  unfold scan_file at h
  split at h
  · next file hlook =>
    rcases bind_ok.1 h with ⟨f, hf, h⟩
    split at h
    · next hpres =>
      split at h
      · next hn => exact Or.inr (Or.inl ⟨file, f, hlook, hf, hpres, hn, h⟩)
      · cases h
    · next hpres =>
      have hpres' : f.present = false := by simpa using hpres
      split at h
      · next hu => exact Or.inr (Or.inr (Or.inl ⟨file, f, hlook, hf, hpres', hu, h⟩))
      · next hu => exact Or.inr (Or.inr (Or.inr ⟨file, f, hlook, hf, hpres', hu, h⟩))
  · next hlook =>
    simp only [pure, Except.pure, Except.ok.injEq] at h
    exact Or.inl ⟨hlook, h.symm⟩

theorem foldlM_preserves {α β : Type} (P : β → Prop) (f : β → α → Except Fatal β)
    (hf : ∀ b a b', P b → f b a = .ok b' → P b') :
    ∀ (l : List α) (b b' : β), P b → l.foldlM f b = .ok b' → P b'
  | [], b, b', hP, h => by
    simp [pure, Except.pure] at h; rw [← h]; exact hP
  | a :: l, b, b', hP, h => by
    rw [List.foldlM_cons] at h
    rcases bind_ok.1 h with ⟨b1, h1, h2⟩
    exact foldlM_preserves P f hf l b1 b' (hf _ _ _ hP h1) h2

theorem foldl_preserves {α β : Type} (P : β → Prop) (f : β → α → β)
    (hf : ∀ b a, P b → P (f b a)) : ∀ (l : List α) (b : β), P b → P (l.foldl f b)
  | [], _, hP => hP
  | a :: l, b, hP => foldl_preserves P f hf l (f b a) (hf _ _ hP)

theorem scan_inv_of_file_part {m m' : Mem} (h : file_part_eq m m') (hi : scan_inv m) :
    scan_inv m' := by
  rcases h with ⟨_, _, hm, hl, _, _, hd, ha, hil⟩
  rcases hi with ⟨h1, h2, h3, h4⟩
  refine ⟨(slot_ownership_congr hl hm hd ha).2 h1, ?_, ?_, ?_⟩
  · rw [hl, hm]; exact h2
  · rw [hil, hl, hm]; exact h3
  · rw [hil]; exact h4

/-- What the loop of `scan_file_remove` leaves untouched. -/
theorem remove_loop_frame : ∀ (rest : List snapraid_block) (disk disk' : snapraid_disk),
    rest.foldlM scan_file_remove_block disk = .ok disk' →
    disk'.filemem = disk.filemem ∧ disk'.filelist = disk.filelist ∧
    disk'.pathset = disk.pathset ∧ disk'.inodeset = disk.inodeset ∧
    disk'.linkmem = disk.linkmem ∧ disk'.linklist = disk.linklist ∧
    disk'.linkset = disk.linkset ∧ disk'.dirmem = disk.dirmem ∧
    disk'.dirlist = disk.dirlist ∧ disk'.dirset = disk.dirset ∧
    disk'.name = disk.name ∧ disk'.dir = disk.dir ∧
    disk'.blockarr.length = disk.blockarr.length
  | [], disk, disk', h => by
    simp [pure, Except.pure] at h; subst h; simp
  | block :: rest, disk, disk', h => by
    rw [List.foldlM_cons] at h
    rcases bind_ok.1 h with ⟨disk1, h1, h2⟩
    have ih := remove_loop_frame rest disk1 disk' h2
    rcases remove_block_ok h1 with ⟨_, _, hd1⟩
    rw [hd1] at ih
    simpa using ih

/-- What `scan_file_remove` does outside the block array and the deleted list. -/
theorem scan_file_remove_frame {m m' : Mem} {file : Nat}
    (h : scan_file_remove m file = .ok m') :
    m'.scan = m.scan ∧ m'.state = { m.state with need_write := true } ∧
    m'.disk.filemem = heap_free m.disk.filemem file ∧
    m'.disk.filelist = m.disk.filelist.erase file ∧
    m'.disk.pathset = m.disk.pathset.erase file ∧
    m'.disk.inodeset = m.disk.inodeset.erase file ∧
    m'.disk.linkmem = m.disk.linkmem ∧ m'.disk.linklist = m.disk.linklist ∧
    m'.disk.linkset = m.disk.linkset ∧ m'.disk.dirmem = m.disk.dirmem ∧
    m'.disk.dirlist = m.disk.dirlist ∧ m'.disk.dirset = m.disk.dirset ∧
    m'.disk.name = m.disk.name ∧ m'.disk.dir = m.disk.dir ∧
    m'.disk.blockarr.length = m.disk.blockarr.length := by
  unfold scan_file_remove at h
  rcases bind_ok.1 h with ⟨f, hf, h⟩
  rcases bind_ok.1 h with ⟨disk1, h1, h⟩
  simp only [pure, Except.pure, Except.ok.injEq] at h
  subst h
  rcases remove_loop_frame _ _ _ h1 with ⟨a1, a2, a3, a4, a5, a6, a7, a8, a9, a10, a11, a12, a13⟩
  simp [a1, a2, a3, a4, a5, a6, a7, a8, a9, a10, a11, a12, a13]

theorem scan_file_remove_inv {m m' : Mem} {file : Nat}
    (h : scan_file_remove m file = .ok m') (hi : scan_inv m) : scan_inv m' := by
  rcases hi with ⟨h1, h2, h3, h4⟩
  rcases scan_file_remove_frame h with ⟨hs, _, hm, hl, _⟩
  refine ⟨scan_file_remove_slot_ownership m m' file h1 h, ?_, ?_, ?_⟩
  · intro p hp
    rw [hl] at hp
    rw [hm]
    simpa [heap_free] using h2 p (List.mem_of_mem_erase hp)
  · intro p hp
    rw [hs] at hp
    rw [hm, hl]
    refine ⟨by simpa [heap_free] using (h3 p hp).1, fun hc => (h3 p hp).2 (List.mem_of_mem_erase hc)⟩
  · rw [hs]; exact h4

theorem slot_owned_alloc {disk : snapraid_disk} {f : snapraid_file} {t : Nat}
    {c : Option BlockPtr} (ps ins : List Nat) (h : slot_owned disk t c) :
    slot_owned { disk with filemem := disk.filemem ++ [some f], pathset := ps, inodeset := ins } t c := by
  cases c with
  | none => trivial
  | some p =>
    cases p with
    | deleted d => simpa [slot_owned, block_get] using h
    | file g j =>
      simp only [slot_owned, block_get] at h ⊢
      refine ⟨h.1, ?_⟩
      rcases h.2 with ⟨b, hb, hbs⟩
      refine ⟨b, ?_, hbs⟩
      rcases bind_ok.1 hb with ⟨f0, hf0, hb2⟩
      have hlt : g < disk.filemem.length := by
        rw [heap_get_ok] at hf0
        rcases List.getElem?_eq_some.1 hf0 with ⟨hl, _⟩; exact hl
      have : heap_get (disk.filemem ++ [some f]) g = heap_get disk.filemem g := by
        simp [heap_get, List.getElem?_append_left hlt]
      rw [this]; exact hb

theorem scan_file_add_inv {m : Mem} {sub : String} {st : Stat} (hi : scan_inv m) :
    scan_inv (scan_file_add m sub st) := by
  rcases hi with ⟨h1, h2, h3, h4⟩
  unfold scan_file_add
  simp only [heap_alloc]
  refine ⟨?_, ?_, ?_, ?_⟩
  · rw [slot_ownership_iff] at h1 ⊢
    intro t c hc
    exact slot_owned_alloc _ _ (h1 t c hc)
  · intro p hp
    have := h2 p hp
    simp only [List.length_append, List.length_singleton]
    omega
  · intro p hp
    simp only [List.length_append, List.length_singleton]
    rcases List.mem_append.1 hp with hp | hp
    · exact ⟨by have := (h3 p hp).1; omega, (h3 p hp).2⟩
    · simp only [List.mem_singleton] at hp
      subst hp
      refine ⟨by omega, fun hc => ?_⟩
      have := h2 _ hc
      omega
  · refine List.nodup_append.2 ⟨h4, List.nodup_singleton _, ?_⟩
    intro a ha hb
    simp only [List.mem_singleton] at hb
    subst hb
    have := (h3 _ ha).1
    omega

theorem scan_inv_scan_eq {m : Mem} {scan1 : snapraid_scan}
    (hs : scan1.file_insert_list = m.scan.file_insert_list) (hi : scan_inv m) :
    scan_inv { m with scan := scan1 } := by
  rcases hi with ⟨h1, h2, h3, h4⟩
  exact ⟨h1, h2, by simpa [hs] using h3, by simpa [hs] using h4⟩

theorem scan_file_inv {m m' : Mem} {sub : String} {st : Stat}
    (hi : scan_inv m) (h : scan_file m sub st = .ok m') : scan_inv m' := by
  rcases scan_file_cases h with ⟨_, rfl⟩ | ⟨file, f, _, _, _, _, hl⟩ | ⟨file, f, _, hf, _, _, hu⟩ |
    ⟨file, f, _, _, _, _, hc⟩
  · exact scan_file_add_inv (scan_inv_scan_eq rfl hi)
  · exact scan_inv_of_file_part (scan_link_file_part hl) hi
  · rcases scan_file_unchanged_ok hu with ⟨f', hm, hbv, _, _, hfl, hdl, harr, _, hil⟩
    rcases hi with ⟨h1, h2, h3, h4⟩
    refine ⟨?_, ?_, ?_, ?_⟩
    · rw [slot_ownership_iff] at h1 ⊢
      intro t c hc
      rw [harr] at hc
      have key := h1 t c hc
      cases c with
      | none => trivial
      | some p =>
        cases p with
        | deleted d => simpa [slot_owned, block_get, hdl] using key
        | file g j =>
          simp only [slot_owned, block_get] at key ⊢
          rw [hfl, hm]
          refine ⟨key.1, ?_⟩
          by_cases hg : file = g
          · subst hg
            rw [heap_get_set_self hf]
            rw [hf] at key
            simpa [bind, Except.bind, hbv] using key.2
          · rw [heap_get_set_ne hg]; exact key.2
    · rw [hfl, hm]; simpa [heap_set] using h2
    · rw [hil, hfl, hm]; simpa [heap_set] using h3
    · rw [hil]; exact h4
  · rcases scan_file_changed_ok hc with ⟨scan1, m1, hs, hr, rfl⟩
    exact scan_file_add_inv (scan_file_remove_inv hr (scan_inv_scan_eq hs hi))


theorem sweep_file_inv {m m' : Mem} {file : Nat}
    (hi : scan_inv m) (h : sweep_file m file = .ok m') : scan_inv m' := by
  unfold sweep_file at h
  rcases bind_ok.1 h with ⟨f, _, h⟩
  split at h
  · exact scan_file_remove_inv h (scan_inv_scan_eq rfl hi)
  · simp only [pure, Except.pure, Except.ok.injEq] at h
    subst h; exact hi

theorem sweep_link_file_part {m m' : Mem} {link : Nat}
    (h : sweep_link m link = .ok m') :
    file_part_eq { m with state := { m.state with need_write := m'.state.need_write } } m' := by
  unfold sweep_link at h
  rcases bind_ok.1 h with ⟨l, _, h⟩
  split at h <;>
  · simp only [pure, Except.pure, Except.ok.injEq] at h
    subst h
    simp [file_part_eq, scan_link_remove]

theorem sweep_dir_file_part {m m' : Mem} {dir : Nat}
    (h : sweep_dir m dir = .ok m') :
    file_part_eq { m with state := { m.state with need_write := m'.state.need_write } } m' := by
  unfold sweep_dir at h
  rcases bind_ok.1 h with ⟨l, _, h⟩
  split at h <;>
  · simp only [pure, Except.pure, Except.ok.injEq] at h
    subst h
    simp [file_part_eq, scan_emptydir_remove]

theorem scan_inv_state {m : Mem} (state : snapraid_state) (hi : scan_inv m) :
    scan_inv { m with state := state } := hi

theorem scan_file_insert_frame {m m' : Mem} {file : Nat}
    (h : scan_file_insert m file = .ok m') :
    m'.disk.filelist = m.disk.filelist ++ [file] ∧ m'.scan = m.scan := by
  unfold scan_file_insert at h
  rcases bind_ok.1 h with ⟨f, hf, h⟩
  rcases bind_ok.1 h with ⟨s, hs, h⟩
  simp only [pure, Except.pure, Except.ok.injEq] at h
  subst h
  have hfl : ∀ (l : List Nat) (s0 s1 : InsertLoop),
      l.foldlM (scan_file_insert_block file) s0 = .ok s1 →
      s1.disk.filelist = s0.disk.filelist := by
    intro l s0 s1 h
    exact foldlM_preserves (fun x : InsertLoop => x.disk.filelist = s0.disk.filelist)
      (scan_file_insert_block file)
      (by
        intro b a b' hb hstep
        rcases insert_block_ok hstep with ⟨_, _, _, _, _, _, _, _, _, _, hb'⟩
        rw [hb']; exact hb)
      l s0 s1 rfl h
  have := hfl _ _ _ hs
  refine ⟨?_, rfl⟩
  simp only []
  split <;> simp [this]

/-- The delayed insertion of the files keeps slot ownership. -/
theorem insert_files_slot_ownership : ∀ (l : List Nat) (m m' : Mem),
    l.foldlM scan_file_insert m = .ok m' → slot_ownership m.disk →
    (∀ p ∈ l, p ∉ m.disk.filelist) → l.Nodup → slot_ownership m'.disk
  | [], m, m', h, hown, _, _ => by
    simp [pure, Except.pure] at h; subst h; exact hown
  | file :: l, m, m', h, hown, hnot, hnd => by
    rw [List.foldlM_cons] at h
    rcases bind_ok.1 h with ⟨m1, h1, h2⟩
    have hown1 := scan_file_insert_slot_ownership m m1 file hown (hnot file (by simp)) h1
    rcases scan_file_insert_frame h1 with ⟨hfl, _⟩
    rcases List.nodup_cons.1 hnd with ⟨hfile, hnd'⟩
    refine insert_files_slot_ownership l m1 m' h2 hown1 ?_ hnd'
    intro p hp
    rw [hfl]
    intro hc
    rcases List.mem_append.1 hc with hc | hc
    · exact hnot p (List.mem_cons_of_mem _ hp) hc
    · simp only [List.mem_singleton] at hc
      subst hc; exact hfile hp

theorem scan_link_insert_slot_ownership (m : Mem) (link : Nat) :
    slot_ownership (scan_link_insert m link).disk ↔ slot_ownership m.disk :=
  slot_ownership_congr rfl rfl rfl rfl

theorem scan_emptydir_insert_slot_ownership (m : Mem) (dir : Nat) :
    slot_ownership (scan_emptydir_insert m dir).disk ↔ slot_ownership m.disk :=
  slot_ownership_congr rfl rfl rfl rfl

/-- The steps of `scan_disk`. -/
theorem scan_disk_ok {flt : Filters} {fs : String → FsNode} {state : snapraid_state}
    {disk : snapraid_disk} {m' : Mem} (h : scan_disk flt fs state disk = .ok m') :
    ∃ r m1 m2 m3 m4,
      scan_dir flt disk.dir "" (fs disk.dir) { state := state, disk := disk, scan := scan_init }
        = .ok r ∧
      r.1.disk.filelist.foldlM sweep_file r.1 = .ok m1 ∧
      m1.disk.linklist.foldlM sweep_link m1 = .ok m2 ∧
      m2.disk.dirlist.foldlM sweep_dir m2 = .ok m3 ∧
      m3.scan.file_insert_list.foldlM scan_file_insert m3 = .ok m4 ∧
      m' = (m4.scan.link_insert_list.foldl scan_link_insert m4).scan.dir_insert_list.foldl
        scan_emptydir_insert (m4.scan.link_insert_list.foldl scan_link_insert m4) := by
  unfold scan_disk at h
  rcases bind_ok.1 h with ⟨r, hr, h⟩
  rcases bind_ok.1 h with ⟨m1, h1, h⟩
  rcases bind_ok.1 h with ⟨m2, h2, h⟩
  rcases bind_ok.1 h with ⟨m3, h3, h⟩
  rcases bind_ok.1 h with ⟨m4, h4, h⟩
  simp only [pure, Except.pure, Except.ok.injEq] at h
  exact ⟨r, m1, m2, m3, m4, hr, h1, h2, h3, h4, h.symm⟩

theorem scan_disk_slot_ownership (flt : Filters) (fs : String → FsNode)
    (state : snapraid_state) (disk : snapraid_disk) (m' : Mem)
    (hown : slot_ownership disk) (hptr : ∀ p ∈ disk.filelist, p < disk.filemem.length)
    (h : scan_disk flt fs state disk = .ok m') : slot_ownership m'.disk := by
  rcases scan_disk_ok h with ⟨r, m1, m2, m3, m4, hr, h1, h2, h3, h4, rfl⟩
  have hi0 : scan_inv { state := state, disk := disk, scan := scan_init } :=
    ⟨hown, hptr, by simp [scan_init], by simp [scan_init]⟩
  have hir : scan_inv r.1 :=
    scan_dir_preserves scan_inv flt
      (fun _ _ _ _ hi h => scan_file_inv hi h)
      (fun _ _ _ _ _ hi h => scan_inv_of_file_part (scan_link_file_part h) hi)
      (fun _ _ _ hi h => scan_inv_of_file_part (scan_emptydir_file_part h) hi)
      _ _ _ _ _ hi0 hr
  have hi1 : scan_inv m1 :=
    foldlM_preserves scan_inv sweep_file (fun _ _ _ hi h => sweep_file_inv hi h) _ _ _ hir h1
  have hi2 : scan_inv m2 :=
    foldlM_preserves scan_inv sweep_link
      (fun b _ _ hi h => scan_inv_of_file_part (sweep_link_file_part h) (scan_inv_state _ hi))
      _ _ _ hi1 h2
  have hi3 : scan_inv m3 :=
    foldlM_preserves scan_inv sweep_dir
      (fun b _ _ hi h => scan_inv_of_file_part (sweep_dir_file_part h) (scan_inv_state _ hi))
      _ _ _ hi2 h3
  have hown4 : slot_ownership m4.disk :=
    insert_files_slot_ownership _ m3 m4 h4 hi3.1 (fun p hp => (hi3.2.2.1 p hp).2) hi3.2.2.2
  have hown5 : slot_ownership (m4.scan.link_insert_list.foldl scan_link_insert m4).disk :=
    foldl_preserves (fun m => slot_ownership m.disk) scan_link_insert
      (fun b a hb => (scan_link_insert_slot_ownership b a).2 hb) _ _ hown4
  exact foldl_preserves (fun m => slot_ownership m.disk) scan_emptydir_insert
    (fun b a hb => (scan_emptydir_insert_slot_ownership b a).2 hb) _ _ hown5

/-- Every disk of the result of the loop over the disks is a disk of the
initial result or the outcome of `scan_disk` on a disk of the list. -/
theorem state_scan_disks_mem (flt : Filters) (fs : String → FsNode) :
    ∀ (disklist : List snapraid_disk) (r0 r : ScanResult),
      state_scan_disks flt fs disklist r0 = .ok r →
      ∀ d' ∈ r.disklist, d' ∈ r0.disklist ∨
        ∃ d ∈ disklist, ∃ state m', scan_disk flt fs state d = .ok m' ∧ m'.disk = d'
  | [], r0, r, h, d', hd' => by
    simp [state_scan_disks, pure, Except.pure] at h
    subst h; exact Or.inl hd'
  | disk :: rest, r0, r, h, d', hd' => by
    rw [state_scan_disks] at h
    rcases bind_ok.1 h with ⟨m, hm, h2⟩
    rcases state_scan_disks_mem flt fs rest _ r h2 d' hd' with h3 | ⟨d, hd, st, m', h4, h5⟩
    · rcases List.mem_append.1 h3 with h3 | h3
      · exact Or.inl h3
      · simp only [List.mem_singleton] at h3
        exact Or.inr ⟨disk, by simp, r0.state, m, hm, h3.symm⟩
    · exact Or.inr ⟨d, List.mem_cons_of_mem _ hd, st, m', h4, h5⟩

/-- A successful `state_scan` returns the result of the loop over the disks. -/
theorem state_scan_ok {flt : Filters} {fs : String → FsNode} {state : snapraid_state}
    {disklist : List snapraid_disk} {r : ScanResult}
    (h : state_scan flt fs state disklist = .ok r) :
    state_scan_disks flt fs disklist { state := state, disklist := [], scanlist := [] } = .ok r := by
  unfold state_scan at h
  rcases bind_ok.1 h with ⟨r1, h1, h2⟩
  split at h2
  · dsimp only at h2
    split at h2
    · cases h2
    · simp only [pure, Except.pure, Except.ok.injEq] at h2
      subst h2; exact h1
  · simp only [pure, Except.pure, Except.ok.injEq] at h2
    subst h2; exact h1

/-- C1 (slot ownership).  If every slot of a block array is EMPTY, or points to
a block of a file of the file list whose parity position is the slot, or
points to the block of a tombstone in state DELETED whose parity position is
the slot, then the same holds after `scan_file_remove`, after
`scan_file_insert` of a file not yet in the file list (the function appends
it), and, for catalogs whose file lists hold allocated addresses, on every
disk after `state_scan`. -/
theorem slot_ownership_preserved :
    (∀ (m m' : Mem) (file : Nat), slot_ownership m.disk →
      scan_file_remove m file = .ok m' → slot_ownership m'.disk) ∧
    (∀ (m m' : Mem) (file : Nat), slot_ownership m.disk → file ∉ m.disk.filelist →
      scan_file_insert m file = .ok m' → slot_ownership m'.disk) ∧
    (∀ (flt : Filters) (fs : String → FsNode) (state : snapraid_state)
      (disklist : List snapraid_disk) (r : ScanResult),
      (∀ d ∈ disklist, slot_ownership d ∧ ∀ p ∈ d.filelist, p < d.filemem.length) →
      state_scan flt fs state disklist = .ok r → ∀ d' ∈ r.disklist, slot_ownership d') := by
  refine ⟨fun m m' file h1 h2 => scan_file_remove_slot_ownership m m' file h1 h2,
    fun m m' file h1 h2 h3 => scan_file_insert_slot_ownership m m' file h1 h2 h3, ?_⟩
  intro flt fs state disklist r hd h d' hd'
  rcases state_scan_disks_mem flt fs disklist _ r (state_scan_ok h) d' hd' with h1 | h1
  · simp at h1
  · rcases h1 with ⟨d, hdm, st, m', h2, rfl⟩
    exact scan_disk_slot_ownership flt fs st d m' (hd d hdm).1 (hd d hdm).2 h2

theorem slot_ownership_preserved_witness :
    slot_ownership ex_mem_removed.disk ∧ slot_ownership ex_mem_inserted.disk ∧
    ∀ d' ∈ ex_scanned.disklist, slot_ownership d' :=
  ⟨slot_ownership_preserved.1 ex_mem ex_mem_removed 0 (by decide) (by rfl),
   slot_ownership_preserved.2.1 ex_mem_removed ex_mem_inserted 2 (by decide) (by decide)
     (by rfl),
   slot_ownership_preserved.2.2 ex_filters ex_tree ex_state [ex_catalog] ex_scanned
     (by decide) (by rfl)⟩

theorem remove_loop_tombstones : ∀ (rest : List snapraid_block) (disk disk' : snapraid_disk),
    rest.foldlM scan_file_remove_block disk = .ok disk' →
    (rest.map (fun b => b.parity_pos)).Nodup →
    (∀ b ∈ rest, slot_has_tombstone disk' b.parity_pos (tombstone_of b)) ∧
    (∀ t, t ∉ rest.map (fun b => b.parity_pos) → disk'.blockarr[t]? = disk.blockarr[t]?) ∧
    (∃ extra, disk'.deletedlist = disk.deletedlist ++ extra ∧ extra = rest.map tombstone_of)
  | [], disk, disk', h, _ => by
    simp [pure, Except.pure] at h; subst h; simp
  | block :: rest, disk, disk', h, hnd => by
    rw [List.foldlM_cons] at h
    rcases bind_ok.1 h with ⟨disk1, h1, h2⟩
    rcases remove_block_ok h1 with ⟨hpos, _, hd1⟩
    simp only [List.map_cons, List.nodup_cons] at hnd
    rcases remove_loop_tombstones rest disk1 disk' h2 hnd.2 with ⟨a1, a2, extra, a3, a4⟩
    have hdl1 : disk1.deletedlist = disk.deletedlist ++ [tombstone_of block] := by rw [hd1]; rfl
    have harr1 : disk1.blockarr =
        disk.blockarr.set block.parity_pos (some (.deleted disk.deletedlist.length)) := by rw [hd1]
    refine ⟨?_, ?_, tombstone_of block :: extra, ?_, ?_⟩
    · intro b hb
      rcases List.mem_cons.1 hb with rfl | hb
      · refine ⟨disk.deletedlist.length, ?_, ?_⟩
        · rw [a2 _ hnd.1, harr1, List.getElem?_set_self hpos]
        · rw [a3, hdl1, List.append_assoc,
            List.getElem?_append_right (Nat.le_refl _)]
          simp
      · exact a1 b hb
    · intro t ht
      simp only [List.map_cons, List.mem_cons, not_or] at ht
      rw [a2 t ht.2, harr1, List.getElem?_set_ne (Ne.symm ht.1)]
    · rw [a3, hdl1]; simp
    · rw [a4]; rfl

/-- The block array and the deleted list after `scan_file_remove` are those
after the loop over the blocks of the file. -/
theorem scan_file_remove_loop {m m' : Mem} {file : Nat} {f : snapraid_file}
    (hf : heap_get m.disk.filemem file = .ok f) (h : scan_file_remove m file = .ok m') :
    ∃ disk1, f.blockvec.foldlM scan_file_remove_block m.disk = .ok disk1 ∧
      m'.disk.blockarr = disk1.blockarr ∧ m'.disk.deletedlist = disk1.deletedlist ∧
      m'.disk.first_free_block = disk1.first_free_block := by
  unfold scan_file_remove at h
  rw [hf] at h
  rcases bind_ok.1 h with ⟨f', hf', h⟩
  cases hf'
  rcases bind_ok.1 h with ⟨disk1, h1, h⟩
  simp only [pure, Except.pure, Except.ok.injEq] at h
  subst h
  exact ⟨disk1, h1, rfl, rfl, rfl⟩

/-- C2 (hash preservation).  When `scan_file_remove` removes a file whose
blocks have pairwise distinct parity positions (as live-block ownership
implies), then for every block of the file the slot at its parity position
afterwards points to a tombstone in state DELETED with the same parity
position, whose hash is the original hash of the block if the block was in
state BLK, and `HASH_SIZE` zero bytes if it was in state CHG or NEW. -/
theorem hash_preservation (m m' : Mem) (file : Nat) (f : snapraid_file)
    (hf : heap_get m.disk.filemem file = .ok f)
    (hnd : (f.blockvec.map (fun b => b.parity_pos)).Nodup)
    (h : scan_file_remove m file = .ok m') :
    ∀ block ∈ f.blockvec, ∃ del,
      slot_has_tombstone m'.disk block.parity_pos del ∧
      del.block.parity_pos = block.parity_pos ∧
      del.block.state = BlockState.DELETED ∧
      (block.state = BlockState.BLK → del.block.hash = block.hash) ∧
      (block.state = BlockState.CHG ∨ block.state = BlockState.NEW →
        del.block.hash = List.replicate HASH_SIZE 0) := by
  intro block hb
  rcases scan_file_remove_loop hf h with ⟨disk1, h1, harr, hdl, _⟩
  rcases remove_loop_tombstones _ _ _ h1 hnd with ⟨a1, _, _⟩
  rcases a1 block hb with ⟨d, hd1, hd2⟩
  refine ⟨tombstone_of block, ⟨d, by rw [harr]; exact hd1, by rw [hdl]; exact hd2⟩, rfl, rfl, ?_, ?_⟩
  · intro hs; simp [tombstone_of, tombstone_hash, hs]
  · intro hs
    rcases hs with hs | hs <;> simp [tombstone_of, tombstone_hash, hs]

theorem hash_preservation_witness :
    (∃ del, slot_has_tombstone ex_mem_removed.disk 0 del ∧ del.block.parity_pos = 0 ∧
      del.block.state = BlockState.DELETED ∧ del.block.hash = ex_hash 7) ∧
    (∃ del, slot_has_tombstone ex_mem_removed.disk 2 del ∧ del.block.parity_pos = 2 ∧
      del.block.state = BlockState.DELETED ∧ del.block.hash = List.replicate HASH_SIZE 0) :=
  ⟨match hash_preservation ex_mem ex_mem_removed 0 ex_file_a (by rfl) (by decide) (by rfl)
      { parity_pos := 0, state := BlockState.BLK, hash := ex_hash 7 } (by decide) with
    | ⟨del, h1, h2, h3, h4, _⟩ => ⟨del, h1, h2, h3, h4 rfl⟩,
   match hash_preservation ex_mem ex_mem_removed 0 ex_file_a (by rfl) (by decide) (by rfl)
      { parity_pos := 2, state := BlockState.CHG, hash := ex_hash 8 } (by decide) with
    | ⟨del, h1, h2, h3, _, h5⟩ => ⟨del, h1, h2, h3, h5 (Or.inl rfl)⟩⟩

/-- The first loop iteration succeeds on a block in range and in a live state. -/
theorem remove_block_returns {disk : snapraid_disk} {block : snapraid_block}
    (hpos : block.parity_pos < disk.blockarr.length) (hs : block.state ≠ BlockState.DELETED) :
    ∃ disk', scan_file_remove_block disk block = .ok disk' := by
  unfold scan_file_remove_block
  by_cases hff : disk.first_free_block > block.parity_pos <;>
  rcases hst : block.state with _ | _ | _ | _ <;>
  first
    | exact absurd hst hs
    | simp [hst, hff, hpos, block_state_get, bind, Except.bind, pure, Except.pure,
        tommy_array_set]

/-- The function `scan_file_remove` returns whenever the file is allocated and
each of its blocks has its parity position inside the block array and is in
one of the states BLK, CHG, NEW. -/
theorem scan_file_remove_returns (m : Mem) (file : Nat) (f : snapraid_file)
    (hf : heap_get m.disk.filemem file = .ok f)
    (hb : ∀ b ∈ f.blockvec, b.parity_pos < m.disk.blockarr.length ∧ b.state ≠ BlockState.DELETED) :
    ∃ m', scan_file_remove m file = .ok m' := by
  have hloop : ∀ (rest : List snapraid_block) (disk : snapraid_disk),
      (∀ b ∈ rest, b.parity_pos < disk.blockarr.length ∧ b.state ≠ BlockState.DELETED) →
      ∃ disk', rest.foldlM scan_file_remove_block disk = .ok disk' := by
    intro rest
    induction rest with
    | nil => intro disk _; exact ⟨disk, rfl⟩
    | cons b rest ih =>
      intro disk hb
      rcases remove_block_returns (hb b (by simp)).1 (hb b (by simp)).2 with ⟨disk1, h1⟩
      rcases remove_block_ok h1 with ⟨_, _, hd1⟩
      have : ∀ b' ∈ rest, b'.parity_pos < disk1.blockarr.length ∧ b'.state ≠ BlockState.DELETED := by
        intro b' hb'
        have := hb b' (List.mem_cons_of_mem _ hb')
        rw [hd1]; simpa using this
      rcases ih disk1 this with ⟨disk', h2⟩
      exact ⟨disk', by rw [List.foldlM_cons, h1]; exact h2⟩
  rcases hloop f.blockvec m.disk hb with ⟨disk1, h1⟩
  unfold scan_file_remove
  rw [hf]
  simp only [bind, Except.bind]
  rw [h1]
  exact ⟨_, rfl⟩

/-- What the search loop returns: it never moves backwards, every slot it
passes is inside the array and live, and it stops at the end of the array or on
a slot that is not live. -/
theorem find_free_block_ok (disk : snapraid_disk) (block_max : Nat) :
    ∀ (fuel pos p : Nat), block_max - pos ≤ fuel →
      find_free_block disk block_max fuel pos = .ok p →
      pos ≤ p ∧
      (∀ t, pos ≤ t → t < p →
        t < block_max ∧ ∃ c, disk.blockarr[t]? = some c ∧ block_has_file disk c = .ok true) ∧
      (block_max ≤ p ∨ ∃ c, disk.blockarr[p]? = some c ∧ block_has_file disk c = .ok false)
  | 0, pos, p, hfuel, h => by
    simp [find_free_block, pure, Except.pure] at h
    subst h
    exact ⟨Nat.le_refl _, fun t h1 h2 => by omega, Or.inl (by omega)⟩
  | fuel + 1, pos, p, hfuel, h => by
    rw [find_free_block] at h
    split at h
    · next hlt =>
      rcases bind_ok.1 h with ⟨c, hc, h⟩
      rcases bind_ok.1 h with ⟨hasf, hhas, h⟩
      have hc' : disk.blockarr[pos]? = some c := by
        unfold tommy_array_get at hc
        split at hc
        · next v hv => cases hc; exact hv
        · cases hc
      cases hasf with
      | true =>
        simp only [if_true] at h
        rcases find_free_block_ok disk block_max fuel (pos + 1) p (by omega) h with ⟨a1, a2, a3⟩
        refine ⟨by omega, ?_, a3⟩
        intro t h1 h2
        by_cases ht : t = pos
        · subst ht; exact ⟨hlt, c, hc', hhas⟩
        · exact a2 t (by omega) h2
      | false =>
        simp [pure, Except.pure] at h
        subst h
        exact ⟨Nat.le_refl _, fun t h1 h2 => by omega, Or.inr ⟨c, hc', hhas⟩⟩
    · next hge =>
      simp [pure, Except.pure] at h
      subst h
      exact ⟨Nat.le_refl _, fun t h1 h2 => by omega, Or.inl (by omega)⟩

theorem insert_inv_init {file : Nat} {f0 : snapraid_file} {disk0 : snapraid_disk}
    (hf : heap_get disk0.filemem file = .ok f0) :
    InsertInv file f0 disk0 0
      { disk := disk0, block_pos := disk0.first_free_block, block_max := disk0.blockarr.length }
      f0 where
  max_eq := rfl
  len_ge := Nat.le_refl _
  deleted_eq := rfl
  file_eq := hf
  len_eq := rfl
  rest_eq := fun _ _ => rfl
  start := fun _ => rfl
  last := fun i hi => by omega
  other := fun _ _ => rfl
  done := fun i hi => by omega
  mono := fun i j _ _ _ hj => by omega

theorem insert_new_block_state {disk : snapraid_disk} {b nb : snapraid_block} {pos : Nat}
    {c : Option BlockPtr} (h : insert_new_block disk b pos c = .ok nb) :
    nb.state = BlockState.NEW ∨ nb.state = BlockState.CHG := by
  cases c with
  | none => simp [insert_new_block] at h; rw [← h]; exact Or.inl rfl
  | some p =>
    simp only [insert_new_block] at h
    rcases bind_ok.1 h with ⟨old, _, h⟩
    simp [pure, Except.pure] at h; rw [← h]; exact Or.inr rfl

theorem insert_new_block_inherits {disk disk0 : snapraid_disk} {b nb : snapraid_block}
    {pos : Nat} {c : Option BlockPtr} (h : insert_new_block disk b pos c = .ok nb)
    (hd : disk.deletedlist = disk0.deletedlist)
    (hc : disk0.blockarr[pos]? = some c ∨ (c = none ∧ disk0.blockarr.length ≤ pos)) :
    inherits disk0 b nb := by
  have hp := insert_new_block_pos h
  constructor
  · intro d hd0
    rw [hp] at hd0
    rcases hc with hc | ⟨_, hc⟩
    · rw [hc] at hd0
      simp only [Option.some.injEq] at hd0
      subst hd0
      simp only [insert_new_block, block_get] at h
      rcases bind_ok.1 h with ⟨old, hold, h⟩
      simp only [pure, Except.pure, Except.ok.injEq] at h
      subst h
      refine ⟨rfl, ?_⟩
      rw [← hd]
      cases hx : disk.deletedlist[d]? with
      | none => simp [hx, throw, throwThe, MonadExceptOf.throw] at hold
      | some x =>
        simp only [hx, pure, Except.pure, Except.ok.injEq] at hold
        exact ⟨x, rfl, by rw [← hold]⟩
    · rw [List.getElem?_eq_none hc] at hd0
      cases hd0
  · intro hnone
    rw [hp] at hnone
    have hcn : c = none := by
      rcases hc with hc | ⟨hc, _⟩
      · rcases hnone with hn | hn
        · rw [hc] at hn; simpa using hn
        · rw [List.getElem?_eq_none hn] at hc; cases hc
      · exact hc
    subst hcn
    simp [insert_new_block] at h
    rw [← h]
    exact ⟨rfl, rfl⟩

theorem insert_grow_length (s : InsertLoop) (pos : Nat) (hmax : s.block_max = s.disk.blockarr.length) :
    (insert_grow s pos).blockarr.length =
      if pos = s.block_max then s.disk.blockarr.length + 1 else s.disk.blockarr.length := by
  unfold insert_grow
  split
  · simp [tommy_array_grow, hmax]
  · rfl

theorem insert_grow_other (s : InsertLoop) (pos t : Nat)
    (hmax : s.block_max = s.disk.blockarr.length) (ht : t ≠ pos) :
    (insert_grow s pos).blockarr[t]? = s.disk.blockarr[t]? := by
  unfold insert_grow
  split
  · next hp =>
    simp only [tommy_array_grow, hmax]
    by_cases hlt : t < s.disk.blockarr.length
    · rw [List.getElem?_append_left hlt]
    · rw [List.getElem?_eq_none (by simp; omega), List.getElem?_eq_none (by omega)]
  · rfl

theorem insert_grow_at (s : InsertLoop) (pos : Nat) (c : Option BlockPtr)
    (hmax : s.block_max = s.disk.blockarr.length)
    (hc : (insert_grow s pos).blockarr[pos]? = some c) :
    (pos = s.block_max ∧ c = none) ∨ (pos < s.block_max ∧ s.disk.blockarr[pos]? = some c) := by
  unfold insert_grow at hc
  split at hc
  · next hp =>
    left
    refine ⟨hp, ?_⟩
    simp only [tommy_array_grow, hmax] at hc
    rw [List.getElem?_append_right (by omega)] at hc
    rcases List.getElem?_eq_some.1 hc with ⟨_, h2⟩
    simpa using h2.symm
  · next hp =>
    right
    rcases List.getElem?_eq_some.1 hc with ⟨hl, _⟩
    exact ⟨by omega, hc⟩

theorem block_has_file_live {disk : snapraid_disk} {file i : Nat} {f : snapraid_file}
    {b : snapraid_block} (hf : heap_get disk.filemem file = .ok f)
    (hb : f.blockvec[i]? = some b) (hs : b.state = BlockState.NEW ∨ b.state = BlockState.CHG) :
    block_has_file disk (some (BlockPtr.file file i)) = .ok true := by
  simp only [block_has_file, block_get, hf, bind, Except.bind, hb, pure, Except.pure,
    block_state_get]
  rcases hs with hs | hs <;> simp [hs]

theorem insert_inv_step {file : Nat} {f0 : snapraid_file} {disk0 : snapraid_disk} {k : Nat}
    {s s' : InsertLoop} {fk : snapraid_file}
    (inv : InsertInv file f0 disk0 k s fk)
    (h : scan_file_insert_block file s k = .ok s') :
    ∃ fk', InsertInv file f0 disk0 (k + 1) s' fk' := by
  rcases insert_block_ok h with ⟨pos, f, b, c, nb, hfind, hf, hb, hc, hnb, hs'⟩
  have hfeq : f = fk := by
    have := hf.symm.trans inv.file_eq
    cases this; rfl
  subst hfeq
  rcases find_free_block_ok s.disk s.block_max _ s.block_pos pos (Nat.le_refl _) hfind with
    ⟨hle, _, hstop⟩
  have hklt : k < f.blockvec.length := by
    rcases List.getElem?_eq_some.1 hb with ⟨hl, _⟩; exact hl
  have hposlt : pos < (insert_grow s pos).blockarr.length := by
    rcases List.getElem?_eq_some.1 hc with ⟨hl, _⟩; exact hl
  -- the search moves past the slot of the previous block
  have K1 : 0 < k → s.block_pos < pos := by
    intro hk
    rcases inv.last (k - 1) (by omega) with ⟨b1, hb1, hp1⟩
    rcases inv.done (k - 1) (by omega) with ⟨_, b2, _, hb2, _, _, hst, harr, _⟩
    rw [hb1] at hb2
    cases hb2
    rw [hp1] at harr
    have hlive := block_has_file_live inv.file_eq hb1 hst
    by_contra hcon
    have hpe : pos = s.block_pos := by omega
    rcases hstop with hstop | ⟨c', hc', hfalse⟩
    · rcases List.getElem?_eq_some.1 harr with ⟨hl, _⟩
      rw [inv.max_eq] at hstop
      omega
    · rw [hpe, harr] at hc'
      cases hc'
      rw [hlive] at hfalse
      cases hfalse
  have K2 : disk0.first_free_block ≤ pos := by
    by_cases hk : k = 0
    · rw [← inv.start hk]; exact hle
    · rcases inv.last (k - 1) (by omega) with ⟨b1, hb1, hp1⟩
      rcases inv.done (k - 1) (by omega) with ⟨_, b2, _, hb2, _, hff, _⟩
      rw [hb1] at hb2
      cases hb2
      have := K1 (by omega)
      omega
  have K3 : ∀ i b', i < k → f.blockvec[i]? = some b' → b'.parity_pos < pos := by
    intro i b' hi hb'
    rcases inv.done i hi with ⟨_, b2, _, hb2, hle2, _⟩
    rw [hb'] at hb2
    cases hb2
    have := K1 (by omega)
    omega
  have K5 : disk0.blockarr[pos]? = some c ∨ (c = none ∧ disk0.blockarr.length ≤ pos) := by
    rcases insert_grow_at s pos c inv.max_eq hc with ⟨hp, hcn⟩ | ⟨hp, hcarr⟩
    · right
      refine ⟨hcn, ?_⟩
      have := inv.len_ge
      rw [hp, inv.max_eq]; exact this
    · left
      rw [← inv.other pos (fun i b' hi hb' => Nat.ne_of_lt (K3 i b' hi hb'))]
      exact hcarr
  have hnbpos := insert_new_block_pos hnb
  have hset_ne : ∀ i, i ≠ k → (f.blockvec.set k nb)[i]? = f.blockvec[i]? := by
    intro i hi
    rw [List.getElem?_set_ne (Ne.symm hi)]
  have hset_k : (f.blockvec.set k nb)[k]? = some nb := List.getElem?_set_self hklt
  have harr' : ∀ t, t ≠ pos → s'.disk.blockarr[t]? = s.disk.blockarr[t]? := by
    intro t ht
    rw [hs']
    simp only []
    rw [List.getElem?_set_ne (Ne.symm ht)]
    exact insert_grow_other s pos t inv.max_eq ht
  have harr_pos : s'.disk.blockarr[pos]? = some (some (BlockPtr.file file k)) := by
    rw [hs']
    exact List.getElem?_set_self hposlt
  refine ⟨{ f with blockvec := f.blockvec.set k nb }, ?_⟩
  constructor
  · -- max_eq
    rw [hs']
    simp only [List.length_set]
    rw [insert_grow_length s pos inv.max_eq, inv.max_eq]
  · -- len_ge
    rw [hs']
    simp only [List.length_set]
    rw [insert_grow_length s pos inv.max_eq]
    have := inv.len_ge
    split <;> omega
  · rw [hs']; exact inv.deleted_eq
  · rw [hs']; exact heap_get_set_self hf
  · simp only [List.length_set]; exact inv.len_eq
  · intro i hi
    show (f.blockvec.set k nb)[i]? = _
    rw [hset_ne i (by omega)]
    exact inv.rest_eq i (by omega)
  · intro hk; omega
  · intro i hi
    have : i = k := by omega
    subst this
    refine ⟨nb, hset_k, ?_⟩
    rw [hs']; exact hnbpos
  · intro t ht
    have htpos : t ≠ pos := by
      intro hc'
      exact ht k nb (by omega) hset_k (hc'.symm ▸ hnbpos)
    rw [harr' t htpos]
    apply inv.other
    intro i b' hi hb'
    exact ht i b' (by omega) (by show (f.blockvec.set k nb)[i]? = _; rw [hset_ne i (by omega)]; exact hb')
  · intro i hi
    by_cases hik : i = k
    · subst hik
      refine ⟨b, nb, ?_, hset_k, ?_, ?_, insert_new_block_state hnb, ?_, ?_⟩
      · rw [← inv.rest_eq i (Nat.le_refl _)]; exact hb
      · rw [hs', hnbpos]
      · rw [hnbpos]; exact K2
      · rw [hnbpos]; exact harr_pos
      · exact insert_new_block_inherits hnb inv.deleted_eq K5
    · rcases inv.done i (by omega) with ⟨b0, b', h1, h2, h3, h4, h5, h6, h7⟩
      have hlt := K3 i b' (by omega) h2
      refine ⟨b0, b', h1, ?_, ?_, h4, h5, ?_, h7⟩
      · show (f.blockvec.set k nb)[i]? = _
        rw [hset_ne i hik]; exact h2
      · rw [hs']; exact Nat.le_of_lt hlt
      · rw [harr' _ (Nat.ne_of_lt hlt)]; exact h6
  · intro i j bi bj hij hj hbi hbj
    have hbi' : f.blockvec[i]? = some bi := by
      rw [← hset_ne i (by omega)]; exact hbi
    by_cases hjk : j = k
    · subst hjk
      have : bj = nb := by
        have := hbj.symm.trans hset_k
        cases this; rfl
      subst this
      rw [hnbpos]
      exact K3 i bi hij hbi'
    · have hbj' : f.blockvec[j]? = some bj := by
        rw [← hset_ne j hjk]; exact hbj
      exact inv.mono i j bi bj hij (by omega) hbi' hbj'

theorem insert_inv_loop {file : Nat} {f0 : snapraid_file} {disk0 : snapraid_disk} :
    ∀ (n : Nat) (s0 s : InsertLoop),
      InsertInv file f0 disk0 0 s0 f0 →
      (List.range n).foldlM (scan_file_insert_block file) s0 = .ok s →
      ∃ fk, InsertInv file f0 disk0 n s fk := by
  intro n
  induction n with
  | zero =>
    intro s0 s inv h
    simp [pure, Except.pure] at h
    subst h
    exact ⟨f0, inv⟩
  | succ n ih =>
    intro s0 s inv h
    rw [List.range_succ, List.foldlM_append] at h
    rcases bind_ok.1 h with ⟨s1, h1, h2⟩
    rcases ih s0 s1 inv h1 with ⟨fk, inv1⟩
    simp only [List.foldlM_cons, List.foldlM_nil] at h2
    rcases bind_ok.1 h2 with ⟨s2, h3, h4⟩
    simp only [pure, Except.pure, Except.ok.injEq] at h4
    subst h4
    exact insert_inv_step inv1 h3

/-- The state of the loop of `scan_file_insert` at its end, with the invariant. -/
theorem scan_file_insert_loop {m m' : Mem} {file : Nat} {f : snapraid_file}
    (hf : heap_get m.disk.filemem file = .ok f) (h : scan_file_insert m file = .ok m') :
    ∃ s fk, InsertInv file f m.disk f.blockvec.length s fk ∧
      m'.disk.filemem = s.disk.filemem ∧ m'.disk.blockarr = s.disk.blockarr ∧
      m'.disk.deletedlist = s.disk.deletedlist ∧
      m'.disk.filelist = s.disk.filelist ++ [file] ∧
      m'.disk.first_free_block =
        (if f.blockvec.length ≠ 0 then s.block_pos + 1 else m.disk.first_free_block) := by
  unfold scan_file_insert at h
  rw [hf] at h
  rcases bind_ok.1 h with ⟨f', hf', h⟩
  cases hf'
  rcases bind_ok.1 h with ⟨s, hs, h⟩
  simp only [pure, Except.pure, Except.ok.injEq] at h
  subst h
  rcases insert_inv_loop _ _ s (insert_inv_init hf) hs with ⟨fk, inv⟩
  refine ⟨s, fk, inv, ?_, ?_, ?_, ?_, ?_⟩
  · simp only []; split <;> rfl
  · simp only []; split <;> rfl
  · simp only []; split <;> rfl
  · simp only []; split <;> rfl
  · simp only [snapraid_file.blockmax]
    split
    · rfl
    · next hz =>
      have hz' : f.blockvec.length = 0 := by simpa using hz
      simp only [snapraid_file.blockmax, hz', List.range_zero, List.foldlM_nil, pure,
        Except.pure, Except.ok.injEq] at hs
      rw [← hs]

/-- C3 (hash inheritance).  After `scan_file_insert` of a file, every block `i`
of the file owns the slot at its new parity position; if that slot held a
tombstone before the insertion, the block is in state CHG and its hash is the
hash of that tombstone; if the slot was EMPTY, or lies beyond the end of the
array as it was before the insertion (newly grown), the block is in state NEW
and its hash is the one it had when allocated. -/
theorem hash_inheritance (m m' : Mem) (file : Nat) (f : snapraid_file)
    (hf : heap_get m.disk.filemem file = .ok f) (h : scan_file_insert m file = .ok m') :
    ∃ f', heap_get m'.disk.filemem file = .ok f' ∧
      ∀ i b, f.blockvec[i]? = some b → ∃ b', f'.blockvec[i]? = some b' ∧
        m'.disk.blockarr[b'.parity_pos]? = some (some (BlockPtr.file file i)) ∧
        (∀ d, m.disk.blockarr[b'.parity_pos]? = some (some (BlockPtr.deleted d)) →
          b'.state = BlockState.CHG ∧
          ∃ del, m.disk.deletedlist[d]? = some del ∧ b'.hash = del.block.hash) ∧
        ((m.disk.blockarr[b'.parity_pos]? = some none ∨
            m.disk.blockarr.length ≤ b'.parity_pos) →
          b'.state = BlockState.NEW ∧ b'.hash = b.hash) := by
  rcases scan_file_insert_loop hf h with ⟨s, fk, inv, hmem, harr, _, _, _⟩
  refine ⟨fk, by rw [hmem]; exact inv.file_eq, ?_⟩
  intro i b hb
  have hi : i < f.blockvec.length := by
    rcases List.getElem?_eq_some.1 hb with ⟨hl, _⟩; exact hl
  rcases inv.done i hi with ⟨b0, b', h1, h2, _, _, _, h6, h7⟩
  rw [hb] at h1
  cases h1
  exact ⟨b', h2, by rw [harr]; exact h6, h7.1, h7.2⟩

theorem hash_inheritance_witness :
    ∃ f', heap_get ex_mem_inserted.disk.filemem 2 = .ok f' ∧
      ∀ i b, ex_file_c.blockvec[i]? = some b → ∃ b', f'.blockvec[i]? = some b' ∧
        ex_mem_inserted.disk.blockarr[b'.parity_pos]? = some (some (BlockPtr.file 2 i)) ∧
        (∀ d, ex_mem_removed.disk.blockarr[b'.parity_pos]? = some (some (BlockPtr.deleted d)) →
          b'.state = BlockState.CHG ∧
          ∃ del, ex_mem_removed.disk.deletedlist[d]? = some del ∧ b'.hash = del.block.hash) ∧
        ((ex_mem_removed.disk.blockarr[b'.parity_pos]? = some none ∨
            ex_mem_removed.disk.blockarr.length ≤ b'.parity_pos) →
          b'.state = BlockState.NEW ∧ b'.hash = b.hash) :=
  hash_inheritance ex_mem_removed ex_mem_inserted 2 ex_file_c (by rfl) (by rfl)

/-- An element found by `tommy_hashdyn_search` is in the table, is allocated,
and has the key searched for. -/
theorem tommy_hashdyn_search_some {α κ : Type} [DecidableEq κ] {mem : List (Option α)}
    {key : α → κ} {set : List Nat} {k : κ} {p : Nat}
    (h : tommy_hashdyn_search mem key set k = some p) :
    p ∈ set ∧ ∃ x, heap_get mem p = .ok x ∧ key x = k := by
  unfold tommy_hashdyn_search at h
  have hmem := List.mem_of_find?_eq_some h
  have hp := List.find?_some h
  refine ⟨hmem, ?_⟩
  cases hx : mem[p]? with
  | none => simp [hx] at hp
  | some o =>
    cases o with
    | none => simp [hx] at hp
    | some x =>
      simp [hx] at hp
      exact ⟨x, by simp [heap_get, hx], hp⟩

theorem find?_unique {P : Nat → Bool} {p : Nat} :
    ∀ {set : List Nat}, p ∈ set → P p = true → (∀ q ∈ set, q ≠ p → P q = false) →
      set.find? P = some p
  | [], hp, _, _ => by simp at hp
  | q :: rest, hp, hP, hu => by
    by_cases hq : q = p
    · subst hq
      rw [List.find?_cons_of_pos _ hP]
    · rw [List.find?_cons_of_neg _ (by rw [hu q (by simp) hq]; simp)]
      rcases List.mem_cons.1 hp with h1 | h1
      · exact absurd h1.symm hq
      · exact find?_unique h1 hP (fun q' hq' => hu q' (List.mem_cons_of_mem _ hq'))

/-- The search finds `p` when `p` is in the table with the key searched for and
no other element of the table has that key. -/
theorem tommy_hashdyn_search_unique {α κ : Type} [DecidableEq κ] {mem : List (Option α)}
    {key : α → κ} {set : List Nat} {k : κ} {p : Nat} {x : α}
    (hp : p ∈ set) (hx : heap_get mem p = .ok x) (hk : key x = k)
    (hu : ∀ q ∈ set, q ≠ p → ∀ y, heap_get mem q = .ok y → key y ≠ k) :
    tommy_hashdyn_search mem key set k = some p := by
  unfold tommy_hashdyn_search
  apply find?_unique hp
  · rw [heap_get_ok] at hx
    simp [hx, hk]
  · intro q hq hne
    cases hy : mem[q]? with
    | none => rfl
    | some o =>
      cases o with
      | none => rfl
      | some y =>
        simp only [decide_eq_false_iff_not]
        exact hu q hq hne y (by simp [heap_get, hy])

/-- C6 (move detection).  With inode lookup, when the lookup for the live entry
`(sub, st)` finds a file that is not yet PRESENT, with the size and the
modification time of the live entry but another sub-path, `scan_file` returns;
it adds one to `count_moved` and leaves every other counter and the delayed
lists as they are; the file gets the new sub-path and is moved to the tail of
the path table, where a search for the new path finds it unless another entry
of the table has that path; its inode, size and block vector (parity positions,
states, hashes), the block array, `first_free_block`, the inode table, the file
list and the deleted list are unchanged, and `need_write` is set. -/
theorem move_detection (m : Mem) (sub : String) (st : Stat) (file : Nat) (f : snapraid_file)
    (hname : m.state.find_by_name = false)
    (hlook : scan_file_lookup m sub st = some file)
    (hf : heap_get m.disk.filemem file = .ok f)
    (hpres : f.present = false)
    (hun : file_unchanged f st)
    (hsub : f.sub ≠ sub) :
    ∃ m' f', scan_file m sub st = .ok m' ∧
      m'.scan = { m.scan with count_moved := m.scan.count_moved + 1 } ∧
      heap_get m'.disk.filemem file = .ok f' ∧
      f'.sub = sub ∧ f'.present = true ∧
      f'.inode = f.inode ∧ f'.inode = st.st_ino ∧ f'.size = f.size ∧
      f'.mtime_sec = f.mtime_sec ∧ f'.blockvec = f.blockvec ∧
      m'.disk.pathset = m.disk.pathset.erase file ++ [file] ∧
      ((∀ q ∈ m.disk.pathset, q ≠ file → ∀ g, heap_get m.disk.filemem q = .ok g → g.sub ≠ sub) →
        tommy_hashdyn_search m'.disk.filemem snapraid_file.sub m'.disk.pathset sub = some file) ∧
      m'.disk.blockarr = m.disk.blockarr ∧
      m'.disk.first_free_block = m.disk.first_free_block ∧
      m'.disk.inodeset = m.disk.inodeset ∧
      m'.disk.filelist = m.disk.filelist ∧
      m'.disk.deletedlist = m.disk.deletedlist ∧
      m'.state.need_write = true := by
  have hino : f.inode = st.st_ino := by
    unfold scan_file_lookup at hlook
    rw [hname] at hlook
    simp only [Bool.false_eq_true, if_false] at hlook
    rcases tommy_hashdyn_search_some hlook with ⟨_, x, hx, hk⟩
    rw [hf] at hx
    cases hx
    exact hk
  have hres : scan_file m sub st = scan_file_unchanged m file f sub st := by
    unfold scan_file
    rw [hlook]
    simp only [hf, bind, Except.bind, hpres, Bool.false_eq_true, if_false, hun, if_true]
  rw [hres]
  unfold scan_file_unchanged
  simp only [hsub, ne_eq, not_false_eq_true, if_true, hino, not_true_eq_false, if_false]
  refine ⟨_, _, rfl, rfl, heap_get_set_self hf, rfl, rfl, rfl, rfl, rfl, rfl, rfl, rfl, ?_,
    rfl, rfl, rfl, rfl, rfl, rfl⟩
  intro hu
  refine tommy_hashdyn_search_unique (by simp) (heap_get_set_self hf) rfl ?_
  intro q hq hne y hy
  simp only at hq
  rcases List.mem_append.1 hq with hq | hq
  · rw [heap_get_set_ne (Ne.symm hne)] at hy
    exact hu q (List.mem_of_mem_erase hq) hne y hy
  · simp only [List.mem_singleton] at hq
    exact absurd hq hne

theorem move_detection_witness :
    ∃ m' f', scan_file ex_scan_start "z" ex_stat_a = .ok m' ∧
      m'.scan = { scan_init with count_moved := 1 } ∧
      heap_get m'.disk.filemem 0 = .ok f' ∧ f'.sub = "z" :=
  match move_detection ex_scan_start "z" ex_stat_a 0 ex_file_a rfl rfl rfl rfl
      (by decide) (by decide) with
  | ⟨m', f', h1, h2, h3, h4, _⟩ => ⟨m', f', h1, h2, h3, h4⟩

theorem scan_file_found {m : Mem} (sub : String) (st : Stat) {file : Nat} {f : snapraid_file}
    (hlook : scan_file_lookup m sub st = some file)
    (hf : heap_get m.disk.filemem file = .ok f) (hpres : f.present = false) :
    scan_file m sub st =
      if file_unchanged f st then scan_file_unchanged m file f sub st
      else scan_file_changed m file f sub st := by
  unfold scan_file
  rw [hlook]
  simp only [hf, bind, Except.bind, hpres, Bool.false_eq_true, if_false]

/-- The failures of `scan_file_remove` are those of its loop and of the memory. -/
theorem scan_file_remove_error {m : Mem} {file : Nat} {e : Fatal}
    (h : scan_file_remove m file = .error e) :
    e = Fatal.memory_error ∨ e = Fatal.block_state_inconsistency := by
  have hblock : ∀ (disk : snapraid_disk) (block : snapraid_block) (e : Fatal),
      scan_file_remove_block disk block = .error e →
      e = Fatal.memory_error ∨ e = Fatal.block_state_inconsistency := by
    intro disk block e h
    unfold scan_file_remove_block at h
    by_cases hlt : block.parity_pos < disk.blockarr.length <;>
    by_cases hff : disk.first_free_block > block.parity_pos <;>
    rcases hs : block.state with _ | _ | _ | _ <;>
    simp [hs, hlt, hff, block_state_get, bind, Except.bind, pure, Except.pure, throw, throwThe,
      MonadExceptOf.throw, tommy_array_set, deleted_dup] at h <;>
    simp [← h]
  have hloop : ∀ (rest : List snapraid_block) (disk : snapraid_disk) (e : Fatal),
      rest.foldlM scan_file_remove_block disk = .error e →
      e = Fatal.memory_error ∨ e = Fatal.block_state_inconsistency := by
    intro rest
    induction rest with
    | nil => intro disk e h; cases h
    | cons b rest ih =>
      intro disk e h
      rw [List.foldlM_cons] at h
      cases h1 : scan_file_remove_block disk b with
      | error e1 =>
        rw [h1] at h
        cases h
        exact hblock _ _ _ h1
      | ok d1 =>
        rw [h1] at h
        exact ih d1 e h
  unfold scan_file_remove at h
  cases hf : heap_get m.disk.filemem file with
  | error e1 =>
    rw [hf] at h
    cases h
    unfold heap_get at hf
    split at hf
    · cases hf
    · cases hf; exact Or.inl rfl
  | ok f =>
    rw [hf] at h
    simp only [bind, Except.bind] at h
    cases h1 : f.blockvec.foldlM scan_file_remove_block m.disk with
    | error e1 =>
      rw [h1] at h
      cases h
      exact hloop _ _ _ h1
    | ok d1 =>
      rw [h1] at h
      cases h

/-- After the changed case the old file is deallocated. -/
theorem scan_file_changed_freed {m m' : Mem} {file : Nat} {f : snapraid_file} {sub : String}
    {st : Stat} (hf : heap_get m.disk.filemem file = .ok f)
    (h : scan_file_changed m file f sub st = .ok m') :
    heap_get m'.disk.filemem file = .error Fatal.memory_error := by
  rcases scan_file_changed_ok h with ⟨scan1, m1, _, hr, rfl⟩
  rcases scan_file_remove_frame hr with ⟨_, _, hm, _⟩
  have hlt : file < m.disk.filemem.length := by
    rw [heap_get_ok] at hf
    rcases List.getElem?_eq_some.1 hf with ⟨hl, _⟩; exact hl
  simp only [scan_file_add, heap_alloc, hm, heap_free, heap_get]
  rw [List.getElem?_append_left (by simpa using hlt), List.getElem?_set_self hlt]

theorem scan_file_changed_error {m : Mem} {file : Nat} {f : snapraid_file} {sub : String}
    {st : Stat} {e : Fatal} (h : scan_file_changed m file f sub st = .error e) :
    e = Fatal.zero_size ∨ e = Fatal.memory_error ∨ e = Fatal.block_state_inconsistency := by
  unfold scan_file_changed at h
  split at h
  · cases h; exact Or.inl rfl
  · simp only [bind, Except.bind] at h
    split at h
    · next e1 h1 => cases h; exact Or.inr (scan_file_remove_error h1)
    · cases h

/-- C7 (unchanged decision).  For a file found by the lookup and not yet
PRESENT, `scan_file` treats the file as unchanged exactly when the stored size
equals the live size, the stored `mtime_sec` equals the live seconds, and the
stored `mtime_nsec` equals the live nanoseconds or is
`FILE_MTIME_NSEC_INVALID`.  When the call returns in that case the file is
marked PRESENT, and if the stored nanoseconds were invalid and the live ones
are not, the stored nanoseconds are the live ones and `need_write` is set. -/
theorem unchanged_decision (m : Mem) (sub : String) (st : Stat) (file : Nat) (f : snapraid_file)
    (hlook : scan_file_lookup m sub st = some file)
    (hf : heap_get m.disk.filemem file = .ok f)
    (hpres : f.present = false) :
    (treated_unchanged m file (scan_file m sub st) ↔
      (f.size = st.st_size ∧ f.mtime_sec = st.st_mtime ∧
        (f.mtime_nsec = st.st_nsec ∨ f.mtime_nsec = FILE_MTIME_NSEC_INVALID))) ∧
    (file_unchanged f st → ∀ m', scan_file m sub st = .ok m' →
      ∃ f', heap_get m'.disk.filemem file = .ok f' ∧ f'.present = true ∧
        (f.mtime_nsec = FILE_MTIME_NSEC_INVALID → st.st_nsec ≠ FILE_MTIME_NSEC_INVALID →
          f'.mtime_nsec = st.st_nsec ∧ m'.state.need_write = true)) := by
  have hres := scan_file_found sub st hlook hf hpres
  constructor
  · constructor
    · intro ht
      by_contra hun
      have hun' : ¬ file_unchanged f st := hun
      rw [hres, if_neg hun'] at ht
      rcases ht with ht | ⟨m', f', ht, hf', _⟩
      · rcases scan_file_changed_error ht with h | h | h <;> cases h
      · rw [scan_file_changed_freed hf ht] at hf'
        cases hf'
    · intro hun
      have hun' : file_unchanged f st := hun
      rw [hres, if_pos hun']
      unfold scan_file_unchanged treated_unchanged
      dsimp only
      split
      · split
        · exact Or.inl rfl
        · refine Or.inr ⟨_, _, rfl, heap_get_set_self hf, rfl, rfl, rfl, rfl, rfl, ?_⟩
          simp only []; omega
      · split
        · refine Or.inr ⟨_, _, rfl, heap_get_set_self hf, rfl, rfl, rfl, rfl, rfl, ?_⟩
          simp only []; omega
        · refine Or.inr ⟨_, _, rfl, heap_get_set_self hf, rfl, rfl, rfl, rfl, rfl, ?_⟩
          simp only []; omega
  · intro hun m' h
    rw [hres, if_pos hun] at h
    unfold scan_file_unchanged at h
    dsimp only at h
    split at h
    · split at h
      · cases h
      · simp only [pure, Except.pure, Except.ok.injEq] at h
        subst h
        refine ⟨_, heap_get_set_self hf, rfl, ?_⟩
        intro h1 h2
        simp [h1, h2]
    · split at h
      · simp only [pure, Except.pure, Except.ok.injEq] at h
        subst h
        refine ⟨_, heap_get_set_self hf, rfl, ?_⟩
        intro h1 h2
        simp [h1, h2]
      · simp only [pure, Except.pure, Except.ok.injEq] at h
        subst h
        refine ⟨_, heap_get_set_self hf, rfl, ?_⟩
        intro h1 h2
        simp [h1, h2]

theorem unchanged_decision_witness :
    treated_unchanged ex_scan_start 0 (scan_file ex_scan_start "a" ex_stat_a) :=
  (unchanged_decision ex_scan_start "a" ex_stat_a 0 ex_file_a rfl rfl rfl).1.2 (by decide)

/-- C8 (zero-size regression guard).  For a file found by the lookup, not yet
PRESENT and classified as changed, `scan_file` stops with the zero size error
exactly when the stored size is not 0, the live size is 0, the stored sub-path
is the live sub-path and `force_zero` is off.  In every other case, so when
the sub-path differs or `force_zero` is on, the file is processed as an update
or as a removal and addition: the result is that of removing the file and
staging the new one with the counters of that classification, and the call
returns whenever the blocks of the file are inside the block array and in one
of the states BLK, CHG, NEW. -/
theorem zero_size_guard (m : Mem) (sub : String) (st : Stat) (file : Nat) (f : snapraid_file)
    (hlook : scan_file_lookup m sub st = some file)
    (hf : heap_get m.disk.filemem file = .ok f)
    (hpres : f.present = false)
    (hch : ¬ file_unchanged f st) :
    (scan_file m sub st = .error Fatal.zero_size ↔
      (f.size ≠ 0 ∧ st.st_size = 0 ∧ f.sub = sub ∧ m.state.force_zero = false)) ∧
    (¬ (f.size ≠ 0 ∧ st.st_size = 0 ∧ f.sub = sub ∧ m.state.force_zero = false) →
      scan_file m sub st =
        (scan_file_remove { m with scan := changed_counters m.scan f sub } file).map
          (fun m1 => scan_file_add m1 sub st)) ∧
    (¬ (f.size ≠ 0 ∧ st.st_size = 0 ∧ f.sub = sub ∧ m.state.force_zero = false) →
      (∀ b ∈ f.blockvec,
        b.parity_pos < m.disk.blockarr.length ∧ b.state ≠ BlockState.DELETED) →
      ∃ m1, scan_file_remove { m with scan := changed_counters m.scan f sub } file = .ok m1 ∧
        scan_file m sub st = .ok (scan_file_add m1 sub st)) := by
  have hres := scan_file_found sub st hlook hf hpres
  rw [if_neg hch] at hres
  have hno : ¬ (f.size ≠ 0 ∧ st.st_size = 0 ∧ f.sub = sub ∧ m.state.force_zero = false) →
      scan_file m sub st =
        (scan_file_remove { m with scan := changed_counters m.scan f sub } file).map
          (fun m1 => scan_file_add m1 sub st) := by
    intro hg
    rw [hres]
    unfold scan_file_changed
    rw [if_neg hg]
    simp only [bind, Except.bind, changed_counters, Except.map, pure, Except.pure]
  refine ⟨⟨?_, ?_⟩, hno, ?_⟩
  · intro h
    by_contra hg
    rw [hno hg] at h
    cases hr : scan_file_remove { m with scan := changed_counters m.scan f sub } file with
    | error e =>
      rw [hr] at h
      simp only [Except.map, Except.error.injEq] at h
      subst h
      rcases scan_file_remove_error hr with h | h <;> cases h
    | ok m1 =>
      rw [hr] at h
      cases h
  · intro hg
    rw [hres]
    unfold scan_file_changed
    rw [if_pos hg]
    rfl
  · intro hg hb
    rcases scan_file_remove_returns { m with scan := changed_counters m.scan f sub } file f hf hb
      with ⟨m1, h1⟩
    exact ⟨m1, h1, by rw [hno hg, h1]; rfl⟩

theorem zero_size_guard_witness :
    scan_file ex_mem_zero "a" ex_stat_zero = .error Fatal.zero_size ∧
    ∃ m1, scan_file_remove
        { ex_mem_zero with scan := changed_counters ex_mem_zero.scan ex_file_big "c" } 0 = .ok m1 ∧
      scan_file ex_mem_zero "c" ex_stat_zero = .ok (scan_file_add m1 "c" ex_stat_zero) :=
  ⟨(zero_size_guard ex_mem_zero "a" ex_stat_zero 0 ex_file_big rfl rfl rfl (by decide)).1.2
      (by decide),
   (zero_size_guard ex_mem_zero "c" ex_stat_zero 0 ex_file_big rfl rfl rfl (by decide)).2.2
      (by decide) (by decide)⟩

theorem state_frame_refl (s : snapraid_state) : state_frame s s := ⟨rfl, rfl, rfl, rfl⟩

theorem state_frame_trans {a b c : snapraid_state} (h1 : state_frame a b) (h2 : state_frame b c) :
    state_frame a c :=
  ⟨h2.1.trans h1.1, h2.2.1.trans h1.2.1, h2.2.2.1.trans h1.2.2.1, h2.2.2.2.trans h1.2.2.2⟩

theorem scan_file_state_frame {m m' : Mem} {sub : String} {st : Stat}
    (h : scan_file m sub st = .ok m') : state_frame m.state m'.state := by
  rcases scan_file_cases h with ⟨_, rfl⟩ | ⟨file, f, _, _, _, _, hl⟩ | ⟨file, f, _, hf, _, _, hu⟩ |
    ⟨file, f, _, _, _, _, hc⟩
  · exact state_frame_refl _
  · rw [(scan_link_file_part hl).1]; exact state_frame_refl _
  · unfold scan_file_unchanged at hu
    dsimp only at hu
    split at hu
    · split at hu
      · cases hu
      · simp only [pure, Except.pure, Except.ok.injEq] at hu
        subst hu; exact ⟨rfl, rfl, rfl, rfl⟩
    · split at hu <;>
      · simp only [pure, Except.pure, Except.ok.injEq] at hu
        subst hu; exact ⟨rfl, rfl, rfl, rfl⟩
  · rcases scan_file_changed_ok hc with ⟨scan1, m1, _, hr, rfl⟩
    rcases scan_file_remove_frame hr with ⟨_, hs, _⟩
    simp only [scan_file_add, heap_alloc, hs]
    exact ⟨rfl, rfl, rfl, rfl⟩

theorem scan_disk_state_frame {flt : Filters} {fs : String → FsNode} {state : snapraid_state}
    {disk : snapraid_disk} {m' : Mem} (h : scan_disk flt fs state disk = .ok m') :
    state_frame state m'.state := by
  rcases scan_disk_ok h with ⟨r, m1, m2, m3, m4, hr, h1, h2, h3, h4, rfl⟩
  have hfr : state_frame state r.1.state :=
    scan_dir_preserves (fun m => state_frame state m.state) flt
      (fun _ _ _ _ hi h => state_frame_trans hi (scan_file_state_frame h))
      (fun _ _ _ _ _ hi h => by
        show state_frame state _
        rw [(scan_link_file_part h).1]; exact hi)
      (fun _ _ _ hi h => by
        show state_frame state _
        rw [(scan_emptydir_file_part h).1]; exact hi)
      _ _ _ _ _ (state_frame_refl _) hr
  have hf1 : state_frame state m1.state :=
    foldlM_preserves (fun m => state_frame state m.state) sweep_file
      (fun b a b' hi h => by
        unfold sweep_file at h
        rcases bind_ok.1 h with ⟨f, _, h⟩
        split at h
        · rcases scan_file_remove_frame h with ⟨_, hs, _⟩
          rw [hs]; exact state_frame_trans hi ⟨rfl, rfl, rfl, rfl⟩
        · simp only [pure, Except.pure, Except.ok.injEq] at h
          subst h; exact hi)
      _ _ _ hfr h1
  have hf2 : state_frame state m2.state :=
    foldlM_preserves (fun m => state_frame state m.state) sweep_link
      (fun b a b' hi h => by
        unfold sweep_link at h
        rcases bind_ok.1 h with ⟨f, _, h⟩
        split at h <;>
        · simp only [pure, Except.pure, Except.ok.injEq] at h
          subst h; exact state_frame_trans hi ⟨rfl, rfl, rfl, rfl⟩)
      _ _ _ hf1 h2
  have hf3 : state_frame state m3.state :=
    foldlM_preserves (fun m => state_frame state m.state) sweep_dir
      (fun b a b' hi h => by
        unfold sweep_dir at h
        rcases bind_ok.1 h with ⟨f, _, h⟩
        split at h <;>
        · simp only [pure, Except.pure, Except.ok.injEq] at h
          subst h; exact state_frame_trans hi ⟨rfl, rfl, rfl, rfl⟩)
      _ _ _ hf2 h3
  have hf4 : state_frame state m4.state :=
    foldlM_preserves (fun m => state_frame state m.state) scan_file_insert
      (fun b a b' hi h => by
        unfold scan_file_insert at h
        rcases bind_ok.1 h with ⟨f, _, h⟩
        rcases bind_ok.1 h with ⟨s, _, h⟩
        simp only [pure, Except.pure, Except.ok.injEq] at h
        subst h; exact state_frame_trans hi ⟨rfl, rfl, rfl, rfl⟩)
      _ _ _ hf3 h4
  have hf5 : state_frame state (m4.scan.link_insert_list.foldl scan_link_insert m4).state :=
    foldl_preserves (fun m => state_frame state m.state) scan_link_insert
      (fun b a hb => state_frame_trans hb ⟨rfl, rfl, rfl, rfl⟩) _ _ hf4
  exact foldl_preserves (fun m => state_frame state m.state) scan_emptydir_insert
    (fun b a hb => state_frame_trans hb ⟨rfl, rfl, rfl, rfl⟩) _ _ hf5

theorem state_scan_disks_frame (flt : Filters) (fs : String → FsNode) :
    ∀ (disklist : List snapraid_disk) (r0 r : ScanResult),
      state_scan_disks flt fs disklist r0 = .ok r →
      state_frame r0.state r.state ∧
      r.disklist.length = r0.disklist.length + disklist.length ∧
      r.scanlist.length = r0.scanlist.length + disklist.length
  | [], r0, r, h => by
    simp [state_scan_disks, pure, Except.pure] at h
    subst h; exact ⟨state_frame_refl _, rfl, rfl⟩
  | disk :: rest, r0, r, h => by
    rw [state_scan_disks] at h
    rcases bind_ok.1 h with ⟨m, hm, h2⟩
    rcases state_scan_disks_frame flt fs rest _ r h2 with ⟨a1, a2, a3⟩
    refine ⟨state_frame_trans (scan_disk_state_frame hm) a1, ?_, ?_⟩
    · rw [a2]; simp; omega
    · rw [a3]; simp; omega

theorem any_zip_snd {α β : Type} (p : β → Bool) :
    ∀ (l1 : List α) (l2 : List β), l1.length = l2.length →
      ((List.zip l1 l2).any (fun x => p x.2) = true ↔ ∃ b ∈ l2, p b = true)
  | [], [], _ => by simp
  | [], _ :: _, h => by simp at h
  | _ :: _, [], h => by simp at h
  | a :: l1, b :: l2, h => by
    have ih := any_zip_snd p l1 l2 (by simpa using h)
    simp only [List.zip_cons_cons, List.any_cons, Bool.or_eq_true, ih, List.mem_cons,
      exists_eq_or_imp]

/-- C9 (empty-disk safety gate).  Once the loop over the disks has returned
without a fatal error, `state_scan` stops with the empty disk error exactly
when `force_empty` is off and the counters of some disk have
`count_equal == 0`, `count_moved == 0` and `count_remove != 0`; otherwise it
returns the result of the loop.  In particular the scan of a disk with five
catalogued files, all gone from the live file system, stops with that error. -/
theorem empty_disk_gate (flt : Filters) (fs : String → FsNode) (state : snapraid_state)
    (disklist : List snapraid_disk) (r : ScanResult)
    (h : state_scan_disks flt fs disklist { state := state, disklist := [], scanlist := [] }
      = .ok r) :
    (state_scan flt fs state disklist = .error Fatal.empty_disk ↔
      (state.force_empty = false ∧
        ∃ scan ∈ r.scanlist,
          scan.count_equal = 0 ∧ scan.count_moved = 0 ∧ scan.count_remove ≠ 0)) ∧
    (state_scan flt fs state disklist ≠ .error Fatal.empty_disk →
      state_scan flt fs state disklist = .ok r) ∧
    state_scan ex_filters ex_tree_empty ex_state [ex_catalog5] = .error Fatal.empty_disk := by
  rcases state_scan_disks_frame flt fs disklist _ r h with ⟨hfr, hl1, hl2⟩
  have hlen : r.disklist.length = r.scanlist.length := by
    rw [hl1, hl2]; rfl
  have hfe : r.state.force_empty = state.force_empty := hfr.2.2.1
  have hany := any_zip_snd scan_is_empty r.disklist r.scanlist hlen
  have hex : (∃ b ∈ r.scanlist, scan_is_empty b = true) ↔
      ∃ scan ∈ r.scanlist,
        scan.count_equal = 0 ∧ scan.count_moved = 0 ∧ scan.count_remove ≠ 0 := by
    simp [scan_is_empty]
  have hres : state_scan flt fs state disklist =
      if state.force_empty = false then
        if (List.zip r.disklist r.scanlist).any (fun x => scan_is_empty x.2) = true then
          .error Fatal.empty_disk
        else .ok r
      else .ok r := by
    unfold state_scan
    rw [h]
    simp only [bind, Except.bind, hfe]
    rfl
  refine ⟨?_, ?_, by rfl⟩
  · rw [hres]
    constructor
    · intro hs
      split at hs
      · next hf =>
        split at hs
        · next ha => exact ⟨hf, hex.1 (hany.1 ha)⟩
        · cases hs
      · cases hs
    · rintro ⟨hf, hs⟩
      rw [if_pos hf, if_pos (hany.2 (hex.2 hs))]
  · rw [hres]
    intro hne
    split
    · split
      · next hf ha => simp [hf, ha] at hne
      · rfl
    · rfl

theorem empty_disk_gate_witness :
    ex_loop5.scanlist = [{ scan_init with count_remove := 5 }] ∧
    state_scan ex_filters ex_tree_empty ex_state [ex_catalog5] = .error Fatal.empty_disk :=
  ⟨by rfl,
   (empty_disk_gate ex_filters ex_tree_empty ex_state [ex_catalog5] ex_loop5 (by rfl)).1.2
     ⟨rfl, by decide⟩⟩

/-- C10 (hardlink capture).  When the lookup of `scan_file` finds a file that
is already PRESENT: if the live entry has `nlink > 1` the call is the call
`scan_link(sub, file->sub, FILE_IS_HARDLINK)`, which leaves the file memory,
the file list, both file tables, the block array and the delayed file list
untouched; otherwise the call stops with the inode inconsistency error.
Consequently, under inode lookup, the catalog of a file `a` and a hardlink `b`
to `a`, scanned against a tree where `a` and `b` share the inode and `a` comes
first, gives `equal = 2` and no other count. -/
theorem hardlink_capture (m : Mem) (sub : String) (st : Stat) (file : Nat) (f : snapraid_file)
    (hlook : scan_file_lookup m sub st = some file)
    (hf : heap_get m.disk.filemem file = .ok f)
    (hpres : f.present = true) :
    (st.st_nlink > 1 →
      scan_file m sub st = scan_link m sub f.sub LinkKind.FILE_IS_HARDLINK ∧
      ∀ m', scan_file m sub st = .ok m' → file_part_eq m m') ∧
    (st.st_nlink ≤ 1 → scan_file m sub st = .error Fatal.inode_present_inconsistency) ∧
    (state_scan ex_filters ex_tree_hl ex_state [ex_catalog_hl]).toOption.map
        (fun r => r.scanlist) = some [{ scan_init with count_equal := 2 }] := by
  have hres : scan_file m sub st =
      if st.st_nlink > 1 then scan_link m sub f.sub LinkKind.FILE_IS_HARDLINK
      else .error Fatal.inode_present_inconsistency := by
    unfold scan_file
    rw [hlook]
    simp only [hf, bind, Except.bind, hpres, if_true]
    rfl
  refine ⟨?_, ?_, by rfl⟩
  · intro hn
    rw [hres, if_pos hn]
    exact ⟨rfl, fun m' h => scan_link_file_part h⟩
  · intro hn
    rw [hres, if_neg (by omega)]

theorem hardlink_capture_witness :
    scan_file ex_mem_hl "b" ex_stat_hl = scan_link ex_mem_hl "b" "a" LinkKind.FILE_IS_HARDLINK ∧
    scan_file ex_mem_hl "b" { ex_stat_hl with st_nlink := 1 } =
      .error Fatal.inode_present_inconsistency :=
  ⟨((hardlink_capture ex_mem_hl "b" ex_stat_hl 0
      { sub := "a", size := 10, mtime_sec := 1000, mtime_nsec := 0, inode := 100,
        present := true,
        blockvec := [{ parity_pos := 0, state := BlockState.BLK, hash := ex_hash 7 }] }
      (by rfl) (by rfl) rfl).1 (by decide)).1,
   (hardlink_capture ex_mem_hl "b" { ex_stat_hl with st_nlink := 1 } 0
      { sub := "a", size := 10, mtime_sec := 1000, mtime_nsec := 0, inode := 100,
        present := true,
        blockvec := [{ parity_pos := 0, state := BlockState.BLK, hash := ex_hash 7 }] }
      (by rfl) (by rfl) rfl).2.1 (by decide)⟩

theorem mem_nonlive {disk : snapraid_disk} {a t : Nat} :
    t ∈ nonlive disk a ↔ t < disk.blockarr.length ∧ a ≤ t ∧ slot_live disk t = false := by
  simp [nonlive]

theorem slot_live_congr {d d' : snapraid_disk} {t : Nat}
    (harr : d'.blockarr[t]? = d.blockarr[t]?)
    (hget : ∀ p, d.blockarr[t]? = some (some p) → block_get d' p = block_get d p) :
    slot_live d' t = slot_live d t := by
  unfold slot_live
  rw [harr]
  cases hc : d.blockarr[t]? with
  | none => rfl
  | some c =>
    cases c with
    | none => rfl
    | some p =>
      simp only [block_has_file]
      rw [hget p hc]

theorem slot_live_of_has_file {d : snapraid_disk} {t : Nat} {c : Option BlockPtr}
    (hc : d.blockarr[t]? = some c) (h : block_has_file d c = .ok true) : slot_live d t = true := by
  simp [slot_live, hc, h]

theorem slot_live_false_of_has_file {d : snapraid_disk} {t : Nat} {c : Option BlockPtr}
    (hc : d.blockarr[t]? = some c) (h : block_has_file d c = .ok false) :
    slot_live d t = false := by
  simp [slot_live, hc, h]

/-- Under slot ownership a live slot is occupied by a file block. -/
theorem slot_occupied_of_live {d : snapraid_disk} (hown : slot_ownership d) {t : Nat}
    (h : slot_live d t = true) : slot_occupied d t = true := by
  unfold slot_live at h
  unfold slot_occupied
  cases hc : d.blockarr[t]? with
  | none => simp [hc] at h
  | some c =>
    rw [hc] at h
    cases c with
    | none => simp [block_has_file, pure, Except.pure] at h
    | some p =>
      cases p with
      | file g j => rfl
      | deleted dd =>
        exfalso
        have key := (slot_ownership_iff d).1 hown t _ hc
        simp only [slot_owned] at key
        rcases key with ⟨b, hb, hs, _⟩
        simp [block_has_file, hb, bind, Except.bind, pure, Except.pure, block_state_get, hs] at h

theorem reuse_inv_step {file lo len0 : Nat} {A : List (Option BlockPtr)} {i n : Nat}
    {s s' : InsertLoop} (inv : ReuseInv file lo len0 A i s (n + 1))
    (h : scan_file_insert_block file s i = .ok s') :
    ReuseInv file lo len0 A (i + 1) s' n := by
  rcases insert_block_ok h with ⟨pos, f, b, c, nb, hfind, hf, hb, hc, hnb, hs'⟩
  rcases insert_step_inv h inv.own inv.idx with ⟨own', idx'⟩
  rcases find_free_block_ok s.disk s.block_max _ s.block_pos pos (Nat.le_refl _) hfind with
    ⟨hle, hpass, hstop⟩
  have hilt : i < f.blockvec.length := by
    rcases List.getElem?_eq_some.1 hb with ⟨hl, _⟩; exact hl
  -- a slot that is not live lies ahead, so the search stops inside the array
  have hne : (nonlive s.disk s.block_pos).Nonempty := by
    rw [← Finset.card_pos, inv.card_eq]; omega
  rcases hne with ⟨t0, ht0⟩
  rcases mem_nonlive.1 ht0 with ⟨ht0l, ht0p, ht0n⟩
  have hpass_live : ∀ t, s.block_pos ≤ t → t < pos → slot_live s.disk t = true := by
    intro t h1 h2
    rcases hpass t h1 h2 with ⟨_, c', hc', hh⟩
    exact slot_live_of_has_file hc' hh
  have hposlt : pos < s.block_max := by
    by_contra hcon
    have : slot_live s.disk t0 = true := hpass_live t0 ht0p (by rw [inv.max_eq] at hcon; omega)
    rw [this] at ht0n
    cases ht0n
  have hposlen : pos < s.disk.blockarr.length := by rw [← inv.max_eq]; exact hposlt
  have hnotlive : slot_live s.disk pos = false := by
    rcases hstop with hstop | ⟨c', hc', hh⟩
    · omega
    · exact slot_live_false_of_has_file hc' hh
  have hgrow : insert_grow s pos = s.disk := by
    unfold insert_grow
    rw [if_neg (by omega)]
  rw [hgrow] at hs'
  have harr' : s'.disk.blockarr = s.disk.blockarr.set pos (some (BlockPtr.file file i)) := by
    rw [hs']
  have hfm' : s'.disk.filemem =
      heap_set s.disk.filemem file { f with blockvec := f.blockvec.set i nb } := by rw [hs']
  have hdl' : s'.disk.deletedlist = s.disk.deletedlist := by rw [hs']
  have hget : ∀ p, p ≠ BlockPtr.file file i → block_get s'.disk p = block_get s.disk p := by
    intro p hp
    cases p with
    | deleted d => simp [block_get, hdl']
    | file g j =>
      simp only [block_get, hfm']
      by_cases hg : file = g
      · subst hg
        have hj : j ≠ i := fun hji => hp (by rw [hji])
        rw [heap_get_set_self hf, hf]
        simp only [bind, Except.bind]
        rw [List.getElem?_set_ne (Ne.symm hj)]
      · rw [heap_get_set_ne hg]
  have hlive_ne : ∀ t, t ≠ pos → slot_live s'.disk t = slot_live s.disk t := by
    intro t ht
    apply slot_live_congr
    · rw [harr', List.getElem?_set_ne (Ne.symm ht)]
    · intro p hp
      apply hget
      rintro rfl
      have := inv.idx t i hp
      omega
  have hlive_pos : slot_live s'.disk pos = true := by
    refine @slot_live_of_has_file _ _ (some (BlockPtr.file file i)) ?_ ?_
    · rw [harr', List.getElem?_set_self hposlen]
    · exact block_has_file_live (by rw [hfm']; exact heap_get_set_self hf)
        (List.getElem?_set_self hilt) (insert_new_block_state hnb)
  have hlen' : s'.disk.blockarr.length = s.disk.blockarr.length := by
    rw [harr', List.length_set]
  have hbp' : s'.block_pos = pos := by rw [hs']
  have hset : nonlive s'.disk s'.block_pos = (nonlive s.disk s.block_pos).erase pos := by
    ext t
    rw [Finset.mem_erase, mem_nonlive, mem_nonlive, hlen', hbp']
    constructor
    · rintro ⟨h1, h2, h3⟩
      have htp : t ≠ pos := by
        rintro rfl
        rw [hlive_pos] at h3
        cases h3
      rw [hlive_ne t htp] at h3
      exact ⟨htp, h1, by omega, h3⟩
    · rintro ⟨htp, h1, h2, h3⟩
      refine ⟨h1, ?_, by rw [hlive_ne t htp]; exact h3⟩
      by_contra hcon
      have := hpass_live t h2 (by omega)
      rw [this] at h3
      cases h3
  have hmem : pos ∈ nonlive s.disk s.block_pos := mem_nonlive.2 ⟨hposlen, hle, hnotlive⟩
  constructor
  · exact own'
  · exact idx'
  · rw [hlen', hs']
    simp only []
    rw [if_neg (by omega)]
    exact inv.max_eq
  · rw [hlen']; exact inv.len_eq
  · rw [hbp']; exact Nat.le_trans inv.lo_le hle
  · intro t h1 h2
    rw [hbp'] at h2
    rw [hlive_ne t (by omega)]
    by_cases hlt : t < s.block_pos
    · exact inv.below_live t h1 hlt
    · exact hpass_live t (by omega) h2
  · intro t ht
    have := inv.lo_le
    rw [harr', List.getElem?_set_ne (by omega)]
    exact inv.low t ht
  · rw [hset, Finset.card_erase_of_mem hmem, inv.card_eq]
    rfl
  · intro _
    rw [hbp']; exact hlive_pos

theorem reuse_inv_loop {file lo len0 : Nat} {A : List (Option BlockPtr)} :
    ∀ (k n : Nat) (s0 s : InsertLoop),
      ReuseInv file lo len0 A 0 s0 (k + n) →
      (List.range k).foldlM (scan_file_insert_block file) s0 = .ok s →
      ReuseInv file lo len0 A k s n := by
  intro k
  induction k with
  | zero =>
    intro n s0 s inv h
    simp [pure, Except.pure] at h
    subst h
    simpa using inv
  | succ k ih =>
    intro n s0 s inv h
    rw [List.range_succ, List.foldlM_append] at h
    rcases bind_ok.1 h with ⟨s1, h1, h2⟩
    have inv1 := ih (n + 1) s0 s1 (by rw [show k + (n + 1) = k + 1 + n by omega]; exact inv) h1
    simp only [List.foldlM_cons, List.foldlM_nil] at h2
    rcases bind_ok.1 h2 with ⟨s2, h3, h4⟩
    simp only [pure, Except.pure, Except.ok.injEq] at h4
    subst h4
    exact reuse_inv_step inv1 h3

theorem slot_ownership_with_file {disk : snapraid_disk} (file : Nat)
    (hown : slot_ownership disk) : slot_ownership (with_file disk file) := by
  rw [slot_ownership_iff] at hown ⊢
  intro t c hc
  have key := hown t c hc
  cases c with
  | none => trivial
  | some p =>
    cases p with
    | deleted d => simpa [slot_owned, with_file, block_get] using key
    | file g j =>
      simp only [slot_owned, with_file, block_get] at key ⊢
      exact ⟨List.mem_append_left _ key.1, key.2⟩

theorem slot_live_eq_of_fields (d d' : snapraid_disk) (ha : d'.blockarr = d.blockarr)
    (hm : d'.filemem = d.filemem) (hd : d'.deletedlist = d.deletedlist) (t : Nat) :
    slot_live d' t = slot_live d t := by
  apply slot_live_congr
  · rw [ha]
  · intro p _
    cases p <;> simp [block_get, hm, hd]

theorem nonlive_eq_of_fields (d d' : snapraid_disk) (ha : d'.blockarr = d.blockarr)
    (hm : d'.filemem = d.filemem) (hd : d'.deletedlist = d.deletedlist) (a : Nat) :
    nonlive d' a = nonlive d a := by
  ext t
  rw [mem_nonlive, mem_nonlive, ha, slot_live_eq_of_fields d d' ha hm hd]

/-- The loop of `scan_file_insert` changes the file memory at `file` only. -/
theorem insert_loop_mem_other (file : Nat) (l : List Nat) (s0 s : InsertLoop)
    (h : l.foldlM (scan_file_insert_block file) s0 = .ok s) :
    ∀ g, g ≠ file → heap_get s.disk.filemem g = heap_get s0.disk.filemem g :=
  foldlM_preserves
    (fun x : InsertLoop => ∀ g, g ≠ file → heap_get x.disk.filemem g = heap_get s0.disk.filemem g)
    (scan_file_insert_block file)
    (by
      intro b a b' hb hstep g hg
      rcases insert_block_ok hstep with ⟨_, _, _, _, _, _, _, _, _, _, hb'⟩
      rw [hb']
      show heap_get (heap_set _ _ _) g = _
      rw [heap_get_set_ne (Ne.symm hg)]
      exact hb g hg)
    l s0 s (fun _ _ => rfl) h

/-- Reuse by one file: when at least as many slots at or above the hint are not
live as the file has blocks, `scan_file_insert` keeps the length of the array
and takes that many of them. -/
theorem reuse_file {m m' : Mem} {file lo len0 n : Nat} {A : List (Option BlockPtr)}
    {f : snapraid_file}
    (hown : slot_ownership m.disk) (hfresh : file ∉ m.disk.filelist)
    (hf : heap_get m.disk.filemem file = .ok f)
    (hlen : m.disk.blockarr.length = len0)
    (hlo : lo ≤ m.disk.first_free_block)
    (hbelow : ∀ t, lo ≤ t → t < m.disk.first_free_block → slot_live m.disk t = true)
    (hlow : ∀ t, t < lo → m.disk.blockarr[t]? = A[t]?)
    (hcard : (nonlive m.disk m.disk.first_free_block).card = f.blockmax + n)
    (h : scan_file_insert m file = .ok m') :
    slot_ownership m'.disk ∧
    m'.disk.filelist = m.disk.filelist ++ [file] ∧
    m'.disk.blockarr.length = len0 ∧
    lo ≤ m'.disk.first_free_block ∧
    (∀ t, lo ≤ t → t < m'.disk.first_free_block → slot_live m'.disk t = true) ∧
    (∀ t, t < lo → m'.disk.blockarr[t]? = A[t]?) ∧
    (nonlive m'.disk m'.disk.first_free_block).card = n ∧
    (∀ g, g ≠ file → heap_get m'.disk.filemem g = heap_get m.disk.filemem g) := by
  have hown' := scan_file_insert_slot_ownership m m' file hown hfresh h
  have hfl := (scan_file_insert_frame h).1
  unfold scan_file_insert at h
  rw [hf] at h
  rcases bind_ok.1 h with ⟨f', hf', h⟩
  cases hf'
  rcases bind_ok.1 h with ⟨s, hs, h⟩
  simp only [pure, Except.pure, Except.ok.injEq] at h
  have hno : ∀ t j : Nat, m.disk.blockarr[t]? = some (some (BlockPtr.file file j)) → j < 0 := by
    intro t j hc
    have key := (slot_ownership_iff _).1 hown t _ hc
    simp only [slot_owned] at key
    exact absurd key.1 hfresh
  have inv0 : ReuseInv file lo len0 A 0
      ⟨m.disk, m.disk.first_free_block, m.disk.blockarr.length⟩ (f.blockmax + n) :=
    { own := slot_ownership_with_file file hown
      idx := hno
      max_eq := rfl
      len_eq := hlen
      lo_le := hlo
      below_live := hbelow
      low := hlow
      card_eq := hcard
      at_live := fun h0 => by omega }
  have inv := reuse_inv_loop f.blockmax n _ s inv0 hs
  have hother := insert_loop_mem_other file _ _ s hs
  by_cases hz : f.blockmax = 0
  · have hs0 : s = ⟨m.disk, m.disk.first_free_block, m.disk.blockarr.length⟩ := by
      rw [hz] at hs
      simp only [List.range_zero, List.foldlM_nil, pure, Except.pure, Except.ok.injEq] at hs
      exact hs.symm
    rw [if_neg (by simpa using hz)] at h
    subst h
    subst hs0
    refine ⟨hown', hfl, hlen, hlo, ?_, hlow, ?_, ?_⟩
    · intro t h1 h2
      refine (slot_live_eq_of_fields m.disk _ ?_ ?_ ?_ t).trans (hbelow t h1 h2) <;> rfl
    · have e := nonlive_eq_of_fields m.disk
        { m.disk with filelist := m.disk.filelist ++ [file] } rfl rfl rfl
      show (nonlive { m.disk with filelist := m.disk.filelist ++ [file] }
        m.disk.first_free_block).card = n
      rw [e, hcard, hz]; omega
    · intro g _; rfl
  · rw [if_pos hz] at h
    subst h
    have hlast := inv.at_live (Nat.pos_of_ne_zero hz)
    refine ⟨hown', hfl, inv.len_eq, ?_, ?_, inv.low, ?_, ?_⟩
    · have := inv.lo_le
      show lo ≤ s.block_pos + 1
      omega
    · intro t h1 h2
      have h2' : t < s.block_pos + 1 := h2
      refine (slot_live_eq_of_fields s.disk _ ?_ ?_ ?_ t).trans ?_
      · rfl
      · rfl
      · rfl
      · by_cases ht : t = s.block_pos
        · rw [ht]; exact hlast
        · exact inv.below_live t h1 (by omega)
    · have e := nonlive_eq_of_fields s.disk
        { s.disk with first_free_block := s.block_pos + 1, filelist := s.disk.filelist ++ [file] }
        rfl rfl rfl
      show (nonlive
        { s.disk with first_free_block := s.block_pos + 1, filelist := s.disk.filelist ++ [file] }
        (s.block_pos + 1)).card = n
      rw [e, ← inv.card_eq]
      congr 1
      ext t
      rw [mem_nonlive, mem_nonlive]
      constructor
      · rintro ⟨h1, h2, h3⟩
        exact ⟨h1, by omega, h3⟩
      · rintro ⟨h1, h2, h3⟩
        refine ⟨h1, ?_, h3⟩
        by_contra hcon
        have : t = s.block_pos := by omega
        rw [this, hlast] at h3
        cases h3
    · intro g hg
      exact hother g hg

/-- Reuse by a list of files: when exactly as many slots at or above the hint
are not live as the files have blocks (plus `n`), the delayed insertion keeps
the length of the array and leaves `n` of them. -/
theorem reuse_files {lo len0 : Nat} {A : List (Option BlockPtr)} :
    ∀ (ins : List Nat) (m m' : Mem) (n : Nat),
      slot_ownership m.disk → (∀ g ∈ ins, g ∉ m.disk.filelist) → ins.Nodup →
      m.disk.blockarr.length = len0 → lo ≤ m.disk.first_free_block →
      (∀ t, lo ≤ t → t < m.disk.first_free_block → slot_live m.disk t = true) →
      (∀ t, t < lo → m.disk.blockarr[t]? = A[t]?) →
      (nonlive m.disk m.disk.first_free_block).card = block_count m.disk ins + n →
      ins.foldlM scan_file_insert m = .ok m' →
      slot_ownership m'.disk ∧ m'.disk.blockarr.length = len0 ∧
      lo ≤ m'.disk.first_free_block ∧
      (∀ t, lo ≤ t → t < m'.disk.first_free_block → slot_live m'.disk t = true) ∧
      (∀ t, t < lo → m'.disk.blockarr[t]? = A[t]?) ∧
      (nonlive m'.disk m'.disk.first_free_block).card = n
  | [], m, m', n, hown, _, _, hlen, hlo, hbelow, hlow, hcard, h => by
    simp only [List.foldlM_nil, pure, Except.pure, Except.ok.injEq] at h
    subst h
    exact ⟨hown, hlen, hlo, hbelow, hlow, by simpa [block_count] using hcard⟩
  | g :: rest, m, m', n, hown, hfresh, hnd, hlen, hlo, hbelow, hlow, hcard, h => by
    rw [List.foldlM_cons] at h
    rcases bind_ok.1 h with ⟨m1, h1, h2⟩
    rcases List.nodup_cons.1 hnd with ⟨hg, hnd'⟩
    have hfg : ∃ f, heap_get m.disk.filemem g = .ok f := by
      unfold scan_file_insert at h1
      rcases bind_ok.1 h1 with ⟨f, hf, _⟩
      exact ⟨f, hf⟩
    rcases hfg with ⟨f, hf⟩
    have hbc : block_count m.disk (g :: rest) = f.blockmax + block_count m.disk rest := by
      simp [block_count, file_blocks, hf]
    rw [hbc, Nat.add_assoc] at hcard
    rcases reuse_file hown (hfresh g (by simp)) hf hlen hlo hbelow hlow hcard h1 with
      ⟨a1, a2, a3, a4, a5, a6, a7, a8⟩
    have hbc' : block_count m1.disk rest = block_count m.disk rest := by
      simp only [block_count]
      congr 1
      apply List.map_congr_left
      intro x hx
      have hxg : x ≠ g := fun hxg => hg (hxg ▸ hx)
      simp only [file_blocks, a8 x hxg]
    rw [← hbc'] at a7
    refine reuse_files rest m1 m' n a1 ?_ hnd' a3 a4 a5 a6 a7 h2
    intro x hx
    rw [a2]
    intro hc
    rcases List.mem_append.1 hc with hc | hc
    · exact hfresh x (List.mem_cons_of_mem _ hx) hc
    · simp only [List.mem_singleton] at hc
      exact hg (hc ▸ hx)

/-- One iteration of the loop of `scan_file_remove` on a live slot at or above
`lo`: slot ownership is kept and the slot joins the slots that are not live. -/
theorem remove_block_nonlive {d d' : snapraid_disk} {b : snapraid_block} {lo : Nat}
    (hown : slot_ownership d) (h : scan_file_remove_block d b = .ok d')
    (hlo : lo ≤ b.parity_pos) (hlive : slot_live d b.parity_pos = true) :
    slot_ownership d' ∧
    nonlive d' lo = insert b.parity_pos (nonlive d lo) ∧
    b.parity_pos ∉ nonlive d lo ∧
    d'.blockarr.length = d.blockarr.length ∧
    (∀ t, t ≠ b.parity_pos → d'.blockarr[t]? = d.blockarr[t]?) ∧
    d'.filemem = d.filemem ∧ d'.filelist = d.filelist ∧
    d'.first_free_block ≤ b.parity_pos ∧ d'.first_free_block ≤ d.first_free_block := by
  rcases remove_block_ok h with ⟨hpos, _, hd1⟩
  have hl1 : d'.filelist = d.filelist := by rw [hd1]
  have hm1 : d'.filemem = d.filemem := by rw [hd1]
  have hdl1 : d'.deletedlist = d.deletedlist ++ [tombstone_of b] := by rw [hd1]; rfl
  have harr1 : d'.blockarr =
      d.blockarr.set b.parity_pos (some (.deleted d.deletedlist.length)) := by rw [hd1]
  have hff : d'.first_free_block = min d.first_free_block b.parity_pos := by rw [hd1]
  have hown' : slot_ownership d' := by
    intro s hs
    have hs' : s < d.blockarr.length := by simpa [harr1] using hs
    by_cases hsp : b.parity_pos = s
    · have : d'.blockarr[s] = some (.deleted d.deletedlist.length) := by
        simp [harr1, hsp]
      rw [this]
      simp only [slot_owned, block_get]
      rw [hdl1]
      simp [pure, Except.pure, hsp, tombstone_of]
    · have : d'.blockarr[s] = d.blockarr[s] := by
        simp [harr1, List.getElem_set_ne hsp]
      rw [this]
      exact slot_owned_of_frame hl1 hm1 hdl1 (hown s hs')
  have hlive_ne : ∀ t, t ≠ b.parity_pos → slot_live d' t = slot_live d t := by
    intro t ht
    apply slot_live_congr
    · rw [harr1, List.getElem?_set_ne (Ne.symm ht)]
    · intro p hp
      cases p with
      | file g j => exact block_get_file_eq hm1 g j
      | deleted dd =>
        have key := (slot_ownership_iff d).1 hown t _ hp
        simp only [slot_owned] at key
        rcases key with ⟨blk, hblk, _⟩
        rw [hblk]
        exact block_get_deleted_append hdl1 hblk
  have hdead : slot_live d' b.parity_pos = false := by
    unfold slot_live
    rw [harr1, List.getElem?_set_self hpos]
    simp only [block_has_file, block_get, hdl1]
    simp [bind, Except.bind, pure, Except.pure, block_state_get, tombstone_of]
  have hlen : d'.blockarr.length = d.blockarr.length := by rw [harr1, List.length_set]
  refine ⟨hown', ?_, ?_, hlen, ?_, hm1, hl1, ?_, ?_⟩
  · ext t
    rw [Finset.mem_insert, mem_nonlive, mem_nonlive, hlen]
    constructor
    · rintro ⟨h1, h2, h3⟩
      by_cases ht : t = b.parity_pos
      · exact Or.inl ht
      · rw [hlive_ne t ht] at h3
        exact Or.inr ⟨h1, h2, h3⟩
    · rintro (ht | ⟨h1, h2, h3⟩)
      · rw [ht]; exact ⟨hpos, hlo, hdead⟩
      · by_cases ht : t = b.parity_pos
        · rw [ht]; exact ⟨hpos, hlo, hdead⟩
        · exact ⟨h1, h2, by rw [hlive_ne t ht]; exact h3⟩
  · rw [mem_nonlive]
    rintro ⟨_, _, h3⟩
    rw [hlive] at h3
    cases h3
  · intro t ht
    rw [harr1, List.getElem?_set_ne (Ne.symm ht)]
  · rw [hff]; exact Nat.min_le_right _ _
  · rw [hff]; exact Nat.min_le_left _ _

/-- The loop of `scan_file_remove` over the blocks of `file` from index `i` on,
each of which owns its slot at or above `lo`. -/
theorem remove_loop_nonlive (file lo : Nat) (f : snapraid_file) :
    ∀ (rest : List snapraid_block) (i : Nat) (d d' : snapraid_disk) (c : Nat),
      rest.foldlM scan_file_remove_block d = .ok d' →
      slot_ownership d →
      heap_get d.filemem file = .ok f →
      (∀ j b, rest[j]? = some b → f.blockvec[i + j]? = some b ∧ lo ≤ b.parity_pos ∧
        d.blockarr[b.parity_pos]? = some (some (BlockPtr.file file (i + j)))) →
      (nonlive d lo).card = c →
      slot_ownership d' ∧ (nonlive d' lo).card = c + rest.length ∧
      d'.blockarr.length = d.blockarr.length ∧
      (∀ t, (∀ b ∈ rest, b.parity_pos ≠ t) → d'.blockarr[t]? = d.blockarr[t]?) ∧
      d'.first_free_block ≤ d.first_free_block ∧
      (∀ b ∈ rest, d'.first_free_block ≤ b.parity_pos)
  | [], i, d, d', c, h, hown, _, _, hcard => by
    simp only [List.foldlM_nil, pure, Except.pure, Except.ok.injEq] at h
    subst h
    exact ⟨hown, by simpa using hcard, rfl, fun _ _ => rfl, Nat.le_refl _, by simp⟩
  | b :: rest, i, d, d', c, h, hown, hf, hblocks, hcard => by
    rw [List.foldlM_cons] at h
    rcases bind_ok.1 h with ⟨d1, h1, h2⟩
    rcases hblocks 0 b (by simp) with ⟨hb0, hlo0, harr0⟩
    rcases remove_block_ok h1 with ⟨_, hstate, _⟩
    have hlive : slot_live d b.parity_pos = true := by
      apply slot_live_of_has_file harr0
      simp only [block_has_file, block_get, hf, bind, Except.bind]
      simp only [Nat.add_zero] at hb0
      simp [hb0, pure, Except.pure, block_state_get, hstate]
    rcases remove_block_nonlive hown h1 hlo0 hlive with
      ⟨a1, a2, a3, a4, a5, a6, _, a8, a9⟩
    have hblocks1 : ∀ j b', rest[j]? = some b' →
        f.blockvec[i + 1 + j]? = some b' ∧ lo ≤ b'.parity_pos ∧
        d1.blockarr[b'.parity_pos]? = some (some (BlockPtr.file file (i + 1 + j))) := by
      intro j b' hj
      rcases hblocks (j + 1) b' (by simpa using hj) with ⟨k1, k2, k3⟩
      have e : i + (j + 1) = i + 1 + j := by omega
      rw [e] at k1 k3
      refine ⟨k1, k2, ?_⟩
      rw [a5 _ ?_]
      · exact k3
      · intro hpp
        rw [hpp, harr0] at k3
        simp only [Option.some.injEq, BlockPtr.file.injEq, true_and] at k3
        omega
    have hcard1 : (nonlive d1 lo).card = c + 1 := by
      rw [a2, Finset.card_insert_of_not_mem a3, hcard]
    rcases remove_loop_nonlive file lo f rest (i + 1) d1 d' (c + 1) h2 a1 (by rw [a6]; exact hf)
      hblocks1 hcard1 with ⟨r1, r2, r3, r4, r5, r6⟩
    refine ⟨r1, ?_, by rw [r3, a4], ?_, Nat.le_trans r5 a9, ?_⟩
    · rw [r2]; simp only [List.length_cons]; omega
    · intro t ht
      rw [r4 t (fun b' hb' => ht b' (List.mem_cons_of_mem _ hb'))]
      exact a5 t (Ne.symm (ht b (by simp)))
    · intro b' hb'
      rcases List.mem_cons.1 hb' with rfl | hb'
      · exact Nat.le_trans r5 a8
      · exact r6 b' hb'

/-- The removal of a file whose blocks own their slots at or above `lo`: every
slot of the file joins the slots that are not live. -/
theorem remove_file_nonlive {m m' : Mem} {file lo c : Nat} {f : snapraid_file}
    (hown : slot_ownership m.disk)
    (hf : heap_get m.disk.filemem file = .ok f)
    (hblocks : ∀ i b, f.blockvec[i]? = some b → lo ≤ b.parity_pos ∧
      m.disk.blockarr[b.parity_pos]? = some (some (BlockPtr.file file i)))
    (hcard : (nonlive m.disk lo).card = c)
    (h : scan_file_remove m file = .ok m') :
    slot_ownership m'.disk ∧ (nonlive m'.disk lo).card = c + f.blockmax ∧
    m'.disk.blockarr.length = m.disk.blockarr.length ∧
    (∀ t, (∀ b ∈ f.blockvec, b.parity_pos ≠ t) → m'.disk.blockarr[t]? = m.disk.blockarr[t]?) ∧
    m'.disk.first_free_block ≤ m.disk.first_free_block ∧
    (∀ b ∈ f.blockvec, m'.disk.first_free_block ≤ b.parity_pos) ∧
    m'.disk.filemem = heap_free m.disk.filemem file ∧
    m'.disk.filelist = m.disk.filelist.erase file := by
  have hown' := scan_file_remove_slot_ownership m m' file hown h
  rcases scan_file_remove_loop hf h with ⟨disk1, h1, harr, hdl, hffb⟩
  rcases scan_file_remove_frame h with ⟨_, _, hmem, hfl, _⟩
  rcases remove_loop_frame _ _ _ h1 with ⟨hmem1, _⟩
  rcases remove_loop_nonlive file lo f f.blockvec 0 m.disk disk1 c h1 hown hf
    (by
      intro j b hj
      simp only [Nat.zero_add]
      exact ⟨hj, (hblocks j b hj).1, (hblocks j b hj).2⟩)
    hcard with ⟨_, r2, r3, r4, r5, r6⟩
  have hnl : nonlive m'.disk lo = nonlive disk1 lo := by
    ext t
    rw [mem_nonlive, mem_nonlive, harr]
    have : slot_live m'.disk t = slot_live disk1 t := by
      apply slot_live_congr
      · rw [harr]
      · intro p hp
        cases p with
        | deleted dd => simp [block_get, hdl]
        | file g j =>
          have key := (slot_ownership_iff _).1 hown' t (some (BlockPtr.file g j))
            (by rw [harr]; exact hp)
          simp only [slot_owned] at key
          rcases key.2 with ⟨blk, hblk, _⟩
          have hg : g ≠ file := by
            rintro rfl
            have hlt : g < m.disk.filemem.length := by
              rw [heap_get_ok] at hf
              rcases List.getElem?_eq_some.1 hf with ⟨hl, _⟩; exact hl
            simp [block_get, hmem, heap_get, heap_free, List.getElem?_set_self hlt, bind,
              Except.bind] at hblk
          simp only [block_get, hmem, heap_free, hmem1, heap_get]
          rw [List.getElem?_set_ne (Ne.symm hg)]
    rw [this]
  refine ⟨hown', by rw [hnl, r2]; rfl, by rw [harr, r3], ?_, by rw [hffb]; exact r5, ?_, hmem, hfl⟩
  · intro t ht
    rw [harr]; exact r4 t ht
  · intro b hb
    rw [hffb]; exact r6 b hb

/-- The removal sweep over files whose blocks own their slots at or above `lo`. -/
theorem remove_files_nonlive (lo : Nat) :
    ∀ (rm : List Nat) (m m1 : Mem) (c : Nat),
      rm.Nodup → slot_ownership m.disk →
      (∀ g ∈ rm, ∀ f i b, heap_get m.disk.filemem g = .ok f → f.blockvec[i]? = some b →
        lo ≤ b.parity_pos ∧ m.disk.blockarr[b.parity_pos]? = some (some (BlockPtr.file g i))) →
      (nonlive m.disk lo).card = c →
      rm.foldlM scan_file_remove m = .ok m1 →
      slot_ownership m1.disk ∧ (nonlive m1.disk lo).card = c + block_count m.disk rm ∧
      m1.disk.blockarr.length = m.disk.blockarr.length ∧
      (∀ t, t < lo → m1.disk.blockarr[t]? = m.disk.blockarr[t]?) ∧
      m1.disk.first_free_block ≤ m.disk.first_free_block ∧
      (∀ g ∈ rm, ∀ f b, heap_get m.disk.filemem g = .ok f → b ∈ f.blockvec →
        m1.disk.first_free_block ≤ b.parity_pos) ∧
      (∀ g, g ∉ m.disk.filelist → g ∉ m1.disk.filelist)
  | [], m, m1, c, _, hown, _, hcard, h => by
    simp only [List.foldlM_nil, pure, Except.pure, Except.ok.injEq] at h
    subst h
    exact ⟨hown, by simpa [block_count] using hcard, rfl, fun _ _ => rfl, Nat.le_refl _,
      by simp, fun _ hg => hg⟩
  | file :: rest, m, m1, c, hnd, hown, hblocks, hcard, h => by
    rw [List.foldlM_cons] at h
    rcases bind_ok.1 h with ⟨m', h1, h2⟩
    rcases List.nodup_cons.1 hnd with ⟨hfile, hnd'⟩
    have hfg : ∃ f, heap_get m.disk.filemem file = .ok f := by
      unfold scan_file_remove at h1
      rcases bind_ok.1 h1 with ⟨f, hf, _⟩
      exact ⟨f, hf⟩
    rcases hfg with ⟨f, hf⟩
    rcases remove_file_nonlive hown hf (fun i b hb => hblocks file (by simp) f i b hf hb) hcard h1
      with ⟨a1, a2, a3, a4, a5, a6, a7, a8⟩
    have hmem_ne : ∀ g, g ≠ file → heap_get m'.disk.filemem g = heap_get m.disk.filemem g := by
      intro g hg
      simp only [a7, heap_free, heap_get]
      rw [List.getElem?_set_ne (Ne.symm hg)]
    have hblocks' : ∀ g ∈ rest, ∀ f' i b, heap_get m'.disk.filemem g = .ok f' →
        f'.blockvec[i]? = some b →
        lo ≤ b.parity_pos ∧
        m'.disk.blockarr[b.parity_pos]? = some (some (BlockPtr.file g i)) := by
      intro g hg f' i b hf' hb
      have hgf : g ≠ file := fun e => hfile (e ▸ hg)
      rw [hmem_ne g hgf] at hf'
      rcases hblocks g (List.mem_cons_of_mem _ hg) f' i b hf' hb with ⟨k1, k2⟩
      refine ⟨k1, ?_⟩
      rw [a4 _ ?_]
      · exact k2
      · intro b' hb' hpp
        rcases List.getElem?_of_mem hb' with ⟨i', hi'⟩
        have := (hblocks file (by simp) f i' b' hf hi').2
        rw [hpp, k2] at this
        simp only [Option.some.injEq, BlockPtr.file.injEq] at this
        exact hgf this.1
    rcases remove_files_nonlive lo rest m' m1 (c + f.blockmax) hnd' a1 hblocks' a2 h2 with
      ⟨r1, r2, r3, r4, r5, r6, r7⟩
    have hbc : block_count m.disk (file :: rest) = f.blockmax + block_count m'.disk rest := by
      have e1 : file_blocks m.disk file = f.blockmax := by simp [file_blocks, hf]
      have e2 : rest.map (file_blocks m.disk) = rest.map (file_blocks m'.disk) :=
        List.map_congr_left (fun x hx => by
          have hxg : x ≠ file := fun e => hfile (e ▸ hx)
          simp only [file_blocks, hmem_ne x hxg])
      simp only [block_count, List.map_cons, List.sum_cons, e1, e2]
    refine ⟨r1, by rw [r2, hbc]; omega, by rw [r3, a3], ?_, Nat.le_trans r5 a5, ?_, ?_⟩
    · intro t ht
      rw [r4 t ht]
      apply a4
      intro b hb hpp
      rcases List.getElem?_of_mem hb with ⟨i', hi'⟩
      have := (hblocks file (by simp) f i' b hf hi').1
      omega
    · intro g hg f' b hf' hb
      rcases List.mem_cons.1 hg with rfl | hg
      · rw [hf] at hf'
        cases hf'
        exact Nat.le_trans r5 (a6 b hb)
      · have hgf : g ≠ file := fun e => hfile (e ▸ hg)
        exact r6 g hg f' b (by rw [hmem_ne g hgf]; exact hf') hb
    · intro g hg
      apply r7
      rw [a8]
      exact fun hc => hg (List.mem_of_mem_erase hc)

theorem file_owns_blocks_get {disk : snapraid_disk} {file : Nat} (h : file_owns_blocks disk file)
    {f : snapraid_file} (hf : heap_get disk.filemem file = .ok f) {i : Nat} {b : snapraid_block}
    (hb : f.blockvec[i]? = some b) :
    disk.blockarr[b.parity_pos]? = some (some (BlockPtr.file file i)) := by
  unfold file_owns_blocks at h
  rw [hf] at h
  rcases List.getElem?_eq_some.1 hb with ⟨hl, rfl⟩
  exact h i hl

/-- C4 fails as stated: on a well-formed catalog with an EMPTY slot at the hint
(files at slots 0 and 2, slot 1 EMPTY, `first_free_block = 1`), the scan that
removes the one-block file at slot 2 and inserts a new one-block file puts the
new block at slot 1 and leaves a tombstone at slot 2: the slots occupied by
file blocks go from 0, 2 to 0, 1. -/
theorem two_phase_reuse_counterexample :
    slot_ownership ex_catalog_hole ∧
    occupied_slots ex_catalog_hole = [0, 2] ∧
    (state_scan ex_filters ex_tree_hole ex_state [ex_catalog_hole]).toOption.map
      (fun r => (r.scanlist.map (fun c => (c.count_equal, c.count_remove, c.count_insert)),
        r.disklist.map occupied_slots, r.disklist.map (fun d => d.blockarr))) =
      some ([(1, 1, 1)], [[0, 1]],
        [[some (BlockPtr.file 0 0), some (BlockPtr.file 2 0), some (BlockPtr.deleted 0)]]) := by
  refine ⟨by decide, by decide, by rfl⟩

theorem scan_events_nil (flt : Filters) (n dir sub : String) (q : Bool) :
    scan_events flt n dir sub .nil q = ([], q) := rfl

theorem scan_events_cons (flt : Filters) (n dir sub : String) (q : Bool)
    (name : String) (node : FsNode) (rest : FsEntries) :
    scan_events flt n dir sub (.cons name node rest) q =
    if name = "." ∨ name = ".." then
      scan_events flt n dir sub rest q
    else if name_unsupported name then
      ([Event.fail Fatal.unsupported_name], q)
    else if flt.filter_hidden name then
      scan_events flt n dir sub rest q
    else if flt.filter_content (dir ++ name) then
      scan_events flt n dir sub rest q
    else
      match node with
      | .nostat => ([Event.fail Fatal.stat_error], q)
      | .reg st =>
        if flt.filter_path n (sub ++ name) = false then
          (Event.file (sub ++ name) st :: (scan_events flt n dir sub rest true).1,
            (scan_events flt n dir sub rest true).2)
        else
          scan_events flt n dir sub rest q
      | .lnk linkto =>
        if flt.filter_path n (sub ++ name) = false then
          if linkto.length ≥ flt.path_max then
            ([Event.fail Fatal.readlink_too_long], q)
          else
            (Event.link (sub ++ name) linkto :: (scan_events flt n dir sub rest true).1,
              (scan_events flt n dir sub rest true).2)
        else
          scan_events flt n dir sub rest q
      | .dir entries =>
        if flt.filter_dir n (sub ++ name) = false then
          ((scan_events flt n (pathslash (dir ++ name)) (pathslash (sub ++ name)) entries false).1
            ++ (if (scan_events flt n (pathslash (dir ++ name)) (pathslash (sub ++ name))
                  entries false).2 = false then [Event.emptydir (sub ++ name)] else [])
            ++ (scan_events flt n dir sub rest true).1,
            (scan_events flt n dir sub rest true).2)
        else
          scan_events flt n dir sub rest q
      | .dir_noopen =>
        if flt.filter_dir n (sub ++ name) = false then
          ([Event.fail Fatal.opendir_error], q)
        else
          scan_events flt n dir sub rest q
      | .special => scan_events flt n dir sub rest q := by
  cases node <;> rfl

/-- The outcomes of a successful `scan_link`. -/
theorem scan_link_cases {m m' : Mem} {sub linkto : String} {kind : LinkKind}
    (h : scan_link m sub linkto kind = .ok m') :
    (tommy_hashdyn_search m.disk.linkmem snapraid_link.sub m.disk.linkset sub = none ∧
      m' = { m with
        disk := { m.disk with
          linkmem := m.disk.linkmem ++
            [some { sub := sub, linkto := linkto, kind := kind, present := true }] }
        scan := { m.scan with
          count_insert := m.scan.count_insert + 1
          link_insert_list := m.scan.link_insert_list ++ [m.disk.linkmem.length] } }) ∨
    (∃ l ll, tommy_hashdyn_search m.disk.linkmem snapraid_link.sub m.disk.linkset sub = some l ∧
      heap_get m.disk.linkmem l = .ok ll ∧ ll.present = false ∧
      ((ll.linkto = linkto ∧ kind = ll.kind ∧
        m' = { m with
          disk := { m.disk with linkmem := heap_set m.disk.linkmem l { ll with present := true } }
          scan := { m.scan with count_equal := m.scan.count_equal + 1 } }) ∨
       (¬ (ll.linkto = linkto ∧ kind = ll.kind) ∧
        m' = { m with
          disk := { m.disk with
            linkmem := heap_set m.disk.linkmem l
              { ll with present := true, linkto := linkto, kind := kind } }
          scan := { m.scan with count_change := m.scan.count_change + 1 } }))) := by
  unfold scan_link at h
  split at h
  · next l hl =>
    rcases bind_ok.1 h with ⟨ll, hll, h⟩
    split at h
    · cases h
    · next hp =>
      dsimp only at h
      refine Or.inr ⟨l, ll, hl, hll, by simpa using hp, ?_⟩
      split at h
      · next hc =>
        simp only [pure, Except.pure, Except.ok.injEq] at h
        exact Or.inl ⟨hc.1, hc.2, h.symm⟩
      · next hc =>
        simp only [pure, Except.pure, Except.ok.injEq] at h
        exact Or.inr ⟨hc, h.symm⟩
  · next hl =>
    simp only [heap_alloc, pure, Except.pure, Except.ok.injEq, link_alloc] at h
    exact Or.inl ⟨hl, h.symm⟩

/-- The outcomes of a successful `scan_emptydir`. -/
theorem scan_emptydir_cases {m m' : Mem} {sub : String}
    (h : scan_emptydir m sub = .ok m') :
    (tommy_hashdyn_search m.disk.dirmem snapraid_dir.sub m.disk.dirset sub = none ∧
      m' = { m with
        disk := { m.disk with
          dirmem := m.disk.dirmem ++ [some { sub := sub, present := true }] }
        scan := { m.scan with
          count_insert := m.scan.count_insert + 1
          dir_insert_list := m.scan.dir_insert_list ++ [m.disk.dirmem.length] } }) ∨
    (∃ d dd, tommy_hashdyn_search m.disk.dirmem snapraid_dir.sub m.disk.dirset sub = some d ∧
      heap_get m.disk.dirmem d = .ok dd ∧ dd.present = false ∧
      m' = { m with
        disk := { m.disk with dirmem := heap_set m.disk.dirmem d { dd with present := true } }
        scan := { m.scan with count_equal := m.scan.count_equal + 1 } }) := by
  unfold scan_emptydir at h
  split at h
  · next d hd =>
    rcases bind_ok.1 h with ⟨dd, hdd, h⟩
    split at h
    · cases h
    · next hp =>
      simp only [pure, Except.pure, Except.ok.injEq] at h
      exact Or.inr ⟨d, dd, hd, hdd, by simpa using hp, h.symm⟩
  · next hd =>
    simp only [heap_alloc, pure, Except.pure, Except.ok.injEq, dir_alloc] at h
    exact Or.inl ⟨hd, h.symm⟩

/-- The outcomes of a successful unchanged case of `scan_file`. -/
theorem scan_file_unchanged_cases {m m' : Mem} {file : Nat} {f : snapraid_file} {sub : String}
    {st : Stat} (h : scan_file_unchanged m file f sub st = .ok m') :
    ∃ nsec nw,
      nsec = (if f.mtime_nsec = FILE_MTIME_NSEC_INVALID ∧ st.st_nsec ≠ FILE_MTIME_NSEC_INVALID
        then st.st_nsec else f.mtime_nsec) ∧
      nw = (if f.mtime_nsec = FILE_MTIME_NSEC_INVALID ∧ st.st_nsec ≠ FILE_MTIME_NSEC_INVALID
        then true else m.state.need_write) ∧
    ((f.sub ≠ sub ∧ f.inode = st.st_ino ∧
      m' = { state := { m.state with need_write := true }
             disk := { m.disk with
               pathset := m.disk.pathset.erase file ++ [file]
               filemem := heap_set m.disk.filemem file
                 { f with present := true, mtime_nsec := nsec, sub := sub } }
             scan := { m.scan with count_moved := m.scan.count_moved + 1 } }) ∨
     (f.sub = sub ∧ f.inode ≠ st.st_ino ∧
      m' = { state := { m.state with need_write := true }
             disk := { m.disk with
               inodeset := m.disk.inodeset.erase file ++ [file]
               filemem := heap_set m.disk.filemem file
                 { f with present := true, mtime_nsec := nsec, inode := st.st_ino } }
             scan := { m.scan with count_moved := m.scan.count_moved + 1 } }) ∨
     (f.sub = sub ∧ f.inode = st.st_ino ∧
      m' = { state := { m.state with need_write := nw }
             disk := { m.disk with
               filemem := heap_set m.disk.filemem file
                 { f with present := true, mtime_nsec := nsec } }
             scan := { m.scan with count_equal := m.scan.count_equal + 1 } })) := by
  unfold scan_file_unchanged at h
  dsimp only at h
  refine ⟨if f.mtime_nsec = FILE_MTIME_NSEC_INVALID ∧ st.st_nsec ≠ FILE_MTIME_NSEC_INVALID
      then st.st_nsec else f.mtime_nsec,
    if f.mtime_nsec = FILE_MTIME_NSEC_INVALID ∧ st.st_nsec ≠ FILE_MTIME_NSEC_INVALID
      then true else m.state.need_write, rfl, rfl, ?_⟩
  · split at h
    · next hs =>
      split at h
      · cases h
      · next hi =>
        simp only [pure, Except.pure, Except.ok.injEq] at h
        exact Or.inl ⟨hs, by simpa using hi, h.symm⟩
    · next hs =>
      have hs' : f.sub = sub := by simpa using hs
      split at h
      · next hi =>
        simp only [pure, Except.pure, Except.ok.injEq] at h
        exact Or.inr (Or.inl ⟨hs', hi, h.symm⟩)
      · next hi =>
        simp only [pure, Except.pure, Except.ok.injEq] at h
        exact Or.inr (Or.inr ⟨hs', by simpa using hi, h.symm⟩)

/-- The name and the directory of the disk are those before `scan_file`. -/
theorem scan_file_name {m m' : Mem} {sub : String} {st : Stat}
    (h : scan_file m sub st = .ok m') :
    m'.disk.name = m.disk.name ∧ m'.disk.dir = m.disk.dir := by
  rcases scan_file_cases h with ⟨_, h1⟩ | ⟨file, f, _, _, _, _, h1⟩ | ⟨file, f, _, _, _, _, h1⟩ |
    ⟨file, f, _, _, _, _, h1⟩
  · subst h1; exact ⟨rfl, rfl⟩
  · rcases scan_link_cases h1 with ⟨_, h2⟩ | ⟨l, ll, _, _, _, ⟨_, _, h2⟩ | ⟨_, h2⟩⟩ <;>
      (subst h2; exact ⟨rfl, rfl⟩)
  · rcases scan_file_unchanged_cases h1 with ⟨_, _, _, _, ⟨_, _, h2⟩ | ⟨_, _, h2⟩ | ⟨_, _, h2⟩⟩ <;>
      (subst h2; exact ⟨rfl, rfl⟩)
  · rcases scan_file_changed_ok h1 with ⟨scan1, m1, _, h2, h3⟩
    have hfr := scan_file_remove_frame h2
    subst h3
    exact ⟨hfr.2.2.2.2.2.2.2.2.2.2.2.2.1, hfr.2.2.2.2.2.2.2.2.2.2.2.2.2.1⟩

/-- The name and the directory of the disk are those before the call. -/
theorem scan_event_name {m m' : Mem} {e : Event} (h : scan_event m e = .ok m') :
    m'.disk.name = m.disk.name ∧ m'.disk.dir = m.disk.dir := by
  cases e with
  | file sub st => exact scan_file_name h
  | link sub linkto =>
    rcases scan_link_cases h with ⟨_, h2⟩ | ⟨l, ll, _, _, _, ⟨_, _, h2⟩ | ⟨_, h2⟩⟩ <;>
      (subst h2; exact ⟨rfl, rfl⟩)
  | emptydir sub =>
    rcases scan_emptydir_cases h with ⟨_, h2⟩ | ⟨d, dd, _, _, _, h2⟩ <;>
      (subst h2; exact ⟨rfl, rfl⟩)
  | fail e => cases h

theorem foldlM_scan_event_name : ∀ (evs : List Event) (m m' : Mem),
    evs.foldlM scan_event m = .ok m' → m'.disk.name = m.disk.name ∧ m'.disk.dir = m.disk.dir
  | [], m, m', h => by
    simp only [List.foldlM_nil, pure, Except.pure, Except.ok.injEq] at h
    subst h; exact ⟨rfl, rfl⟩
  | e :: evs, m, m', h => by
    rw [List.foldlM_cons] at h
    rcases bind_ok.1 h with ⟨m1, h1, h2⟩
    have a := scan_event_name h1
    have b := foldlM_scan_event_name evs m1 m' h2
    exact ⟨b.1.trans a.1, b.2.trans a.2⟩

theorem except_bind_ok {ε α β : Type} (a : α) (f : α → Except ε β) :
    ((Except.ok a : Except ε α) >>= f) = f a := rfl

theorem except_bind_error {ε α β : Type} (e : ε) (f : α → Except ε β) :
    ((Except.error e : Except ε α) >>= f) = .error e := rfl

theorem foldlM_cons_except {α β : Type} (f : β → α → Except Fatal β) (a : α) (l : List α)
    (b : β) : (a :: l).foldlM f b = (f b a >>= fun b1 => l.foldlM f b1) := by
  rw [List.foldlM_cons]

theorem foldlM_nil_except {α β : Type} (f : β → α → Except Fatal β) (b : β) :
    ([] : List α).foldlM f b = .ok b := rfl

/-- The walk of a directory is the sequence of its calls. -/
theorem scan_dir_loop_events (flt : Filters) (n : String) :
    ∀ (entries : FsEntries) (dir sub : String) (m : Mem) (q : Bool), m.disk.name = n →
      scan_dir_loop flt dir sub entries m q =
        ((scan_events flt n dir sub entries q).1.foldlM scan_event m >>= fun m1 =>
          .ok (m1, (scan_events flt n dir sub entries q).2))
  | .nil, dir, sub, m, q, hn => by
    rw [scan_dir_loop_nil, scan_events_nil]
    rfl
  | .cons name node rest, dir, sub, m, q, hn => by
    rw [scan_dir_loop_cons, scan_events_cons]
    have ih := scan_dir_loop_events flt n rest dir sub
    by_cases c1 : name = "." ∨ name = ".."
    · rw [if_pos c1, if_pos c1]; exact ih m q hn
    rw [if_neg c1, if_neg c1]
    by_cases c2 : name_unsupported name
    · rw [if_pos c2, if_pos c2]; rfl
    rw [if_neg c2, if_neg c2]
    by_cases c3 : flt.filter_hidden name = true
    · rw [if_pos c3, if_pos c3]; exact ih m q hn
    rw [if_neg c3, if_neg c3]
    by_cases c4 : flt.filter_content (dir ++ name) = true
    · rw [if_pos c4, if_pos c4]; exact ih m q hn
    rw [if_neg c4, if_neg c4]
    cases node with
    | nostat => rfl
    | reg st =>
      simp only []
      rw [hn]
      by_cases c5 : flt.filter_path n (sub ++ name) = false
      · rw [if_pos c5, if_pos c5]
        simp only [foldlM_cons_except, scan_event]
        cases hs : scan_file m (sub ++ name) st with
        | error e => rfl
        | ok m1 =>
          simp only [except_bind_ok]
          exact ih m1 true ((scan_file_name hs).1.trans hn)
      · rw [if_neg c5, if_neg c5]; exact ih m q hn
    | lnk linkto =>
      simp only []
      rw [hn]
      by_cases c5 : flt.filter_path n (sub ++ name) = false
      · rw [if_pos c5, if_pos c5]
        by_cases c6 : linkto.length ≥ flt.path_max
        · rw [if_pos c6, if_pos c6]; rfl
        · rw [if_neg c6, if_neg c6]
          simp only [foldlM_cons_except, scan_event]
          cases hs : scan_link m (sub ++ name) linkto LinkKind.FILE_IS_SYMLINK with
          | error e => rfl
          | ok m1 =>
            simp only [except_bind_ok]
            have hs' : scan_event m (Event.link (sub ++ name) linkto) = .ok m1 := hs
            exact ih m1 true ((scan_event_name hs').1.trans hn)
      · rw [if_neg c5, if_neg c5]; exact ih m q hn
    | dir entries =>
      simp only []
      rw [hn]
      by_cases c5 : flt.filter_dir n (sub ++ name) = false
      · rw [if_pos c5, if_pos c5]
        have ih1 := scan_dir_loop_events flt n entries (pathslash (dir ++ name))
          (pathslash (sub ++ name)) m false hn
        rw [ih1]
        simp only [List.foldlM_append]
        cases hs : List.foldlM scan_event m
            (scan_events flt n (pathslash (dir ++ name)) (pathslash (sub ++ name)) entries false).1 with
        | error e => rfl
        | ok m1 =>
          simp only [except_bind_ok]
          have hn1 : m1.disk.name = n := (foldlM_scan_event_name _ _ _ hs).1.trans hn
          by_cases c6 : (scan_events flt n (pathslash (dir ++ name)) (pathslash (sub ++ name))
              entries false).2 = false
          · rw [if_pos c6, if_pos c6]
            simp only [foldlM_cons_except, foldlM_nil_except, scan_event]
            cases hd : scan_emptydir m1 (sub ++ name) with
            | error e => rfl
            | ok m2 =>
              simp only [except_bind_ok]
              have hd' : scan_event m1 (Event.emptydir (sub ++ name)) = .ok m2 := hd
              exact ih m2 true ((scan_event_name hd').1.trans hn1)
          · rw [if_neg c6, if_neg c6]
            simp only [foldlM_nil_except, except_bind_ok]
            exact ih m1 true hn1
      · rw [if_neg c5, if_neg c5]; exact ih m q hn
    | dir_noopen =>
      simp only []
      rw [hn]
      by_cases c5 : flt.filter_dir n (sub ++ name) = false
      · rw [if_pos c5, if_pos c5]; rfl
      · rw [if_neg c5, if_neg c5]; exact ih m q hn
    | special => exact ih m q hn

/-- The walk of the tree of a disk is the sequence of its calls. -/
theorem scan_dir_events (flt : Filters) (fs : String → FsNode) (m : Mem) :
    (scan_dir flt m.disk.dir "" (fs m.disk.dir) m).map Prod.fst =
      (disk_events flt fs m.disk).foldlM scan_event m := by
  unfold disk_events
  cases hfs : fs m.disk.dir with
  | dir entries =>
    simp only [scan_dir]
    rw [scan_dir_loop_events flt m.disk.name entries _ _ m false rfl]
    cases List.foldlM scan_event m (scan_events flt m.disk.name m.disk.dir "" entries false).1 <;> rfl
  | _ => rfl

/-- The changed case of `scan_file` is a removal followed by the staging of a
new file; the delayed lists are not touched in between. -/
theorem scan_file_changed_cases {m m' : Mem} {file : Nat} {f : snapraid_file} {sub : String}
    {st : Stat} (h : scan_file_changed m file f sub st = .ok m') :
    ∃ scan1 m1, scan1.file_insert_list = m.scan.file_insert_list ∧
      scan1.link_insert_list = m.scan.link_insert_list ∧
      scan1.dir_insert_list = m.scan.dir_insert_list ∧
      scan1.count_equal = m.scan.count_equal ∧ scan1.count_moved = m.scan.count_moved ∧
      scan_file_remove { m with scan := scan1 } file = .ok m1 ∧
      m' = scan_file_add m1 sub st := by
  unfold scan_file_changed at h
  split at h
  · cases h
  · rcases bind_ok.1 h with ⟨m1, h1, h2⟩
    simp only [pure, Except.pure, Except.ok.injEq] at h2
    exact ⟨_, m1, by split <;> rfl, by split <;> rfl, by split <;> rfl, by split <;> rfl,
      by split <;> rfl, h1, h2.symm⟩

theorem heap_get_append {α : Type} {mem : List (Option α)} {x y : α} {p : Nat}
    (h : heap_get (mem ++ [some x]) p = .ok y) :
    (p < mem.length ∧ heap_get mem p = .ok y) ∨ (p = mem.length ∧ y = x) := by
  unfold heap_get at h ⊢
  by_cases hp : p < mem.length
  · rw [List.getElem?_append_left hp] at h
    exact Or.inl ⟨hp, h⟩
  · by_cases hp2 : p = mem.length
    · subst hp2
      simp at h
      exact Or.inr ⟨rfl, h.symm⟩
    · rw [List.getElem?_eq_none (by simp; omega)] at h
      cases h

theorem heap_get_lt {α : Type} {mem : List (Option α)} {x : α} {p : Nat}
    (h : heap_get mem p = .ok x) : p < mem.length := by
  rw [heap_get_ok] at h
  by_contra hc
  rw [List.getElem?_eq_none (by omega)] at h
  cases h

theorem heap_get_append_old {α : Type} {mem : List (Option α)} {x y : α} {p : Nat}
    (h : heap_get mem p = .ok y) : heap_get (mem ++ [some x]) p = .ok y := by
  have hl := heap_get_lt h
  unfold heap_get at h ⊢
  rw [List.getElem?_append_left hl]
  exact h

theorem heap_get_append_new {α : Type} (mem : List (Option α)) (x : α) :
    heap_get (mem ++ [some x]) mem.length = .ok x := by
  unfold heap_get
  simp

theorem heap_get_free {α : Type} {mem : List (Option α)} {x : α} {p q : Nat}
    (h : heap_get (heap_free mem q) p = .ok x) : p ≠ q ∧ heap_get mem p = .ok x := by
  unfold heap_get heap_free at *
  by_cases hpq : p = q
  · subst hpq
    by_cases hl : p < mem.length
    · rw [List.getElem?_set_self hl] at h; cases h
    · rw [List.getElem?_eq_none (by simp; omega)] at h; cases h
  · rw [List.getElem?_set_ne (Ne.symm hpq)] at h
    exact ⟨hpq, h⟩

theorem heap_get_free_ne {α : Type} {mem : List (Option α)} {p q : Nat} (hpq : p ≠ q) :
    heap_get (heap_free mem q) p = heap_get mem p := by
  unfold heap_get heap_free
  rw [List.getElem?_set_ne (Ne.symm hpq)]

theorem heap_get_set {α : Type} {mem : List (Option α)} {x y : α} {p q : Nat}
    (h : heap_get (heap_set mem q y) p = .ok x) :
    (p = q ∧ x = y) ∨ (p ≠ q ∧ heap_get mem p = .ok x) := by
  unfold heap_get heap_set at *
  by_cases hpq : p = q
  · subst hpq
    by_cases hl : p < mem.length
    · rw [List.getElem?_set_self hl] at h
      simp at h
      exact Or.inl ⟨rfl, h.symm⟩
    · rw [List.getElem?_eq_none (by simp; omega)] at h; cases h
  · rw [List.getElem?_set_ne (Ne.symm hpq)] at h
    exact Or.inr ⟨hpq, h⟩

/-- A search that finds nothing: no allocated element of the table has the key. -/
theorem tommy_hashdyn_search_none {α κ : Type} [DecidableEq κ] {mem : List (Option α)}
    {key : α → κ} {set : List Nat} {k : κ}
    (h : tommy_hashdyn_search mem key set k = none) :
    ∀ p ∈ set, ∀ x, heap_get mem p = .ok x → key x ≠ k := by
  intro p hp x hx
  unfold tommy_hashdyn_search at h
  have := List.find?_eq_none.1 h p hp
  rw [heap_get_ok] at hx
  simpa [hx] using this

/-- The lookup of `scan_file` is a search by key. -/
theorem scan_file_lookup_key (m : Mem) (sub : String) (st : Stat) :
    scan_file_lookup m sub st =
      tommy_hashdyn_search m.disk.filemem (file_key m.state.find_by_name)
        (lookup_set m.state.find_by_name m.disk) (stat_key m.state.find_by_name sub st) := by
  unfold scan_file_lookup tommy_hashdyn_search
  cases hb : m.state.find_by_name
  · simp only [Bool.false_eq_true, ↓reduceIte, lookup_set, stat_key, file_key]
    congr 1
    funext p
    rcases m.disk.filemem[p]? with _ | _ | x <;> simp
  · simp only [↓reduceIte, lookup_set, stat_key, file_key]
    congr 1
    funext p
    rcases m.disk.filemem[p]? with _ | _ | x <;> simp

/-! ### Histories of calls -/

theorem first_file_cons (b : Bool) (k : Key) (e : Event) (H : List Event) :
    first_file b k (e :: H) = (first_file b k H).or (event_first b k e) := rfl

theorem event_first_key {b : Bool} {k : Key} {e : Event} {sub : String} {st : Stat}
    (h : event_first b k e = some (sub, st)) : stat_key b sub st = k ∧ e = Event.file sub st := by
  cases e with
  | file s t =>
    simp only [event_first] at h
    split at h
    · next hk =>
      simp only [Option.some.injEq, Prod.mk.injEq] at h
      rw [← h.1, ← h.2]; exact ⟨hk, rfl⟩
    · cases h
  | _ => cases h

theorem first_file_key {b : Bool} {k : Key} : ∀ {H : List Event} {sub : String} {st : Stat},
    first_file b k H = some (sub, st) → stat_key b sub st = k
  | [], _, _, h => by cases h
  | e :: H, sub, st, h => by
    rw [first_file_cons] at h
    cases h1 : first_file b k H with
    | some x =>
      rw [h1] at h
      simp only [Option.or_some, Option.some.injEq] at h
      subst h
      exact first_file_key h1
    | none =>
      rw [h1] at h
      simp only [Option.none_or] at h
      exact (event_first_key h).1

theorem first_file_cons_some {b : Bool} {k : Key} {H : List Event} {x : String × Stat}
    (e : Event) (h : first_file b k H = some x) : first_file b k (e :: H) = some x := by
  rw [first_file_cons, h]; rfl

theorem first_file_cons_file_none {b : Bool} {k : Key} {H : List Event}
    (sub : String) (st : Stat) (h : first_file b k H = none) :
    first_file b k (Event.file sub st :: H) =
      if stat_key b sub st = k then some (sub, st) else none := by
  rw [first_file_cons, h]; rfl

theorem first_file_cons_link {b : Bool} {k : Key} {H : List Event} (sub linkto : String) :
    first_file b k (Event.link sub linkto :: H) = first_file b k H := by
  rw [first_file_cons]
  cases first_file b k H <;> rfl

theorem first_file_cons_emptydir {b : Bool} {k : Key} {H : List Event} (sub : String) :
    first_file b k (Event.emptydir sub :: H) = first_file b k H := by
  rw [first_file_cons]
  cases first_file b k H <;> rfl

theorem first_file_append {b : Bool} {k : Key} {H : List Event} {x : String × Stat}
    (h : first_file b k H = some x) : ∀ R : List Event, first_file b k (R ++ H) = some x
  | [] => h
  | e :: R => first_file_cons_some e (first_file_append h R)

theorem link_calls_sub {b : Bool} : ∀ {H : List Event} {c : String × String × LinkKind},
    c ∈ link_calls b H → c.1 ∈ event_subs H
  | [], c, h => by simp [link_calls] at h
  | .file sub st :: H, c, h => by
    unfold link_calls at h
    unfold event_subs
    split at h
    · rcases List.mem_cons.1 h with h | h
      · subst h; simp
      · exact List.mem_cons_of_mem _ (link_calls_sub h)
    · exact List.mem_cons_of_mem _ (link_calls_sub h)
  | .link sub linkto :: H, c, h => by
    unfold link_calls at h
    unfold event_subs
    rcases List.mem_cons.1 h with h | h
    · subst h; simp
    · exact List.mem_cons_of_mem _ (link_calls_sub h)
  | .emptydir sub :: H, c, h => by
    unfold link_calls at h
    unfold event_subs
    exact List.mem_cons_of_mem _ (link_calls_sub h)
  | .fail e :: H, c, h => by
    unfold link_calls at h
    unfold event_subs
    exact link_calls_sub h

theorem dir_calls_sub : ∀ {H : List Event} {c : String}, c ∈ dir_calls H → c ∈ event_subs H
  | [], c, h => by simp [dir_calls] at h
  | .file sub st :: H, c, h => by
    unfold dir_calls at h
    unfold event_subs
    exact List.mem_cons_of_mem _ (dir_calls_sub h)
  | .link sub linkto :: H, c, h => by
    unfold dir_calls at h
    unfold event_subs
    exact List.mem_cons_of_mem _ (dir_calls_sub h)
  | .emptydir sub :: H, c, h => by
    unfold dir_calls at h
    unfold event_subs
    rcases List.mem_cons.1 h with h | h
    · subst h; simp
    · exact List.mem_cons_of_mem _ (dir_calls_sub h)
  | .fail e :: H, c, h => by
    unfold dir_calls at h
    unfold event_subs
    exact dir_calls_sub h

/-- A call of `scan_link` for a sub-path not called before keeps the links in order. -/
theorem scan_link_inv {m m' : Mem} {C : List (String × String × LinkKind)}
    {sub linkto : String} {kind : LinkKind}
    (inv : LinkInv m C) (hnew : sub ∉ C.map (fun c => c.1))
    (h : scan_link m sub linkto kind = .ok m') :
    LinkInv m' ((sub, linkto, kind) :: C) := by
  rcases scan_link_cases h with ⟨hnone, hm⟩ | ⟨l, ll, hsome, hll, hnp, hm⟩
  · -- a new link
    subst hm
    have hno := tommy_hashdyn_search_none hnone
    have hstaged_name : ∀ q ∈ m.scan.link_insert_list, ∀ y, heap_get m.disk.linkmem q = .ok y →
        y.sub ≠ sub := by
      intro q hq y hy hsub
      rcases inv.staged q hq with ⟨y', hy', hyp⟩
      rw [hy] at hy'; cases hy'
      have := (inv.cover q y hy hyp).2
      exact hnew (List.mem_map.2 ⟨_, this, hsub⟩)
    have hname : ∀ q ∈ m.disk.linkset ++ m.scan.link_insert_list, ∀ y,
        heap_get m.disk.linkmem q = .ok y → y.sub ≠ sub := by
      intro q hq y hy
      rcases List.mem_append.1 hq with hq | hq
      · exact hno q hq y hy
      · exact hstaged_name q hq y hy
    constructor
    · intro p hp q hq x y hx hy hxy
      simp only [← List.append_assoc] at hp hq
      rcases heap_get_append hx with ⟨_, hx'⟩ | ⟨hpl, hxn⟩ <;>
      rcases heap_get_append hy with ⟨_, hy'⟩ | ⟨hql, hyn⟩
      · rcases List.mem_append.1 hp with hp | hp
        · rcases List.mem_append.1 hq with hq | hq
          · exact inv.uniq p hp q hq x y hx' hy' hxy
          · simp only [List.mem_singleton] at hq
            exact absurd (heap_get_lt hy') (by omega)
        · simp only [List.mem_singleton] at hp
          exact absurd (heap_get_lt hx') (by omega)
      · subst hyn
        rcases List.mem_append.1 hp with hp | hp
        · exact absurd hxy (hname p hp x hx')
        · simp only [List.mem_singleton] at hp
          exact hp.trans hql.symm
      · subst hxn
        rcases List.mem_append.1 hq with hq | hq
        · exact absurd hxy.symm (hname q hq y hy')
        · simp only [List.mem_singleton] at hq
          exact hpl.trans hq.symm
      · exact hpl.trans hql.symm
    · intro c hc
      rcases List.mem_cons.1 hc with hc | hc
      · subst hc
        refine ⟨m.disk.linkmem.length, _, ?_, heap_get_append_new _ _, rfl, rfl, rfl, rfl⟩
        simp
      · rcases inv.mark c hc with ⟨l, ll, hl, hll, hp, hd⟩
        refine ⟨l, ll, ?_, heap_get_append_old hll, hp, hd⟩
        simp only [← List.append_assoc]
        exact List.mem_append_left _ hl
    · intro l ll hll hp
      simp only [← List.append_assoc]
      rcases heap_get_append hll with ⟨_, hll'⟩ | ⟨hl, hn⟩
      · have := inv.cover l ll hll' hp
        exact ⟨List.mem_append_left _ this.1, List.mem_cons_of_mem _ this.2⟩
      · subst hn; subst hl
        exact ⟨by simp, by simp⟩
    · intro l hl
      rcases List.mem_append.1 hl with hl | hl
      · rcases inv.staged l hl with ⟨ll, hll, hp⟩
        exact ⟨ll, heap_get_append_old hll, hp⟩
      · simp only [List.mem_singleton] at hl
        subst hl
        exact ⟨_, heap_get_append_new _ _, rfl⟩
  · -- a link of the table, not yet PRESENT
    rcases tommy_hashdyn_search_some hsome with ⟨hlset, x, hx, hxsub⟩
    rw [hll] at hx; cases hx
    have key : ∃ ll', m'.disk.linkmem = heap_set m.disk.linkmem l ll' ∧ ll'.sub = sub ∧
        ll'.present = true ∧ ll'.linkto = linkto ∧ ll'.kind = kind ∧
        m'.disk.linkset = m.disk.linkset ∧
        m'.scan.link_insert_list = m.scan.link_insert_list := by
      rcases hm with ⟨h1, h2, hm⟩ | ⟨_, hm⟩
      · subst hm
        exact ⟨_, rfl, hxsub, rfl, h1, h2.symm, rfl, rfl⟩
      · subst hm
        exact ⟨_, rfl, hxsub, rfl, rfl, rfl, rfl, rfl⟩
    rcases key with ⟨ll', hmem, hsub', hpres', hlt', hk', hset, hst⟩
    have hget : ∀ p y, heap_get m'.disk.linkmem p = .ok y →
        (p = l ∧ y = ll') ∨ (p ≠ l ∧ heap_get m.disk.linkmem p = .ok y) := by
      intro p y hy
      rw [hmem] at hy
      exact heap_get_set hy
    have hold : ∀ p y, p ≠ l → heap_get m.disk.linkmem p = .ok y →
        heap_get m'.disk.linkmem p = .ok y := by
      intro p y hne hy
      rw [hmem, heap_get_set_ne (Ne.symm hne)]; exact hy
    have hself : heap_get m'.disk.linkmem l = .ok ll' := by
      rw [hmem]; exact heap_get_set_self hll
    have hname : ∀ p y, heap_get m'.disk.linkmem p = .ok y →
        ∃ y0, heap_get m.disk.linkmem p = .ok y0 ∧ y0.sub = y.sub := by
      intro p y hy
      rcases hget p y hy with ⟨h1, h2⟩ | ⟨_, h2⟩
      · subst h1; subst h2
        exact ⟨ll, hll, hxsub.trans hsub'.symm⟩
      · exact ⟨y, h2, rfl⟩
    constructor
    · intro p hp q hq x y hx hy hxy
      rw [hset, hst] at hp hq
      rcases hname p x hx with ⟨x0, hx0, hx0s⟩
      rcases hname q y hy with ⟨y0, hy0, hy0s⟩
      exact inv.uniq p hp q hq x0 y0 hx0 hy0 (by rw [hx0s, hy0s]; exact hxy)
    · intro c hc
      rw [hset, hst]
      rcases List.mem_cons.1 hc with hc | hc
      · subst hc
        exact ⟨l, ll', List.mem_append_left _ hlset, hself, hpres', hsub', hlt', hk'⟩
      · rcases inv.mark c hc with ⟨l0, ll0, hl0, hll0, hp0, hd0⟩
        have hne : l0 ≠ l := by
          intro he
          subst he
          rw [hll] at hll0; cases hll0
          rw [hnp] at hp0; cases hp0
        exact ⟨l0, ll0, hl0, hold l0 ll0 hne hll0, hp0, hd0⟩
    · intro p y hy hp
      rw [hset, hst]
      rcases hget p y hy with ⟨h1, h2⟩ | ⟨_, h2⟩
      · subst h1; subst h2
        refine ⟨List.mem_append_left _ hlset, ?_⟩
        rw [hsub', hlt', hk']
        simp
      · have := inv.cover p y h2 hp
        exact ⟨this.1, List.mem_cons_of_mem _ this.2⟩
    · intro p hp
      rw [hst] at hp
      rcases inv.staged p hp with ⟨y, hy, hyp⟩
      have hne : p ≠ l := by
        intro he
        subst he
        rw [hll] at hy; cases hy
        rw [hnp] at hyp; cases hyp
      exact ⟨y, hold p y hne hy, hyp⟩

/-- A call of `scan_emptydir` for a sub-path not called before keeps the dirs in order. -/
theorem scan_emptydir_inv {m m' : Mem} {C : List String} {sub : String}
    (inv : DirInv m C) (hnew : sub ∉ C)
    (h : scan_emptydir m sub = .ok m') :
    DirInv m' (sub :: C) := by
  rcases scan_emptydir_cases h with ⟨hnone, hm⟩ | ⟨l, ll, hsome, hll, hnp, hm⟩
  · subst hm
    have hno := tommy_hashdyn_search_none hnone
    have hstaged_name : ∀ q ∈ m.scan.dir_insert_list, ∀ y, heap_get m.disk.dirmem q = .ok y →
        y.sub ≠ sub := by
      intro q hq y hy hsub
      rcases inv.staged q hq with ⟨y', hy', hyp⟩
      rw [hy] at hy'; cases hy'
      have := (inv.cover q y hy hyp).2
      exact hnew (hsub ▸ this)
    have hname : ∀ q ∈ m.disk.dirset ++ m.scan.dir_insert_list, ∀ y,
        heap_get m.disk.dirmem q = .ok y → y.sub ≠ sub := by
      intro q hq y hy
      rcases List.mem_append.1 hq with hq | hq
      · exact hno q hq y hy
      · exact hstaged_name q hq y hy
    constructor
    · intro p hp q hq x y hx hy hxy
      simp only [← List.append_assoc] at hp hq
      rcases heap_get_append hx with ⟨_, hx'⟩ | ⟨hpl, hxn⟩ <;>
      rcases heap_get_append hy with ⟨_, hy'⟩ | ⟨hql, hyn⟩
      · rcases List.mem_append.1 hp with hp | hp
        · rcases List.mem_append.1 hq with hq | hq
          · exact inv.uniq p hp q hq x y hx' hy' hxy
          · simp only [List.mem_singleton] at hq
            exact absurd (heap_get_lt hy') (by omega)
        · simp only [List.mem_singleton] at hp
          exact absurd (heap_get_lt hx') (by omega)
      · subst hyn
        rcases List.mem_append.1 hp with hp | hp
        · exact absurd hxy (hname p hp x hx')
        · simp only [List.mem_singleton] at hp
          exact hp.trans hql.symm
      · subst hxn
        rcases List.mem_append.1 hq with hq | hq
        · exact absurd hxy.symm (hname q hq y hy')
        · simp only [List.mem_singleton] at hq
          exact hpl.trans hq.symm
      · exact hpl.trans hql.symm
    · intro c hc
      rcases List.mem_cons.1 hc with hc | hc
      · subst hc
        refine ⟨m.disk.dirmem.length, _, ?_, heap_get_append_new _ _, rfl, rfl⟩
        simp
      · rcases inv.mark c hc with ⟨l, ll, hl, hll, hp, hd⟩
        refine ⟨l, ll, ?_, heap_get_append_old hll, hp, hd⟩
        simp only [← List.append_assoc]
        exact List.mem_append_left _ hl
    · intro l ll hll hp
      simp only [← List.append_assoc]
      rcases heap_get_append hll with ⟨_, hll'⟩ | ⟨hl, hn⟩
      · have := inv.cover l ll hll' hp
        exact ⟨List.mem_append_left _ this.1, List.mem_cons_of_mem _ this.2⟩
      · subst hn; subst hl
        exact ⟨by simp, by simp⟩
    · intro l hl
      rcases List.mem_append.1 hl with hl | hl
      · rcases inv.staged l hl with ⟨ll, hll, hp⟩
        exact ⟨ll, heap_get_append_old hll, hp⟩
      · simp only [List.mem_singleton] at hl
        subst hl
        exact ⟨_, heap_get_append_new _ _, rfl⟩
  · rcases tommy_hashdyn_search_some hsome with ⟨hlset, x, hx, hxsub⟩
    rw [hll] at hx; cases hx
    subst hm
    have hget : ∀ p y, heap_get (heap_set m.disk.dirmem l { ll with present := true }) p = .ok y →
        (p = l ∧ y = { ll with present := true }) ∨ (p ≠ l ∧ heap_get m.disk.dirmem p = .ok y) :=
      fun p y hy => heap_get_set hy
    have hold : ∀ p y, p ≠ l → heap_get m.disk.dirmem p = .ok y →
        heap_get (heap_set m.disk.dirmem l { ll with present := true }) p = .ok y := by
      intro p y hne hy
      rw [heap_get_set_ne (Ne.symm hne)]; exact hy
    have hself : heap_get (heap_set m.disk.dirmem l { ll with present := true }) l =
        .ok { ll with present := true } := heap_get_set_self hll
    have hname : ∀ p y, heap_get (heap_set m.disk.dirmem l { ll with present := true }) p = .ok y →
        ∃ y0, heap_get m.disk.dirmem p = .ok y0 ∧ y0.sub = y.sub := by
      intro p y hy
      rcases hget p y hy with ⟨h1, h2⟩ | ⟨_, h2⟩
      · subst h1; subst h2
        exact ⟨ll, hll, rfl⟩
      · exact ⟨y, h2, rfl⟩
    constructor
    · intro p hp q hq x y hx hy hxy
      rcases hname p x hx with ⟨x0, hx0, hx0s⟩
      rcases hname q y hy with ⟨y0, hy0, hy0s⟩
      exact inv.uniq p hp q hq x0 y0 hx0 hy0 (by rw [hx0s, hy0s]; exact hxy)
    · intro c hc
      rcases List.mem_cons.1 hc with hc | hc
      · subst hc
        exact ⟨l, _, List.mem_append_left _ hlset, hself, rfl, hxsub⟩
      · rcases inv.mark c hc with ⟨l0, ll0, hl0, hll0, hp0, hd0⟩
        have hne : l0 ≠ l := by
          intro he
          subst he
          rw [hll] at hll0; cases hll0
          rw [hnp] at hp0; cases hp0
        exact ⟨l0, ll0, hl0, hold l0 ll0 hne hll0, hp0, hd0⟩
    · intro p y hy hp
      rcases hget p y hy with ⟨h1, h2⟩ | ⟨_, h2⟩
      · subst h1; subst h2
        refine ⟨List.mem_append_left _ hlset, ?_⟩
        simp [hxsub]
      · have := inv.cover p y h2 hp
        exact ⟨this.1, List.mem_cons_of_mem _ this.2⟩
    · intro p hp
      rcases inv.staged p hp with ⟨y, hy, hyp⟩
      have hne : p ≠ l := by
        intro he
        subst he
        rw [hll] at hy; cases hy
        rw [hnp] at hyp; cases hyp
      exact ⟨y, hold p y hne hy, hyp⟩

theorem file_matches_key {b : Bool} {f : snapraid_file} {sub : String} {st : Stat}
    (h : file_matches f sub st) : file_key b f = stat_key b sub st := by
  unfold file_key stat_key
  rw [h.1, h.2.2.2.2]

/-- The invariant of the files reads the file memory, the two tables and the
delayed list only. -/
theorem FileInv_congr {b : Bool} {m m' : Mem} {H : List Event}
    (hmem : m'.disk.filemem = m.disk.filemem) (hps : m'.disk.pathset = m.disk.pathset)
    (his : m'.disk.inodeset = m.disk.inodeset)
    (hst : m'.scan.file_insert_list = m.scan.file_insert_list)
    (inv : FileInv b m H) : FileInv b m' H := by
  have hls : lookup_set b m'.disk = lookup_set b m.disk := by
    unfold lookup_set; rw [hps, his]
  constructor
  · intro p hp q hq f g hf hg
    rw [hls] at hp hq
    rw [hmem] at hf hg
    exact inv.uniq p hp q hq f g hf hg
  · intro k sub st hk
    rw [hls, hmem]
    exact inv.mark k sub st hk
  · intro g f hf hp
    rw [hls]
    rw [hmem] at hf
    exact inv.cover g f hf hp
  · intro g hg
    rw [hst] at hg
    rw [hmem]
    exact inv.staged g hg
  · exact inv.nlink

/-- When every file of the table with key `k` is not PRESENT, no call had key `k`. -/
theorem first_file_none {b : Bool} {m : Mem} {H : List Event} {k : Key}
    (inv : FileInv b m H)
    (h : ∀ g ∈ lookup_set b m.disk, ∀ f, heap_get m.disk.filemem g = .ok f →
      file_key b f = k → f.present = false) :
    first_file b k H = none := by
  cases hf : first_file b k H with
  | none => rfl
  | some x =>
    rcases x with ⟨s, t⟩
    rcases inv.mark k s t hf with ⟨g, f, hg, hgf, hp, hmt⟩
    have := h g hg f hgf ((file_matches_key hmt).trans (first_file_key hf))
    rw [this] at hp; cases hp

/-- The removal of a file that is not PRESENT keeps the files in order. -/
theorem file_inv_remove {b : Bool} {m m1 : Mem} {H : List Event} {file : Nat}
    {f : snapraid_file} (inv : FileInv b m H)
    (hf : heap_get m.disk.filemem file = .ok f) (hnp : f.present = false)
    (h : scan_file_remove m file = .ok m1) : FileInv b m1 H := by
  rcases scan_file_remove_frame h with ⟨hscan, _, hmem, _, hps, his, _⟩
  have hls : lookup_set b m1.disk = (lookup_set b m.disk).erase file := by
    unfold lookup_set; rw [hps, his]; split <;> rfl
  have hsub : ∀ p, p ∈ lookup_set b m1.disk → p ∈ lookup_set b m.disk := by
    intro p hp
    rw [hls] at hp
    exact List.mem_of_mem_erase hp
  have hget : ∀ p x, heap_get m1.disk.filemem p = .ok x →
      p ≠ file ∧ heap_get m.disk.filemem p = .ok x := by
    intro p x hx
    rw [hmem] at hx
    exact heap_get_free hx
  have hold : ∀ p x, heap_get m.disk.filemem p = .ok x → x.present = true →
      heap_get m1.disk.filemem p = .ok x ∧ (p ∈ lookup_set b m.disk → p ∈ lookup_set b m1.disk) := by
    intro p x hx hp
    have hne : p ≠ file := by
      intro he
      subst he
      rw [hf] at hx; cases hx
      rw [hnp] at hp; cases hp
    refine ⟨by rw [hmem, heap_get_free_ne hne]; exact hx, ?_⟩
    intro hmem'
    rw [hls]
    exact (List.mem_erase_of_ne hne).2 hmem'
  constructor
  · intro p hp q hq x y hx hy
    exact inv.uniq p (hsub p hp) q (hsub q hq) x y (hget p x hx).2 (hget q y hy).2
  · intro k sub st hk
    rcases inv.mark k sub st hk with ⟨g, x, hg, hgx, hp, hmt⟩
    exact ⟨g, x, (hold g x hgx hp).2 hg, (hold g x hgx hp).1, hp, hmt⟩
  · intro g x hx hp
    have h0 := (hget g x hx).2
    have := inv.cover g x h0 hp
    exact ⟨(hold g x h0 hp).2 this.1, this.2⟩
  · intro g hg
    rw [hscan] at hg
    rcases inv.staged g hg with ⟨x, hx, hp⟩
    exact ⟨x, (hold g x hx hp).1, hp⟩
  · exact inv.nlink

theorem lookup_set_add (b : Bool) (m : Mem) (sub : String) (st : Stat) :
    lookup_set b (scan_file_add m sub st).disk = lookup_set b m.disk ++ [m.disk.filemem.length] := by
  unfold lookup_set scan_file_add heap_alloc
  cases b <;> rfl

/-- The staging of a new file for a key no file of the table has keeps the
files in order. -/
theorem file_inv_add {b : Bool} {m : Mem} {H : List Event} {sub : String} {st : Stat}
    (inv : FileInv b m H)
    (hno : ∀ p ∈ lookup_set b m.disk, ∀ x, heap_get m.disk.filemem p = .ok x →
      file_key b x ≠ stat_key b sub st)
    (hfirst : first_file b (stat_key b sub st) H = none) :
    FileInv b (scan_file_add m sub st) (Event.file sub st :: H) := by
  have hmem : (scan_file_add m sub st).disk.filemem = m.disk.filemem ++
      [some { file_alloc m.state.block_size sub st.st_size st.st_mtime st.st_nsec st.st_ino with
        present := true }] := rfl
  have hst : (scan_file_add m sub st).scan.file_insert_list =
      m.scan.file_insert_list ++ [m.disk.filemem.length] := rfl
  have hmt : file_matches
      { file_alloc m.state.block_size sub st.st_size st.st_mtime st.st_nsec st.st_ino with
        present := true } sub st := ⟨rfl, rfl, rfl, rfl, rfl⟩
  have hls := lookup_set_add b m sub st
  have hin : ∀ p, p ∈ lookup_set b (scan_file_add m sub st).disk → p < m.disk.filemem.length →
      p ∈ lookup_set b m.disk := by
    intro p hp hlt
    rw [hls] at hp
    rcases List.mem_append.1 hp with hp | hp
    · exact hp
    · simp only [List.mem_singleton] at hp; omega
  constructor
  · intro p hp q hq x y hx hy hxy
    rw [hmem] at hx hy
    rcases heap_get_append hx with ⟨hpl, hx'⟩ | ⟨hpl, hxn⟩ <;>
    rcases heap_get_append hy with ⟨hql, hy'⟩ | ⟨hql, hyn⟩
    · exact inv.uniq p (hin p hp hpl) q (hin q hq hql) x y hx' hy' hxy
    · subst hyn
      exact absurd (hxy.trans (file_matches_key hmt)) (hno p (hin p hp hpl) x hx')
    · subst hxn
      exact absurd (hxy.symm.trans (file_matches_key hmt)) (hno q (hin q hq hql) y hy')
    · exact hpl.trans hql.symm
  · intro k s t hk
    rw [hls, hmem]
    cases hk0 : first_file b k H with
    | some x0 =>
      rw [first_file_cons_some _ hk0] at hk
      cases hk
      rcases inv.mark k s t hk0 with ⟨g, x, hg, hgx, hp, hm⟩
      exact ⟨g, x, List.mem_append_left _ hg, heap_get_append_old hgx, hp, hm⟩
    | none =>
      rw [first_file_cons_file_none _ _ hk0] at hk
      split at hk
      · cases hk
        exact ⟨m.disk.filemem.length, _, by simp, heap_get_append_new _ _, rfl, hmt⟩
      · cases hk
  · intro g x hx hp
    rw [hls]
    rw [hmem] at hx
    rcases heap_get_append hx with ⟨_, hx'⟩ | ⟨hgl, hxn⟩
    · rcases inv.cover g x hx' hp with ⟨h1, s, t, h2, h3⟩
      exact ⟨List.mem_append_left _ h1, s, t, first_file_cons_some _ h2, h3⟩
    · subst hxn; subst hgl
      refine ⟨by simp, sub, st, ?_, hmt⟩
      rw [file_matches_key hmt, first_file_cons_file_none _ _ hfirst, if_pos rfl]
  · intro g hg
    rw [hst] at hg
    rw [hmem]
    rcases List.mem_append.1 hg with hg | hg
    · rcases inv.staged g hg with ⟨x, hx, hp⟩
      exact ⟨x, heap_get_append_old hx, hp⟩
    · simp only [List.mem_singleton] at hg
      subst hg
      exact ⟨_, heap_get_append_new _ _, rfl⟩
  · exact ⟨fun hc => absurd hfirst hc, inv.nlink⟩

/-- Marking a file of the table PRESENT with the data of the live entry keeps
the files in order. -/
theorem file_inv_mark {b : Bool} {m : Mem} (m' : Mem) {H : List Event} {sub : String} {st : Stat}
    {file : Nat} {f : snapraid_file} (f' : snapraid_file) (inv : FileInv b m H)
    (hfile : file ∈ lookup_set b m.disk)
    (hf : heap_get m.disk.filemem file = .ok f) (hnp : f.present = false)
    (hkey : file_key b f = stat_key b sub st)
    (hmem : m'.disk.filemem = heap_set m.disk.filemem file f')
    (hls : lookup_set b m'.disk = lookup_set b m.disk)
    (hst : m'.scan.file_insert_list = m.scan.file_insert_list)
    (hp' : f'.present = true) (hmt : file_matches f' sub st) :
    first_file b (stat_key b sub st) H = none ∧ FileInv b m' (Event.file sub st :: H) := by
  have hfirst : first_file b (stat_key b sub st) H = none := by
    apply first_file_none inv
    intro g hg x hx hk
    have := inv.uniq g hg file hfile x f hx hf (hk.trans hkey.symm)
    subst this
    rw [hf] at hx; cases hx
    exact hnp
  refine ⟨hfirst, ?_⟩
  have hget : ∀ p y, heap_get m'.disk.filemem p = .ok y →
      (p = file ∧ y = f') ∨ (p ≠ file ∧ heap_get m.disk.filemem p = .ok y) := by
    intro p y hy
    rw [hmem] at hy
    exact heap_get_set hy
  have hold : ∀ p y, heap_get m.disk.filemem p = .ok y → y.present = true →
      heap_get m'.disk.filemem p = .ok y := by
    intro p y hy hyp
    have hne : p ≠ file := by
      intro he
      subst he
      rw [hf] at hy; cases hy
      rw [hnp] at hyp; cases hyp
    rw [hmem, heap_get_set_ne (Ne.symm hne)]; exact hy
  have hself : heap_get m'.disk.filemem file = .ok f' := by
    rw [hmem]; exact heap_get_set_self hf
  have hkey' : file_key b f' = stat_key b sub st := file_matches_key hmt
  have hname : ∀ p y, heap_get m'.disk.filemem p = .ok y →
      ∃ y0, heap_get m.disk.filemem p = .ok y0 ∧ file_key b y0 = file_key b y := by
    intro p y hy
    rcases hget p y hy with ⟨h1, h2⟩ | ⟨_, h2⟩
    · subst h1; subst h2
      exact ⟨f, hf, hkey.trans hkey'.symm⟩
    · exact ⟨y, h2, rfl⟩
  constructor
  · intro p hp q hq x y hx hy hxy
    rw [hls] at hp hq
    rcases hname p x hx with ⟨x0, hx0, hx0s⟩
    rcases hname q y hy with ⟨y0, hy0, hy0s⟩
    exact inv.uniq p hp q hq x0 y0 hx0 hy0 (by rw [hx0s, hy0s]; exact hxy)
  · intro k s t hk
    rw [hls]
    cases hk0 : first_file b k H with
    | some x0 =>
      rw [first_file_cons_some _ hk0] at hk
      cases hk
      rcases inv.mark k s t hk0 with ⟨g, x, hg, hgx, hp, hm⟩
      exact ⟨g, x, hg, hold g x hgx hp, hp, hm⟩
    | none =>
      rw [first_file_cons_file_none _ _ hk0] at hk
      split at hk
      · cases hk
        exact ⟨file, f', hfile, hself, hp', hmt⟩
      · cases hk
  · intro g x hx hp
    rw [hls]
    rcases hget g x hx with ⟨h1, h2⟩ | ⟨_, h2⟩
    · subst h1; subst h2
      refine ⟨hfile, sub, st, ?_, hmt⟩
      rw [hkey', first_file_cons_file_none _ _ hfirst, if_pos rfl]
    · rcases inv.cover g x h2 hp with ⟨h1, s, t, h3, h4⟩
      exact ⟨h1, s, t, first_file_cons_some _ h3, h4⟩
  · intro g hg
    rw [hst] at hg
    rcases inv.staged g hg with ⟨x, hx, hp⟩
    exact ⟨x, hold g x hx hp, hp⟩
  · exact ⟨fun hc => absurd hfirst hc, inv.nlink⟩

/-- A call that is not the first with its key leaves the files in order. -/
theorem file_inv_seen {b : Bool} {m : Mem} {H : List Event} {sub : String} {st : Stat}
    (inv : FileInv b m H) (hseen : first_file b (stat_key b sub st) H ≠ none)
    (hn : st.st_nlink > 1) : FileInv b m (Event.file sub st :: H) := by
  have hff : ∀ k, first_file b k (Event.file sub st :: H) = first_file b k H := by
    intro k
    cases hk0 : first_file b k H with
    | some x0 => exact first_file_cons_some _ hk0
    | none =>
      rw [first_file_cons_file_none _ _ hk0]
      split
      · next hk => rw [hk] at hseen; exact absurd hk0 hseen
      · rfl
  constructor
  · exact inv.uniq
  · intro k s t hk
    rw [hff] at hk
    exact inv.mark k s t hk
  · intro g x hx hp
    rw [hff]
    exact inv.cover g x hx hp
  · exact inv.staged
  · exact ⟨fun _ => hn, inv.nlink⟩

theorem file_inv_link {b : Bool} {m : Mem} {H : List Event} (sub linkto : String)
    (inv : FileInv b m H) : FileInv b m (Event.link sub linkto :: H) := by
  constructor
  · exact inv.uniq
  · intro k s t hk
    rw [first_file_cons_link] at hk
    exact inv.mark k s t hk
  · intro g x hx hp
    rw [first_file_cons_link]
    exact inv.cover g x hx hp
  · exact inv.staged
  · exact inv.nlink

theorem file_inv_emptydir {b : Bool} {m : Mem} {H : List Event} (sub : String)
    (inv : FileInv b m H) : FileInv b m (Event.emptydir sub :: H) := by
  constructor
  · exact inv.uniq
  · intro k s t hk
    rw [first_file_cons_emptydir] at hk
    exact inv.mark k s t hk
  · intro g x hx hp
    rw [first_file_cons_emptydir]
    exact inv.cover g x hx hp
  · exact inv.staged
  · exact inv.nlink

theorem LinkInv_congr {m m' : Mem} {C : List (String × String × LinkKind)}
    (h : link_part_eq m m') (inv : LinkInv m C) : LinkInv m' C := by
  rcases h with ⟨h1, h2, _, h4⟩
  constructor
  · rw [h1, h2, h4]; exact inv.uniq
  · rw [h1, h2, h4]; exact inv.mark
  · rw [h1, h2, h4]; exact inv.cover
  · rw [h1, h4]; exact inv.staged

theorem DirInv_congr {m m' : Mem} {C : List String}
    (h : dir_part_eq m m') (inv : DirInv m C) : DirInv m' C := by
  rcases h with ⟨h1, h2, _, h4⟩
  constructor
  · rw [h1, h2, h4]; exact inv.uniq
  · rw [h1, h2, h4]; exact inv.mark
  · rw [h1, h2, h4]; exact inv.cover
  · rw [h1, h4]; exact inv.staged

theorem scan_link_dir_part {m m' : Mem} {sub linkto : String} {kind : LinkKind}
    (h : scan_link m sub linkto kind = .ok m') : dir_part_eq m m' := by
  rcases scan_link_cases h with ⟨_, h2⟩ | ⟨l, ll, _, _, _, ⟨_, _, h2⟩ | ⟨_, h2⟩⟩ <;>
    (subst h2; exact ⟨rfl, rfl, rfl, rfl⟩)

theorem scan_emptydir_link_part {m m' : Mem} {sub : String}
    (h : scan_emptydir m sub = .ok m') : link_part_eq m m' := by
  rcases scan_emptydir_cases h with ⟨_, h2⟩ | ⟨d, dd, _, _, _, h2⟩ <;>
    (subst h2; exact ⟨rfl, rfl, rfl, rfl⟩)

theorem FileInv_of_file_part {b : Bool} {m m' : Mem} {H : List Event}
    (h : file_part_eq m m') (inv : FileInv b m H) : FileInv b m' H :=
  FileInv_congr h.2.2.1 h.2.2.2.2.1 h.2.2.2.2.2.1 h.2.2.2.2.2.2.2.2 inv

theorem unchanged_nsec {f : snapraid_file} {st : Stat} (h : file_unchanged f st) :
    (if f.mtime_nsec = FILE_MTIME_NSEC_INVALID ∧ st.st_nsec ≠ FILE_MTIME_NSEC_INVALID
      then st.st_nsec else f.mtime_nsec) = st.st_nsec := by
  rcases h with ⟨_, _, h | h⟩
  · split
    · rfl
    · exact h
  · by_cases hs : st.st_nsec = FILE_MTIME_NSEC_INVALID
    · rw [if_neg (fun hc => hc.2 hs), h, hs]
    · rw [if_pos ⟨h, hs⟩]

/-- One call of `scan_file` during the walk: either no earlier call had the
key, and the files stay in order with the call added to the history while the
links and the dirs are not touched; or an earlier call had the key, the live
entry has more than one link, and the call is `scan_link` for a hardlink to the
path of the first call with the key. -/
theorem scan_file_step {b : Bool} {m m' : Mem} {H : List Event} {sub : String} {st : Stat}
    (hb : m.state.find_by_name = b) (inv : FileInv b m H)
    (h : scan_file m sub st = .ok m') :
    (first_file b (stat_key b sub st) H = none ∧ FileInv b m' (Event.file sub st :: H) ∧
      link_part_eq m m' ∧ dir_part_eq m m') ∨
    (∃ sub0 st0, first_file b (stat_key b sub st) H = some (sub0, st0) ∧ st.st_nlink > 1 ∧
      scan_link m sub sub0 LinkKind.FILE_IS_HARDLINK = .ok m') := by
  have hlk := scan_file_lookup_key m sub st
  rw [hb] at hlk
  rcases scan_file_cases h with ⟨hnone, hm⟩ | ⟨file, f, hsome, hf, hp, hn, hl⟩ |
    ⟨file, f, hsome, hf, hp, hu, hun⟩ | ⟨file, f, hsome, hf, hp, hu, hch⟩
  · -- nothing found
    left
    rw [hlk] at hnone
    have hno := tommy_hashdyn_search_none hnone
    have hfirst : first_file b (stat_key b sub st) H = none :=
      first_file_none inv (fun g hg x hx hk => absurd hk (hno g hg x hx))
    have inv0 : FileInv b { m with scan := { m.scan with count_insert := m.scan.count_insert + 1 } } H :=
      @FileInv_congr b m _ H rfl rfl rfl rfl inv
    subst hm
    exact ⟨hfirst, file_inv_add inv0 hno hfirst, ⟨rfl, rfl, rfl, rfl⟩, ⟨rfl, rfl, rfl, rfl⟩⟩
  · -- found PRESENT
    right
    rw [hlk] at hsome
    rcases tommy_hashdyn_search_some hsome with ⟨_, x, hx, hk⟩
    rw [hf] at hx; cases hx
    rcases inv.cover file f hf hp with ⟨_, s, t, hft, hmt⟩
    rw [hk] at hft
    exact ⟨s, t, hft, hn, hmt.1 ▸ hl⟩
  · -- found, unchanged
    left
    rw [hlk] at hsome
    rcases tommy_hashdyn_search_some hsome with ⟨hfile, x, hx, hk⟩
    rw [hf] at hx; cases hx
    rcases scan_file_unchanged_cases hun with ⟨nsec, nw, hnsec, _, hshape⟩
    rw [unchanged_nsec hu] at hnsec
    rcases hshape with ⟨hs, hi, hm⟩ | ⟨hs, hi, hm⟩ | ⟨hs, hi, hm⟩
    · have hbf : b = false := by
        cases b
        · rfl
        · simp [file_key, stat_key] at hk; exact absurd hk hs
      subst hbf
      have := file_inv_mark m' { f with present := true, mtime_nsec := nsec, sub := sub }
        inv hfile hf hp hk (by rw [hm]) (by rw [hm]; rfl) (by rw [hm]) rfl
        ⟨rfl, hu.1, hu.2.1, hnsec, hi⟩
      subst hm
      exact ⟨this.1, this.2, ⟨rfl, rfl, rfl, rfl⟩, ⟨rfl, rfl, rfl, rfl⟩⟩
    · have hbt : b = true := by
        cases b
        · simp [file_key, stat_key] at hk; exact absurd hk hi
        · rfl
      subst hbt
      have := file_inv_mark m' { f with present := true, mtime_nsec := nsec, inode := st.st_ino }
        inv hfile hf hp hk (by rw [hm]) (by rw [hm]; rfl) (by rw [hm]) rfl
        ⟨hs, hu.1, hu.2.1, hnsec, rfl⟩
      subst hm
      exact ⟨this.1, this.2, ⟨rfl, rfl, rfl, rfl⟩, ⟨rfl, rfl, rfl, rfl⟩⟩
    · have := file_inv_mark m' { f with present := true, mtime_nsec := nsec }
        inv hfile hf hp hk (by rw [hm]) (by rw [hm]; rfl) (by rw [hm]) rfl
        ⟨hs, hu.1, hu.2.1, hnsec, hi⟩
      subst hm
      exact ⟨this.1, this.2, ⟨rfl, rfl, rfl, rfl⟩, ⟨rfl, rfl, rfl, rfl⟩⟩
  · -- found, changed
    left
    rw [hlk] at hsome
    rcases tommy_hashdyn_search_some hsome with ⟨hfile, x, hx, hk⟩
    rw [hf] at hx; cases hx
    rcases scan_file_changed_cases hch with ⟨scan1, m1, hl1, hl2, hl3, _, _, hrm, hm⟩
    have hfirst : first_file b (stat_key b sub st) H = none := by
      apply first_file_none inv
      intro g hg x hx hkx
      have := inv.uniq g hg file hfile x f hx hf (hkx.trans hk.symm)
      subst this
      rw [hf] at hx; cases hx
      exact hp
    have inv0 : FileInv b { m with scan := scan1 } H := @FileInv_congr b m _ H rfl rfl rfl hl1 inv
    have inv1 := file_inv_remove inv0 hf hp hrm
    rcases scan_file_remove_frame hrm with
      ⟨hscan, _, hmem, _, hps, his, a1, a2, a3, a4, a5, a6, _⟩
    have hno : ∀ p ∈ lookup_set b m1.disk, ∀ x, heap_get m1.disk.filemem p = .ok x →
        file_key b x ≠ stat_key b sub st := by
      intro p hp1 x hx hkx
      have hps0 : m1.disk.pathset = m.disk.pathset.erase file := hps
      have his0 : m1.disk.inodeset = m.disk.inodeset.erase file := his
      have hp0 : p ∈ lookup_set b m.disk := by
        cases b
        · have hq : p ∈ m1.disk.inodeset := hp1
          rw [his0] at hq
          exact List.mem_of_mem_erase hq
        · have hq : p ∈ m1.disk.pathset := hp1
          rw [hps0] at hq
          exact List.mem_of_mem_erase hq
      rw [hmem] at hx
      rcases heap_get_free hx with ⟨hne, hx0⟩
      exact hne (inv.uniq p hp0 file hfile x f hx0 hf (hkx.trans hk.symm))
    subst hm
    refine ⟨hfirst, file_inv_add inv1 hno hfirst, ⟨a1, a3, a2, ?_⟩, ⟨a4, a6, a5, ?_⟩⟩
    · show m1.scan.link_insert_list = _
      rw [hscan]; exact hl2
    · show m1.scan.dir_insert_list = _
      rw [hscan]; exact hl3

theorem link_calls_file_none {b : Bool} {H : List Event} {sub : String} {st : Stat}
    (h : first_file b (stat_key b sub st) H = none) :
    link_calls b (Event.file sub st :: H) = link_calls b H := by
  rw [link_calls, h]

theorem link_calls_file_some {b : Bool} {H : List Event} {sub : String} {st : Stat}
    {x : String × Stat} (h : first_file b (stat_key b sub st) H = some x) :
    link_calls b (Event.file sub st :: H) =
      (sub, x.1, LinkKind.FILE_IS_HARDLINK) :: link_calls b H := by
  rw [link_calls, h]

theorem not_mem_link_calls {b : Bool} {H : List Event} {sub : String}
    (h : sub ∉ event_subs H) : sub ∉ (link_calls b H).map (fun c => c.1) := by
  intro hc
  rcases List.mem_map.1 hc with ⟨c, hc1, hc2⟩
  exact h (hc2 ▸ link_calls_sub hc1)

/-- One call of the walk, for a sub-path not called before, keeps the catalog in order. -/
theorem scan_event_inv {b : Bool} {m m' : Mem} {H : List Event} {e : Event}
    (inv : WalkInv b m H) (hnd : (event_subs (e :: H)).Nodup)
    (h : scan_event m e = .ok m') : WalkInv b m' (e :: H) := by
  cases e with
  | file sub st =>
    have hnew : sub ∉ event_subs H := (List.nodup_cons.1 hnd).1
    have hmode : m'.state.find_by_name = b := (scan_file_state_frame h).1.trans inv.mode
    rcases scan_file_step inv.mode inv.files h with ⟨hfirst, hfi, hlp, hdp⟩ |
      ⟨sub0, st0, hfirst, hn, hl⟩
    · refine ⟨hmode, hfi, ?_, DirInv_congr hdp inv.dirs⟩
      rw [link_calls_file_none hfirst]
      exact LinkInv_congr hlp inv.links
    · refine ⟨hmode, ?_, ?_, DirInv_congr (scan_link_dir_part hl) inv.dirs⟩
      · exact FileInv_of_file_part (scan_link_file_part hl)
          (file_inv_seen inv.files (by rw [hfirst]; simp) hn)
      · rw [link_calls_file_some hfirst]
        exact scan_link_inv inv.links (not_mem_link_calls hnew) hl
  | link sub linkto =>
    have hnew : sub ∉ event_subs H := (List.nodup_cons.1 hnd).1
    have hl : scan_link m sub linkto LinkKind.FILE_IS_SYMLINK = .ok m' := h
    refine ⟨(congrArg snapraid_state.find_by_name (scan_link_file_part hl).1).trans inv.mode,
      FileInv_of_file_part (scan_link_file_part hl) (file_inv_link sub linkto inv.files),
      scan_link_inv inv.links (not_mem_link_calls hnew) hl,
      DirInv_congr (scan_link_dir_part hl) inv.dirs⟩
  | emptydir sub =>
    have hnew : sub ∉ event_subs H := (List.nodup_cons.1 hnd).1
    have hl : scan_emptydir m sub = .ok m' := h
    refine ⟨(congrArg snapraid_state.find_by_name (scan_emptydir_file_part hl).1).trans inv.mode,
      FileInv_of_file_part (scan_emptydir_file_part hl) (file_inv_emptydir sub inv.files),
      LinkInv_congr (scan_emptydir_link_part hl) inv.links,
      scan_emptydir_inv inv.dirs (fun hc => hnew (dir_calls_sub hc)) hl⟩
  | fail e => cases h

theorem event_subs_append : ∀ (A B : List Event),
    event_subs (A ++ B) = event_subs A ++ event_subs B
  | [], B => rfl
  | .file sub st :: A, B => by
    show sub :: event_subs (A ++ B) = sub :: event_subs A ++ event_subs B
    rw [event_subs_append A B]; rfl
  | .link sub l :: A, B => by
    show sub :: event_subs (A ++ B) = sub :: event_subs A ++ event_subs B
    rw [event_subs_append A B]; rfl
  | .emptydir sub :: A, B => by
    show sub :: event_subs (A ++ B) = sub :: event_subs A ++ event_subs B
    rw [event_subs_append A B]; rfl
  | .fail e :: A, B => by
    show event_subs (A ++ B) = event_subs A ++ event_subs B
    exact event_subs_append A B

/-- The walk keeps the catalog in order when its sub-paths are distinct. -/
theorem walk_inv {b : Bool} : ∀ (evs H : List Event) (m m' : Mem),
    WalkInv b m H → (event_subs (evs.reverse ++ H)).Nodup →
    evs.foldlM scan_event m = .ok m' → WalkInv b m' (evs.reverse ++ H)
  | [], H, m, m', inv, _, h => by
    simp only [List.foldlM_nil, pure, Except.pure, Except.ok.injEq] at h
    subst h
    exact inv
  | e :: evs, H, m, m', inv, hnd, h => by
    rw [List.foldlM_cons] at h
    rcases bind_ok.1 h with ⟨m1, h1, h2⟩
    have heq : (e :: evs).reverse ++ H = evs.reverse ++ (e :: H) := by simp
    rw [heq] at hnd ⊢
    have hnd1 : (event_subs (e :: H)).Nodup := by
      rw [event_subs_append] at hnd
      exact (List.nodup_append.1 hnd).2.1
    exact walk_inv evs (e :: H) m1 m' (scan_event_inv inv hnd1 h1) hnd h2

theorem link_part_eq_refl (m : Mem) : link_part_eq m m := ⟨rfl, rfl, rfl, rfl⟩

theorem link_part_eq_trans {a b c : Mem} (h1 : link_part_eq a b) (h2 : link_part_eq b c) :
    link_part_eq a c :=
  ⟨h2.1.trans h1.1, h2.2.1.trans h1.2.1, h2.2.2.1.trans h1.2.2.1, h2.2.2.2.trans h1.2.2.2⟩

theorem dir_part_eq_refl (m : Mem) : dir_part_eq m m := ⟨rfl, rfl, rfl, rfl⟩

theorem dir_part_eq_trans {a b c : Mem} (h1 : dir_part_eq a b) (h2 : dir_part_eq b c) :
    dir_part_eq a c :=
  ⟨h2.1.trans h1.1, h2.2.1.trans h1.2.1, h2.2.2.1.trans h1.2.2.1, h2.2.2.2.trans h1.2.2.2⟩

theorem file_cat_eq_refl (m : Mem) : file_cat_eq m m := ⟨rfl, rfl, rfl, rfl, rfl⟩

theorem file_cat_eq_trans {a b c : Mem} (h1 : file_cat_eq a b) (h2 : file_cat_eq b c) :
    file_cat_eq a c :=
  ⟨h2.1.trans h1.1, h2.2.1.trans h1.2.1, h2.2.2.1.trans h1.2.2.1, h2.2.2.2.1.trans h1.2.2.2.1,
    h2.2.2.2.2.trans h1.2.2.2.2⟩

/-- The outcomes of a successful `sweep_file`. -/
theorem sweep_file_cases {m m' : Mem} {file : Nat} (h : sweep_file m file = .ok m') :
    ∃ f, heap_get m.disk.filemem file = .ok f ∧
      ((f.present = true ∧ m' = m) ∨
       (f.present = false ∧
        scan_file_remove
          { m with scan := { m.scan with count_remove := m.scan.count_remove + 1 } } file
          = .ok m')) := by
  unfold sweep_file at h
  rcases bind_ok.1 h with ⟨f, hf, h⟩
  refine ⟨f, hf, ?_⟩
  split at h
  · next hp => exact Or.inr ⟨hp, h⟩
  · next hp =>
    simp only [pure, Except.pure, Except.ok.injEq] at h
    exact Or.inl ⟨by simpa using hp, h.symm⟩

/-- The removal sweep over the file list keeps the files in order and leaves
only PRESENT files in the file list. -/
theorem sweep_files_inv {b : Bool} {H : List Event} : ∀ (L K : List Nat) (m m' : Mem),
    FileInv b m H → m.disk.filelist = K ++ L →
    (∀ g ∈ K, ∃ f, heap_get m.disk.filemem g = .ok f ∧ f.present = true) →
    L.foldlM sweep_file m = .ok m' →
    FileInv b m' H ∧
    (∀ g ∈ m'.disk.filelist, ∃ f, heap_get m'.disk.filemem g = .ok f ∧ f.present = true) ∧
    link_part_eq m m' ∧ dir_part_eq m m' ∧
    m'.disk.name = m.disk.name ∧ m'.disk.dir = m.disk.dir
  | [], K, m, m', inv, hl, hK, h => by
    simp only [List.foldlM_nil, pure, Except.pure, Except.ok.injEq] at h
    subst h
    rw [List.append_nil] at hl
    exact ⟨inv, by rw [hl]; exact hK, link_part_eq_refl _, dir_part_eq_refl _, rfl, rfl⟩
  | g :: L, K, m, m', inv, hl, hK, h => by
    rw [List.foldlM_cons] at h
    rcases bind_ok.1 h with ⟨m1, h1, h2⟩
    rcases sweep_file_cases h1 with ⟨f, hf, ⟨hp, hm⟩ | ⟨hp, hrm⟩⟩
    · subst hm
      refine sweep_files_inv L (K ++ [g]) m1 m' inv (by rw [hl]; simp) ?_ h2
      intro x hx
      rcases List.mem_append.1 hx with hx | hx
      · exact hK x hx
      · simp only [List.mem_singleton] at hx
        subst hx
        exact ⟨f, hf, hp⟩
    · have inv0 : FileInv b
          { m with scan := { m.scan with count_remove := m.scan.count_remove + 1 } } H :=
        @FileInv_congr b m _ H rfl rfl rfl rfl inv
      have inv1 := file_inv_remove inv0 hf hp hrm
      rcases scan_file_remove_frame hrm with
        ⟨hscan, _, hmem, hfl, _, _, a1, a2, a3, a4, a5, a6, a7, a8, _⟩
      have hgK : g ∉ K := by
        intro hg
        rcases hK g hg with ⟨f', hf', hp'⟩
        rw [hf] at hf'; cases hf'
        rw [hp] at hp'; cases hp'
      have hfl1 : m1.disk.filelist = K ++ L := by
        have : m1.disk.filelist = m.disk.filelist.erase g := hfl
        rw [this, hl, List.erase_append_right _ hgK, List.erase_cons_head]
      have hK1 : ∀ x ∈ K, ∃ f, heap_get m1.disk.filemem x = .ok f ∧ f.present = true := by
        intro x hx
        rcases hK x hx with ⟨f', hf', hp'⟩
        have hne : x ≠ g := fun he => hgK (he ▸ hx)
        have hmem1 : m1.disk.filemem = heap_free m.disk.filemem g := hmem
        exact ⟨f', by rw [hmem1, heap_get_free_ne hne]; exact hf', hp'⟩
      rcases sweep_files_inv L K m1 m' inv1 hfl1 hK1 h2 with ⟨r1, r2, r3, r4, r5, r6⟩
      have hl1 : link_part_eq m m1 := ⟨a1, a3, a2, by rw [hscan]⟩
      have hd1 : dir_part_eq m m1 := ⟨a4, a6, a5, by rw [hscan]⟩
      exact ⟨r1, r2, link_part_eq_trans hl1 r3, dir_part_eq_trans hd1 r4, r5.trans a7,
        r6.trans a8⟩

/-- The removal of a link that is not PRESENT keeps the links in order. -/
theorem link_inv_remove {m : Mem} {C : List (String × String × LinkKind)} {link : Nat}
    {ll : snapraid_link} (inv : LinkInv m C)
    (hll : heap_get m.disk.linkmem link = .ok ll) (hnp : ll.present = false) :
    LinkInv (scan_link_remove m link) C := by
  have hmem : (scan_link_remove m link).disk.linkmem = heap_free m.disk.linkmem link := rfl
  have hset : (scan_link_remove m link).disk.linkset = m.disk.linkset.erase link := rfl
  have hst : (scan_link_remove m link).scan.link_insert_list = m.scan.link_insert_list := rfl
  have hsub : ∀ p, p ∈ (scan_link_remove m link).disk.linkset ++
      (scan_link_remove m link).scan.link_insert_list →
      p ∈ m.disk.linkset ++ m.scan.link_insert_list := by
    intro p hp
    rw [hset, hst] at hp
    rcases List.mem_append.1 hp with hp | hp
    · exact List.mem_append_left _ (List.mem_of_mem_erase hp)
    · exact List.mem_append_right _ hp
  have hget : ∀ p x, heap_get (scan_link_remove m link).disk.linkmem p = .ok x →
      p ≠ link ∧ heap_get m.disk.linkmem p = .ok x := by
    intro p x hx
    rw [hmem] at hx
    exact heap_get_free hx
  have hold : ∀ p x, heap_get m.disk.linkmem p = .ok x → x.present = true →
      heap_get (scan_link_remove m link).disk.linkmem p = .ok x ∧
      (p ∈ m.disk.linkset ++ m.scan.link_insert_list →
        p ∈ (scan_link_remove m link).disk.linkset ++
          (scan_link_remove m link).scan.link_insert_list) := by
    intro p x hx hp
    have hne : p ≠ link := by
      intro he
      subst he
      rw [hll] at hx; cases hx
      rw [hnp] at hp; cases hp
    refine ⟨by rw [hmem, heap_get_free_ne hne]; exact hx, ?_⟩
    intro hmem'
    rw [hset, hst]
    rcases List.mem_append.1 hmem' with h | h
    · exact List.mem_append_left _ ((List.mem_erase_of_ne hne).2 h)
    · exact List.mem_append_right _ h
  constructor
  · intro p hp q hq x y hx hy
    exact inv.uniq p (hsub p hp) q (hsub q hq) x y (hget p x hx).2 (hget q y hy).2
  · intro c hc
    rcases inv.mark c hc with ⟨g, x, hg, hgx, hp, hmt⟩
    exact ⟨g, x, (hold g x hgx hp).2 hg, (hold g x hgx hp).1, hp, hmt⟩
  · intro g x hx hp
    have h0 := (hget g x hx).2
    have := inv.cover g x h0 hp
    exact ⟨(hold g x h0 hp).2 this.1, this.2⟩
  · intro g hg
    rcases inv.staged g hg with ⟨x, hx, hp⟩
    exact ⟨x, (hold g x hx hp).1, hp⟩

/-- The outcomes of a successful `sweep_link`. -/
theorem sweep_link_cases {m m' : Mem} {link : Nat} (h : sweep_link m link = .ok m') :
    ∃ l, heap_get m.disk.linkmem link = .ok l ∧
      ((l.present = true ∧ m' = m) ∨
       (l.present = false ∧
        m' = scan_link_remove
          { m with scan := { m.scan with count_remove := m.scan.count_remove + 1 } } link)) := by
  unfold sweep_link at h
  rcases bind_ok.1 h with ⟨l, hl, h⟩
  refine ⟨l, hl, ?_⟩
  split at h
  · next hp =>
    simp only [pure, Except.pure, Except.ok.injEq] at h
    exact Or.inr ⟨hp, h.symm⟩
  · next hp =>
    simp only [pure, Except.pure, Except.ok.injEq] at h
    exact Or.inl ⟨by simpa using hp, h.symm⟩

/-- The removal sweep over the link list keeps the links in order and leaves
only PRESENT links in the link list. -/
theorem sweep_links_inv {C : List (String × String × LinkKind)} :
    ∀ (L K : List Nat) (m m' : Mem),
    LinkInv m C → m.disk.linklist = K ++ L →
    (∀ g ∈ K, ∃ f, heap_get m.disk.linkmem g = .ok f ∧ f.present = true) →
    L.foldlM sweep_link m = .ok m' →
    LinkInv m' C ∧
    (∀ g ∈ m'.disk.linklist, ∃ f, heap_get m'.disk.linkmem g = .ok f ∧ f.present = true) ∧
    file_cat_eq m m' ∧ dir_part_eq m m' ∧
    m'.disk.name = m.disk.name ∧ m'.disk.dir = m.disk.dir
  | [], K, m, m', inv, hl, hK, h => by
    simp only [List.foldlM_nil, pure, Except.pure, Except.ok.injEq] at h
    subst h
    rw [List.append_nil] at hl
    exact ⟨inv, by rw [hl]; exact hK, file_cat_eq_refl _, dir_part_eq_refl _, rfl, rfl⟩
  | g :: L, K, m, m', inv, hl, hK, h => by
    rw [List.foldlM_cons] at h
    rcases bind_ok.1 h with ⟨m1, h1, h2⟩
    rcases sweep_link_cases h1 with ⟨f, hf, ⟨hp, hm⟩ | ⟨hp, hrm⟩⟩
    · subst hm
      refine sweep_links_inv L (K ++ [g]) m1 m' inv (by rw [hl]; simp) ?_ h2
      intro x hx
      rcases List.mem_append.1 hx with hx | hx
      · exact hK x hx
      · simp only [List.mem_singleton] at hx
        subst hx
        exact ⟨f, hf, hp⟩
    · have inv0 : LinkInv
          { m with scan := { m.scan with count_remove := m.scan.count_remove + 1 } } C :=
        @LinkInv_congr m _ C ⟨rfl, rfl, rfl, rfl⟩ inv
      have inv1 := link_inv_remove inv0 hf hp
      rw [← hrm] at inv1
      have hgK : g ∉ K := by
        intro hg
        rcases hK g hg with ⟨f', hf', hp'⟩
        rw [hf] at hf'; cases hf'
        rw [hp] at hp'; cases hp'
      have hfl1 : m1.disk.linklist = K ++ L := by
        have : m1.disk.linklist = m.disk.linklist.erase g := by rw [hrm]; rfl
        rw [this, hl, List.erase_append_right _ hgK, List.erase_cons_head]
      have hK1 : ∀ x ∈ K, ∃ f, heap_get m1.disk.linkmem x = .ok f ∧ f.present = true := by
        intro x hx
        rcases hK x hx with ⟨f', hf', hp'⟩
        have hne : x ≠ g := fun he => hgK (he ▸ hx)
        have hmem1 : m1.disk.linkmem = heap_free m.disk.linkmem g := by rw [hrm]; rfl
        exact ⟨f', by rw [hmem1, heap_get_free_ne hne]; exact hf', hp'⟩
      rcases sweep_links_inv L K m1 m' inv1 hfl1 hK1 h2 with ⟨r1, r2, r3, r4, r5, r6⟩
      have hl1 : file_cat_eq m m1 := by rw [hrm]; exact ⟨rfl, rfl, rfl, rfl, rfl⟩
      have hd1 : dir_part_eq m m1 := by rw [hrm]; exact ⟨rfl, rfl, rfl, rfl⟩
      have hn1 : m1.disk.name = m.disk.name := by rw [hrm]; rfl
      have hn2 : m1.disk.dir = m.disk.dir := by rw [hrm]; rfl
      exact ⟨r1, r2, file_cat_eq_trans hl1 r3, dir_part_eq_trans hd1 r4, r5.trans hn1,
        r6.trans hn2⟩

/-- The removal of a dir that is not PRESENT keeps the dirs in order. -/
theorem dir_inv_remove {m : Mem} {C : List String} {dir : Nat}
    {ll : snapraid_dir} (inv : DirInv m C)
    (hll : heap_get m.disk.dirmem dir = .ok ll) (hnp : ll.present = false) :
    DirInv (scan_emptydir_remove m dir) C := by
  have hmem : (scan_emptydir_remove m dir).disk.dirmem = heap_free m.disk.dirmem dir := rfl
  have hset : (scan_emptydir_remove m dir).disk.dirset = m.disk.dirset.erase dir := rfl
  have hst : (scan_emptydir_remove m dir).scan.dir_insert_list = m.scan.dir_insert_list := rfl
  have hsub : ∀ p, p ∈ (scan_emptydir_remove m dir).disk.dirset ++
      (scan_emptydir_remove m dir).scan.dir_insert_list →
      p ∈ m.disk.dirset ++ m.scan.dir_insert_list := by
    intro p hp
    rw [hset, hst] at hp
    rcases List.mem_append.1 hp with hp | hp
    · exact List.mem_append_left _ (List.mem_of_mem_erase hp)
    · exact List.mem_append_right _ hp
  have hget : ∀ p x, heap_get (scan_emptydir_remove m dir).disk.dirmem p = .ok x →
      p ≠ dir ∧ heap_get m.disk.dirmem p = .ok x := by
    intro p x hx
    rw [hmem] at hx
    exact heap_get_free hx
  have hold : ∀ p x, heap_get m.disk.dirmem p = .ok x → x.present = true →
      heap_get (scan_emptydir_remove m dir).disk.dirmem p = .ok x ∧
      (p ∈ m.disk.dirset ++ m.scan.dir_insert_list →
        p ∈ (scan_emptydir_remove m dir).disk.dirset ++
          (scan_emptydir_remove m dir).scan.dir_insert_list) := by
    intro p x hx hp
    have hne : p ≠ dir := by
      intro he
      subst he
      rw [hll] at hx; cases hx
      rw [hnp] at hp; cases hp
    refine ⟨by rw [hmem, heap_get_free_ne hne]; exact hx, ?_⟩
    intro hmem'
    rw [hset, hst]
    rcases List.mem_append.1 hmem' with h | h
    · exact List.mem_append_left _ ((List.mem_erase_of_ne hne).2 h)
    · exact List.mem_append_right _ h
  constructor
  · intro p hp q hq x y hx hy
    exact inv.uniq p (hsub p hp) q (hsub q hq) x y (hget p x hx).2 (hget q y hy).2
  · intro c hc
    rcases inv.mark c hc with ⟨g, x, hg, hgx, hp, hmt⟩
    exact ⟨g, x, (hold g x hgx hp).2 hg, (hold g x hgx hp).1, hp, hmt⟩
  · intro g x hx hp
    have h0 := (hget g x hx).2
    have := inv.cover g x h0 hp
    exact ⟨(hold g x h0 hp).2 this.1, this.2⟩
  · intro g hg
    rcases inv.staged g hg with ⟨x, hx, hp⟩
    exact ⟨x, (hold g x hx hp).1, hp⟩

/-- The outcomes of a successful `sweep_dir`. -/
theorem sweep_dir_cases {m m' : Mem} {dir : Nat} (h : sweep_dir m dir = .ok m') :
    ∃ l, heap_get m.disk.dirmem dir = .ok l ∧
      ((l.present = true ∧ m' = m) ∨
       (l.present = false ∧
        m' = scan_emptydir_remove
          { m with scan := { m.scan with count_remove := m.scan.count_remove + 1 } } dir)) := by
  unfold sweep_dir at h
  rcases bind_ok.1 h with ⟨l, hl, h⟩
  refine ⟨l, hl, ?_⟩
  split at h
  · next hp =>
    simp only [pure, Except.pure, Except.ok.injEq] at h
    exact Or.inr ⟨hp, h.symm⟩
  · next hp =>
    simp only [pure, Except.pure, Except.ok.injEq] at h
    exact Or.inl ⟨by simpa using hp, h.symm⟩

/-- The removal sweep over the dir list keeps the dirs in order and leaves
only PRESENT dirs in the dir list. -/
theorem sweep_dirs_inv {C : List String} :
    ∀ (L K : List Nat) (m m' : Mem),
    DirInv m C → m.disk.dirlist = K ++ L →
    (∀ g ∈ K, ∃ f, heap_get m.disk.dirmem g = .ok f ∧ f.present = true) →
    L.foldlM sweep_dir m = .ok m' →
    DirInv m' C ∧
    (∀ g ∈ m'.disk.dirlist, ∃ f, heap_get m'.disk.dirmem g = .ok f ∧ f.present = true) ∧
    file_cat_eq m m' ∧ link_part_eq m m' ∧
    m'.disk.name = m.disk.name ∧ m'.disk.dir = m.disk.dir
  | [], K, m, m', inv, hl, hK, h => by
    simp only [List.foldlM_nil, pure, Except.pure, Except.ok.injEq] at h
    subst h
    rw [List.append_nil] at hl
    exact ⟨inv, by rw [hl]; exact hK, file_cat_eq_refl _, link_part_eq_refl _, rfl, rfl⟩
  | g :: L, K, m, m', inv, hl, hK, h => by
    rw [List.foldlM_cons] at h
    rcases bind_ok.1 h with ⟨m1, h1, h2⟩
    rcases sweep_dir_cases h1 with ⟨f, hf, ⟨hp, hm⟩ | ⟨hp, hrm⟩⟩
    · subst hm
      refine sweep_dirs_inv L (K ++ [g]) m1 m' inv (by rw [hl]; simp) ?_ h2
      intro x hx
      rcases List.mem_append.1 hx with hx | hx
      · exact hK x hx
      · simp only [List.mem_singleton] at hx
        subst hx
        exact ⟨f, hf, hp⟩
    · have inv0 : DirInv
          { m with scan := { m.scan with count_remove := m.scan.count_remove + 1 } } C :=
        @DirInv_congr m _ C ⟨rfl, rfl, rfl, rfl⟩ inv
      have inv1 := dir_inv_remove inv0 hf hp
      rw [← hrm] at inv1
      have hgK : g ∉ K := by
        intro hg
        rcases hK g hg with ⟨f', hf', hp'⟩
        rw [hf] at hf'; cases hf'
        rw [hp] at hp'; cases hp'
      have hfl1 : m1.disk.dirlist = K ++ L := by
        have : m1.disk.dirlist = m.disk.dirlist.erase g := by rw [hrm]; rfl
        rw [this, hl, List.erase_append_right _ hgK, List.erase_cons_head]
      have hK1 : ∀ x ∈ K, ∃ f, heap_get m1.disk.dirmem x = .ok f ∧ f.present = true := by
        intro x hx
        rcases hK x hx with ⟨f', hf', hp'⟩
        have hne : x ≠ g := fun he => hgK (he ▸ hx)
        have hmem1 : m1.disk.dirmem = heap_free m.disk.dirmem g := by rw [hrm]; rfl
        exact ⟨f', by rw [hmem1, heap_get_free_ne hne]; exact hf', hp'⟩
      rcases sweep_dirs_inv L K m1 m' inv1 hfl1 hK1 h2 with ⟨r1, r2, r3, r4, r5, r6⟩
      have hl1 : file_cat_eq m m1 := by rw [hrm]; exact ⟨rfl, rfl, rfl, rfl, rfl⟩
      have hd1 : link_part_eq m m1 := by rw [hrm]; exact ⟨rfl, rfl, rfl, rfl⟩
      have hn1 : m1.disk.name = m.disk.name := by rw [hrm]; rfl
      have hn2 : m1.disk.dir = m.disk.dir := by rw [hrm]; rfl
      exact ⟨r1, r2, file_cat_eq_trans hl1 r3, link_part_eq_trans hd1 r4, r5.trans hn1,
        r6.trans hn2⟩

theorem core_eq_refl (mem : List (Option snapraid_file)) : core_eq mem mem := rfl

theorem core_eq_trans {a b c : List (Option snapraid_file)} (h1 : core_eq a b)
    (h2 : core_eq b c) : core_eq a c := Eq.trans h2 h1

theorem core_eq_symm {a b : List (Option snapraid_file)} (h : core_eq a b) : core_eq b a :=
  Eq.symm h

theorem core_eq_get {mem mem' : List (Option snapraid_file)} {p : Nat} {x' : snapraid_file}
    (h : core_eq mem mem') (hx : heap_get mem' p = .ok x') :
    ∃ x, heap_get mem p = .ok x ∧ file_core x = file_core x' := by
  rw [heap_get_ok] at hx
  have h1 : (mem'.map (Option.map file_core))[p]? = some (some (file_core x')) := by
    rw [List.getElem?_map, hx]; rfl
  rw [h, List.getElem?_map] at h1
  cases hm : mem[p]? with
  | none => rw [hm] at h1; cases h1
  | some o =>
    rw [hm] at h1
    cases o with
    | none => cases h1
    | some x =>
      simp only [Option.map_some', Option.some.injEq] at h1
      exact ⟨x, by rw [heap_get_ok]; exact hm, h1⟩

theorem core_eq_set {mem : List (Option snapraid_file)} {p : Nat} {x y : snapraid_file}
    (hx : heap_get mem p = .ok x) (hy : file_core y = file_core x) :
    core_eq mem (heap_set mem p y) := by
  unfold core_eq heap_set
  rw [heap_get_ok] at hx
  apply List.ext_getElem?
  intro n
  rw [List.getElem?_map, List.getElem?_map]
  by_cases hn : p = n
  · subst hn
    have hl : p < mem.length := (List.getElem?_eq_some.1 hx).1
    rw [List.getElem?_set_self hl, hx]
    simp [hy]
  · rw [List.getElem?_set_ne hn]

theorem file_core_key {b : Bool} {x y : snapraid_file} (h : file_core x = file_core y) :
    file_key b x = file_key b y := by
  have h1 : (file_core x).sub = (file_core y).sub := by rw [h]
  have h2 : (file_core x).inode = (file_core y).inode := by rw [h]
  unfold file_key
  show (if b = true then Key.path (file_core x).sub else Key.inode (file_core x).inode) = _
  rw [h1, h2]; rfl

theorem file_core_matches {x y : snapraid_file} {sub : String} {st : Stat}
    (h : file_core x = file_core y) (hm : file_matches x sub st) : file_matches y sub st := by
  have h1 : (file_core x).sub = (file_core y).sub := by rw [h]
  have h2 : (file_core x).size = (file_core y).size := by rw [h]
  have h3 : (file_core x).mtime_sec = (file_core y).mtime_sec := by rw [h]
  have h4 : (file_core x).mtime_nsec = (file_core y).mtime_nsec := by rw [h]
  have h5 : (file_core x).inode = (file_core y).inode := by rw [h]
  exact ⟨h1.symm.trans hm.1, h2.symm.trans hm.2.1, h3.symm.trans hm.2.2.1,
    h4.symm.trans hm.2.2.2.1, h5.symm.trans hm.2.2.2.2⟩

theorem file_core_present {x y : snapraid_file} (h : file_core x = file_core y) :
    x.present = y.present := by
  have h1 : (file_core x).present = (file_core y).present := by rw [h]
  exact h1

theorem DiskCat_refl (d : snapraid_disk) : DiskCat d d :=
  ⟨rfl, rfl, rfl, rfl, rfl, rfl, rfl, rfl, rfl, rfl, rfl, rfl⟩

theorem DiskCat_trans {a b c : snapraid_disk} (h1 : DiskCat a b) (h2 : DiskCat b c) :
    DiskCat a c :=
  ⟨core_eq_trans h1.filemem h2.filemem, h2.pathset.trans h1.pathset,
    h2.inodeset.trans h1.inodeset, h2.filelist.trans h1.filelist,
    h2.linkmem.trans h1.linkmem, h2.linkset.trans h1.linkset, h2.linklist.trans h1.linklist,
    h2.dirmem.trans h1.dirmem, h2.dirset.trans h1.dirset, h2.dirlist.trans h1.dirlist,
    h2.name.trans h1.name, h2.dir.trans h1.dir⟩

/-- One block of `scan_file_insert` changes the catalog in the blocks of the file only. -/
theorem insert_block_cat {file i : Nat} {s s' : InsertLoop}
    (h : scan_file_insert_block file s i = .ok s') : DiskCat s.disk s'.disk := by
  rcases insert_block_ok h with ⟨pos, f, b, c, nb, _, hf, _, _, _, hs'⟩
  rw [hs']
  exact ⟨core_eq_set hf rfl, rfl, rfl, rfl, rfl, rfl, rfl, rfl, rfl, rfl, rfl, rfl⟩

/-- The effect of `scan_file_insert` on the catalog: the file is appended to the file list. -/
theorem scan_file_insert_cat {m m' : Mem} {file : Nat}
    (h : scan_file_insert m file = .ok m') :
    DiskCat { m.disk with filelist := m.disk.filelist ++ [file] } m'.disk ∧ m'.scan = m.scan := by
  unfold scan_file_insert at h
  rcases bind_ok.1 h with ⟨f, hf, h⟩
  rcases bind_ok.1 h with ⟨s, hs, h⟩
  simp only [pure, Except.pure, Except.ok.injEq] at h
  subst h
  have hcat : DiskCat m.disk s.disk :=
    foldlM_preserves (fun x : InsertLoop => DiskCat m.disk x.disk)
      (scan_file_insert_block file)
      (fun b a b' hb hstep => DiskCat_trans hb (insert_block_cat hstep))
      _ _ _ (DiskCat_refl _) hs
  refine ⟨?_, rfl⟩
  simp only []
  split
  · exact ⟨hcat.filemem, hcat.pathset, hcat.inodeset,
      by show s.disk.filelist ++ [file] = _; rw [hcat.filelist],
      hcat.linkmem, hcat.linkset, hcat.linklist, hcat.dirmem, hcat.dirset, hcat.dirlist,
      hcat.name, hcat.dir⟩
  · exact ⟨hcat.filemem, hcat.pathset, hcat.inodeset,
      by show s.disk.filelist ++ [file] = _; rw [hcat.filelist],
      hcat.linkmem, hcat.linkset, hcat.linklist, hcat.dirmem, hcat.dirset, hcat.dirlist,
      hcat.name, hcat.dir⟩

/-- The delayed insertion of the files appends them to the file list. -/
theorem insert_files_cat : ∀ (S : List Nat) (m m' : Mem),
    S.foldlM scan_file_insert m = .ok m' →
    DiskCat { m.disk with filelist := m.disk.filelist ++ S } m'.disk ∧ m'.scan = m.scan
  | [], m, m', h => by
    simp only [List.foldlM_nil, pure, Except.pure, Except.ok.injEq] at h
    subst h
    refine ⟨?_, rfl⟩
    rw [List.append_nil]
    exact DiskCat_refl _
  | g :: S, m, m', h => by
    rw [List.foldlM_cons] at h
    rcases bind_ok.1 h with ⟨m1, h1, h2⟩
    rcases scan_file_insert_cat h1 with ⟨c1, s1⟩
    rcases insert_files_cat S m1 m' h2 with ⟨c2, s2⟩
    refine ⟨?_, s2.trans s1⟩
    have c3 : DiskCat { m.disk with filelist := m.disk.filelist ++ (g :: S) }
        { m1.disk with filelist := m1.disk.filelist ++ S } :=
      ⟨c1.filemem, c1.pathset, c1.inodeset,
        by show m1.disk.filelist ++ S = m.disk.filelist ++ (g :: S)
           rw [c1.filelist]; simp,
        c1.linkmem, c1.linkset, c1.linklist, c1.dirmem, c1.dirset, c1.dirlist, c1.name, c1.dir⟩
    exact DiskCat_trans c3 c2

/-- The delayed insertion of the links appends them to the link table and the link list. -/
theorem insert_links_cat : ∀ (S : List Nat) (m : Mem),
    (S.foldl scan_link_insert m).disk =
      { m.disk with linkset := m.disk.linkset ++ S, linklist := m.disk.linklist ++ S } ∧
    (S.foldl scan_link_insert m).scan = m.scan
  | [], m => by simp
  | g :: S, m => by
    rw [List.foldl_cons]
    rcases insert_links_cat S (scan_link_insert m g) with ⟨h1, h2⟩
    rw [h1, h2]
    simp [scan_link_insert]

/-- The delayed insertion of the dirs appends them to the dir table and the dir list. -/
theorem insert_dirs_cat : ∀ (S : List Nat) (m : Mem),
    (S.foldl scan_emptydir_insert m).disk =
      { m.disk with dirset := m.disk.dirset ++ S, dirlist := m.disk.dirlist ++ S } ∧
    (S.foldl scan_emptydir_insert m).scan = m.scan
  | [], m => by simp
  | g :: S, m => by
    rw [List.foldl_cons]
    rcases insert_dirs_cat S (scan_emptydir_insert m g) with ⟨h1, h2⟩
    rw [h1, h2]
    simp [scan_emptydir_insert]

/-- At the end of the scan of a disk the catalog agrees with the calls of the walk. -/
theorem settled_of {b : Bool} {H : List Event} {m : Mem} {d : snapraid_disk}
    (fi : FileInv b m H)
    (fp : ∀ g ∈ m.disk.filelist, ∃ f, heap_get m.disk.filemem g = .ok f ∧ f.present = true)
    (li : LinkInv m (link_calls b H))
    (lp : ∀ g ∈ m.disk.linklist, ∃ f, heap_get m.disk.linkmem g = .ok f ∧ f.present = true)
    (di : DirInv m (dir_calls H))
    (dp : ∀ g ∈ m.disk.dirlist, ∃ f, heap_get m.disk.dirmem g = .ok f ∧ f.present = true)
    (c1 : core_eq m.disk.filemem d.filemem)
    (c2 : d.pathset = m.disk.pathset) (c3 : d.inodeset = m.disk.inodeset)
    (c4 : d.filelist = m.disk.filelist ++ m.scan.file_insert_list)
    (c5 : d.linkmem = m.disk.linkmem)
    (c6 : d.linkset = m.disk.linkset ++ m.scan.link_insert_list)
    (c7 : d.linklist = m.disk.linklist ++ m.scan.link_insert_list)
    (c8 : d.dirmem = m.disk.dirmem)
    (c9 : d.dirset = m.disk.dirset ++ m.scan.dir_insert_list)
    (c10 : d.dirlist = m.disk.dirlist ++ m.scan.dir_insert_list) :
    Settled b d H := by
  have hls : lookup_set b d = lookup_set b m.disk := by
    unfold lookup_set; rw [c2, c3]
  have fall : ∀ g ∈ d.filelist, ∃ f, heap_get m.disk.filemem g = .ok f ∧ f.present = true := by
    intro g hg
    rw [c4] at hg
    rcases List.mem_append.1 hg with hg | hg
    · exact fp g hg
    · exact fi.staged g hg
  have lall : ∀ g ∈ d.linklist, ∃ f, heap_get m.disk.linkmem g = .ok f ∧ f.present = true := by
    intro g hg
    rw [c7] at hg
    rcases List.mem_append.1 hg with hg | hg
    · exact lp g hg
    · exact li.staged g hg
  have dall : ∀ g ∈ d.dirlist, ∃ f, heap_get m.disk.dirmem g = .ok f ∧ f.present = true := by
    intro g hg
    rw [c10] at hg
    rcases List.mem_append.1 hg with hg | hg
    · exact dp g hg
    · exact di.staged g hg
  constructor
  · intro p hp q hq x y hx hy hxy
    rw [hls] at hp hq
    rcases core_eq_get c1 hx with ⟨x0, hx0, hxc⟩
    rcases core_eq_get c1 hy with ⟨y0, hy0, hyc⟩
    exact fi.uniq p hp q hq x0 y0 hx0 hy0
      ((file_core_key hxc).trans (hxy.trans (file_core_key hyc).symm))
  · intro k sub st hk
    rcases fi.mark k sub st hk with ⟨g, f, hg, hf, _, hm⟩
    rcases core_eq_get (core_eq_symm c1) hf with ⟨f', hf', hc⟩
    exact ⟨g, f', by rw [hls]; exact hg, hf', file_core_matches hc.symm hm⟩
  · intro g hg
    rcases fall g hg with ⟨f, hf, hp⟩
    rcases fi.cover g f hf hp with ⟨hgl, s, t, hft, _⟩
    rcases core_eq_get (core_eq_symm c1) hf with ⟨f', hf', hc⟩
    refine ⟨f', hf', by rw [hls]; exact hgl, ?_⟩
    rw [file_core_key hc, hft]
    simp
  · exact fi.nlink
  · rw [c5, c6]; exact li.uniq
  · intro c hc
    rcases li.mark c hc with ⟨l, ll, hl, hll, _, hd⟩
    exact ⟨l, ll, by rw [c6]; exact hl, by rw [c5]; exact hll, hd⟩
  · intro l hl
    rcases lall l hl with ⟨ll, hll, hp⟩
    rcases li.cover l ll hll hp with ⟨h1, h2⟩
    exact ⟨ll, by rw [c5]; exact hll, by rw [c6]; exact h1, List.mem_map.2 ⟨_, h2, rfl⟩⟩
  · rw [c8, c9]; exact di.uniq
  · intro c hc
    rcases di.mark c hc with ⟨l, ll, hl, hll, _, hd⟩
    exact ⟨l, ll, by rw [c9]; exact hl, by rw [c8]; exact hll, hd⟩
  · intro l hl
    rcases dall l hl with ⟨ll, hll, hp⟩
    rcases di.cover l ll hll hp with ⟨h1, h2⟩
    exact ⟨ll, by rw [c8]; exact hll, by rw [c9]; exact h1, h2⟩

/-! ### The catalog before the scan -/

theorem filterMap_nodup_inj {α β : Type} (φ : α → Option β) : ∀ (l : List α),
    (l.filterMap φ).Nodup → ∀ p ∈ l, ∀ q ∈ l, ∀ k, φ p = some k → φ q = some k → p = q
  | [], _, p, hp, _, _, _, _, _ => by simp at hp
  | a :: l, hnd, p, hp, q, hq, k, hpk, hqk => by
    cases ha : φ a with
    | none =>
      rw [List.filterMap_cons_none ha] at hnd
      have hp' : p ∈ l := by
        rcases List.mem_cons.1 hp with h | h
        · subst h; rw [ha] at hpk; cases hpk
        · exact h
      have hq' : q ∈ l := by
        rcases List.mem_cons.1 hq with h | h
        · subst h; rw [ha] at hqk; cases hqk
        · exact h
      exact filterMap_nodup_inj φ l hnd p hp' q hq' k hpk hqk
    | some ka =>
      rw [List.filterMap_cons_some ha] at hnd
      rcases List.nodup_cons.1 hnd with ⟨hnot, hnd'⟩
      have hmem : ∀ r ∈ l, φ r = some k → k ∈ l.filterMap φ := by
        intro r hr hrk
        exact List.mem_filterMap.2 ⟨r, hr, hrk⟩
      rcases List.mem_cons.1 hp with h1 | h1 <;> rcases List.mem_cons.1 hq with h2 | h2
      · exact h1.trans h2.symm
      · subst h1
        rw [ha] at hpk; cases hpk
        exact absurd (hmem q h2 hqk) hnot
      · subst h2
        rw [ha] at hqk; cases hqk
        exact absurd (hmem p h1 hpk) hnot
      · exact filterMap_nodup_inj φ l hnd' p h1 q h2 k hpk hqk

theorem keys_unique_of_nodup {b : Bool} {d : snapraid_disk} (h : (file_keys b d).Nodup) :
    keys_unique b d := by
  intro p hp q hq f g hf hg hk
  exact filterMap_nodup_inj _ _ h p hp q hq (file_key b f) (by simp [hf]) (by simp [hg, hk])

theorem link_names_unique_of_nodup {d : snapraid_disk} (h : (link_names d).Nodup) :
    link_names_unique d.linkmem d.linkset := by
  intro p hp q hq f g hf hg hk
  exact filterMap_nodup_inj _ _ h p hp q hq f.sub (by simp [hf]) (by simp [hg, hk])

theorem dir_names_unique_of_nodup {d : snapraid_disk} (h : (dir_names d).Nodup) :
    dir_names_unique d.dirmem d.dirset := by
  intro p hp q hq f g hf hg hk
  exact filterMap_nodup_inj _ _ h p hp q hq f.sub (by simp [hf]) (by simp [hg, hk])

theorem no_present_get {α : Type} {mem : List (Option α)} {present : α → Bool}
    (h : ∀ x ∈ mem, x.map present ≠ some true) {p : Nat} {a : α}
    (ha : heap_get mem p = .ok a) : present a = false := by
  rw [heap_get_ok] at ha
  have := h (some a) (List.getElem?_mem ha)
  simpa using this

/-- A well-formed catalog is in order before the first call of the walk. -/
theorem walk_inv_init {state : snapraid_state} {disk : snapraid_disk}
    (hwf : catalog_wf state.find_by_name disk) :
    WalkInv state.find_by_name { state := state, disk := disk, scan := scan_init } [] := by
  rcases hwf with ⟨⟨np1, np2, np3⟩, k1, k2, k3⟩
  refine ⟨rfl, ⟨keys_unique_of_nodup k1, ?_, ?_, ?_, trivial⟩,
    ⟨?_, ?_, ?_, ?_⟩, ⟨?_, ?_, ?_, ?_⟩⟩
  · intro k sub st h; cases h
  · intro g f hf hp
    rw [no_present_get np1 hf] at hp; cases hp
  · intro g hg; simp [scan_init] at hg
  · show link_names_unique disk.linkmem (disk.linkset ++ [])
    rw [List.append_nil]; exact link_names_unique_of_nodup k2
  · intro c hc; simp [link_calls] at hc
  · intro g f hf hp
    rw [no_present_get np2 hf] at hp; cases hp
  · intro g hg; simp [scan_init] at hg
  · show dir_names_unique disk.dirmem (disk.dirset ++ [])
    rw [List.append_nil]; exact dir_names_unique_of_nodup k3
  · intro c hc; simp [dir_calls] at hc
  · intro g f hf hp
    rw [no_present_get np3 hf] at hp; cases hp
  · intro g hg; simp [scan_init] at hg

theorem event_subs_reverse (evs : List Event) :
    event_subs evs.reverse = (event_subs evs).reverse := by
  induction evs with
  | nil => rfl
  | cons e evs ih =>
    rw [List.reverse_cons, event_subs_append, ih]
    cases e <;> simp [event_subs]

/-- After the scan of a disk whose catalog is well formed and whose tree has
distinct sub-paths, the catalog agrees with the calls of the walk, and the
disk has kept its name and directory. -/
theorem scan_disk_settled {flt : Filters} {fs : String → FsNode} {state : snapraid_state}
    {disk : snapraid_disk} {m' : Mem}
    (hwf : catalog_wf state.find_by_name disk)
    (hnd : (event_subs (disk_events flt fs disk)).Nodup)
    (h : scan_disk flt fs state disk = .ok m') :
    Settled state.find_by_name m'.disk (disk_events flt fs disk).reverse ∧
    m'.disk.name = disk.name ∧ m'.disk.dir = disk.dir := by
  rcases scan_disk_ok h with ⟨r, m1, m2, m3, m4, hr, h1, h2, h3, h4, hm'⟩
  -- the walk
  have hev := scan_dir_events flt fs { state := state, disk := disk, scan := scan_init }
  have hr' : scan_dir flt disk.dir "" (fs disk.dir)
      { state := state, disk := disk, scan := scan_init } = .ok r := hr
  have hfold : (disk_events flt fs disk).foldlM scan_event
      { state := state, disk := disk, scan := scan_init } = .ok r.1 := by
    have e1 : (disk_events flt fs disk).foldlM scan_event
        { state := state, disk := disk, scan := scan_init } =
        (scan_dir flt disk.dir "" (fs disk.dir)
          { state := state, disk := disk, scan := scan_init }).map Prod.fst := hev.symm
    rw [e1, hr']
    rfl
  have hw := walk_inv (disk_events flt fs disk) [] _ r.1 (walk_inv_init hwf)
    (by rw [List.append_nil, event_subs_reverse]; exact List.nodup_reverse.2 hnd) hfold
  rw [List.append_nil] at hw
  have hn0 := foldlM_scan_event_name _ _ _ hfold
  -- the sweeps
  rcases sweep_files_inv r.1.disk.filelist [] r.1 m1 hw.files (by simp) (by simp) h1 with
    ⟨fi1, fp1, lp1, dp1, n1, d1⟩
  have li1 := LinkInv_congr lp1 hw.links
  have di1 := DirInv_congr dp1 hw.dirs
  rcases sweep_links_inv m1.disk.linklist [] m1 m2 li1 (by simp) (by simp) h2 with
    ⟨li2, lp2, fc2, dp2, n2, d2⟩
  have di2 := DirInv_congr dp2 di1
  rcases sweep_dirs_inv m2.disk.dirlist [] m2 m3 di2 (by simp) (by simp) h3 with
    ⟨di3, dp3, fc3, lp3, n3, d3⟩
  have fc := file_cat_eq_trans fc2 fc3
  have fi3 : FileInv state.find_by_name m3 (disk_events flt fs disk).reverse :=
    FileInv_congr fc.1 fc.2.1 fc.2.2.1 fc.2.2.2.2 fi1
  have fp3 : ∀ g ∈ m3.disk.filelist, ∃ f, heap_get m3.disk.filemem g = .ok f ∧
      f.present = true := by
    rw [fc.1, fc.2.2.2.1]; exact fp1
  have li3 := LinkInv_congr lp3 li2
  have lp3' : ∀ g ∈ m3.disk.linklist, ∃ f, heap_get m3.disk.linkmem g = .ok f ∧
      f.present = true := by
    rw [lp3.1, lp3.2.2.1]; exact lp2
  -- the insertions
  rcases insert_files_cat _ m3 m4 h4 with ⟨c4, s4⟩
  rcases insert_links_cat m4.scan.link_insert_list m4 with ⟨e5, s5⟩
  rcases insert_dirs_cat (m4.scan.link_insert_list.foldl scan_link_insert m4).scan.dir_insert_list
    (m4.scan.link_insert_list.foldl scan_link_insert m4) with ⟨e6, _⟩
  rw [← hm'] at e6
  rw [e5, s5, s4] at e6
  refine ⟨settled_of fi3 fp3 li3 lp3' di3 dp3 ?_ ?_ ?_ ?_ ?_ ?_ ?_ ?_ ?_ ?_, ?_, ?_⟩
  · rw [e6]; exact c4.filemem
  · rw [e6]; exact c4.pathset
  · rw [e6]; exact c4.inodeset
  · rw [e6]; exact c4.filelist
  · rw [e6]; exact c4.linkmem
  · rw [e6]; show m4.disk.linkset ++ _ = _; rw [c4.linkset]
  · rw [e6]; show m4.disk.linklist ++ _ = _; rw [c4.linklist]
  · rw [e6]; exact c4.dirmem
  · rw [e6]; show m4.disk.dirset ++ _ = _; rw [c4.dirset]
  · rw [e6]; show m4.disk.dirlist ++ _ = _; rw [c4.dirlist]
  · rw [e6]
    show m4.disk.name = _
    rw [c4.name]
    exact n3.trans (n2.trans (n1.trans hn0.1))
  · rw [e6]
    show m4.disk.dir = _
    rw [c4.dir]
    exact d3.trans (d2.trans (d1.trans hn0.2))

theorem map_eq_get {α : Type} (π : α → α) {mem mem' : List (Option α)} {p : Nat} {x' : α}
    (h : mem'.map (Option.map π) = mem.map (Option.map π)) (hx : heap_get mem' p = .ok x') :
    ∃ x, heap_get mem p = .ok x ∧ π x = π x' := by
  rw [heap_get_ok] at hx
  have h1 : (mem'.map (Option.map π))[p]? = some (some (π x')) := by
    rw [List.getElem?_map, hx]; rfl
  rw [h, List.getElem?_map] at h1
  cases hm : mem[p]? with
  | none => rw [hm] at h1; cases h1
  | some o =>
    rw [hm] at h1
    cases o with
    | none => cases h1
    | some x =>
      simp only [Option.map_some', Option.some.injEq] at h1
      exact ⟨x, by rw [heap_get_ok]; exact hm, h1⟩

theorem map_set_eq {α : Type} (π : α → α) {mem : List (Option α)} {p : Nat} {x y : α}
    (hx : heap_get mem p = .ok x) (hy : π y = π x) :
    (heap_set mem p y).map (Option.map π) = mem.map (Option.map π) := by
  unfold heap_set
  rw [heap_get_ok] at hx
  apply List.ext_getElem?
  intro n
  rw [List.getElem?_map, List.getElem?_map]
  by_cases hn : p = n
  · subst hn
    have hl : p < mem.length := (List.getElem?_eq_some.1 hx).1
    rw [List.getElem?_set_self hl, hx]
    simp [hy]
  · rw [List.getElem?_set_ne hn]

theorem file_clear_key {b : Bool} {x y : snapraid_file} (h : file_clear x = file_clear y) :
    file_key b x = file_key b y := by
  have h1 : (file_clear x).sub = (file_clear y).sub := by rw [h]
  have h2 : (file_clear x).inode = (file_clear y).inode := by rw [h]
  unfold file_key
  show (if b = true then Key.path (file_clear x).sub else Key.inode (file_clear x).inode) = _
  rw [h1, h2]; rfl

theorem file_clear_matches {x y : snapraid_file} {sub : String} {st : Stat}
    (h : file_clear x = file_clear y) (hm : file_matches x sub st) : file_matches y sub st := by
  have h1 : (file_clear x).sub = (file_clear y).sub := by rw [h]
  have h2 : (file_clear x).size = (file_clear y).size := by rw [h]
  have h3 : (file_clear x).mtime_sec = (file_clear y).mtime_sec := by rw [h]
  have h4 : (file_clear x).mtime_nsec = (file_clear y).mtime_nsec := by rw [h]
  have h5 : (file_clear x).inode = (file_clear y).inode := by rw [h]
  exact ⟨h1.symm.trans hm.1, h2.symm.trans hm.2.1, h3.symm.trans hm.2.2.1,
    h4.symm.trans hm.2.2.2.1, h5.symm.trans hm.2.2.2.2⟩

theorem link_clear_data {x y : snapraid_link} (h : link_clear x = link_clear y) :
    x.sub = y.sub ∧ x.linkto = y.linkto ∧ x.kind = y.kind := by
  have h1 : (link_clear x).sub = (link_clear y).sub := by rw [h]
  have h2 : (link_clear x).linkto = (link_clear y).linkto := by rw [h]
  have h3 : (link_clear x).kind = (link_clear y).kind := by rw [h]
  exact ⟨h1, h2, h3⟩

theorem dir_clear_data {x y : snapraid_dir} (h : dir_clear x = dir_clear y) :
    x.sub = y.sub := by
  have h1 : (dir_clear x).sub = (dir_clear y).sub := by rw [h]
  exact h1

/-! ### Calls on a catalog that already has the entry -/

/-- The call of `scan_file` that finds a file not PRESENT with the data of the
live entry marks it PRESENT and counts it equal. -/
theorem scan_file_equal {m : Mem} {sub : String} {st : Stat} {g : Nat} {f : snapraid_file}
    (hl : scan_file_lookup m sub st = some g) (hf : heap_get m.disk.filemem g = .ok f)
    (hp : f.present = false) (hm : file_matches f sub st) :
    scan_file m sub st = .ok { m with
      disk := { m.disk with filemem := heap_set m.disk.filemem g { f with present := true } }
      scan := { m.scan with count_equal := m.scan.count_equal + 1 } } := by
  rcases hm with ⟨h1, h2, h3, h4, h5⟩
  have hu : file_unchanged f st := ⟨h2, h3, Or.inl h4⟩
  have hup : ¬ (f.mtime_nsec = FILE_MTIME_NSEC_INVALID ∧ st.st_nsec ≠ FILE_MTIME_NSEC_INVALID) := by
    rintro ⟨a, c⟩
    exact c (h4 ▸ a)
  unfold scan_file
  rw [hl]
  simp only [hf, bind, Except.bind, hp, Bool.false_eq_true, ↓reduceIte, hu]
  unfold scan_file_unchanged
  simp only [hup, ↓reduceIte, h1, h5, ne_eq, not_true_eq_false, pure, Except.pure]

/-- The call of `scan_file` that finds a PRESENT file, for a live entry with
more than one link, is the call of `scan_link` for a hardlink to that file. -/
theorem scan_file_hardlink {m : Mem} {sub : String} {st : Stat} {g : Nat} {f : snapraid_file}
    (hl : scan_file_lookup m sub st = some g) (hf : heap_get m.disk.filemem g = .ok f)
    (hp : f.present = true) (hn : st.st_nlink > 1) :
    scan_file m sub st = scan_link m sub f.sub LinkKind.FILE_IS_HARDLINK := by
  unfold scan_file
  rw [hl]
  simp only [hf, bind, Except.bind, hp, ↓reduceIte, hn]

/-- The call of `scan_link` that finds a link not PRESENT with the same target
and kind marks it PRESENT and counts it equal. -/
theorem scan_link_equal {m : Mem} {sub linkto : String} {kind : LinkKind} {l : Nat}
    {ll : snapraid_link}
    (hl : tommy_hashdyn_search m.disk.linkmem snapraid_link.sub m.disk.linkset sub = some l)
    (hll : heap_get m.disk.linkmem l = .ok ll) (hp : ll.present = false)
    (h1 : ll.linkto = linkto) (h2 : ll.kind = kind) :
    scan_link m sub linkto kind = .ok { m with
      disk := { m.disk with linkmem := heap_set m.disk.linkmem l { ll with present := true } }
      scan := { m.scan with count_equal := m.scan.count_equal + 1 } } := by
  unfold scan_link
  rw [hl]
  simp only [hll, bind, Except.bind, hp, Bool.false_eq_true, ↓reduceIte, h1, h2, and_self,
    pure, Except.pure]

/-- The call of `scan_emptydir` that finds a dir not PRESENT marks it PRESENT
and counts it equal. -/
theorem scan_emptydir_equal {m : Mem} {sub : String} {d : Nat} {dd : snapraid_dir}
    (hl : tommy_hashdyn_search m.disk.dirmem snapraid_dir.sub m.disk.dirset sub = some d)
    (hdd : heap_get m.disk.dirmem d = .ok dd) (hp : dd.present = false) :
    scan_emptydir m sub = .ok { m with
      disk := { m.disk with dirmem := heap_set m.disk.dirmem d { dd with present := true } }
      scan := { m.scan with count_equal := m.scan.count_equal + 1 } } := by
  unfold scan_emptydir
  rw [hl]
  simp only [hdd, bind, Except.bind, hp, Bool.false_eq_true, ↓reduceIte, pure, Except.pure]

theorem clear_present_set_file {d : snapraid_disk} {g : Nat} {f : snapraid_file}
    (f' : snapraid_file) (hf : heap_get d.filemem g = .ok f) (h : file_clear f' = file_clear f) :
    clear_present { d with filemem := heap_set d.filemem g f' } = clear_present d := by
  unfold clear_present
  simp only []
  rw [map_set_eq file_clear hf h]

theorem clear_present_set_link {d : snapraid_disk} {g : Nat} {f : snapraid_link}
    (f' : snapraid_link) (hf : heap_get d.linkmem g = .ok f) (h : link_clear f' = link_clear f) :
    clear_present { d with linkmem := heap_set d.linkmem g f' } = clear_present d := by
  unfold clear_present
  simp only []
  rw [map_set_eq link_clear hf h]

theorem clear_present_set_dir {d : snapraid_disk} {g : Nat} {f : snapraid_dir}
    (f' : snapraid_dir) (hf : heap_get d.dirmem g = .ok f) (h : dir_clear f' = dir_clear f) :
    clear_present { d with dirmem := heap_set d.dirmem g f' } = clear_present d := by
  unfold clear_present
  simp only []
  rw [map_set_eq dir_clear hf h]

/-- Two disks equal up to the PRESENT flags have the same tables and lists. -/
theorem clear_present_eq {d D : snapraid_disk} (h : clear_present d = clear_present D) :
    d.pathset = D.pathset ∧ d.inodeset = D.inodeset ∧ d.filelist = D.filelist ∧
    d.linkset = D.linkset ∧ d.linklist = D.linklist ∧
    d.dirset = D.dirset ∧ d.dirlist = D.dirlist ∧ d.name = D.name ∧ d.dir = D.dir := by
  have h1 : (clear_present d).pathset = (clear_present D).pathset := by rw [h]
  have h2 : (clear_present d).inodeset = (clear_present D).inodeset := by rw [h]
  have h3 : (clear_present d).filelist = (clear_present D).filelist := by rw [h]
  have h4 : (clear_present d).linkset = (clear_present D).linkset := by rw [h]
  have h5 : (clear_present d).linklist = (clear_present D).linklist := by rw [h]
  have h6 : (clear_present d).dirset = (clear_present D).dirset := by rw [h]
  have h7 : (clear_present d).dirlist = (clear_present D).dirlist := by rw [h]
  have h8 : (clear_present d).name = (clear_present D).name := by rw [h]
  have h9 : (clear_present d).dir = (clear_present D).dir := by rw [h]
  exact ⟨h1, h2, h3, h4, h5, h6, h7, h8, h9⟩

theorem clear_present_filemem {d D : snapraid_disk} (h : clear_present d = clear_present D) :
    d.filemem.map (Option.map file_clear) = D.filemem.map (Option.map file_clear) := by
  have h1 : (clear_present d).filemem = (clear_present D).filemem := by rw [h]
  exact h1

theorem clear_present_linkmem {d D : snapraid_disk} (h : clear_present d = clear_present D) :
    d.linkmem.map (Option.map link_clear) = D.linkmem.map (Option.map link_clear) := by
  have h1 : (clear_present d).linkmem = (clear_present D).linkmem := by rw [h]
  exact h1

theorem clear_present_dirmem {d D : snapraid_disk} (h : clear_present d = clear_present D) :
    d.dirmem.map (Option.map dir_clear) = D.dirmem.map (Option.map dir_clear) := by
  have h1 : (clear_present d).dirmem = (clear_present D).dirmem := by rw [h]
  exact h1

theorem replay_lookup_set {b : Bool} {D : snapraid_disk} {m : Mem}
    (h : clear_present m.disk = clear_present D) : lookup_set b m.disk = lookup_set b D := by
  unfold lookup_set
  rw [(clear_present_eq h).1, (clear_present_eq h).2.1]

/-- In the second scan the lookup for a key finds the file of the catalog with that key. -/
theorem replay_lookup {b : Bool} {D : snapraid_disk} {m : Mem} {sub : String} {st : Stat}
    {g : Nat} {fD : snapraid_file}
    (huniq : keys_unique b D) (hd : clear_present m.disk = clear_present D)
    (hb : m.state.find_by_name = b)
    (hg : g ∈ lookup_set b D) (hfD : heap_get D.filemem g = .ok fD)
    (hk : file_key b fD = stat_key b sub st) :
    ∃ f, heap_get m.disk.filemem g = .ok f ∧ file_clear f = file_clear fD ∧
      scan_file_lookup m sub st = some g := by
  have hfm := clear_present_filemem hd
  rcases map_eq_get file_clear hfm.symm hfD with ⟨f, hf, hc⟩
  refine ⟨f, hf, hc, ?_⟩
  rw [scan_file_lookup_key, hb, replay_lookup_set hd]
  apply tommy_hashdyn_search_unique hg hf ((file_clear_key hc).trans hk)
  intro q hq hne y hy hky
  rcases map_eq_get file_clear hfm hy with ⟨yD, hyD, hyc⟩
  exact hne (huniq q hq g hg yD fD hyD hfD
    ((file_clear_key hyc).trans (hky.trans hk.symm)))

/-- In the second scan a call of `scan_link` that the first scan has made, for
a sub-path not called yet, finds its link and counts it equal. -/
theorem replay_link {b : Bool} {D : snapraid_disk} {s : snapraid_state} {m : Mem}
    {H Hf : List Event} (set : Settled b D Hf) (rp : Replay b D s m H)
    {sub linkto : String} {kind : LinkKind}
    (hc : (sub, linkto, kind) ∈ link_calls b Hf)
    (hnew : sub ∉ (link_calls b H).map (fun c => c.1)) :
    ∃ l ll, l ∈ D.linkset ∧ heap_get m.disk.linkmem l = .ok ll ∧ ll.sub = sub ∧
      scan_link m sub linkto kind = .ok { m with
        disk := { m.disk with linkmem := heap_set m.disk.linkmem l { ll with present := true } }
        scan := { m.scan with count_equal := m.scan.count_equal + 1 } } ∧
      (∀ l' ∈ D.linkset, ∀ x, heap_get (heap_set m.disk.linkmem l { ll with present := true }) l'
          = .ok x →
        (x.present = true ↔ x.sub ∈ sub :: (link_calls b H).map (fun c => c.1))) := by
  have hlm := clear_present_linkmem rp.disk
  have hls : m.disk.linkset = D.linkset := (clear_present_eq rp.disk).2.2.2.1
  rcases set.lmark _ hc with ⟨l, llD, hl, hllD, h1, h2, h3⟩
  rcases map_eq_get link_clear hlm.symm hllD with ⟨ll, hll, hcl⟩
  rcases link_clear_data hcl with ⟨d1, d2, d3⟩
  have hsub : ll.sub = sub := d1.trans h1
  have hnp : ll.present = false := by
    cases hp : ll.present with
    | false => rfl
    | true => exact absurd ((rp.lflag l hl ll hll).1 hp) (hsub ▸ hnew)
  have huq : ∀ q ∈ D.linkset, ∀ y, heap_get m.disk.linkmem q = .ok y → y.sub = sub → q = l := by
    intro q hq y hy hys
    rcases map_eq_get link_clear hlm hy with ⟨yD, hyD, hyc⟩
    exact set.luniq q hq l hl yD llD hyD hllD
      ((link_clear_data hyc).1.trans (hys.trans h1.symm))
  have hlook : tommy_hashdyn_search m.disk.linkmem snapraid_link.sub m.disk.linkset sub
      = some l := by
    rw [hls]
    apply tommy_hashdyn_search_unique hl hll hsub
    intro q hq hne y hy hys
    exact hne (huq q hq y hy hys)
  refine ⟨l, ll, hl, hll, hsub, scan_link_equal hlook hll hnp (d2.trans h2) (d3.trans h3), ?_⟩
  intro l' hl' x hx
  rcases heap_get_set hx with ⟨e1, e2⟩ | ⟨e1, e2⟩
  · subst e2
    simp [hsub]
  · have hne : x.sub ≠ sub := fun he => e1 (huq l' hl' x e2 he)
    rw [rp.lflag l' hl' x e2]
    simp [hne]

/-- In the second scan a call of `scan_emptydir` that the first scan has made,
for a sub-path not called yet, finds its dir and counts it equal. -/
theorem replay_dir {b : Bool} {D : snapraid_disk} {s : snapraid_state} {m : Mem}
    {H Hf : List Event} (set : Settled b D Hf) (rp : Replay b D s m H)
    {sub : String} (hc : sub ∈ dir_calls Hf) (hnew : sub ∉ dir_calls H) :
    ∃ l ll, l ∈ D.dirset ∧ heap_get m.disk.dirmem l = .ok ll ∧ ll.sub = sub ∧
      scan_emptydir m sub = .ok { m with
        disk := { m.disk with dirmem := heap_set m.disk.dirmem l { ll with present := true } }
        scan := { m.scan with count_equal := m.scan.count_equal + 1 } } ∧
      (∀ l' ∈ D.dirset, ∀ x, heap_get (heap_set m.disk.dirmem l { ll with present := true }) l'
          = .ok x →
        (x.present = true ↔ x.sub ∈ sub :: dir_calls H)) := by
  have hlm := clear_present_dirmem rp.disk
  have hls : m.disk.dirset = D.dirset := (clear_present_eq rp.disk).2.2.2.2.2.1
  rcases set.dmark _ hc with ⟨l, llD, hl, hllD, h1⟩
  rcases map_eq_get dir_clear hlm.symm hllD with ⟨ll, hll, hcl⟩
  have hsub : ll.sub = sub := (dir_clear_data hcl).trans h1
  have hnp : ll.present = false := by
    cases hp : ll.present with
    | false => rfl
    | true => exact absurd ((rp.dflag l hl ll hll).1 hp) (hsub ▸ hnew)
  have huq : ∀ q ∈ D.dirset, ∀ y, heap_get m.disk.dirmem q = .ok y → y.sub = sub → q = l := by
    intro q hq y hy hys
    rcases map_eq_get dir_clear hlm hy with ⟨yD, hyD, hyc⟩
    exact set.duniq q hq l hl yD llD hyD hllD
      ((dir_clear_data hyc).trans (hys.trans h1.symm))
  have hlook : tommy_hashdyn_search m.disk.dirmem snapraid_dir.sub m.disk.dirset sub
      = some l := by
    rw [hls]
    apply tommy_hashdyn_search_unique hl hll hsub
    intro q hq hne y hy hys
    exact hne (huq q hq y hy hys)
  refine ⟨l, ll, hl, hll, hsub, scan_emptydir_equal hlook hll hnp, ?_⟩
  intro l' hl' x hx
  rcases heap_get_set hx with ⟨e1, e2⟩ | ⟨e1, e2⟩
  · subst e2
    simp [hsub]
  · have hne : x.sub ≠ sub := fun he => e1 (huq l' hl' x e2 he)
    rw [rp.dflag l' hl' x e2]
    simp [hne]

theorem link_calls_append {b : Bool} {H : List Event} {c : String × String × LinkKind}
    (h : c ∈ link_calls b H) : ∀ R : List Event, c ∈ link_calls b (R ++ H)
  | [] => h
  | .file sub st :: R => by
    show c ∈ link_calls b (Event.file sub st :: (R ++ H))
    rw [link_calls]
    split
    · exact List.mem_cons_of_mem _ (link_calls_append h R)
    · exact link_calls_append h R
  | .link sub l :: R => by
    show c ∈ link_calls b (Event.link sub l :: (R ++ H))
    rw [link_calls]
    exact List.mem_cons_of_mem _ (link_calls_append h R)
  | .emptydir sub :: R => by
    show c ∈ link_calls b (Event.emptydir sub :: (R ++ H))
    rw [link_calls]
    exact link_calls_append h R
  | .fail e :: R => by
    show c ∈ link_calls b (Event.fail e :: (R ++ H))
    rw [link_calls]
    exact link_calls_append h R

theorem dir_calls_append {H : List Event} {c : String}
    (h : c ∈ dir_calls H) : ∀ R : List Event, c ∈ dir_calls (R ++ H)
  | [] => h
  | .file sub st :: R => by
    show c ∈ dir_calls (Event.file sub st :: (R ++ H))
    rw [dir_calls]
    exact dir_calls_append h R
  | .link sub l :: R => by
    show c ∈ dir_calls (Event.link sub l :: (R ++ H))
    rw [dir_calls]
    exact dir_calls_append h R
  | .emptydir sub :: R => by
    show c ∈ dir_calls (Event.emptydir sub :: (R ++ H))
    rw [dir_calls]
    exact List.mem_cons_of_mem _ (dir_calls_append h R)
  | .fail e :: R => by
    show c ∈ dir_calls (Event.fail e :: (R ++ H))
    rw [dir_calls]
    exact dir_calls_append h R

theorem nlink_ok_append {b : Bool} {H : List Event} : ∀ R : List Event,
    nlink_ok b (R ++ H) → nlink_ok b H
  | [], h => h
  | .file _ _ :: R, h => nlink_ok_append R h.2
  | .link _ _ :: R, h => nlink_ok_append R h
  | .emptydir _ :: R, h => nlink_ok_append R h
  | .fail _ :: R, h => nlink_ok_append R h

theorem first_file_cons_seen {b : Bool} {H : List Event} {sub : String} {st : Stat}
    (hseen : first_file b (stat_key b sub st) H ≠ none) (k : Key) :
    first_file b k (Event.file sub st :: H) = first_file b k H := by
  cases hk0 : first_file b k H with
  | some x0 => exact first_file_cons_some _ hk0
  | none =>
    rw [first_file_cons_file_none _ _ hk0]
    split
    · next hk => rw [hk] at hseen; exact absurd hk0 hseen
    · rfl

theorem first_file_cons_other {b : Bool} {H : List Event} {sub : String} {st : Stat}
    {k : Key} (hk : stat_key b sub st ≠ k) :
    first_file b k (Event.file sub st :: H) = first_file b k H := by
  cases hk0 : first_file b k H with
  | some x0 => exact first_file_cons_some _ hk0
  | none => rw [first_file_cons_file_none _ _ hk0, if_neg hk]

/-- One call of the second scan: it succeeds and counts the entry equal. -/
theorem replay_event {b : Bool} {D : snapraid_disk} {s : snapraid_state} {m : Mem}
    {H R : List Event} {e : Event}
    (set : Settled b D (R ++ e :: H)) (hnd : (event_subs (R ++ e :: H)).Nodup)
    (hb : s.find_by_name = b) (rp : Replay b D s m H) (hnf : ∀ x, e ≠ Event.fail x) :
    ∃ m', scan_event m e = .ok m' ∧ Replay b D s m' (e :: H) := by
  have hnd0 : (event_subs (e :: H)).Nodup := by
    rw [event_subs_append] at hnd
    exact (List.nodup_append.1 hnd).2.1
  have hmb : m.state.find_by_name = b := by rw [rp.state]; exact hb
  cases e with
  | file sub st =>
    have hnew : sub ∉ event_subs H := (List.nodup_cons.1 hnd0).1
    cases hk0 : first_file b (stat_key b sub st) H with
    | none =>
      have hfull : first_file b (stat_key b sub st) (R ++ Event.file sub st :: H) =
          some (sub, st) :=
        first_file_append (by rw [first_file_cons_file_none _ _ hk0, if_pos rfl]) R
      rcases set.fmark _ sub st hfull with ⟨g, fD, hg, hfD, hmt⟩
      rcases replay_lookup set.funiq rp.disk hmb hg hfD (file_matches_key hmt) with
        ⟨f, hf, hc, hlook⟩
      have hkf : file_key b f = stat_key b sub st :=
        (file_clear_key hc).trans (file_matches_key hmt)
      have hnp : f.present = false := by
        cases hp : f.present with
        | false => rfl
        | true =>
          have := (rp.fflag g hg f hf).1 hp
          rw [hkf, hk0] at this
          exact absurd rfl this
      refine ⟨_, scan_file_equal hlook hf hnp (file_clear_matches hc.symm hmt), ?_⟩
      refine ⟨rp.state, (clear_present_set_file { f with present := true } hf rfl).trans rp.disk, ?_, ?_, rp.dflag,
        rp.moved, rp.change, rp.remove, rp.insert, rp.flist, rp.llist, rp.dlist⟩
      · intro g' hg' x hx
        rcases heap_get_set hx with ⟨e1, e2⟩ | ⟨e1, e2⟩
        · subst e2
          have hkx : file_key b { f with present := true } = stat_key b sub st := hkf
          rw [hkx, first_file_cons_file_none _ _ hk0, if_pos rfl]
          simp
        · have hne : stat_key b sub st ≠ file_key b x := by
            intro he
            rcases map_eq_get file_clear (clear_present_filemem rp.disk) e2 with ⟨xD, hxD, hxc⟩
            exact e1 (set.funiq g' hg' g hg xD fD hxD hfD
              ((file_clear_key hxc).trans (he.symm.trans (file_matches_key hmt).symm)))
          rw [first_file_cons_other hne]
          exact rp.fflag g' hg' x e2
      · rw [link_calls_file_none hk0]
        exact rp.lflag
    | some x0 =>
      rcases x0 with ⟨s0, t0⟩
      have hfull : first_file b (stat_key b sub st) (R ++ Event.file sub st :: H) =
          some (s0, t0) :=
        first_file_append (first_file_cons_some _ hk0) R
      rcases set.fmark _ s0 t0 hfull with ⟨g, fD, hg, hfD, hmt⟩
      have hkD : file_key b fD = stat_key b sub st :=
        (file_matches_key hmt).trans (first_file_key hk0)
      rcases replay_lookup set.funiq rp.disk hmb hg hfD hkD with ⟨f, hf, hc, hlook⟩
      have hkf : file_key b f = stat_key b sub st := (file_clear_key hc).trans hkD
      have hp : f.present = true := by
        apply (rp.fflag g hg f hf).2
        rw [hkf, hk0]
        simp
      have hn : st.st_nlink > 1 := by
        have h1 : nlink_ok b (Event.file sub st :: H) := nlink_ok_append R set.nlink
        rw [nlink_ok] at h1
        exact h1.1 (by rw [hk0]; simp)
      have hsub : f.sub = s0 := by
        have : (file_clear f).sub = (file_clear fD).sub := by rw [hc]
        exact this.trans hmt.1
      have hcall : (sub, s0, LinkKind.FILE_IS_HARDLINK) ∈
          link_calls b (R ++ Event.file sub st :: H) :=
        link_calls_append (by rw [link_calls_file_some hk0]; simp) R
      rcases replay_link set rp hcall (not_mem_link_calls hnew) with
        ⟨l, ll, hl, hll, hls, hscan, hflag⟩
      have hrun : scan_event m (Event.file sub st) = _ :=
        (scan_file_hardlink hlook hf hp hn).trans (hsub ▸ hscan)
      refine ⟨_, hrun, ?_⟩
      refine ⟨rp.state, (clear_present_set_link { ll with present := true } hll rfl).trans rp.disk, ?_, ?_, rp.dflag,
        rp.moved, rp.change, rp.remove, rp.insert, rp.flist, rp.llist, rp.dlist⟩
      · intro g' hg' x hx
        rw [first_file_cons_seen (by rw [hk0]; simp)]
        exact rp.fflag g' hg' x hx
      · rw [link_calls_file_some hk0]
        exact hflag
  | link sub linkto =>
    have hnew : sub ∉ event_subs H := (List.nodup_cons.1 hnd0).1
    have hcall : (sub, linkto, LinkKind.FILE_IS_SYMLINK) ∈
        link_calls b (R ++ Event.link sub linkto :: H) :=
      link_calls_append (by simp [link_calls]) R
    rcases replay_link set rp hcall (not_mem_link_calls hnew) with
      ⟨l, ll, hl, hll, hls, hscan, hflag⟩
    refine ⟨_, hscan, ?_⟩
    refine ⟨rp.state, (clear_present_set_link { ll with present := true } hll rfl).trans rp.disk, ?_, hflag, rp.dflag,
      rp.moved, rp.change, rp.remove, rp.insert, rp.flist, rp.llist, rp.dlist⟩
    intro g' hg' x hx
    rw [first_file_cons_link]
    exact rp.fflag g' hg' x hx
  | emptydir sub =>
    have hnew : sub ∉ event_subs H := (List.nodup_cons.1 hnd0).1
    have hcall : sub ∈ dir_calls (R ++ Event.emptydir sub :: H) :=
      dir_calls_append (by simp [dir_calls]) R
    rcases replay_dir set rp hcall (fun hc => hnew (dir_calls_sub hc)) with
      ⟨l, ll, hl, hll, hls, hscan, hflag⟩
    refine ⟨_, hscan, ?_⟩
    refine ⟨rp.state, (clear_present_set_dir { ll with present := true } hll rfl).trans rp.disk, ?_, rp.lflag, hflag,
      rp.moved, rp.change, rp.remove, rp.insert, rp.flist, rp.llist, rp.dlist⟩
    intro g' hg' x hx
    rw [first_file_cons_emptydir]
    exact rp.fflag g' hg' x hx
  | fail x => exact absurd rfl (hnf x)

/-- The walk of the second scan succeeds and counts every entry equal. -/
theorem replay_walk {b : Bool} {D : snapraid_disk} {s : snapraid_state} :
    ∀ (evs H : List Event) (m : Mem),
    Settled b D (evs.reverse ++ H) → (event_subs (evs.reverse ++ H)).Nodup →
    s.find_by_name = b → (∀ x, Event.fail x ∉ evs) → Replay b D s m H →
    ∃ m', evs.foldlM scan_event m = .ok m' ∧ Replay b D s m' (evs.reverse ++ H)
  | [], H, m, _, _, _, _, rp => ⟨m, rfl, rp⟩
  | e :: evs, H, m, set, hnd, hb, hnf, rp => by
    have heq : (e :: evs).reverse ++ H = evs.reverse ++ (e :: H) := by simp
    rw [heq] at set hnd ⊢
    rcases replay_event set hnd hb rp (fun x hx => hnf x (by rw [hx]; simp)) with ⟨m1, h1, rp1⟩
    rcases replay_walk evs (e :: H) m1 set hnd hb
      (fun x hx => hnf x (List.mem_cons_of_mem _ hx)) rp1 with ⟨m', h2, rp2⟩
    refine ⟨m', ?_, rp2⟩
    rw [List.foldlM_cons, h1]
    exact h2

/-- A walk that succeeds has no failure among its calls. -/
theorem walk_no_fail : ∀ (evs : List Event) (m m' : Mem),
    evs.foldlM scan_event m = .ok m' → ∀ x, Event.fail x ∉ evs
  | [], _, _, _, x => by simp
  | e :: evs, m, m', h, x => by
    rw [List.foldlM_cons] at h
    rcases bind_ok.1 h with ⟨m1, h1, h2⟩
    intro hx
    rcases List.mem_cons.1 hx with hx | hx
    · subst hx
      cases h1
    · exact walk_no_fail evs m1 m' h2 x hx

theorem clear_present_idem (D : snapraid_disk) :
    clear_present (clear_present D) = clear_present D := by
  unfold clear_present
  simp only [List.map_map]
  congr 1 <;>
  · apply List.map_congr_left
    intro x _
    cases x <;> rfl

theorem heap_get_map {α : Type} (π : α → α) {mem : List (Option α)} {p : Nat} {y : α}
    (h : heap_get (mem.map (Option.map π)) p = .ok y) :
    ∃ x, heap_get mem p = .ok x ∧ y = π x := by
  rw [heap_get_ok, List.getElem?_map] at h
  cases hm : mem[p]? with
  | none => rw [hm] at h; cases h
  | some o =>
    rw [hm] at h
    cases o with
    | none => cases h
    | some x =>
      simp only [Option.map_some', Option.some.injEq] at h
      exact ⟨x, by rw [heap_get_ok]; exact hm, h.symm⟩

/-- The second scan starts in order. -/
theorem replay_init (b : Bool) (D : snapraid_disk) (s : snapraid_state) :
    Replay b D s { state := s, disk := clear_present D, scan := scan_init } [] := by
  refine ⟨rfl, clear_present_idem D, ?_, ?_, ?_, rfl, rfl, rfl, rfl, rfl, rfl, rfl⟩
  · intro g _ f hf
    rcases heap_get_map file_clear hf with ⟨x, _, hx⟩
    subst hx
    simp [file_clear, first_file]
  · intro g _ f hf
    rcases heap_get_map link_clear hf with ⟨x, _, hx⟩
    subst hx
    simp [link_clear, link_calls]
  · intro g _ f hf
    rcases heap_get_map dir_clear hf with ⟨x, _, hx⟩
    subst hx
    simp [dir_clear, dir_calls]

theorem foldlM_noop {α β : Type} (f : β → α → Except Fatal β) (b : β) :
    ∀ (l : List α), (∀ a ∈ l, f b a = .ok b) → l.foldlM f b = .ok b
  | [], _ => rfl
  | a :: l, h => by
    rw [List.foldlM_cons, h a (by simp)]
    exact foldlM_noop f b l (fun x hx => h x (List.mem_cons_of_mem _ hx))

theorem sweep_file_present {m : Mem} {g : Nat} {f : snapraid_file}
    (hf : heap_get m.disk.filemem g = .ok f) (hp : f.present = true) :
    sweep_file m g = .ok m := by
  unfold sweep_file
  simp [hf, bind, Except.bind, hp, pure, Except.pure]

theorem sweep_link_present {m : Mem} {g : Nat} {f : snapraid_link}
    (hf : heap_get m.disk.linkmem g = .ok f) (hp : f.present = true) :
    sweep_link m g = .ok m := by
  unfold sweep_link
  simp [hf, bind, Except.bind, hp, pure, Except.pure]

theorem sweep_dir_present {m : Mem} {g : Nat} {f : snapraid_dir}
    (hf : heap_get m.disk.dirmem g = .ok f) (hp : f.present = true) :
    sweep_dir m g = .ok m := by
  unfold sweep_dir
  simp [hf, bind, Except.bind, hp, pure, Except.pure]

theorem first_file_mem_some {b : Bool} {k : Key} {H : List Event}
    (h : first_file b k H ≠ none) : ∃ x, first_file b k H = some x := by
  cases hx : first_file b k H with
  | none => exact absurd hx h
  | some x => exact ⟨x, rfl⟩

/-- The scan of a disk whose catalog agrees with the calls of the walk of its
tree, started without PRESENT flags: it succeeds, counts nothing moved,
changed, removed or inserted, writes nothing in the state, and leaves the
catalog as it is up to the PRESENT flags. -/
theorem rescan_disk {flt : Filters} {fs : String → FsNode} {b : Bool} {D : snapraid_disk}
    {s : snapraid_state}
    (set : Settled b D (disk_events flt fs D).reverse)
    (hnd : (event_subs (disk_events flt fs D)).Nodup)
    (hnf : ∀ x, Event.fail x ∉ disk_events flt fs D)
    (hb : s.find_by_name = b) :
    ∃ m', scan_disk flt fs s (clear_present D) = .ok m' ∧ m'.state = s ∧
      m'.scan.count_moved = 0 ∧ m'.scan.count_change = 0 ∧
      m'.scan.count_remove = 0 ∧ m'.scan.count_insert = 0 ∧
      clear_present m'.disk = clear_present D := by
  have hevs : disk_events flt fs (clear_present D) = disk_events flt fs D := rfl
  rcases replay_walk (disk_events flt fs D) [] _
    (by rw [List.append_nil]; exact set)
    (by rw [List.append_nil, event_subs_reverse]; exact List.nodup_reverse.2 hnd)
    hb hnf (replay_init b D s) with ⟨m1, hwalk, rp⟩
  rw [List.append_nil] at rp
  -- the walk
  have hev := scan_dir_events flt fs { state := s, disk := clear_present D, scan := scan_init }
  have hev' : (scan_dir flt (clear_present D).dir "" (fs (clear_present D).dir)
      { state := s, disk := clear_present D, scan := scan_init }).map Prod.fst = .ok m1 := by
    rw [← hwalk]; exact hev
  have hdir : ∃ q, scan_dir flt (clear_present D).dir "" (fs (clear_present D).dir)
      { state := s, disk := clear_present D, scan := scan_init } = .ok (m1, q) := by
    cases hsd : scan_dir flt (clear_present D).dir "" (fs (clear_present D).dir)
        { state := s, disk := clear_present D, scan := scan_init } with
    | error e => rw [hsd] at hev'; cases hev'
    | ok r =>
      rw [hsd] at hev'
      have : r.1 = m1 := by
        simp only [Except.map, Except.ok.injEq] at hev'
        exact hev'
      exact ⟨r.2, by rw [← this]⟩
  rcases hdir with ⟨q, hdir⟩
  -- the sweeps find every object PRESENT
  have hlists := clear_present_eq rp.disk
  have hsw1 : m1.disk.filelist.foldlM sweep_file m1 = .ok m1 := by
    apply foldlM_noop
    intro g hg
    rw [hlists.2.2.1] at hg
    rcases set.fcover g hg with ⟨fD, hfD, hgl, hff⟩
    rcases map_eq_get file_clear (clear_present_filemem rp.disk).symm hfD with ⟨f, hf, hc⟩
    exact sweep_file_present hf ((rp.fflag g hgl f hf).2 (by rw [file_clear_key hc]; exact hff))
  have hsw2 : m1.disk.linklist.foldlM sweep_link m1 = .ok m1 := by
    apply foldlM_noop
    intro g hg
    rw [hlists.2.2.2.2.1] at hg
    rcases set.lcover g hg with ⟨fD, hfD, hgl, hff⟩
    rcases map_eq_get link_clear (clear_present_linkmem rp.disk).symm hfD with ⟨f, hf, hc⟩
    exact sweep_link_present hf
      ((rp.lflag g hgl f hf).2 (by rw [(link_clear_data hc).1]; exact hff))
  have hsw3 : m1.disk.dirlist.foldlM sweep_dir m1 = .ok m1 := by
    apply foldlM_noop
    intro g hg
    rw [hlists.2.2.2.2.2.2.1] at hg
    rcases set.dcover g hg with ⟨fD, hfD, hgl, hff⟩
    rcases map_eq_get dir_clear (clear_present_dirmem rp.disk).symm hfD with ⟨f, hf, hc⟩
    exact sweep_dir_present hf
      ((rp.dflag g hgl f hf).2 (by rw [dir_clear_data hc]; exact hff))
  refine ⟨m1, ?_, rp.state, rp.moved, rp.change, rp.remove, rp.insert, rp.disk⟩
  unfold scan_disk
  simp only [hdir, bind, Except.bind]
  simp only [hsw1, hsw2, hsw3, rp.flist, rp.llist, rp.dlist, List.foldlM_nil, List.foldl_nil,
    pure, Except.pure, bind, Except.bind]

/-- A scan of a disk that succeeds has no failure among the calls of its walk. -/
theorem scan_disk_no_fail {flt : Filters} {fs : String → FsNode} {state : snapraid_state}
    {disk : snapraid_disk} {m' : Mem} (h : scan_disk flt fs state disk = .ok m') :
    ∀ x, Event.fail x ∉ disk_events flt fs disk := by
  rcases scan_disk_ok h with ⟨r, _, _, _, _, hr, _⟩
  have hev := scan_dir_events flt fs { state := state, disk := disk, scan := scan_init }
  have e1 : (disk_events flt fs disk).foldlM scan_event
      { state := state, disk := disk, scan := scan_init } =
      (scan_dir flt disk.dir "" (fs disk.dir)
        { state := state, disk := disk, scan := scan_init }).map Prod.fst := hev.symm
  rw [hr] at e1
  exact walk_no_fail _ _ r.1 e1

theorem disk_events_congr {flt : Filters} {fs : String → FsNode} {d d' : snapraid_disk}
    (hn : d'.name = d.name) (hd : d'.dir = d.dir) :
    disk_events flt fs d' = disk_events flt fs d := by
  unfold disk_events
  rw [hn, hd]

/-- Every disk of the result of the loop over the disks is the result of the
scan of a disk of the list, with the options of the initial state. -/
theorem state_scan_disks_from (flt : Filters) (fs : String → FsNode) :
    ∀ (disklist : List snapraid_disk) (r0 r : ScanResult),
      state_scan_disks flt fs disklist r0 = .ok r →
      ∀ d' ∈ r.disklist, d' ∈ r0.disklist ∨
        ∃ d ∈ disklist, ∃ state m', state_frame r0.state state ∧
          scan_disk flt fs state d = .ok m' ∧ m'.disk = d'
  | [], r0, r, h, d', hd' => by
    simp [state_scan_disks, pure, Except.pure] at h
    subst h; exact Or.inl hd'
  | disk :: rest, r0, r, h, d', hd' => by
    rw [state_scan_disks] at h
    rcases bind_ok.1 h with ⟨m, hm, h2⟩
    rcases state_scan_disks_from flt fs rest _ r h2 d' hd' with h3 | ⟨d, hd, st, m', hf, h4, h5⟩
    · rcases List.mem_append.1 h3 with h3 | h3
      · exact Or.inl h3
      · simp only [List.mem_singleton] at h3
        exact Or.inr ⟨disk, by simp, r0.state, m, state_frame_refl _, hm, h3.symm⟩
    · exact Or.inr ⟨d, List.mem_cons_of_mem _ hd, st, m',
        state_frame_trans (scan_disk_state_frame hm) hf, h4, h5⟩

/-- The loop over the disks of a second scan. -/
theorem rescan_disks {flt : Filters} {fs : String → FsNode} {b : Bool} :
    ∀ (Ds : List snapraid_disk) (r0 : ScanResult), r0.state.find_by_name = b →
      (∀ D ∈ Ds, Settled b D (disk_events flt fs D).reverse ∧
        (event_subs (disk_events flt fs D)).Nodup ∧
        ∀ x, Event.fail x ∉ disk_events flt fs D) →
      ∃ r, state_scan_disks flt fs (Ds.map clear_present) r0 = .ok r ∧
        r.state = r0.state ∧
        r.disklist.length = r0.disklist.length + Ds.length ∧
        r.scanlist.length = r0.scanlist.length + Ds.length ∧
        (∀ sc ∈ r.scanlist, sc ∈ r0.scanlist ∨ scan_quiet sc) ∧
        r.disklist.map clear_present =
          r0.disklist.map clear_present ++ Ds.map clear_present
  | [], r0, _, _ => ⟨r0, rfl, rfl, rfl, rfl, fun sc h => Or.inl h, by simp⟩
  | D :: Ds, r0, hb, hD => by
    rcases hD D (by simp) with ⟨set, hnd, hnf⟩
    rcases rescan_disk set hnd hnf hb with ⟨m', hscan, hst, c1, c2, c3, c4, hdisk⟩
    rcases rescan_disks Ds
      { state := m'.state, disklist := r0.disklist ++ [m'.disk],
        scanlist := r0.scanlist ++ [m'.scan] }
      (by show m'.state.find_by_name = b; rw [hst]; exact hb)
      (fun D' hD' => hD D' (List.mem_cons_of_mem _ hD')) with ⟨r, hr, a1, a2, a3, a4, a5⟩
    refine ⟨r, ?_, a1.trans hst, ?_, ?_, ?_, ?_⟩
    · rw [List.map_cons, state_scan_disks, hscan]
      exact hr
    · rw [a2]; simp; omega
    · rw [a3]; simp; omega
    · intro sc hsc
      rcases a4 sc hsc with h | h
      · rcases List.mem_append.1 h with h | h
        · exact Or.inl h
        · simp only [List.mem_singleton] at h
          subst h
          exact Or.inr ⟨c1, c2, c3, c4⟩
      · exact Or.inr h
    · rw [a5]
      simp [hdisk]

/-- C5 (idempotence).  Take catalogs as they are loaded (no
PRESENT flag, no two entries of the file lookup table, of the link table or of
the dir table with the same key) and file trees in which the scanned
sub-paths are distinct.  If `state_scan` returns, then `state_scan` run again
on its result over the same trees, after the PRESENT flags have been cleared
(as writing and reloading the catalog does), returns too: for every disk it
counts nothing moved, changed, removed or inserted, it leaves the state as it
is, and it leaves the catalogs as they are up to the PRESENT flags. -/
theorem idempotence (flt : Filters) (fs : String → FsNode) (state : snapraid_state)
    (disklist : List snapraid_disk) (r : ScanResult)
    (hwf : ∀ d ∈ disklist, catalog_wf state.find_by_name d)
    (hfs : ∀ d ∈ disklist, (event_subs (disk_events flt fs d)).Nodup)
    (h : state_scan flt fs state disklist = .ok r) :
    ∃ r2, state_scan flt fs r.state (r.disklist.map clear_present) = .ok r2 ∧
      r2.scanlist.length = disklist.length ∧
      (∀ sc ∈ r2.scanlist, scan_quiet sc) ∧
      r2.state = r.state ∧
      r2.disklist.map clear_present = r.disklist.map clear_present := by
  have h1 := state_scan_ok h
  rcases state_scan_disks_frame flt fs _ _ _ h1 with ⟨hfr, hlen, _⟩
  have hb : r.state.find_by_name = state.find_by_name := hfr.1
  have hready : ∀ D ∈ r.disklist,
      Settled state.find_by_name D (disk_events flt fs D).reverse ∧
      (event_subs (disk_events flt fs D)).Nodup ∧
      ∀ x, Event.fail x ∉ disk_events flt fs D := by
    intro D hD
    rcases state_scan_disks_from flt fs _ _ _ h1 D hD with hc | ⟨d, hd, st, m', hf, hs, hm⟩
    · simp at hc
    · have hst : st.find_by_name = state.find_by_name := hf.1
      have hwf' : catalog_wf st.find_by_name d := by rw [hst]; exact hwf d hd
      rcases scan_disk_settled hwf' (hfs d hd) hs with ⟨set, hn, hdir⟩
      rw [hm] at set hn hdir
      rw [disk_events_congr hn hdir]
      rw [hst] at set
      exact ⟨set, hfs d hd, scan_disk_no_fail hs⟩
  rcases rescan_disks r.disklist { state := r.state, disklist := [], scanlist := [] } hb hready
    with ⟨r2, hr2, a1, a2, a3, a4, a5⟩
  have hq : ∀ sc ∈ r2.scanlist, scan_quiet sc := by
    intro sc hsc
    rcases a4 sc hsc with hc | hc
    · simp at hc
    · exact hc
  have hgate : (List.zip r2.disklist r2.scanlist).any (fun x => scan_is_empty x.2) = false := by
    cases hany : (List.zip r2.disklist r2.scanlist).any (fun x => scan_is_empty x.2) with
    | false => rfl
    | true =>
      rcases (any_zip_snd scan_is_empty r2.disklist r2.scanlist (by rw [a2, a3]; rfl)).1 hany with
        ⟨sc, hsc, he⟩
      have := (hq sc hsc).2.2.1
      simp [scan_is_empty, this] at he
  refine ⟨r2, ?_, ?_, hq, a1, ?_⟩
  · unfold state_scan
    rw [hr2]
    simp only [bind, Except.bind]
    split
    · simp only [hgate, Bool.false_eq_true, ↓reduceIte]
      rfl
    · rfl
  · rw [a3]
    simp only [List.length_nil, Nat.zero_add]
    simpa using hlen
  · simpa using a5

theorem idempotence_witness :
    ∃ r2, state_scan ex_filters ex_tree_links ex_scanned_links.state
        (ex_scanned_links.disklist.map clear_present) = .ok r2 ∧
      r2.scanlist.length = [ex_catalog].length ∧
      (∀ sc ∈ r2.scanlist, scan_quiet sc) ∧
      r2.state = ex_scanned_links.state ∧
      r2.disklist.map clear_present = ex_scanned_links.disklist.map clear_present :=
  idempotence ex_filters ex_tree_links ex_state [ex_catalog] ex_scanned_links
    (by decide) (by decide) (by rfl)

/-- The PRESENT flags are transient: `state_scan` sets the flag of every file
it finds and does not clear it, so a run on a memory in which the flags of an
earlier run are still set stops with the "already present" inode error.  Here
a run keeps `b`, removes `a` and inserts `n`; a run on its result as it is, on
the same tree, fails at `b`. -/
theorem rescan_needs_reset :
    state_scan ex_filters ex_tree ex_state [ex_catalog] =
      .ok { state := { ex_state with need_write := true }
            disklist := [ex_catalog_after]
            scanlist := [{ count_equal := 1, count_moved := 0, count_change := 0,
                           count_remove := 1, count_insert := 1, file_insert_list := [2],
                           link_insert_list := [], dir_insert_list := [] }] } ∧
    state_scan ex_filters ex_tree { ex_state with need_write := true } [ex_catalog_after] =
      .error Fatal.inode_present_inconsistency :=
  ⟨by rfl, by rfl⟩

/-- C11 fails as stated: with `force_empty` off, scenario 4 does not complete.
The scan of the disk counts nothing equal, nothing moved and one removal, and
`state_scan` stops with the empty disk error. -/
theorem scenario4_counterexample :
    (scan_disk ex_filters ex4_tree ex_state (ex4_catalog (ex_hash 7))).toOption.map
      (fun m => (m.scan.count_equal, m.scan.count_moved, m.scan.count_remove,
        m.scan.count_insert)) = some (0, 0, 1, 1) ∧
    state_scan ex_filters ex4_tree ex_state [ex4_catalog (ex_hash 7)] =
      .error Fatal.empty_disk :=
  ⟨by rfl, by rfl⟩

/-- C11, as amended (scenario 4 with `force_empty` set).  For every hash `H`:
the walk and the removal sweep leave slot 0 with a tombstone in state DELETED
with the hash `H`; the delayed insertion then gives the block of the new file
`c` slot 0, in state CHG with the hash `H`; `state_scan` returns with
`count_remove = 1` and `count_insert = 1`. -/
theorem scenario4 (H : List Nat) :
    ((scan_dir ex_filters "/mnt/d1/" "" (ex4_tree "/mnt/d1/")
        { state := ex_state_force, disk := ex4_catalog H, scan := scan_init }) >>= fun r =>
      r.1.disk.filelist.foldlM sweep_file r.1) = .ok (ex4_swept H) ∧
    block_get (ex4_swept H).disk (BlockPtr.deleted 0) =
      .ok { parity_pos := 0, state := BlockState.DELETED, hash := H } ∧
    (ex4_swept H).disk.blockarr[0]? = some (some (BlockPtr.deleted 0)) ∧
    state_scan ex_filters ex4_tree ex_state_force [ex4_catalog H] =
      .ok { state := { ex_state_force with need_write := true }
            disklist := [ex4_final H]
            scanlist := [(ex4_swept H).scan] } ∧
    (ex4_swept H).scan.count_remove = 1 ∧ (ex4_swept H).scan.count_insert = 1 ∧
    (ex4_final H).blockarr[0]? = some (some (BlockPtr.file 1 0)) ∧
    block_get (ex4_final H) (BlockPtr.file 1 0) =
      .ok { parity_pos := 0, state := BlockState.CHG, hash := H } :=
  ⟨by rfl, by rfl, by rfl, by with_unfolding_all rfl, by rfl, by rfl, by rfl, by rfl⟩

/-- C20 fails as stated in its second half: with `force_empty` off, the scan
of the catalog that records only the empty directory, against the tree in
which the directory holds a file, does not complete.  The scan of the disk
counts nothing equal, nothing moved and the removal of the dir, and
`state_scan` stops with the empty disk error. -/
theorem scenario8_counterexample :
    (scan_disk ex_filters ex8_tree_file ex_state ex8_catalog).toOption.map
      (fun m => (m.scan.count_equal, m.scan.count_moved, m.scan.count_remove,
        m.scan.count_insert)) = some (0, 0, 1, 1) ∧
    state_scan ex_filters ex8_tree_file ex_state [ex8_catalog] = .error Fatal.empty_disk :=
  ⟨by rfl, by rfl⟩

/-- C20, as amended (scenario 8).  The scan of the catalog that records the
empty directory `dir`, against the tree in which `dir` is still empty, returns
with `count_equal = 1` and nothing else counted, and changes the catalog only
in the PRESENT flag of the dir.  Against the tree in which `dir` holds a file,
with `force_empty` set, the scan returns with the dir removed from the dir
list and the dir table (and counted removed) and the file inserted as a File,
in the file list and both file tables. -/
theorem scenario8 :
    state_scan ex_filters ex8_tree_empty ex_state [ex8_catalog] =
      .ok { state := ex_state
            disklist := [{ ex8_catalog with dirmem := [some { sub := "dir", present := true }] }]
            scanlist := [{ scan_init with count_equal := 1 }] } ∧
    state_scan ex_filters ex8_tree_file ex_state_force [ex8_catalog] =
      .ok { state := { ex_state_force with need_write := true }
            disklist := [ex8_final]
            scanlist := [{ scan_init with count_remove := 1, count_insert := 1,
                                          file_insert_list := [0] }] } ∧
    ex8_final.dirlist = [] ∧ ex8_final.dirset = [] ∧
    heap_get ex8_final.dirmem 0 = .error Fatal.memory_error ∧
    ex8_final.filelist = [0] ∧ ex8_final.pathset = [0] ∧ ex8_final.inodeset = [0] ∧
    (heap_get ex8_final.filemem 0).toOption.map snapraid_file.sub = some "dir/f" :=
  ⟨by rfl, by rfl, by rfl, by rfl, by rfl, by rfl, by rfl, by rfl, by rfl⟩

/-- The call of `scan_link` that finds a PRESENT link fails. -/
theorem scan_link_present {m : Mem} {sub linkto : String} {kind : LinkKind} {l : Nat}
    {ll : snapraid_link}
    (hl : tommy_hashdyn_search m.disk.linkmem snapraid_link.sub m.disk.linkset sub = some l)
    (hll : heap_get m.disk.linkmem l = .ok ll) (hp : ll.present = true) :
    scan_link m sub linkto kind = .error Fatal.link_inconsistency := by
  unfold scan_link
  rw [hl]
  simp only [hll, bind, Except.bind, hp, ↓reduceIte]
  rfl

/-- The call of `scan_link` that finds a link not PRESENT with another target
or kind marks it PRESENT, replaces the target and the kind and counts a
change; the state is not touched. -/
theorem scan_link_update {m : Mem} {sub linkto : String} {kind : LinkKind} {l : Nat}
    {ll : snapraid_link}
    (hl : tommy_hashdyn_search m.disk.linkmem snapraid_link.sub m.disk.linkset sub = some l)
    (hll : heap_get m.disk.linkmem l = .ok ll) (hp : ll.present = false)
    (hne : ¬ (ll.linkto = linkto ∧ ll.kind = kind)) :
    scan_link m sub linkto kind = .ok { m with
      disk := { m.disk with
        linkmem := heap_set m.disk.linkmem l
          { ll with present := true, linkto := linkto, kind := kind } }
      scan := { m.scan with count_change := m.scan.count_change + 1 } } := by
  have hne' : ¬ (ll.linkto = linkto ∧ kind = ll.kind) := fun h => hne ⟨h.1, h.2.symm⟩
  unfold scan_link
  rw [hl]
  simp only [hll, bind, Except.bind, hp, Bool.false_eq_true, ↓reduceIte, hne', pure,
    Except.pure]

/-- The call of `scan_link` that finds no link stages a new PRESENT link and
counts an insertion; the link table and the link list are not touched. -/
theorem scan_link_new {m : Mem} {sub linkto : String} {kind : LinkKind}
    (hl : tommy_hashdyn_search m.disk.linkmem snapraid_link.sub m.disk.linkset sub = none) :
    scan_link m sub linkto kind = .ok { m with
      disk := { m.disk with
        linkmem := m.disk.linkmem ++
          [some { sub := sub, linkto := linkto, kind := kind, present := true }] }
      scan := { m.scan with
        count_insert := m.scan.count_insert + 1
        link_insert_list := m.scan.link_insert_list ++ [m.disk.linkmem.length] } } := by
  unfold scan_link
  rw [hl]
  rfl

/-- C17 (link classification).  For `scan_link(sub, target, kind)`: a link the
search of the link table finds is an allocated link of the table with the
sub-path `sub`.  If it is PRESENT the call fails with the link inconsistency
error.  If it is not PRESENT and its target and kind are `target` and `kind`,
the call marks it PRESENT and adds one to `count_equal`; if its target or its
kind differs, the call marks it PRESENT, replaces its target and kind by
`target` and `kind` and adds one to `count_change`.  If the search finds
nothing, the call adds one to `count_insert`, allocates a PRESENT link and
appends it to the delayed link list, the link table and the link list being
as before.  In each case nothing else changes. -/
theorem link_classification (m : Mem) (sub target : String) (kind : LinkKind) :
    (∀ l, tommy_hashdyn_search m.disk.linkmem snapraid_link.sub m.disk.linkset sub = some l →
      l ∈ m.disk.linkset ∧ ∃ ll, heap_get m.disk.linkmem l = .ok ll ∧ ll.sub = sub) ∧
    (∀ l ll, tommy_hashdyn_search m.disk.linkmem snapraid_link.sub m.disk.linkset sub = some l →
      heap_get m.disk.linkmem l = .ok ll → ll.present = true →
      scan_link m sub target kind = .error Fatal.link_inconsistency) ∧
    (∀ l ll, tommy_hashdyn_search m.disk.linkmem snapraid_link.sub m.disk.linkset sub = some l →
      heap_get m.disk.linkmem l = .ok ll → ll.present = false →
      ll.linkto = target → ll.kind = kind →
      scan_link m sub target kind = .ok { m with
        disk := { m.disk with linkmem := heap_set m.disk.linkmem l { ll with present := true } }
        scan := { m.scan with count_equal := m.scan.count_equal + 1 } }) ∧
    (∀ l ll, tommy_hashdyn_search m.disk.linkmem snapraid_link.sub m.disk.linkset sub = some l →
      heap_get m.disk.linkmem l = .ok ll → ll.present = false →
      ¬ (ll.linkto = target ∧ ll.kind = kind) →
      scan_link m sub target kind = .ok { m with
        disk := { m.disk with
          linkmem := heap_set m.disk.linkmem l
            { ll with present := true, linkto := target, kind := kind } }
        scan := { m.scan with count_change := m.scan.count_change + 1 } }) ∧
    (tommy_hashdyn_search m.disk.linkmem snapraid_link.sub m.disk.linkset sub = none →
      scan_link m sub target kind = .ok { m with
        disk := { m.disk with
          linkmem := m.disk.linkmem ++
            [some { sub := sub, linkto := target, kind := kind, present := true }] }
        scan := { m.scan with
          count_insert := m.scan.count_insert + 1
          link_insert_list := m.scan.link_insert_list ++ [m.disk.linkmem.length] } }) := by
  refine ⟨?_, ?_, ?_, ?_, ?_⟩
  · intro l hl
    rcases tommy_hashdyn_search_some hl with ⟨h1, ll, h2, h3⟩
    exact ⟨h1, ll, h2, h3⟩
  · intro l ll hl hll hp
    exact scan_link_present hl hll hp
  · intro l ll hl hll hp h1 h2
    exact scan_link_equal hl hll hp h1 h2
  · intro l ll hl hll hp hne
    exact scan_link_update hl hll hp hne
  · intro hl
    exact scan_link_new hl

theorem link_classification_witness :
    scan_link ex_mem_link "l" "new" LinkKind.FILE_IS_SYMLINK = .ok { ex_mem_link with
      disk := { ex_catalog_link with
        linkmem := [some { sub := "l", linkto := "new", kind := LinkKind.FILE_IS_SYMLINK,
                           present := true }] }
      scan := { scan_init with count_change := 1 } } ∧
    scan_link ex_mem_link "k" "new" LinkKind.FILE_IS_HARDLINK = .ok { ex_mem_link with
      disk := { ex_catalog_link with
        linkmem := ex_catalog_link.linkmem ++
          [some { sub := "k", linkto := "new", kind := LinkKind.FILE_IS_HARDLINK,
                  present := true }] }
      scan := { scan_init with count_insert := 1, link_insert_list := [1] } } :=
  ⟨(link_classification ex_mem_link "l" "new" LinkKind.FILE_IS_SYMLINK).2.2.2.1 0
      { sub := "l", linkto := "old", kind := LinkKind.FILE_IS_SYMLINK, present := false }
      (by rfl) (by rfl) (by rfl) (by decide),
    (link_classification ex_mem_link "k" "new" LinkKind.FILE_IS_HARDLINK).2.2.2.2 (by rfl)⟩

/-- C18, the divergence.  A call of `scan_link` that classifies a link of the
table as an update replaces the target and the kind of the link and leaves
`need_write` as it was.  So the scan of a catalog whose only difference with
the live tree is the target of a symbolic link returns with the new target in
the catalog, one change counted, and `need_write` still 0. -/
theorem link_update_not_dirty :
    (∀ (m : Mem) (sub target : String) (kind : LinkKind) (l : Nat) (ll : snapraid_link),
      tommy_hashdyn_search m.disk.linkmem snapraid_link.sub m.disk.linkset sub = some l →
      heap_get m.disk.linkmem l = .ok ll → ll.present = false →
      ¬ (ll.linkto = target ∧ ll.kind = kind) →
      ∃ m', scan_link m sub target kind = .ok m' ∧
        m'.state.need_write = m.state.need_write ∧
        heap_get m'.disk.linkmem l =
          .ok { ll with present := true, linkto := target, kind := kind }) ∧
    ex_state.need_write = false ∧
    state_scan ex_filters ex_tree_link ex_state [ex_catalog_link] =
      .ok { state := ex_state
            disklist := [{ ex_catalog_link with
              linkmem := [some { sub := "l", linkto := "new",
                                 kind := LinkKind.FILE_IS_SYMLINK, present := true }] }]
            scanlist := [{ scan_init with count_change := 1 }] } := by
  refine ⟨?_, rfl, by rfl⟩
  intro m sub target kind l ll hl hll hp hne
  exact ⟨_, scan_link_update hl hll hp hne, rfl, heap_get_set_self hll⟩

theorem free_hint_congr {d1 d2 : snapraid_disk} (ha : d2.blockarr = d1.blockarr)
    (hf : d2.first_free_block = d1.first_free_block) (h : free_hint d1) : free_hint d2 := by
  intro s hs hc
  rw [ha] at hs hc
  rw [hf]
  exact h s hs hc

theorem remove_loop_hint : ∀ (rest : List snapraid_block) (disk disk' : snapraid_disk),
    rest.foldlM scan_file_remove_block disk = .ok disk' → free_hint disk → free_hint disk'
  | [], disk, disk', h, hh => by
    simp [pure, Except.pure] at h; subst h; exact hh
  | block :: rest, disk, disk', h, hh => by
    rw [List.foldlM_cons] at h
    rcases bind_ok.1 h with ⟨disk1, h1, h2⟩
    refine remove_loop_hint rest disk1 disk' h2 ?_
    rcases remove_block_ok h1 with ⟨hpos, _, hd1⟩
    intro s hs hc
    rw [hd1] at hs hc ⊢
    simp only [List.length_set] at hs
    simp only [] at hc ⊢
    by_cases hsp : block.parity_pos = s
    · subst hsp
      rw [List.getElem?_set_self hpos] at hc
      cases hc
    · rw [List.getElem?_set_ne hsp] at hc
      have := hh s hs hc
      omega

theorem scan_file_remove_hint {m m' : Mem} {file : Nat} (hh : free_hint m.disk)
    (h : scan_file_remove m file = .ok m') : free_hint m'.disk := by
  unfold scan_file_remove at h
  rcases bind_ok.1 h with ⟨f, hf, h⟩
  rcases bind_ok.1 h with ⟨disk1, h1, h⟩
  simp only [pure, Except.pure, Except.ok.injEq] at h
  subst h
  exact @free_hint_congr disk1 _ rfl rfl (remove_loop_hint _ _ _ h1 hh)

/-- One iteration of the loop of `scan_file_insert`: when no EMPTY slot lies
below the position of the search, none lies at or below the slot it assigns. -/
theorem insert_block_hint {file i : Nat} {s s' : InsertLoop}
    (h : scan_file_insert_block file s i = .ok s')
    (hmax : s.block_max = s.disk.blockarr.length)
    (hinv : ∀ t, s.disk.blockarr[t]? = some none → s.block_pos ≤ t) :
    s'.block_max = s'.disk.blockarr.length ∧
    ∀ t, s'.disk.blockarr[t]? = some none → s'.block_pos + 1 ≤ t := by
  rcases insert_block_ok h with ⟨pos, f, b, c, nb, hpos, hf, hb, hc, hnb, hs'⟩
  rcases find_free_block_ok s.disk s.block_max _ _ _ (Nat.le_refl _) hpos with ⟨hle, hlive, _⟩
  have hposlt : pos < (insert_grow s pos).blockarr.length := by
    rcases List.getElem?_eq_some.1 hc with ⟨hl, _⟩; exact hl
  have hlen : (insert_grow s pos).blockarr.length =
      (if pos = s.block_max then s.block_max + 1 else s.block_max) := by
    unfold insert_grow
    split
    · simp only [tommy_array_grow, List.length_append, List.length_replicate]; omega
    · exact hmax.symm
  have hold : ∀ t, t ≠ pos → (insert_grow s pos).blockarr[t]? = some none →
      s.disk.blockarr[t]? = some none := by
    intro t ht hc
    unfold insert_grow at hc
    split at hc
    · next hp =>
      simp only [tommy_array_grow] at hc
      have htl : t < s.disk.blockarr.length := by
        rcases List.getElem?_eq_some.1 hc with ⟨hl, _⟩
        simp only [List.length_append, List.length_replicate] at hl
        omega
      rwa [List.getElem?_append_left htl] at hc
    · exact hc
  subst hs'
  refine ⟨?_, ?_⟩
  · simp only [List.length_set]
    exact hlen.symm
  · intro t ht
    simp only [] at ht ⊢
    have htp : t ≠ pos := by
      rintro rfl
      rw [List.getElem?_set_self hposlt] at ht
      cases ht
    rw [List.getElem?_set_ne (Ne.symm htp)] at ht
    have h0 := hold t htp ht
    have h1 := hinv t h0
    by_cases hlt : t < pos
    · rcases hlive t h1 hlt with ⟨_, c', hc', hbf⟩
      rw [h0] at hc'
      cases hc'
      simp [block_has_file, pure, Except.pure] at hbf
    · omega

theorem insert_loop_hint (file : Nat) : ∀ (l : List Nat) (s s' : InsertLoop),
    l.foldlM (scan_file_insert_block file) s = .ok s' →
    s.block_max = s.disk.blockarr.length →
    (∀ t, s.disk.blockarr[t]? = some none → s.block_pos ≤ t) →
    s'.block_max = s'.disk.blockarr.length ∧
    (∀ t, s'.disk.blockarr[t]? = some none → s'.block_pos ≤ t) ∧
    (l ≠ [] → ∀ t, s'.disk.blockarr[t]? = some none → s'.block_pos + 1 ≤ t)
  | [], s, s', h, hmax, hinv => by
    simp [pure, Except.pure] at h; subst h
    exact ⟨hmax, hinv, fun h => absurd rfl h⟩
  | i :: l, s, s', h, hmax, hinv => by
    rw [List.foldlM_cons] at h
    rcases bind_ok.1 h with ⟨s1, h1, h2⟩
    rcases insert_block_hint h1 hmax hinv with ⟨a1, a2⟩
    rcases insert_loop_hint file l s1 s' h2 a1 (fun t ht => by have := a2 t ht; omega)
      with ⟨b1, b2, b3⟩
    refine ⟨b1, b2, fun _ => ?_⟩
    cases l with
    | nil =>
      simp [pure, Except.pure] at h2; subst h2
      exact a2
    | cons j l => exact b3 (by simp)

theorem scan_file_insert_hint {m m' : Mem} {file : Nat} (hh : free_hint m.disk)
    (h : scan_file_insert m file = .ok m') : free_hint m'.disk := by
  unfold scan_file_insert at h
  rcases bind_ok.1 h with ⟨f, hf, h⟩
  rcases bind_ok.1 h with ⟨s, hs, h⟩
  simp only [pure, Except.pure, Except.ok.injEq] at h
  subst h
  have hinv0 : ∀ t, m.disk.blockarr[t]? = some none → m.disk.first_free_block ≤ t := by
    intro t ht
    rcases List.getElem?_eq_some.1 ht with ⟨hl, _⟩
    exact hh t hl ht
  rcases insert_loop_hint file _ _ _ hs rfl hinv0 with ⟨_, b2, b3⟩
  by_cases h0 : f.blockmax = 0
  · have hnil : List.range f.blockmax = [] := by rw [h0]; rfl
    rw [hnil] at hs
    simp [pure, Except.pure] at hs
    subst hs
    intro t hl ht
    simpa [h0] using hh t (by simpa [h0] using hl) (by simpa [h0] using ht)
  · have hne : List.range f.blockmax ≠ [] := by
      intro hc
      have := congrArg List.length hc
      simp at this
      exact h0 this
    intro t hl ht
    simp only [h0, ne_eq, not_false_eq_true, ↓reduceIte] at hl ht ⊢
    exact b3 hne t ht

theorem scan_file_hint {m m' : Mem} {sub : String} {st : Stat}
    (hh : free_hint m.disk) (h : scan_file m sub st = .ok m') : free_hint m'.disk := by
  rcases scan_file_cases h with ⟨_, rfl⟩ | ⟨file, f, _, _, _, _, hl⟩ | ⟨file, f, _, hf, _, _, hu⟩ |
    ⟨file, f, _, _, _, _, hc⟩
  · exact @free_hint_congr m.disk _ rfl rfl hh
  · rcases scan_link_file_part hl with ⟨_, a1, _, _, _, _, _, a2, _⟩
    exact free_hint_congr a2 a1 hh
  · rcases scan_file_unchanged_ok hu with ⟨f', _, _, _, _, _, _, harr, hff, _⟩
    exact free_hint_congr harr hff hh
  · rcases scan_file_changed_ok hc with ⟨scan1, m1, hs, hr, rfl⟩
    have h1 : free_hint m1.disk := @scan_file_remove_hint { m with scan := scan1 } m1 file hh hr
    exact @free_hint_congr m1.disk _ rfl rfl h1

theorem sweep_file_hint {m m' : Mem} {file : Nat}
    (hh : free_hint m.disk) (h : sweep_file m file = .ok m') : free_hint m'.disk := by
  unfold sweep_file at h
  rcases bind_ok.1 h with ⟨f, _, h⟩
  split at h
  · refine scan_file_remove_hint ?_ h
    exact hh
  · simp only [pure, Except.pure, Except.ok.injEq] at h
    subst h; exact hh

theorem scan_disk_hint {flt : Filters} {fs : String → FsNode} {state : snapraid_state}
    {disk : snapraid_disk} {m' : Mem} (hh : free_hint disk)
    (h : scan_disk flt fs state disk = .ok m') : free_hint m'.disk := by
  rcases scan_disk_ok h with ⟨r, m1, m2, m3, m4, hr, h1, h2, h3, h4, rfl⟩
  have hir : free_hint r.1.disk :=
    scan_dir_preserves (fun m => free_hint m.disk) flt
      (fun _ _ _ _ hi h => scan_file_hint hi h)
      (fun _ _ _ _ _ hi h => by
        rcases scan_link_file_part h with ⟨_, a1, _, _, _, _, _, a2, _⟩
        exact free_hint_congr a2 a1 hi)
      (fun _ _ _ hi h => by
        rcases scan_emptydir_file_part h with ⟨_, a1, _, _, _, _, _, a2, _⟩
        exact free_hint_congr a2 a1 hi)
      _ _ _ _ _ hh hr
  have hi1 : free_hint m1.disk :=
    foldlM_preserves (fun m => free_hint m.disk) sweep_file
      (fun _ _ _ hi h => sweep_file_hint hi h) _ _ _ hir h1
  have hi2 : free_hint m2.disk :=
    foldlM_preserves (fun m => free_hint m.disk) sweep_link
      (fun b _ _ hi h => by
        rcases sweep_link_file_part h with ⟨_, a1, _, _, _, _, _, a2, _⟩
        exact free_hint_congr a2 a1 hi)
      _ _ _ hi1 h2
  have hi3 : free_hint m3.disk :=
    foldlM_preserves (fun m => free_hint m.disk) sweep_dir
      (fun b _ _ hi h => by
        rcases sweep_dir_file_part h with ⟨_, a1, _, _, _, _, _, a2, _⟩
        exact free_hint_congr a2 a1 hi)
      _ _ _ hi2 h3
  have hi4 : free_hint m4.disk :=
    foldlM_preserves (fun m => free_hint m.disk) scan_file_insert
      (fun _ _ _ hi h => scan_file_insert_hint hi h) _ _ _ hi3 h4
  have hi5 : free_hint (m4.scan.link_insert_list.foldl scan_link_insert m4).disk :=
    foldl_preserves (fun m => free_hint m.disk) scan_link_insert
      (fun b a hb => @free_hint_congr b.disk _ rfl rfl hb) _ _ hi4
  exact foldl_preserves (fun m => free_hint m.disk) scan_emptydir_insert
    (fun b a hb => @free_hint_congr b.disk _ rfl rfl hb) _ _ hi5

/-- C16 (free-hint invariant).  If every EMPTY slot `s` of the block array of a
disk satisfies `s >= first_free_block`, then the same holds after
`scan_file_remove`, after `scan_file_insert`, and, when it holds of every disk
before the scan, of every disk after `state_scan`. -/
theorem free_hint_preserved :
    (∀ (m m' : Mem) (file : Nat), free_hint m.disk →
      scan_file_remove m file = .ok m' → free_hint m'.disk) ∧
    (∀ (m m' : Mem) (file : Nat), free_hint m.disk →
      scan_file_insert m file = .ok m' → free_hint m'.disk) ∧
    (∀ (flt : Filters) (fs : String → FsNode) (state : snapraid_state)
      (disklist : List snapraid_disk) (r : ScanResult),
      (∀ d ∈ disklist, free_hint d) →
      state_scan flt fs state disklist = .ok r → ∀ d' ∈ r.disklist, free_hint d') := by
  refine ⟨fun m m' file h1 h2 => scan_file_remove_hint h1 h2,
    fun m m' file h1 h2 => scan_file_insert_hint h1 h2, ?_⟩
  intro flt fs state disklist r hd h d' hd'
  rcases state_scan_disks_mem flt fs disklist _ r (state_scan_ok h) d' hd' with h1 | h1
  · simp at h1
  · rcases h1 with ⟨d, hdm, st, m', h2, rfl⟩
    exact scan_disk_hint (hd d hdm) h2

theorem free_hint_preserved_witness :
    free_hint ex_mem_removed.disk ∧ free_hint ex_mem_inserted.disk ∧
    ∀ d' ∈ ex_scanned.disklist, free_hint d' :=
  ⟨free_hint_preserved.1 ex_mem ex_mem_removed 0 (by decide) (by rfl),
   free_hint_preserved.2.1 ex_mem_removed ex_mem_inserted 2 (by decide) (by rfl),
   free_hint_preserved.2.2 ex_filters ex_tree ex_state [ex_catalog] ex_scanned
     (by decide) (by rfl)⟩

theorem remove_loop_other : ∀ (rest : List snapraid_block) (disk disk' : snapraid_disk) (t : Nat),
    rest.foldlM scan_file_remove_block disk = .ok disk' →
    (∀ b ∈ rest, b.parity_pos ≠ t) → disk'.blockarr[t]? = disk.blockarr[t]?
  | [], disk, disk', t, h, _ => by
    simp [pure, Except.pure] at h; subst h; rfl
  | block :: rest, disk, disk', t, h, hne => by
    rw [List.foldlM_cons] at h
    rcases bind_ok.1 h with ⟨disk1, h1, h2⟩
    rw [remove_loop_other rest disk1 disk' t h2 (fun b hb => hne b (List.mem_cons_of_mem _ hb))]
    rcases remove_block_ok h1 with ⟨_, _, hd1⟩
    rw [hd1]
    exact List.getElem?_set_ne (hne block (List.mem_cons_self _ _))

theorem scan_file_remove_own {m m' : Mem} {file : Nat} {f : snapraid_file} {S : List Nat}
    (hf : heap_get m.disk.filemem file = .ok f) (hS : file ∉ S)
    (hown : own_except m.disk S) (hlive : all_live m.disk)
    (h : scan_file_remove m file = .ok m') :
    own_except m'.disk S ∧ all_live m'.disk ∧
    (∀ g, g ≠ file → heap_get m'.disk.filemem g = heap_get m.disk.filemem g) := by
  rcases scan_file_remove_loop hf h with ⟨disk1, h1, harr, _, _⟩
  rcases scan_file_remove_frame h with ⟨_, _, hm, _⟩
  have hother : ∀ g, g ≠ file → heap_get m'.disk.filemem g = heap_get m.disk.filemem g := by
    intro g hg
    rw [hm]; exact heap_get_free_ne hg
  refine ⟨?_, ?_, hother⟩
  · intro g fg hg hgS i hi
    rw [hm] at hg
    rcases heap_get_free hg with ⟨hne, hg0⟩
    have key := hown g fg hg0 hgS i hi
    rw [harr, remove_loop_other _ _ _ _ h1, key]
    intro b hb hbt
    rcases List.getElem_of_mem hb with ⟨j, hj, rfl⟩
    have key2 := hown file f hf hS j hj
    rw [hbt, key] at key2
    simp only [Option.some.injEq, BlockPtr.file.injEq] at key2
    exact hne key2.1
  · intro g fg hg
    rw [hm] at hg
    exact hlive g fg (heap_get_free hg).2

theorem insert_new_block_live {disk : snapraid_disk} {b nb : snapraid_block} {pos : Nat}
    {c : Option BlockPtr} (h : insert_new_block disk b pos c = .ok nb) :
    nb.state ≠ BlockState.DELETED := by
  cases c with
  | none => simp [insert_new_block] at h; rw [← h]; simp
  | some p =>
    simp only [insert_new_block] at h
    rcases bind_ok.1 h with ⟨old, _, h⟩
    simp [pure, Except.pure] at h; rw [← h]; simp

theorem own_loop_step {p : Nat} {S : List Nat} {n k : Nat} {s s' : InsertLoop}
    (inv : OwnLoop p S n k s) (h : scan_file_insert_block p s k = .ok s') :
    OwnLoop p S n (k + 1) s' := by
  rcases insert_block_ok h with ⟨pos, f, b, c, nb, hpos, hf, hb, hc, hnb, hs'⟩
  rcases find_free_block_ok s.disk s.block_max _ _ _ (Nat.le_refl _) hpos with ⟨_, _, hstop⟩
  have hposlt : pos < (insert_grow s pos).blockarr.length := by
    rcases List.getElem?_eq_some.1 hc with ⟨hl, _⟩; exact hl
  have hklt : k < f.blockvec.length := by
    rcases List.getElem?_eq_some.1 hb with ⟨hl, _⟩; exact hl
  have hlen : (insert_grow s pos).blockarr.length =
      (if pos = s.block_max then s.block_max + 1 else s.block_max) := by
    unfold insert_grow
    split
    · simp only [tommy_array_grow, List.length_append, List.length_replicate]
      have := inv.max_eq
      omega
    · exact inv.max_eq.symm
  have hgrow : ∀ t, t < s.disk.blockarr.length →
      (insert_grow s pos).blockarr[t]? = s.disk.blockarr[t]? := by
    intro t ht
    unfold insert_grow
    split
    · simp only [tommy_array_grow]
      exact List.getElem?_append_left ht
    · rfl
  -- a slot that holds a block of a file is not the slot the search stops at
  have hkeep : ∀ (t g i : Nat) (fg : snapraid_file) (hi : i < fg.blockvec.length),
      s.disk.blockarr[t]? = some (some (BlockPtr.file g i)) →
      heap_get s.disk.filemem g = .ok fg →
      s'.disk.blockarr[t]? = some (some (BlockPtr.file g i)) := by
    intro t g i fg hi ht hg
    have htl : t < s.disk.blockarr.length := by
      rcases List.getElem?_eq_some.1 ht with ⟨hl, _⟩; exact hl
    have hhas : block_has_file s.disk (some (BlockPtr.file g i)) = .ok true := by
      have hst := inv.live g fg hg _ (List.getElem_mem hi)
      simp [block_has_file, block_get, hg, bind, Except.bind, List.getElem?_eq_getElem hi, pure,
        Except.pure, block_state_get, hst]
    have hne : pos ≠ t := by
      rintro rfl
      rcases hstop with hge | ⟨c', hc', hf'⟩
      · have := inv.max_eq; omega
      · rw [ht] at hc'
        cases hc'
        rw [hhas] at hf'
        cases hf'
    rw [hs']
    simp only []
    rw [List.getElem?_set_ne hne, hgrow t htl]
    exact ht
  have hmem : s'.disk.filemem = heap_set s.disk.filemem p { f with blockvec := f.blockvec.set k nb } := by
    rw [hs']
  have harrpos : s'.disk.blockarr[pos]? = some (some (BlockPtr.file p k)) := by
    rw [hs']
    simp only []
    exact List.getElem?_set_self hposlt
  have hpfile : heap_get s'.disk.filemem p = .ok { f with blockvec := f.blockvec.set k nb } := by
    rw [hmem]; exact heap_get_set_self hf
  refine ⟨?_, ?_, ?_, ?_, ?_⟩
  · rw [hs']
    simp only [List.length_set]
    exact hlen.symm
  · intro g fg hg hgS i hi
    have hgp : g ≠ p := fun hc => hgS (hc ▸ List.mem_cons_self _ _)
    rw [hmem, heap_get_set_ne (Ne.symm hgp)] at hg
    exact hkeep _ g i fg hi (inv.others g fg hg hgS i hi) hg
  · intro g fg hg b' hb'
    rw [hmem] at hg
    rcases heap_get_set hg with ⟨_, rfl⟩ | ⟨_, hg0⟩
    · simp only [] at hb'
      rcases List.mem_or_eq_of_mem_set hb' with hb' | rfl
      · exact inv.live p f hf b' hb'
      · exact insert_new_block_live hnb
    · exact inv.live g fg hg0 b' hb'
  · intro f' hf'
    rw [hpfile] at hf'
    cases hf'
    simp only [List.length_set]
    exact inv.len f hf
  · intro f' hf' i hi hik
    rw [hpfile] at hf'
    cases hf'
    simp only [List.length_set] at hi
    simp only []
    by_cases hik' : i = k
    · subst hik'
      rw [List.getElem_set_self, insert_new_block_pos hnb]
      exact harrpos
    · rw [List.getElem_set_ne (Ne.symm hik')]
      exact hkeep _ p i f hi (inv.mine f hf i hi (by omega)) hf

theorem own_loop_all {p : Nat} {S : List Nat} {n : Nat} :
    ∀ (k : Nat) (s0 s : InsertLoop), OwnLoop p S n 0 s0 →
      (List.range k).foldlM (scan_file_insert_block p) s0 = .ok s → OwnLoop p S n k s := by
  intro k
  induction k with
  | zero =>
    intro s0 s inv h
    simp [pure, Except.pure] at h
    subst h
    exact inv
  | succ k ih =>
    intro s0 s inv h
    rw [List.range_succ, List.foldlM_append] at h
    rcases bind_ok.1 h with ⟨s1, h1, h2⟩
    have inv1 := ih s0 s1 inv h1
    simp only [List.foldlM_cons, List.foldlM_nil] at h2
    rcases bind_ok.1 h2 with ⟨s2, h3, h4⟩
    simp only [pure, Except.pure, Except.ok.injEq] at h4
    subst h4
    exact own_loop_step inv1 h3

/-- The insertion of a file keeps the ownership of every other file and gives
the file its own. -/
theorem scan_file_insert_own {m m' : Mem} {p : Nat} {S : List Nat}
    (hown : own_except m.disk (p :: S)) (hlive : all_live m.disk)
    (h : scan_file_insert m p = .ok m') :
    own_except m'.disk S ∧ all_live m'.disk := by
  unfold scan_file_insert at h
  rcases bind_ok.1 h with ⟨f, hf, h⟩
  rcases bind_ok.1 h with ⟨s, hs, h⟩
  simp only [pure, Except.pure, Except.ok.injEq] at h
  have inv0 : OwnLoop p S f.blockvec.length 0
      { disk := m.disk, block_pos := m.disk.first_free_block,
        block_max := m.disk.blockarr.length } :=
    ⟨rfl, hown, hlive, fun f' hf' => by rw [hf] at hf'; cases hf'; rfl,
      fun _ _ _ _ hk => absurd hk (Nat.not_lt_zero _)⟩
  have inv := own_loop_all f.blockmax _ _ inv0 hs
  have hmem : m'.disk.filemem = s.disk.filemem := by
    rw [← h]; simp only []; split <;> rfl
  have harr : m'.disk.blockarr = s.disk.blockarr := by
    rw [← h]; simp only []; split <;> rfl
  refine ⟨?_, ?_⟩
  · intro g fg hg hgS i hi
    rw [hmem] at hg
    rw [harr]
    by_cases hgp : g = p
    · subst hgp
      have hl := inv.len fg hg
      exact inv.mine fg hg i hi (by simp only [snapraid_file.blockmax]; omega)
    · exact inv.others g fg hg (by simp [hgp, hgS]) i hi
  · intro g fg hg
    rw [hmem] at hg
    exact inv.live g fg hg

theorem insert_files_own : ∀ (l : List Nat) (m m' : Mem),
    l.foldlM scan_file_insert m = .ok m' → own_except m.disk l → all_live m.disk →
    own_except m'.disk [] ∧ all_live m'.disk
  | [], m, m', h, hown, hlive => by
    simp [pure, Except.pure] at h; subst h; exact ⟨hown, hlive⟩
  | p :: l, m, m', h, hown, hlive => by
    rw [List.foldlM_cons] at h
    rcases bind_ok.1 h with ⟨m1, h1, h2⟩
    rcases scan_file_insert_own hown hlive h1 with ⟨a1, a2⟩
    exact insert_files_own l m1 m' h2 a1 a2

theorem own_inv_of_file_part {m m' : Mem} (h : file_part_eq m m') (hi : OwnInv m) :
    OwnInv m' := by
  rcases h with ⟨_, _, hm, _, _, _, _, ha, hil⟩
  rcases hi with ⟨h1, h2, h3⟩
  refine ⟨?_, ?_, ?_⟩
  · intro g f hg hgS i hi
    rw [hm] at hg
    rw [hil] at hgS
    rw [ha]
    exact h1 g f hg hgS i hi
  · intro g f hg
    rw [hm] at hg
    exact h2 g f hg
  · intro g hg
    rw [hil] at hg
    rw [hm]
    exact h3 g hg

theorem own_inv_add {m : Mem} {sub : String} {st : Stat} (hi : OwnInv m) :
    OwnInv (scan_file_add m sub st) := by
  rcases hi with ⟨h1, h2, h3⟩
  unfold scan_file_add
  simp only [heap_alloc]
  refine ⟨?_, ?_, ?_⟩
  · intro g f hg hgS i hi
    simp only [List.mem_append, List.mem_singleton, not_or] at hgS
    rcases heap_get_append hg with ⟨_, hg0⟩ | ⟨hgl, _⟩
    · exact h1 g f hg0 hgS.1 i hi
    · exact absurd hgl hgS.2
  · intro g f hg b hb
    rcases heap_get_append hg with ⟨_, hg0⟩ | ⟨_, rfl⟩
    · exact h2 g f hg0 b hb
    · simp only [file_alloc] at hb
      rw [List.eq_of_mem_replicate hb]
      simp
  · intro g hg
    rcases List.mem_append.1 hg with hg | hg
    · rcases h3 g hg with ⟨f, hf, hp⟩
      exact ⟨f, heap_get_append_old hf, hp⟩
    · simp only [List.mem_singleton] at hg
      subst hg
      exact ⟨_, heap_get_append_new _ _, rfl⟩

theorem own_inv_remove {m m' : Mem} {file : Nat} {f : snapraid_file}
    (hf : heap_get m.disk.filemem file = .ok f) (hp : f.present = false)
    (hi : OwnInv m) (h : scan_file_remove m file = .ok m') : OwnInv m' := by
  have hS : file ∉ m.scan.file_insert_list := by
    intro hc
    rcases hi.staged file hc with ⟨f', hf', hp'⟩
    rw [hf] at hf'
    cases hf'
    rw [hp] at hp'
    cases hp'
  rcases scan_file_remove_own hf hS hi.own hi.live h with ⟨a1, a2, a3⟩
  rcases scan_file_remove_frame h with ⟨hs, _⟩
  refine ⟨by rw [hs]; exact a1, a2, ?_⟩
  intro g hg
  rw [hs] at hg
  have hne : g ≠ file := fun hc => hS (hc ▸ hg)
  rw [a3 g hne]
  exact hi.staged g hg

theorem own_inv_scan {m : Mem} {scan1 : snapraid_scan}
    (hs : scan1.file_insert_list = m.scan.file_insert_list) (hi : OwnInv m) :
    OwnInv { m with scan := scan1 } := by
  rcases hi with ⟨h1, h2, h3⟩
  exact ⟨by simpa [hs] using h1, h2, by simpa [hs] using h3⟩

theorem scan_file_own {m m' : Mem} {sub : String} {st : Stat}
    (hi : OwnInv m) (h : scan_file m sub st = .ok m') : OwnInv m' := by
  rcases scan_file_cases h with ⟨_, rfl⟩ | ⟨file, f, _, _, _, _, hl⟩ | ⟨file, f, _, hf, _, _, hu⟩ |
    ⟨file, f, _, hf, hp, _, hc⟩
  · exact own_inv_add (own_inv_scan rfl hi)
  · exact own_inv_of_file_part (scan_link_file_part hl) hi
  · rcases scan_file_unchanged_ok hu with ⟨f', hm, hbv, hpr, _, _, _, harr, _, hil⟩
    rcases hi with ⟨h1, h2, h3⟩
    refine ⟨?_, ?_, ?_⟩
    · intro g fg hg hgS i hi
      rw [hm] at hg
      rw [hil] at hgS
      rw [harr]
      rcases heap_get_set hg with ⟨rfl, rfl⟩ | ⟨_, hg0⟩
      · have key := h1 g f hf hgS i (by rw [← hbv]; exact hi)
        simpa [hbv] using key
      · exact h1 g fg hg0 hgS i hi
    · intro g fg hg b hb
      rw [hm] at hg
      rcases heap_get_set hg with ⟨rfl, rfl⟩ | ⟨_, hg0⟩
      · rw [hbv] at hb
        exact h2 g f hf b hb
      · exact h2 g fg hg0 b hb
    · intro g hg
      rw [hil] at hg
      rw [hm]
      by_cases hgf : file = g
      · subst hgf
        exact ⟨f', heap_get_set_self hf, hpr⟩
      · rw [heap_get_set_ne hgf]
        exact h3 g hg
  · rcases scan_file_changed_ok hc with ⟨scan1, m1, hs, hr, rfl⟩
    exact own_inv_add (@own_inv_remove { m with scan := scan1 } m1 file f hf hp
      (@own_inv_scan m scan1 hs hi) hr)

theorem sweep_file_own {m m' : Mem} {file : Nat}
    (hi : OwnInv m) (h : sweep_file m file = .ok m') : OwnInv m' := by
  unfold sweep_file at h
  rcases bind_ok.1 h with ⟨f, hf, h⟩
  split at h
  · next hp =>
    exact @own_inv_remove { m with scan := { m.scan with count_remove := m.scan.count_remove + 1 } }
      m' file f hf hp (@own_inv_scan m _ rfl hi) h
  · simp only [pure, Except.pure, Except.ok.injEq] at h
    subst h; exact hi

theorem own_except_congr {d1 d2 : snapraid_disk} {S : List Nat}
    (hm : d2.filemem = d1.filemem) (ha : d2.blockarr = d1.blockarr)
    (h : own_except d1 S ∧ all_live d1) : own_except d2 S ∧ all_live d2 := by
  refine ⟨?_, ?_⟩
  · intro g f hg hgS i hi
    rw [hm] at hg
    rw [ha]
    exact h.1 g f hg hgS i hi
  · intro g f hg
    rw [hm] at hg
    exact h.2 g f hg

theorem scan_disk_own {flt : Filters} {fs : String → FsNode} {state : snapraid_state}
    {disk : snapraid_disk} {m' : Mem} (hown : own_except disk []) (hlive : all_live disk)
    (h : scan_disk flt fs state disk = .ok m') : own_except m'.disk [] ∧ all_live m'.disk := by
  rcases scan_disk_ok h with ⟨r, m1, m2, m3, m4, hr, h1, h2, h3, h4, rfl⟩
  have hi0 : OwnInv { state := state, disk := disk, scan := scan_init } :=
    ⟨hown, hlive, by simp [scan_init]⟩
  have hir : OwnInv r.1 :=
    scan_dir_preserves OwnInv flt
      (fun _ _ _ _ hi h => scan_file_own hi h)
      (fun _ _ _ _ _ hi h => own_inv_of_file_part (scan_link_file_part h) hi)
      (fun _ _ _ hi h => own_inv_of_file_part (scan_emptydir_file_part h) hi)
      _ _ _ _ _ hi0 hr
  have hi1 : OwnInv m1 :=
    foldlM_preserves OwnInv sweep_file (fun _ _ _ hi h => sweep_file_own hi h) _ _ _ hir h1
  have hi2 : OwnInv m2 :=
    foldlM_preserves OwnInv sweep_link
      (fun b _ _ hi h => own_inv_of_file_part (sweep_link_file_part h) ⟨hi.1, hi.2, hi.3⟩)
      _ _ _ hi1 h2
  have hi3 : OwnInv m3 :=
    foldlM_preserves OwnInv sweep_dir
      (fun b _ _ hi h => own_inv_of_file_part (sweep_dir_file_part h) ⟨hi.1, hi.2, hi.3⟩)
      _ _ _ hi2 h3
  have hi4 := insert_files_own _ m3 m4 h4 hi3.own hi3.live
  have hi5 : own_except (m4.scan.link_insert_list.foldl scan_link_insert m4).disk [] ∧
      all_live (m4.scan.link_insert_list.foldl scan_link_insert m4).disk :=
    foldl_preserves (fun m => own_except m.disk [] ∧ all_live m.disk) scan_link_insert
      (fun b a hb => @own_except_congr b.disk _ _ rfl rfl hb) _ _ hi4
  exact foldl_preserves (fun m => own_except m.disk [] ∧ all_live m.disk) scan_emptydir_insert
    (fun b a hb => @own_except_congr b.disk _ _ rfl rfl hb) _ _ hi5

theorem own_except_init {disk : snapraid_disk} (h1 : live_block_ownership disk)
    (h2 : files_listed disk) (h3 : files_live disk) : own_except disk [] ∧ all_live disk := by
  refine ⟨?_, ?_⟩
  · intro g f hg _
    have hl := heap_get_lt hg
    have hg' := heap_get_ok.1 hg
    have hmem : g ∈ disk.filelist := by
      refine h2 g hl ?_
      rw [List.getElem?_eq_getElem hl] at hg'
      simp only [Option.some.injEq] at hg'
      rw [hg']
      rfl
    have := h1 g hmem
    rw [hg] at this
    exact this
  · intro g f hg
    have hl := heap_get_lt hg
    have hg' := heap_get_ok.1 hg
    rw [List.getElem?_eq_getElem hl] at hg'
    have := h3 g hl
    simp only [Option.some.injEq] at hg'
    rw [hg'] at this
    exact this

theorem live_of_own_except {disk : snapraid_disk} (h : own_except disk []) :
    live_block_ownership disk ∧ no_shared_slot disk := by
  refine ⟨?_, ?_⟩
  · intro file _
    split
    · next f hf => exact h file f hf (List.not_mem_nil _)
    · trivial
  · intro g _ k _ fg fh i j bi bj hg hk hbi hbj hpos
    rcases List.getElem?_eq_some.1 hbi with ⟨hi, rfl⟩
    rcases List.getElem?_eq_some.1 hbj with ⟨hj, rfl⟩
    have e1 := h g fg hg (List.not_mem_nil _) i hi
    have e2 := h k fh hk (List.not_mem_nil _) j hj
    rw [hpos, e2] at e1
    simp only [Option.some.injEq, BlockPtr.file.injEq] at e1
    exact ⟨e1.1.symm, e1.2.symm⟩

/-- C14 (live-block ownership).  Take catalogs in which every block `b` of
every file of the file list satisfies `block_array[b.parity_pos] == b`, the
file table holds no file outside the file list, and no block of a file is in
the state DELETED.  Then `scan_file_insert` of a file keeps the ownership of
all the other files (it never overwrites the slot of a block of a file) and
gives the inserted file its own; and after `state_scan`, on every disk, every
block of every file of the file list, the inserted ones included, owns its
slot, so that no two blocks of files share a parity position. -/
theorem live_ownership_preserved :
    (∀ (m m' : Mem) (p : Nat) (S : List Nat), own_except m.disk (p :: S) → all_live m.disk →
      scan_file_insert m p = .ok m' →
      own_except m'.disk S ∧ all_live m'.disk ∧ m'.disk.filelist = m.disk.filelist ++ [p]) ∧
    (∀ (flt : Filters) (fs : String → FsNode) (state : snapraid_state)
      (disklist : List snapraid_disk) (r : ScanResult),
      (∀ d ∈ disklist, live_block_ownership d ∧ files_listed d ∧ files_live d) →
      state_scan flt fs state disklist = .ok r →
      ∀ d' ∈ r.disklist, live_block_ownership d' ∧ no_shared_slot d') := by
  refine ⟨fun m m' p S h1 h2 h3 => ?_, ?_⟩
  · rcases scan_file_insert_own h1 h2 h3 with ⟨a1, a2⟩
    exact ⟨a1, a2, (scan_file_insert_frame h3).1⟩
  · intro flt fs state disklist r hd h d' hd'
    rcases state_scan_disks_mem flt fs disklist _ r (state_scan_ok h) d' hd' with h1 | h1
    · simp at h1
    · rcases h1 with ⟨d, hdm, st, m', h2, rfl⟩
      rcases own_except_init (hd d hdm).1 (hd d hdm).2.1 (hd d hdm).2.2 with ⟨a1, a2⟩
      exact live_of_own_except (scan_disk_own a1 a2 h2).1

theorem live_ownership_preserved_witness :
    (∀ d' ∈ ex_scanned.disklist, live_block_ownership d' ∧ no_shared_slot d') ∧
    ex_scanned.disklist.map snapraid_disk.filelist = [[1, 2]] :=
  ⟨live_ownership_preserved.2 ex_filters ex_tree ex_state [ex_catalog] ex_scanned
     (by decide) (by rfl), by rfl⟩

theorem tombstone_ownership_congr {d1 d2 : snapraid_disk} (hd : d2.deletedlist = d1.deletedlist)
    (ha : d2.blockarr = d1.blockarr) (h : tombstone_ownership d1) : tombstone_ownership d2 := by
  intro d hl
  have hl1 : d < d1.deletedlist.length := by rw [← hd]; exact hl
  have := h d hl1
  simp only [hd, ha]
  exact this

theorem tombstones_kept_congr {d1 d2 : snapraid_disk} (hd : d2.deletedlist = d1.deletedlist)
    (ha : d2.blockarr = d1.blockarr) (h : tombstones_kept d1) : tombstones_kept d2 := by
  intro d hl
  have hl1 : d < d1.deletedlist.length := by rw [← hd]; exact hl
  have := h d hl1
  simp only [hd, ha, slot_occupied] at this ⊢
  exact this

theorem owns_positions_nodup {disk : snapraid_disk} {file : Nat} {f : snapraid_file}
    (h : owns_blocks disk file f) : (f.blockvec.map (fun b => b.parity_pos)).Nodup := by
  rw [List.nodup_iff_getElem?_ne_getElem?]
  intro i j hij hj
  simp only [List.length_map] at hj
  have hi : i < f.blockvec.length := by omega
  rw [List.getElem?_eq_getElem (by simpa using hi), List.getElem?_eq_getElem (by simpa using hj)]
  simp only [List.getElem_map, ne_eq, Option.some.injEq]
  intro hc
  have e1 := h i hi
  have e2 := h j hj
  rw [hc, e2] at e1
  simp only [Option.some.injEq, BlockPtr.file.injEq] at e1
  omega

theorem remove_loop_tomb : ∀ (rest : List snapraid_block) (disk disk' : snapraid_disk),
    rest.foldlM scan_file_remove_block disk = .ok disk' →
    tombstone_ownership disk →
    (∀ b ∈ rest, ∀ d (h : d < disk.deletedlist.length),
      (disk.deletedlist[d]).block.parity_pos ≠ b.parity_pos) →
    (rest.map (fun b => b.parity_pos)).Nodup →
    tombstone_ownership disk'
  | [], disk, disk', h, ht, _, _ => by
    simp [pure, Except.pure] at h; subst h; exact ht
  | block :: rest, disk, disk', h, ht, hne, hnd => by
    rw [List.foldlM_cons] at h
    rcases bind_ok.1 h with ⟨disk1, h1, h2⟩
    rcases remove_block_ok h1 with ⟨hpos, _, hd1⟩
    simp only [List.map_cons, List.nodup_cons, List.mem_map, not_exists, not_and] at hnd
    have hdl1 : disk1.deletedlist = disk.deletedlist ++
        [{ block := { parity_pos := block.parity_pos, state := BlockState.DELETED,
                      hash := tombstone_hash block } }] := by rw [hd1]
    have harr1 : disk1.blockarr =
        disk.blockarr.set block.parity_pos (some (.deleted disk.deletedlist.length)) := by rw [hd1]
    have hget : ∀ d (hl : d < disk1.deletedlist.length),
        (d < disk.deletedlist.length ∧ ∃ hl0 : d < disk.deletedlist.length,
          disk1.deletedlist[d] = disk.deletedlist[d]) ∨
        (d = disk.deletedlist.length ∧ disk1.deletedlist[d] =
          { block := { parity_pos := block.parity_pos, state := BlockState.DELETED,
                       hash := tombstone_hash block } }) := by
      intro d hl
      by_cases hd : d < disk.deletedlist.length
      · left
        refine ⟨hd, hd, ?_⟩
        simp only [hdl1]
        exact List.getElem_append_left hd
      · right
        have hl' := hl
        simp only [hdl1, List.length_append, List.length_singleton] at hl'
        have hde : d = disk.deletedlist.length := by omega
        refine ⟨hde, ?_⟩
        subst hde
        simp [hdl1]
    refine remove_loop_tomb rest disk1 disk' h2 ?_ ?_ hnd.2
    · intro d hl
      rcases hget d hl with ⟨hd, _, he⟩ | ⟨hd, he⟩
      · rw [he, harr1]
        have := ht d hd
        have hne1 := hne block (List.mem_cons_self _ _) d hd
        rw [List.getElem?_set_ne (Ne.symm hne1)]
        exact this
      · rw [he, harr1]
        simp only []
        rw [List.getElem?_set_self hpos, hd]
        simp
    · intro b hb d hl
      rcases hget d hl with ⟨hd, _, he⟩ | ⟨_, he⟩
      · rw [he]
        exact hne b (List.mem_cons_of_mem _ hb) d hd
      · rw [he]
        simp only []
        exact fun hc => hnd.1 b hb hc.symm

theorem scan_file_remove_tomb {m m' : Mem} {file : Nat} {f : snapraid_file}
    (hf : heap_get m.disk.filemem file = .ok f) (hown : owns_blocks m.disk file f)
    (ht : tombstone_ownership m.disk) (h : scan_file_remove m file = .ok m') :
    tombstone_ownership m'.disk := by
  rcases scan_file_remove_loop hf h with ⟨disk1, h1, harr, hdl, _⟩
  refine tombstone_ownership_congr hdl harr
    (remove_loop_tomb _ _ _ h1 ht ?_ (owns_positions_nodup hown))
  intro b hb d hl hc
  rcases List.getElem_of_mem hb with ⟨j, hj, rfl⟩
  have e1 := hown j hj
  have e2 := (ht d hl).2
  rw [hc, e1] at e2
  cases e2

theorem tomb_inv_of_file_part {m m' : Mem} (h : file_part_eq m m') (hi : TombInv m) :
    TombInv m' := by
  refine ⟨own_inv_of_file_part h hi.own, ?_⟩
  rcases h with ⟨_, _, _, _, _, _, hd, ha, _⟩
  exact tombstone_ownership_congr hd ha hi.tomb

theorem tomb_inv_remove {m m' : Mem} {file : Nat} {f : snapraid_file}
    (hf : heap_get m.disk.filemem file = .ok f) (hp : f.present = false)
    (hi : TombInv m) (h : scan_file_remove m file = .ok m') : TombInv m' := by
  refine ⟨own_inv_remove hf hp hi.own h, ?_⟩
  have hS : file ∉ m.scan.file_insert_list := by
    intro hc
    rcases hi.own.staged file hc with ⟨f', hf', hp'⟩
    rw [hf] at hf'
    cases hf'
    rw [hp] at hp'
    cases hp'
  exact scan_file_remove_tomb hf (hi.own.own file f hf hS) hi.tomb h

theorem scan_file_tomb {m m' : Mem} {sub : String} {st : Stat}
    (hi : TombInv m) (h : scan_file m sub st = .ok m') : TombInv m' := by
  refine ⟨scan_file_own hi.own h, ?_⟩
  rcases scan_file_cases h with ⟨_, rfl⟩ | ⟨file, f, _, _, _, _, hl⟩ | ⟨file, f, _, hf, _, _, hu⟩ |
    ⟨file, f, _, hf, hp, _, hc⟩
  · exact @tombstone_ownership_congr m.disk _ rfl rfl hi.tomb
  · exact (tomb_inv_of_file_part (scan_link_file_part hl) hi).tomb
  · rcases scan_file_unchanged_ok hu with ⟨f', _, _, _, _, _, hdl, harr, _, _⟩
    exact tombstone_ownership_congr hdl harr hi.tomb
  · rcases scan_file_changed_ok hc with ⟨scan1, m1, hs, hr, rfl⟩
    have hi1 : TombInv { m with scan := scan1 } := ⟨@own_inv_scan m scan1 hs hi.own, hi.tomb⟩
    have := @tomb_inv_remove { m with scan := scan1 } m1 file f hf hp hi1 hr
    exact @tombstone_ownership_congr m1.disk _ rfl rfl this.tomb

theorem sweep_file_tomb {m m' : Mem} {file : Nat}
    (hi : TombInv m) (h : sweep_file m file = .ok m') : TombInv m' := by
  unfold sweep_file at h
  rcases bind_ok.1 h with ⟨f, hf, h⟩
  split at h
  · next hp =>
    exact @tomb_inv_remove { m with scan := { m.scan with count_remove := m.scan.count_remove + 1 } }
      m' file f hf hp ⟨@own_inv_scan m _ rfl hi.own, hi.tomb⟩ h
  · simp only [pure, Except.pure, Except.ok.injEq] at h
    subst h; exact hi

theorem insert_block_tomb {file i : Nat} {s s' : InsertLoop}
    (ht : tombstones_kept s.disk) (h : scan_file_insert_block file s i = .ok s') :
    tombstones_kept s'.disk := by
  rcases insert_block_ok h with ⟨pos, f, b, c, nb, hpos, hf, hb, hc, hnb, hs'⟩
  have hposlt : pos < (insert_grow s pos).blockarr.length := by
    rcases List.getElem?_eq_some.1 hc with ⟨hl, _⟩; exact hl
  have hgrow : ∀ t, t < s.disk.blockarr.length →
      (insert_grow s pos).blockarr[t]? = s.disk.blockarr[t]? := by
    intro t ht
    unfold insert_grow
    split
    · simp only [tommy_array_grow]
      exact List.getElem?_append_left ht
    · rfl
  have hdl : s'.disk.deletedlist = s.disk.deletedlist := by rw [hs']
  have harr : s'.disk.blockarr = (insert_grow s pos).blockarr.set pos (some (.file file i)) := by
    rw [hs']
  intro d hl
  have hl0 : d < s.disk.deletedlist.length := by rw [← hdl]; exact hl
  rcases ht d hl0 with ⟨a1, a2⟩
  simp only [hdl]
  refine ⟨a1, ?_⟩
  have htl : (s.disk.deletedlist[d]).block.parity_pos < s.disk.blockarr.length := by
    rcases a2 with a2 | a2
    · rcases List.getElem?_eq_some.1 a2 with ⟨hl, _⟩; exact hl
    · unfold slot_occupied at a2
      by_contra hc
      rw [List.getElem?_eq_none (by omega)] at a2
      cases a2
  by_cases hp : pos = (s.disk.deletedlist[d]).block.parity_pos
  · right
    unfold slot_occupied
    rw [harr, ← hp, List.getElem?_set_self hposlt]
  · unfold slot_occupied at a2 ⊢
    rw [harr, List.getElem?_set_ne hp, hgrow _ htl]
    exact a2

theorem scan_file_insert_tomb {m m' : Mem} {file : Nat}
    (ht : tombstones_kept m.disk) (h : scan_file_insert m file = .ok m') :
    tombstones_kept m'.disk := by
  unfold scan_file_insert at h
  rcases bind_ok.1 h with ⟨f, hf, h⟩
  rcases bind_ok.1 h with ⟨s, hs, h⟩
  simp only [pure, Except.pure, Except.ok.injEq] at h
  have hs1 : tombstones_kept s.disk :=
    foldlM_preserves (fun x : InsertLoop => tombstones_kept x.disk) (scan_file_insert_block file)
      (fun _ _ _ hb hstep => insert_block_tomb hb hstep) _ _ _ ht hs
  have hdl : m'.disk.deletedlist = s.disk.deletedlist := by
    rw [← h]; simp only []; split <;> rfl
  have harr : m'.disk.blockarr = s.disk.blockarr := by
    rw [← h]; simp only []; split <;> rfl
  exact tombstones_kept_congr hdl harr hs1

theorem tombstones_kept_of_ownership {disk : snapraid_disk} (h : tombstone_ownership disk) :
    tombstones_kept disk :=
  fun d hl => ⟨(h d hl).1, Or.inl (h d hl).2⟩

theorem scan_disk_tomb {flt : Filters} {fs : String → FsNode} {state : snapraid_state}
    {disk : snapraid_disk} {m' : Mem} (hown : own_except disk []) (hlive : all_live disk)
    (ht : tombstone_ownership disk)
    (h : scan_disk flt fs state disk = .ok m') : tombstones_kept m'.disk := by
  rcases scan_disk_ok h with ⟨r, m1, m2, m3, m4, hr, h1, h2, h3, h4, rfl⟩
  have hi0 : TombInv { state := state, disk := disk, scan := scan_init } :=
    ⟨⟨hown, hlive, by simp [scan_init]⟩, ht⟩
  have hir : TombInv r.1 :=
    scan_dir_preserves TombInv flt
      (fun _ _ _ _ hi h => scan_file_tomb hi h)
      (fun _ _ _ _ _ hi h => tomb_inv_of_file_part (scan_link_file_part h) hi)
      (fun _ _ _ hi h => tomb_inv_of_file_part (scan_emptydir_file_part h) hi)
      _ _ _ _ _ hi0 hr
  have hi1 : TombInv m1 :=
    foldlM_preserves TombInv sweep_file (fun _ _ _ hi h => sweep_file_tomb hi h) _ _ _ hir h1
  have hi2 : TombInv m2 :=
    foldlM_preserves TombInv sweep_link
      (fun b _ _ hi h => tomb_inv_of_file_part (sweep_link_file_part h)
        ⟨⟨hi.own.1, hi.own.2, hi.own.3⟩, hi.tomb⟩)
      _ _ _ hi1 h2
  have hi3 : TombInv m3 :=
    foldlM_preserves TombInv sweep_dir
      (fun b _ _ hi h => tomb_inv_of_file_part (sweep_dir_file_part h)
        ⟨⟨hi.own.1, hi.own.2, hi.own.3⟩, hi.tomb⟩)
      _ _ _ hi2 h3
  have hi4 : tombstones_kept m4.disk :=
    foldlM_preserves (fun m => tombstones_kept m.disk) scan_file_insert
      (fun _ _ _ hi h => scan_file_insert_tomb hi h) _ _ _
      (tombstones_kept_of_ownership hi3.tomb) h4
  have hi5 : tombstones_kept (m4.scan.link_insert_list.foldl scan_link_insert m4).disk :=
    foldl_preserves (fun m => tombstones_kept m.disk) scan_link_insert
      (fun b a hb => @tombstones_kept_congr b.disk _ rfl rfl hb) _ _ hi4
  exact foldl_preserves (fun m => tombstones_kept m.disk) scan_emptydir_insert
    (fun b a hb => @tombstones_kept_congr b.disk _ rfl rfl hb) _ _ hi5

/-- C15 fails as stated: the scan of the example catalog (no tombstone, so
tombstone ownership holds) removes file `a` and inserts file `n` over the three
slots of `a`; the three tombstones stay in the deleted list while their slots
hold the blocks of `n`. -/
theorem tombstone_ownership_counterexample :
    (∀ d ∈ [ex_catalog], tombstone_ownership d) ∧
    state_scan ex_filters ex_tree ex_state [ex_catalog] = .ok ex_scanned ∧
    ¬ ∀ d' ∈ ex_scanned.disklist, tombstone_ownership d' :=
  ⟨by decide, by rfl, by decide⟩

/-- C15, as amended (tombstone ownership).  Take catalogs in which every
tombstone of the deleted list is in the state DELETED and owns its slot, every
block of every file of the file list owns its slot, the file table holds no
file outside the file list and no block of a file is in the state DELETED.
After `state_scan`, on every disk, every tombstone `d` of the deleted list is
in the state DELETED and `block_array[d.block.parity_pos]` is `d.block` or a
block of a file (an insertion reused the slot and left the tombstone in the
list). -/
theorem tombstone_ownership_kept (flt : Filters) (fs : String → FsNode) (state : snapraid_state)
    (disklist : List snapraid_disk) (r : ScanResult)
    (hd : ∀ d ∈ disklist,
      tombstone_ownership d ∧ live_block_ownership d ∧ files_listed d ∧ files_live d)
    (h : state_scan flt fs state disklist = .ok r) :
    ∀ d' ∈ r.disklist, tombstones_kept d' := by
  intro d' hd'
  rcases state_scan_disks_mem flt fs disklist _ r (state_scan_ok h) d' hd' with h1 | h1
  · simp at h1
  · rcases h1 with ⟨d, hdm, st, m', h2, rfl⟩
    rcases own_except_init (hd d hdm).2.1 (hd d hdm).2.2.1 (hd d hdm).2.2.2 with ⟨a1, a2⟩
    exact scan_disk_tomb a1 a2 (hd d hdm).1 h2

theorem tombstone_ownership_kept_witness :
    (∀ d ∈ [ex_catalog],
      tombstone_ownership d ∧ live_block_ownership d ∧ files_listed d ∧ files_live d) ∧
    ∀ d' ∈ ex_scanned.disklist, tombstones_kept d' :=
  ⟨by decide, tombstone_ownership_kept ex_filters ex_tree ex_state [ex_catalog] ex_scanned
     (by decide) (by rfl)⟩

theorem nsec_valid_get {disk : snapraid_disk} (h : nsec_valid disk) {g : Nat} {f : snapraid_file}
    (hg : heap_get disk.filemem g = .ok f) : f.mtime_nsec ≠ FILE_MTIME_NSEC_INVALID := by
  have hl := heap_get_lt hg
  have hg' := heap_get_ok.1 hg
  rw [List.getElem?_eq_getElem hl] at hg'
  simp only [Option.some.injEq] at hg'
  have := h g hl
  rw [hg'] at this
  exact this

theorem nsec_of_clear {d D : snapraid_disk} (h : clear_present d = clear_present D)
    (hv : nsec_valid D) {g : Nat} {f : snapraid_file}
    (hg : heap_get d.filemem g = .ok f) : f.mtime_nsec ≠ FILE_MTIME_NSEC_INVALID := by
  rcases map_eq_get file_clear (clear_present_filemem h) hg with ⟨x, hx, he⟩
  have := nsec_valid_get hv hx
  have e : (file_clear x).mtime_nsec = (file_clear f).mtime_nsec := by rw [he]
  have e' : x.mtime_nsec = f.mtime_nsec := e
  rw [← e']; exact this

theorem scan_link_quiet {m m' : Mem} {sub linkto : String} {kind : LinkKind}
    (h : scan_link m sub linkto kind = .ok m') (hq : scan_quiet m'.scan) :
    scan_quiet m.scan ∧ QuietFrame m m' := by
  rcases scan_link_cases h with ⟨_, rfl⟩ | ⟨l, ll, _, hll, _, ⟨_, _, rfl⟩ | ⟨_, rfl⟩⟩
  · exact absurd hq.2.2.2 (Nat.succ_ne_zero _)
  · exact ⟨hq, rfl, clear_present_set_link _ hll rfl, rfl, rfl, rfl⟩
  · exact absurd hq.2.1 (Nat.succ_ne_zero _)

theorem scan_emptydir_quiet {m m' : Mem} {sub : String}
    (h : scan_emptydir m sub = .ok m') (hq : scan_quiet m'.scan) :
    scan_quiet m.scan ∧ QuietFrame m m' := by
  rcases scan_emptydir_cases h with ⟨_, rfl⟩ | ⟨d, dd, _, hdd, _, rfl⟩
  · exact absurd hq.2.2.2 (Nat.succ_ne_zero _)
  · exact ⟨hq, rfl, clear_present_set_dir _ hdd rfl, rfl, rfl, rfl⟩

theorem scan_file_changed_loud {m m' : Mem} {file : Nat} {f : snapraid_file} {sub : String}
    {st : Stat} (h : scan_file_changed m file f sub st = .ok m') : ¬ scan_quiet m'.scan := by
  unfold scan_file_changed at h
  split at h
  · cases h
  · rcases bind_ok.1 h with ⟨m1, h1, h2⟩
    simp only [pure, Except.pure, Except.ok.injEq] at h2
    rcases scan_file_remove_frame h1 with ⟨hs, _⟩
    subst h2
    intro hq
    have e : (scan_file_add m1 sub st).scan.count_change = m1.scan.count_change ∧
        (scan_file_add m1 sub st).scan.count_remove = m1.scan.count_remove := ⟨rfl, rfl⟩
    rw [hs] at e
    by_cases hsub : f.sub = sub
    · simp only [hsub, ↓reduceIte] at e
      have := hq.2.1
      omega
    · simp only [hsub, ↓reduceIte] at e
      have := hq.2.2.1
      omega

theorem scan_file_quiet {m m' : Mem} {sub : String} {st : Stat}
    (h : scan_file m sub st = .ok m') (hq : scan_quiet m'.scan) :
    scan_quiet m.scan ∧
    ((∀ g f, heap_get m.disk.filemem g = .ok f → f.mtime_nsec ≠ FILE_MTIME_NSEC_INVALID) →
      QuietFrame m m') := by
  rcases scan_file_cases h with ⟨_, rfl⟩ | ⟨file, f, _, _, _, _, hl⟩ | ⟨file, f, _, hf, _, _, hu⟩ |
    ⟨file, f, _, hf, hp, _, hc⟩
  · exact absurd hq.2.2.2 (Nat.succ_ne_zero _)
  · exact ⟨(scan_link_quiet hl hq).1, fun _ => (scan_link_quiet hl hq).2⟩
  · rcases scan_file_unchanged_cases hu with ⟨nsec, nw, hnsec, hnw, ⟨_, _, rfl⟩ | ⟨_, _, rfl⟩ |
      ⟨_, _, rfl⟩⟩
    · exact absurd hq.1 (Nat.succ_ne_zero _)
    · exact absurd hq.1 (Nat.succ_ne_zero _)
    · refine ⟨hq, fun hv => ?_⟩
      have hvalid := hv file f hf
      have h1 : nsec = f.mtime_nsec := by rw [hnsec]; simp [hvalid]
      have h2 : nw = m.state.need_write := by rw [hnw]; simp [hvalid]
      subst h1 h2
      exact ⟨rfl, clear_present_set_file _ hf rfl, rfl, rfl, rfl⟩
  · exact absurd hq (scan_file_changed_loud hc)

theorem sweep_file_quiet {m m' : Mem} {file : Nat}
    (h : sweep_file m file = .ok m') (hq : scan_quiet m'.scan) : m' = m := by
  unfold sweep_file at h
  rcases bind_ok.1 h with ⟨f, _, h⟩
  split at h
  · rcases scan_file_remove_frame h with ⟨hs, _⟩
    rw [hs] at hq
    exact absurd hq.2.2.1 (Nat.succ_ne_zero _)
  · simp only [pure, Except.pure, Except.ok.injEq] at h
    exact h.symm

theorem sweep_link_quiet {m m' : Mem} {link : Nat}
    (h : sweep_link m link = .ok m') (hq : scan_quiet m'.scan) : m' = m := by
  unfold sweep_link at h
  rcases bind_ok.1 h with ⟨l, _, h⟩
  split at h
  · simp only [pure, Except.pure, Except.ok.injEq] at h
    subst h
    exact absurd hq.2.2.1 (Nat.succ_ne_zero _)
  · simp only [pure, Except.pure, Except.ok.injEq] at h
    exact h.symm

theorem sweep_dir_quiet {m m' : Mem} {dir : Nat}
    (h : sweep_dir m dir = .ok m') (hq : scan_quiet m'.scan) : m' = m := by
  unfold sweep_dir at h
  rcases bind_ok.1 h with ⟨l, _, h⟩
  split at h
  · simp only [pure, Except.pure, Except.ok.injEq] at h
    subst h
    exact absurd hq.2.2.1 (Nat.succ_ne_zero _)
  · simp only [pure, Except.pure, Except.ok.injEq] at h
    exact h.symm

theorem foldlM_quiet {α : Type} (f : Mem → α → Except Fatal Mem)
    (hf : ∀ m a m', f m a = .ok m' → scan_quiet m'.scan → m' = m) :
    ∀ (l : List α) (m m' : Mem), l.foldlM f m = .ok m' → scan_quiet m'.scan → m' = m
  | [], m, m', h, _ => by
    simp [pure, Except.pure] at h; exact h.symm
  | a :: l, m, m', h, hq => by
    rw [List.foldlM_cons] at h
    rcases bind_ok.1 h with ⟨m1, h1, h2⟩
    have e := foldlM_quiet f hf l m1 m' h2 hq
    subst e
    exact hf m a _ h1 hq

theorem quiet_inv_step {s0 : snapraid_state} {d0 : snapraid_disk} (hv : nsec_valid d0)
    {m m' : Mem} (hi : QuietInv s0 d0 m) (hq : scan_quiet m'.scan → scan_quiet m.scan ∧
      ((∀ g f, heap_get m.disk.filemem g = .ok f → f.mtime_nsec ≠ FILE_MTIME_NSEC_INVALID) →
        QuietFrame m m')) : QuietInv s0 d0 m' := by
  intro hq'
  rcases hq hq' with ⟨hqm, hfr⟩
  rcases hi hqm with ⟨a1, a2, a3, a4, a5⟩
  have fr := hfr (fun g f hg => nsec_of_clear a2 hv hg)
  exact ⟨fr.state_eq.trans a1, fr.disk_eq.trans a2, fr.files_eq.trans a3, fr.links_eq.trans a4,
    fr.dirs_eq.trans a5⟩

theorem scan_disk_quiet {flt : Filters} {fs : String → FsNode} {state : snapraid_state}
    {disk : snapraid_disk} {m' : Mem} (hv : nsec_valid disk)
    (h : scan_disk flt fs state disk = .ok m') (hq : scan_quiet m'.scan) :
    m'.state = state ∧ clear_present m'.disk = clear_present disk ∧
    m'.scan = { scan_init with count_equal := m'.scan.count_equal } := by
  rcases scan_disk_ok h with ⟨r, m1, m2, m3, m4, hr, h1, h2, h3, h4, rfl⟩
  have hir : QuietInv state disk r.1 :=
    scan_dir_preserves (QuietInv state disk) flt
      (fun _ _ _ _ hi h => quiet_inv_step hv hi (fun hq => scan_file_quiet h hq))
      (fun _ _ _ _ _ hi h => quiet_inv_step hv hi
        (fun hq => ⟨(scan_link_quiet h hq).1, fun _ => (scan_link_quiet h hq).2⟩))
      (fun _ _ _ hi h => quiet_inv_step hv hi
        (fun hq => ⟨(scan_emptydir_quiet h hq).1, fun _ => (scan_emptydir_quiet h hq).2⟩))
      _ _ _ _ _ (fun _ => ⟨rfl, rfl, rfl, rfl, rfl⟩) hr
  have hs5 : ((m4.scan.link_insert_list.foldl scan_link_insert m4).scan.dir_insert_list.foldl
      scan_emptydir_insert (m4.scan.link_insert_list.foldl scan_link_insert m4)).scan =
      (m4.scan.link_insert_list.foldl scan_link_insert m4).scan :=
    foldl_preserves (fun x : Mem => x.scan = (m4.scan.link_insert_list.foldl scan_link_insert m4).scan)
      scan_emptydir_insert (fun b a hb => hb) _ _ rfl
  have hs4 : (m4.scan.link_insert_list.foldl scan_link_insert m4).scan = m4.scan :=
    foldl_preserves (fun x : Mem => x.scan = m4.scan) scan_link_insert (fun b a hb => hb) _ _ rfl
  have hs3 : m4.scan = m3.scan :=
    foldlM_preserves (fun x : Mem => x.scan = m3.scan) scan_file_insert
      (fun b a b' hb hstep => (scan_file_insert_frame hstep).2.trans hb) _ _ _ rfl h4
  have hq3 : scan_quiet m3.scan := by
    rw [hs5, hs4, hs3] at hq; exact hq
  have e3 : m3 = m2 := foldlM_quiet sweep_dir (fun _ _ _ h hq => sweep_dir_quiet h hq) _ _ _ h3 hq3
  subst e3
  have e2 : m3 = m1 := foldlM_quiet sweep_link (fun _ _ _ h hq => sweep_link_quiet h hq) _ _ _ h2 hq3
  subst e2
  have e1 : m3 = r.1 := foldlM_quiet sweep_file (fun _ _ _ h hq => sweep_file_quiet h hq) _ _ _ h1 hq3
  subst e1
  rcases hir hq3 with ⟨a1, a2, a3, a4, a5⟩
  rw [a3] at h4
  simp only [List.foldlM_nil, pure, Except.pure, Except.ok.injEq] at h4
  subst h4
  rw [a4]
  simp only [List.foldl_nil]
  rw [a5]
  simp only [List.foldl_nil]
  refine ⟨a1, a2, ?_⟩
  rcases hq3 with ⟨b1, b2, b3, b4⟩
  rcases hsc : r.1.scan with ⟨c1, c2, c3, c4, c5, c6, c7, c8⟩
  rw [hsc] at b1 b2 b3 b4 a3 a4 a5
  simp only [] at b1 b2 b3 b4 a3 a4 a5
  subst b1 b2 b3 b4 a3 a4 a5
  rfl

/-- C19 fails as stated: in the scan of the example catalog against a tree
that holds only file `b`, unchanged, the walk classifies every live entry as
equal (one equal, nothing else), and no stored `mtime_nsec` is invalid; the
sweep then removes file `a`: one removal is counted, `need_write` is set and
the block array, the deleted list and the file list change. -/
theorem equal_scan_counterexample :
    nsec_valid ex_catalog ∧
    (scan_dir ex_filters "/mnt/d1/" "" (ex_tree_b "/mnt/d1/") ex_scan_start).toOption.map
      (fun r => r.1.scan) = some { scan_init with count_equal := 1 } ∧
    (scan_disk ex_filters ex_tree_b ex_state ex_catalog).toOption.map
      (fun m => (m.scan, m.state.need_write, m.disk.filelist, m.disk.deletedlist.length,
        m.disk.blockarr)) =
      some ({ scan_init with count_equal := 1, count_remove := 1 }, true, [1], 3,
        [some (BlockPtr.deleted 0), some (BlockPtr.file 1 0), some (BlockPtr.deleted 1),
         some (BlockPtr.deleted 2)]) ∧
    ex_state.need_write = false ∧ ex_catalog.filelist = [0, 1] ∧ ex_catalog.deletedlist = [] ∧
    ex_catalog.blockarr =
      [some (BlockPtr.file 0 0), some (BlockPtr.file 1 0), some (BlockPtr.file 0 1),
       some (BlockPtr.file 0 2)] :=
  ⟨by decide, by rfl, by rfl, rfl, rfl, rfl, rfl⟩

/-- C19, as amended (equal scan).  If no stored `mtime_nsec` of a disk is
invalid and the scan of the disk returns with nothing counted moved, changed,
removed or inserted (every live entry is classified equal and the sweep
removes nothing), then the counters and lists of the scan other than
`count_equal` are as at the start, the state (so `need_write`) is unchanged,
and the disk is unchanged up to the PRESENT flags: the block array,
`first_free_block`, the deleted list, the file, link and dir lists are the
same, and every file allocated after the scan was allocated before it with
the same blocks. -/
theorem equal_scan_frame (flt : Filters) (fs : String → FsNode) (state : snapraid_state)
    (disk : snapraid_disk) (m' : Mem) (hv : nsec_valid disk)
    (h : scan_disk flt fs state disk = .ok m') (hq : scan_quiet m'.scan) :
    m'.scan = { scan_init with count_equal := m'.scan.count_equal } ∧
    m'.state = state ∧ clear_present m'.disk = clear_present disk ∧
    m'.disk.blockarr = disk.blockarr ∧ m'.disk.first_free_block = disk.first_free_block ∧
    m'.disk.deletedlist = disk.deletedlist ∧ m'.disk.filelist = disk.filelist ∧
    m'.disk.linklist = disk.linklist ∧ m'.disk.dirlist = disk.dirlist ∧
    (∀ g f', heap_get m'.disk.filemem g = .ok f' →
      ∃ f, heap_get disk.filemem g = .ok f ∧ f'.blockvec = f.blockvec ∧
        f' = { f with present := f'.present }) := by
  rcases scan_disk_quiet hv h hq with ⟨a1, a2, a3⟩
  rcases clear_present_eq a2 with ⟨_, _, b3, _, b5, _, b7, _, _⟩
  have c1 : (clear_present m'.disk).blockarr = (clear_present disk).blockarr := by rw [a2]
  have c2 : (clear_present m'.disk).first_free_block = (clear_present disk).first_free_block := by
    rw [a2]
  have c3 : (clear_present m'.disk).deletedlist = (clear_present disk).deletedlist := by rw [a2]
  refine ⟨a3, a1, a2, c1, c2, c3, b3, b5, b7, ?_⟩
  intro g f' hg
  rcases map_eq_get file_clear (clear_present_filemem a2) hg with ⟨f, hf, he⟩
  have hb : (file_clear f).blockvec = (file_clear f').blockvec := by rw [he]
  refine ⟨f, hf, hb.symm, ?_⟩
  cases f
  cases f'
  simp only [file_clear, snapraid_file.mk.injEq] at he ⊢
  rcases he with ⟨e1, e2, e3, e4, e5, _, e7⟩
  subst e1 e2 e3 e4 e5 e7
  simp

theorem equal_scan_frame_witness :
    (ex1_scanned (ex_hash 7)).scan.count_equal = 1 ∧
    (ex1_scanned (ex_hash 7)).state = ex_state ∧
    (ex1_scanned (ex_hash 7)).disk.blockarr = (ex4_catalog (ex_hash 7)).blockarr :=
  have key := equal_scan_frame ex_filters ex1_tree ex_state (ex4_catalog (ex_hash 7))
    (ex1_scanned (ex_hash 7)) (by decide) (by rfl) (by decide)
  ⟨rfl, key.2.1, key.2.2.2.1⟩

theorem first_file_mem {b : Bool} {k : Key} : ∀ {H : List Event} {sub : String} {st : Stat},
    first_file b k H = some (sub, st) → Event.file sub st ∈ H
  | [], _, _, h => by cases h
  | e :: H, sub, st, h => by
    rw [first_file_cons] at h
    cases h1 : first_file b k H with
    | some x =>
      rw [h1] at h
      simp only [Option.or_some, Option.some.injEq] at h
      subst h
      exact List.mem_cons_of_mem _ (first_file_mem h1)
    | none =>
      rw [h1] at h
      simp only [Option.none_or] at h
      cases e with
      | file s t =>
        simp only [event_first] at h
        split at h
        · simp only [Option.some.injEq, Prod.mk.injEq] at h
          rw [h.1, h.2]
          exact List.mem_cons_self _ _
        · cases h
      | link _ _ => cases h
      | emptydir _ => cases h
      | fail _ => cases h

/-- Every regular file of a history has the first call with its key; when it
is not that call itself, the history has the call of `scan_link` that records
it as a hardlink to the path of the first. -/
theorem hardlink_call {b : Bool} : ∀ {H : List Event} {sub : String} {st : Stat},
    Event.file sub st ∈ H →
    ∃ x, first_file b (stat_key b sub st) H = some x ∧
      (x = (sub, st) ∨ (sub, x.1, LinkKind.FILE_IS_HARDLINK) ∈ link_calls b H)
  | [], _, _, h => by cases h
  | e :: H, sub, st, h => by
    by_cases hin : Event.file sub st ∈ H
    · rcases hardlink_call hin with ⟨x, hx, hor⟩
      refine ⟨x, first_file_cons_some e hx, ?_⟩
      rcases hor with hor | hor
      · exact Or.inl hor
      · exact Or.inr (link_calls_append hor [e])
    · rcases List.mem_cons.1 h with h | h
      · subst h
        cases h1 : first_file b (stat_key b sub st) H with
        | some x =>
          refine ⟨x, first_file_cons_some _ h1, Or.inr ?_⟩
          rw [link_calls_file_some h1]
          exact List.mem_cons_self _ _
        | none =>
          refine ⟨(sub, st), ?_, Or.inl rfl⟩
          rw [first_file_cons_file_none sub st h1]
          simp
      · exact absurd h hin

/-- C13 fails as stated for `find_by_name` set: the scan, by name, of an empty
catalog against the tree with the two names `a` and `b` of inode 100 (two
links) ends with two files of inode 100 in the inode table and no link. -/
theorem unique_inode_counterexample :
    state_scan ex_filters ex_tree_hl ex_state_name [ex_catalog_none] =
      .ok { state := { ex_state_name with need_write := true }
            disklist := [ex_catalog_twins]
            scanlist := [{ scan_init with count_insert := 2, file_insert_list := [0, 1] }] } ∧
    ex_catalog_twins.inodeset = [0, 1] ∧
    (heap_get ex_catalog_twins.filemem 0).toOption.map snapraid_file.inode = some 100 ∧
    (heap_get ex_catalog_twins.filemem 1).toOption.map snapraid_file.inode = some 100 ∧
    ex_catalog_twins.linklist = [] ∧ ex_catalog_twins.linkset = [] :=
  ⟨by rfl, rfl, by rfl, by rfl, rfl, rfl⟩

/-- C13, as amended (unique inode, lookup by inode).  With `find_by_name`
clear, take a catalog as it is loaded (no PRESENT flag, no two files of the
inode table with the same inode, no two links and no two dirs with the same
path) and a tree whose walk presents each sub-path at most once.  After the
scan of the disk an inode occurs at most once among the files of the inode
table, and every regular file the walk presented is recorded: the inode table
holds the file with its inode, which has its path or is the target of a link
of kind HARDLINK with its path. -/
theorem unique_inode (flt : Filters) (fs : String → FsNode) (state : snapraid_state)
    (disk : snapraid_disk) (m' : Mem)
    (hb : state.find_by_name = false)
    (hwf : catalog_wf false disk)
    (hnd : (event_subs (disk_events flt fs disk)).Nodup)
    (h : scan_disk flt fs state disk = .ok m') :
    inode_unique m'.disk ∧
    ∀ sub st, Event.file sub st ∈ disk_events flt fs disk →
      path_recorded m'.disk sub st.st_ino := by
  have hwf' : catalog_wf state.find_by_name disk := by rw [hb]; exact hwf
  have hs := (scan_disk_settled hwf' hnd h).1
  rw [hb] at hs
  refine ⟨?_, ?_⟩
  · intro p hp q hq f g hf hg hfg
    refine hs.funiq p hp q hq f g hf hg ?_
    simp [file_key, hfg]
  · intro sub st hev
    have hev' : Event.file sub st ∈ (disk_events flt fs disk).reverse := List.mem_reverse.2 hev
    rcases @hardlink_call false _ _ _ hev' with ⟨x, hx, hor⟩
    rcases x with ⟨sub0, st0⟩
    have hk := first_file_key hx
    have hino : st0.st_ino = st.st_ino := by
      simpa [stat_key] using hk
    rcases hs.fmark _ sub0 st0 hx with ⟨g, f, hg, hf, hm⟩
    refine ⟨g, f, hg, hf, hm.2.2.2.2.trans hino, ?_⟩
    rcases hor with hor | hor
    · simp only [Prod.mk.injEq] at hor
      exact Or.inl (hm.1.trans hor.1)
    · rcases hs.lmark _ hor with ⟨l, ll, hl, hll, e1, e2, e3⟩
      exact Or.inr ⟨l, ll, hl, hll, e1, e3, e2.trans hm.1.symm⟩

theorem unique_inode_witness :
    inode_unique ex_mem_links.disk ∧ path_recorded ex_mem_links.disk "h" 101 :=
  have key := unique_inode ex_filters ex_tree_links ex_state ex_catalog ex_mem_links
    rfl (by decide) (by decide) (by rfl)
  ⟨key.1, key.2 "h"
    { st_size := 10, st_mtime := 1000, st_nsec := 0, st_ino := 101, st_nlink := 2 } (by decide)⟩

theorem pres_unique_mono {α : Type} {sub : α → String} {present : α → Bool}
    {mem : List (Option α)} {S : List String} (s : String)
    (h : PresUnique sub present mem S) : PresUnique sub present mem (s :: S) :=
  ⟨fun p x hx hp => List.mem_cons_of_mem _ (h.1 p x hx hp), h.2⟩

theorem pres_unique_alloc {α : Type} {sub : α → String} {present : α → Bool}
    {mem : List (Option α)} {S : List String} (h : PresUnique sub present mem S)
    (x : α) (hs : sub x ∉ S) : PresUnique sub present (mem ++ [some x]) (sub x :: S) := by
  refine ⟨?_, ?_⟩
  · intro p y hy hp
    rcases heap_get_append hy with ⟨_, hy0⟩ | ⟨_, rfl⟩
    · exact List.mem_cons_of_mem _ (h.1 p y hy0 hp)
    · exact List.mem_cons_self _ _
  · intro p q y z hy hz hpy hpz hsub
    rcases heap_get_append hy with ⟨_, hy0⟩ | ⟨hpl, rfl⟩
    · rcases heap_get_append hz with ⟨_, hz0⟩ | ⟨_, rfl⟩
      · exact h.2 p q y z hy0 hz0 hpy hpz hsub
      · exact absurd (hsub ▸ h.1 p y hy0 hpy) hs
    · rcases heap_get_append hz with ⟨_, hz0⟩ | ⟨hql, _⟩
      · exact absurd (hsub ▸ h.1 q z hz0 hpz) hs
      · rw [hpl, hql]

theorem pres_unique_set {α : Type} {sub : α → String} {present : α → Bool}
    {mem : List (Option α)} {S : List String} (h : PresUnique sub present mem S)
    (g : Nat) (x : α) {s : String} (hx : sub x = s) (hs : s ∉ S) :
    PresUnique sub present (heap_set mem g x) (s :: S) := by
  subst hx
  refine ⟨?_, ?_⟩
  · intro p y hy hp
    rcases heap_get_set hy with ⟨_, rfl⟩ | ⟨_, hy0⟩
    · exact List.mem_cons_self _ _
    · exact List.mem_cons_of_mem _ (h.1 p y hy0 hp)
  · intro p q y z hy hz hpy hpz hsub
    rcases heap_get_set hy with ⟨hpg, rfl⟩ | ⟨_, hy0⟩
    · rcases heap_get_set hz with ⟨hqg, _⟩ | ⟨_, hz0⟩
      · rw [hpg, hqg]
      · exact absurd (hsub ▸ h.1 q z hz0 hpz) hs
    · rcases heap_get_set hz with ⟨_, rfl⟩ | ⟨_, hz0⟩
      · exact absurd (hsub ▸ h.1 p y hy0 hpy) hs
      · exact h.2 p q y z hy0 hz0 hpy hpz hsub

theorem pres_unique_free {α : Type} {sub : α → String} {present : α → Bool}
    {mem : List (Option α)} {S : List String} (h : PresUnique sub present mem S)
    (g : Nat) : PresUnique sub present (heap_free mem g) S := by
  refine ⟨?_, ?_⟩
  · intro p y hy hp
    exact h.1 p y (heap_get_free hy).2 hp
  · intro p q y z hy hz hpy hpz hsub
    exact h.2 p q y z (heap_get_free hy).2 (heap_get_free hz).2 hpy hpz hsub

/-- The objects of a delayed list stay allocated and PRESENT when one more is
allocated and staged. -/
theorem staged_alloc {α : Type} {present : α → Bool} {mem : List (Option α)} {L : List Nat}
    (h : ∀ g ∈ L, ∃ f, heap_get mem g = .ok f ∧ present f = true) (x : α)
    (hx : present x = true) :
    ∀ g ∈ L ++ [mem.length], ∃ f, heap_get (mem ++ [some x]) g = .ok f ∧ present f = true := by
  intro g hg
  rcases List.mem_append.1 hg with hg | hg
  · rcases h g hg with ⟨f, hf, hp⟩
    exact ⟨f, heap_get_append_old hf, hp⟩
  · simp only [List.mem_singleton] at hg
    subst hg
    exact ⟨x, heap_get_append_new _ _, hx⟩

/-- The objects of a delayed list stay allocated and PRESENT when an allocated
object is replaced by a PRESENT one. -/
theorem staged_set {α : Type} {present : α → Bool} {mem : List (Option α)} {L : List Nat}
    (h : ∀ g ∈ L, ∃ f, heap_get mem g = .ok f ∧ present f = true) {p : Nat} {x0 : α} (x : α)
    (hp0 : heap_get mem p = .ok x0) (hx : present x = true) :
    ∀ g ∈ L, ∃ f, heap_get (heap_set mem p x) g = .ok f ∧ present f = true := by
  intro g hg
  by_cases hgp : p = g
  · subst hgp
    exact ⟨x, heap_get_set_self hp0, hx⟩
  · rw [heap_get_set_ne hgp]
    exact h g hg

theorem scan_link_path {m m' : Mem} {sub linkto : String} {kind : LinkKind} {S : List String}
    (inv : PathInv m S) (hs : sub ∉ S) (h : scan_link m sub linkto kind = .ok m') :
    PathInv m' (sub :: S) := by
  rcases scan_link_cases h with ⟨_, rfl⟩ | ⟨l, ll, hl, hll, _, ⟨_, _, rfl⟩ | ⟨_, rfl⟩⟩
  · exact ⟨pres_unique_mono _ inv.files,
      pres_unique_alloc inv.links
        { sub := sub, linkto := linkto, kind := kind, present := true } hs,
      pres_unique_mono _ inv.dirs, inv.fstaged,
      staged_alloc inv.lstaged _ rfl, inv.dstaged⟩
  · have hsub : ll.sub = sub := by
      rcases tommy_hashdyn_search_some hl with ⟨_, x, hx, hk⟩
      rw [hll] at hx; cases hx; exact hk
    have key := pres_unique_set inv.links l { ll with present := true } hsub hs
    exact ⟨pres_unique_mono _ inv.files, key, pres_unique_mono _ inv.dirs, inv.fstaged,
      staged_set inv.lstaged _ hll rfl, inv.dstaged⟩
  · have hsub : ll.sub = sub := by
      rcases tommy_hashdyn_search_some hl with ⟨_, x, hx, hk⟩
      rw [hll] at hx; cases hx; exact hk
    have key := pres_unique_set inv.links l
      { ll with present := true, linkto := linkto, kind := kind } hsub hs
    exact ⟨pres_unique_mono _ inv.files, key, pres_unique_mono _ inv.dirs, inv.fstaged,
      staged_set inv.lstaged _ hll rfl, inv.dstaged⟩

theorem scan_emptydir_path {m m' : Mem} {sub : String} {S : List String}
    (inv : PathInv m S) (hs : sub ∉ S) (h : scan_emptydir m sub = .ok m') :
    PathInv m' (sub :: S) := by
  rcases scan_emptydir_cases h with ⟨_, rfl⟩ | ⟨d, dd, hd, hdd, _, rfl⟩
  · exact ⟨pres_unique_mono _ inv.files, pres_unique_mono _ inv.links,
      pres_unique_alloc inv.dirs { sub := sub, present := true } hs,
      inv.fstaged, inv.lstaged, staged_alloc inv.dstaged _ rfl⟩
  · have hsub : dd.sub = sub := by
      rcases tommy_hashdyn_search_some hd with ⟨_, x, hx, hk⟩
      rw [hdd] at hx; cases hx; exact hk
    have key := pres_unique_set inv.dirs d { dd with present := true } hsub hs
    exact ⟨pres_unique_mono _ inv.files, pres_unique_mono _ inv.links, key,
      inv.fstaged, inv.lstaged, staged_set inv.dstaged _ hdd rfl⟩

theorem path_inv_add {m : Mem} {sub : String} {st : Stat} {S : List String}
    (inv : PathInv m S) (hs : sub ∉ S) : PathInv (scan_file_add m sub st) (sub :: S) := by
  unfold scan_file_add
  simp only [heap_alloc]
  exact ⟨pres_unique_alloc inv.files
      { file_alloc m.state.block_size sub st.st_size st.st_mtime st.st_nsec st.st_ino with
        present := true } hs,
    pres_unique_mono _ inv.links, pres_unique_mono _ inv.dirs,
    staged_alloc inv.fstaged _ rfl, inv.lstaged, inv.dstaged⟩

theorem path_inv_scan {m : Mem} {scan1 : snapraid_scan} {S : List String}
    (h1 : scan1.file_insert_list = m.scan.file_insert_list)
    (h2 : scan1.link_insert_list = m.scan.link_insert_list)
    (h3 : scan1.dir_insert_list = m.scan.dir_insert_list)
    (inv : PathInv m S) : PathInv { m with scan := scan1 } S :=
  ⟨inv.files, inv.links, inv.dirs, by simpa [h1] using inv.fstaged,
    by simpa [h2] using inv.lstaged, by simpa [h3] using inv.dstaged⟩

theorem path_inv_remove {m m1 : Mem} {file : Nat} {f : snapraid_file} {S : List String}
    (inv : PathInv m S) (hf : heap_get m.disk.filemem file = .ok f) (hp : f.present = false)
    (hr : scan_file_remove m file = .ok m1) : PathInv m1 S := by
  rcases scan_file_remove_frame hr with ⟨hs, _, hm, _, _, _, a1, _, _, a4, _⟩
  refine ⟨by rw [hm]; exact pres_unique_free inv.files _, by rw [a1]; exact inv.links,
    by rw [a4]; exact inv.dirs, ?_, by rw [hs, a1]; exact inv.lstaged,
    by rw [hs, a4]; exact inv.dstaged⟩
  intro g hg
  rw [hs] at hg
  rcases inv.fstaged g hg with ⟨f', hf', hp'⟩
  have hne : g ≠ file := by
    rintro rfl
    rw [hf] at hf'; cases hf'
    rw [hp] at hp'; cases hp'
  exact ⟨f', by rw [hm, heap_get_free_ne hne]; exact hf', hp'⟩

theorem scan_file_path {m m' : Mem} {sub : String} {st : Stat} {S : List String}
    (inv : PathInv m S) (hs : sub ∉ S) (h : scan_file m sub st = .ok m') :
    PathInv m' (sub :: S) := by
  rcases scan_file_cases h with ⟨_, rfl⟩ | ⟨file, f, _, _, _, _, hl⟩ | ⟨file, f, _, hf, _, _, hu⟩ |
    ⟨file, f, _, hf, hp, _, hc⟩
  · exact path_inv_add (@path_inv_scan m _ S rfl rfl rfl inv) hs
  · exact scan_link_path inv hs hl
  · rcases scan_file_unchanged_cases hu with ⟨nsec, nw, _, _, ⟨_, _, rfl⟩ | ⟨hsub, _, rfl⟩ |
      ⟨hsub, _, rfl⟩⟩
    · exact ⟨pres_unique_set inv.files file
          { f with present := true, mtime_nsec := nsec, sub := sub } rfl hs,
        pres_unique_mono _ inv.links, pres_unique_mono _ inv.dirs,
        staged_set inv.fstaged _ hf rfl, inv.lstaged, inv.dstaged⟩
    · have key := pres_unique_set inv.files file
        { f with present := true, mtime_nsec := nsec, inode := st.st_ino } hsub hs
      exact ⟨key, pres_unique_mono _ inv.links, pres_unique_mono _ inv.dirs,
        staged_set inv.fstaged _ hf rfl, inv.lstaged, inv.dstaged⟩
    · have key := pres_unique_set inv.files file
        { f with present := true, mtime_nsec := nsec } hsub hs
      exact ⟨key, pres_unique_mono _ inv.links, pres_unique_mono _ inv.dirs,
        staged_set inv.fstaged _ hf rfl, inv.lstaged, inv.dstaged⟩
  · rcases scan_file_changed_cases hc with ⟨scan1, m1, h1, h2, h3, _, _, hr, rfl⟩
    exact path_inv_add
      (@path_inv_remove { m with scan := scan1 } m1 file f S (@path_inv_scan m scan1 S h1 h2 h3 inv)
        hf hp hr) hs

theorem scan_event_path {m m' : Mem} {e : Event} {S : List String}
    (inv : PathInv m S) (hs : ∀ s ∈ event_subs [e], s ∉ S) (h : scan_event m e = .ok m') :
    ∃ S', PathInv m' S' ∧ ∀ s, s ∈ S' → s ∈ event_subs [e] ∨ s ∈ S := by
  cases e with
  | file sub st =>
    refine ⟨sub :: S, scan_file_path inv (hs sub (by simp [event_subs])) h, ?_⟩
    intro s hs'
    rcases List.mem_cons.1 hs' with rfl | hs'
    · exact Or.inl (by simp [event_subs])
    · exact Or.inr hs'
  | link sub linkto =>
    refine ⟨sub :: S, scan_link_path inv (hs sub (by simp [event_subs])) h, ?_⟩
    intro s hs'
    rcases List.mem_cons.1 hs' with rfl | hs'
    · exact Or.inl (by simp [event_subs])
    · exact Or.inr hs'
  | emptydir sub =>
    refine ⟨sub :: S, scan_emptydir_path inv (hs sub (by simp [event_subs])) h, ?_⟩
    intro s hs'
    rcases List.mem_cons.1 hs' with rfl | hs'
    · exact Or.inl (by simp [event_subs])
    · exact Or.inr hs'
  | fail e => cases h

theorem event_subs_cons (e : Event) (evs : List Event) :
    event_subs (e :: evs) = event_subs [e] ++ event_subs evs := by
  cases e <;> rfl

theorem walk_path : ∀ (evs : List Event) (S : List String) (m m' : Mem),
    PathInv m S → (event_subs evs).Nodup → (∀ s ∈ event_subs evs, s ∉ S) →
    evs.foldlM scan_event m = .ok m' → ∃ S', PathInv m' S'
  | [], S, m, m', inv, _, _, h => by
    simp only [List.foldlM_nil, pure, Except.pure, Except.ok.injEq] at h
    subst h
    exact ⟨S, inv⟩
  | e :: evs, S, m, m', inv, hnd, hS, h => by
    rw [List.foldlM_cons] at h
    rcases bind_ok.1 h with ⟨m1, h1, h2⟩
    rw [event_subs_cons] at hnd hS
    rcases List.nodup_append.1 hnd with ⟨_, hnd2, hdisj⟩
    rcases scan_event_path inv (fun s hs => hS s (List.mem_append_left _ hs)) h1 with
      ⟨S1, inv1, hS1⟩
    refine walk_path evs S1 m1 m' inv1 hnd2 ?_ h2
    intro s hs hs1
    rcases hS1 s hs1 with hh | hh
    · exact hdisj hh hs
    · exact hS s (List.mem_append_right _ hs) hh

theorem sweep_files_path {S : List String} : ∀ (L K : List Nat) (m m' : Mem),
    PathInv m S → m.disk.filelist = K ++ L →
    (∀ g ∈ K, ∃ f, heap_get m.disk.filemem g = .ok f ∧ f.present = true) →
    L.foldlM sweep_file m = .ok m' →
    PathInv m' S ∧
    (∀ g ∈ m'.disk.filelist, ∃ f, heap_get m'.disk.filemem g = .ok f ∧ f.present = true) ∧
    m'.disk.linklist = m.disk.linklist ∧ m'.disk.dirlist = m.disk.dirlist
  | [], K, m, m', inv, hl, hK, h => by
    simp only [List.foldlM_nil, pure, Except.pure, Except.ok.injEq] at h
    subst h
    rw [List.append_nil] at hl
    exact ⟨inv, by rw [hl]; exact hK, rfl, rfl⟩
  | g :: L, K, m, m', inv, hl, hK, h => by
    rw [List.foldlM_cons] at h
    rcases bind_ok.1 h with ⟨m1, h1, h2⟩
    rcases sweep_file_cases h1 with ⟨f, hf, ⟨hp, hm⟩ | ⟨hp, hrm⟩⟩
    · subst hm
      refine sweep_files_path L (K ++ [g]) m1 m' inv (by rw [hl]; simp) ?_ h2
      intro x hx
      rcases List.mem_append.1 hx with hx | hx
      · exact hK x hx
      · simp only [List.mem_singleton] at hx
        subst hx
        exact ⟨f, hf, hp⟩
    · have inv1 : PathInv m1 S :=
        @path_inv_remove { m with scan := { m.scan with count_remove := m.scan.count_remove + 1 } }
          m1 g f S (@path_inv_scan m _ S rfl rfl rfl inv) hf hp hrm
      rcases scan_file_remove_frame hrm with
        ⟨_, _, hmem, hfl, _, _, _, a2, _, _, a5, _⟩
      have hgK : g ∉ K := by
        intro hg
        rcases hK g hg with ⟨f', hf', hp'⟩
        rw [hf] at hf'; cases hf'
        rw [hp] at hp'; cases hp'
      have hfl1 : m1.disk.filelist = K ++ L := by
        have : m1.disk.filelist = m.disk.filelist.erase g := hfl
        rw [this, hl, List.erase_append_right _ hgK, List.erase_cons_head]
      have hK1 : ∀ x ∈ K, ∃ f, heap_get m1.disk.filemem x = .ok f ∧ f.present = true := by
        intro x hx
        rcases hK x hx with ⟨f', hf', hp'⟩
        have hne : x ≠ g := fun he => hgK (he ▸ hx)
        have hmem1 : m1.disk.filemem = heap_free m.disk.filemem g := hmem
        exact ⟨f', by rw [hmem1, heap_get_free_ne hne]; exact hf', hp'⟩
      rcases sweep_files_path L K m1 m' inv1 hfl1 hK1 h2 with ⟨r1, r2, r3, r4⟩
      exact ⟨r1, r2, r3.trans a2, r4.trans a5⟩

theorem sweep_links_path {S : List String} : ∀ (L K : List Nat) (m m' : Mem),
    PathInv m S → m.disk.linklist = K ++ L →
    (∀ g ∈ K, ∃ f, heap_get m.disk.linkmem g = .ok f ∧ f.present = true) →
    L.foldlM sweep_link m = .ok m' →
    PathInv m' S ∧
    (∀ g ∈ m'.disk.linklist, ∃ f, heap_get m'.disk.linkmem g = .ok f ∧ f.present = true) ∧
    m'.disk.filelist = m.disk.filelist ∧ m'.disk.filemem = m.disk.filemem ∧
    m'.disk.dirlist = m.disk.dirlist
  | [], K, m, m', inv, hl, hK, h => by
    simp only [List.foldlM_nil, pure, Except.pure, Except.ok.injEq] at h
    subst h
    rw [List.append_nil] at hl
    exact ⟨inv, by rw [hl]; exact hK, rfl, rfl, rfl⟩
  | g :: L, K, m, m', inv, hl, hK, h => by
    rw [List.foldlM_cons] at h
    rcases bind_ok.1 h with ⟨m1, h1, h2⟩
    rcases sweep_link_cases h1 with ⟨f, hf, ⟨hp, hm⟩ | ⟨hp, hrm⟩⟩
    · subst hm
      refine sweep_links_path L (K ++ [g]) m1 m' inv (by rw [hl]; simp) ?_ h2
      intro x hx
      rcases List.mem_append.1 hx with hx | hx
      · exact hK x hx
      · simp only [List.mem_singleton] at hx
        subst hx
        exact ⟨f, hf, hp⟩
    · have hgK : g ∉ K := by
        intro hg
        rcases hK g hg with ⟨f', hf', hp'⟩
        rw [hf] at hf'; cases hf'
        rw [hp] at hp'; cases hp'
      have hmem1 : m1.disk.linkmem = heap_free m.disk.linkmem g := by rw [hrm]; rfl
      have hl1 : m1.disk.linklist = K ++ L := by
        have : m1.disk.linklist = m.disk.linklist.erase g := by rw [hrm]; rfl
        rw [this, hl, List.erase_append_right _ hgK, List.erase_cons_head]
      have inv1 : PathInv m1 S := by
        refine ⟨by rw [hrm]; exact inv.files, by rw [hmem1]; exact pres_unique_free inv.links _,
          by rw [hrm]; exact inv.dirs, by rw [hrm]; exact inv.fstaged, ?_,
          by rw [hrm]; exact inv.dstaged⟩
        intro x hx
        have hx' : x ∈ m.scan.link_insert_list := by rw [hrm] at hx; exact hx
        rcases inv.lstaged x hx' with ⟨f', hf', hp'⟩
        have hne : x ≠ g := by
          rintro rfl
          rw [hf] at hf'; cases hf'
          rw [hp] at hp'; cases hp'
        exact ⟨f', by rw [hmem1, heap_get_free_ne hne]; exact hf', hp'⟩
      have hK1 : ∀ x ∈ K, ∃ f, heap_get m1.disk.linkmem x = .ok f ∧ f.present = true := by
        intro x hx
        rcases hK x hx with ⟨f', hf', hp'⟩
        have hne : x ≠ g := fun he => hgK (he ▸ hx)
        exact ⟨f', by rw [hmem1, heap_get_free_ne hne]; exact hf', hp'⟩
      rcases sweep_links_path L K m1 m' inv1 hl1 hK1 h2 with ⟨r1, r2, r3, r4, r5⟩
      exact ⟨r1, r2, r3.trans (by rw [hrm]; rfl), r4.trans (by rw [hrm]; rfl),
        r5.trans (by rw [hrm]; rfl)⟩

theorem sweep_dirs_path {S : List String} : ∀ (L K : List Nat) (m m' : Mem),
    PathInv m S → m.disk.dirlist = K ++ L →
    (∀ g ∈ K, ∃ f, heap_get m.disk.dirmem g = .ok f ∧ f.present = true) →
    L.foldlM sweep_dir m = .ok m' →
    PathInv m' S ∧
    (∀ g ∈ m'.disk.dirlist, ∃ f, heap_get m'.disk.dirmem g = .ok f ∧ f.present = true) ∧
    m'.disk.filelist = m.disk.filelist ∧ m'.disk.filemem = m.disk.filemem ∧
    m'.disk.linklist = m.disk.linklist ∧ m'.disk.linkmem = m.disk.linkmem
  | [], K, m, m', inv, hl, hK, h => by
    simp only [List.foldlM_nil, pure, Except.pure, Except.ok.injEq] at h
    subst h
    rw [List.append_nil] at hl
    exact ⟨inv, by rw [hl]; exact hK, rfl, rfl, rfl, rfl⟩
  | g :: L, K, m, m', inv, hl, hK, h => by
    rw [List.foldlM_cons] at h
    rcases bind_ok.1 h with ⟨m1, h1, h2⟩
    rcases sweep_dir_cases h1 with ⟨f, hf, ⟨hp, hm⟩ | ⟨hp, hrm⟩⟩
    · subst hm
      refine sweep_dirs_path L (K ++ [g]) m1 m' inv (by rw [hl]; simp) ?_ h2
      intro x hx
      rcases List.mem_append.1 hx with hx | hx
      · exact hK x hx
      · simp only [List.mem_singleton] at hx
        subst hx
        exact ⟨f, hf, hp⟩
    · have hgK : g ∉ K := by
        intro hg
        rcases hK g hg with ⟨f', hf', hp'⟩
        rw [hf] at hf'; cases hf'
        rw [hp] at hp'; cases hp'
      have hmem1 : m1.disk.dirmem = heap_free m.disk.dirmem g := by rw [hrm]; rfl
      have hl1 : m1.disk.dirlist = K ++ L := by
        have : m1.disk.dirlist = m.disk.dirlist.erase g := by rw [hrm]; rfl
        rw [this, hl, List.erase_append_right _ hgK, List.erase_cons_head]
      have inv1 : PathInv m1 S := by
        refine ⟨by rw [hrm]; exact inv.files, by rw [hrm]; exact inv.links,
          by rw [hmem1]; exact pres_unique_free inv.dirs _, by rw [hrm]; exact inv.fstaged,
          by rw [hrm]; exact inv.lstaged, ?_⟩
        intro x hx
        have hx' : x ∈ m.scan.dir_insert_list := by rw [hrm] at hx; exact hx
        rcases inv.dstaged x hx' with ⟨f', hf', hp'⟩
        have hne : x ≠ g := by
          rintro rfl
          rw [hf] at hf'; cases hf'
          rw [hp] at hp'; cases hp'
        exact ⟨f', by rw [hmem1, heap_get_free_ne hne]; exact hf', hp'⟩
      have hK1 : ∀ x ∈ K, ∃ f, heap_get m1.disk.dirmem x = .ok f ∧ f.present = true := by
        intro x hx
        rcases hK x hx with ⟨f', hf', hp'⟩
        have hne : x ≠ g := fun he => hgK (he ▸ hx)
        exact ⟨f', by rw [hmem1, heap_get_free_ne hne]; exact hf', hp'⟩
      rcases sweep_dirs_path L K m1 m' inv1 hl1 hK1 h2 with ⟨r1, r2, r3, r4, r5, r6⟩
      exact ⟨r1, r2, r3.trans (by rw [hrm]; rfl), r4.trans (by rw [hrm]; rfl),
        r5.trans (by rw [hrm]; rfl), r6.trans (by rw [hrm]; rfl)⟩

/-- Objects that are allocated, PRESENT and pairwise distinct by sub-path stay
distinct by sub-path in a list of them. -/
theorem names_unique_of_pres {α : Type} {sub : α → String} {present : α → Bool}
    {mem : List (Option α)} {S : List String} (h : PresUnique sub present mem S) {L : List Nat}
    (hL : ∀ g ∈ L, ∃ f, heap_get mem g = .ok f ∧ present f = true) :
    ∀ p ∈ L, ∀ q ∈ L, ∀ x y, heap_get mem p = .ok x → heap_get mem q = .ok y →
      sub x = sub y → p = q := by
  intro p hp q hq x y hx hy hsub
  rcases hL p hp with ⟨x', hx', hpx⟩
  rcases hL q hq with ⟨y', hy', hpy⟩
  rw [hx] at hx'; cases hx'
  rw [hy] at hy'; cases hy'
  exact h.2 p q x y hx hy hpx hpy hsub

/-- C12 (unique path).  Take a catalog as it is loaded (no PRESENT flag) and
a tree whose walk presents each sub-path at most once.  After the scan of the
disk (walk, removal sweeps, delayed insertions) every entry of the file list,
of the link list and of the dir list is allocated, and no two entries of the
same list have the same sub-path.  The conclusion needs no hypothesis on the
sub-paths of the catalog before the scan: every entry the scan keeps or
inserts has the sub-path of the call of the walk that marked it PRESENT. -/
theorem unique_path (flt : Filters) (fs : String → FsNode) (state : snapraid_state)
    (disk : snapraid_disk) (m' : Mem) (hnp : no_present disk)
    (hnd : (event_subs (disk_events flt fs disk)).Nodup)
    (h : scan_disk flt fs state disk = .ok m') : unique_paths m'.disk := by
  rcases scan_disk_ok h with ⟨r, m1, m2, m3, m4, hr, h1, h2, h3, h4, hm'⟩
  have hev := scan_dir_events flt fs { state := state, disk := disk, scan := scan_init }
  have hfold : (disk_events flt fs disk).foldlM scan_event
      { state := state, disk := disk, scan := scan_init } = .ok r.1 := by
    have e1 : (disk_events flt fs disk).foldlM scan_event
        { state := state, disk := disk, scan := scan_init } =
        (scan_dir flt disk.dir "" (fs disk.dir)
          { state := state, disk := disk, scan := scan_init }).map Prod.fst := hev.symm
    rw [e1, hr]
    rfl
  have inv0 : PathInv { state := state, disk := disk, scan := scan_init } [] := by
    rcases hnp with ⟨np1, np2, np3⟩
    refine ⟨⟨?_, ?_⟩, ⟨?_, ?_⟩, ⟨?_, ?_⟩, by simp [scan_init], by simp [scan_init],
      by simp [scan_init]⟩
    · intro p x hx hp
      rw [no_present_get np1 hx] at hp; cases hp
    · intro p q x y hx _ hp
      rw [no_present_get np1 hx] at hp; cases hp
    · intro p x hx hp
      rw [no_present_get np2 hx] at hp; cases hp
    · intro p q x y hx _ hp
      rw [no_present_get np2 hx] at hp; cases hp
    · intro p x hx hp
      rw [no_present_get np3 hx] at hp; cases hp
    · intro p q x y hx _ hp
      rw [no_present_get np3 hx] at hp; cases hp
  rcases walk_path _ [] _ r.1 inv0 hnd (fun _ _ hc => by cases hc) hfold with ⟨S, invr⟩
  rcases sweep_files_path r.1.disk.filelist [] r.1 m1 invr (by simp) (by simp) h1 with
    ⟨i1, fp1, _, _⟩
  rcases sweep_links_path m1.disk.linklist [] m1 m2 i1 (by simp) (by simp) h2 with
    ⟨i2, lp2, fl2, fm2, _⟩
  rcases sweep_dirs_path m2.disk.dirlist [] m2 m3 i2 (by simp) (by simp) h3 with
    ⟨i3, dp3, fl3, fm3, ll3, lm3⟩
  have fp3 : ∀ g ∈ m3.disk.filelist, ∃ f, heap_get m3.disk.filemem g = .ok f ∧
      f.present = true := by
    rw [fl3, fm3, fl2, fm2]; exact fp1
  have lp3 : ∀ g ∈ m3.disk.linklist, ∃ f, heap_get m3.disk.linkmem g = .ok f ∧
      f.present = true := by
    rw [ll3, lm3]; exact lp2
  -- the insertions
  rcases insert_files_cat _ m3 m4 h4 with ⟨c4, s4⟩
  rcases insert_links_cat m4.scan.link_insert_list m4 with ⟨e5, s5⟩
  rcases insert_dirs_cat (m4.scan.link_insert_list.foldl scan_link_insert m4).scan.dir_insert_list
    (m4.scan.link_insert_list.foldl scan_link_insert m4) with ⟨e6, _⟩
  rw [← hm'] at e6
  rw [e5, s5, s4] at e6
  have hfm : core_eq m3.disk.filemem m'.disk.filemem := by rw [e6]; exact c4.filemem
  have hfl : m'.disk.filelist = m3.disk.filelist ++ m3.scan.file_insert_list := by
    rw [e6]; exact c4.filelist
  have hlm : m'.disk.linkmem = m3.disk.linkmem := by rw [e6]; exact c4.linkmem
  have hll : m'.disk.linklist = m3.disk.linklist ++ m3.scan.link_insert_list := by
    rw [e6]; show m4.disk.linklist ++ _ = _; rw [c4.linklist]
  have hdm : m'.disk.dirmem = m3.disk.dirmem := by rw [e6]; exact c4.dirmem
  have hdl : m'.disk.dirlist = m3.disk.dirlist ++ m3.scan.dir_insert_list := by
    rw [e6]; show m4.disk.dirlist ++ _ = _; rw [c4.dirlist]
  have hF : ∀ g ∈ m3.disk.filelist ++ m3.scan.file_insert_list,
      ∃ f, heap_get m3.disk.filemem g = .ok f ∧ f.present = true := by
    intro g hg
    rcases List.mem_append.1 hg with hg | hg
    · exact fp3 g hg
    · exact i3.fstaged g hg
  have hL : ∀ g ∈ m3.disk.linklist ++ m3.scan.link_insert_list,
      ∃ f, heap_get m3.disk.linkmem g = .ok f ∧ f.present = true := by
    intro g hg
    rcases List.mem_append.1 hg with hg | hg
    · exact lp3 g hg
    · exact i3.lstaged g hg
  have hD : ∀ g ∈ m3.disk.dirlist ++ m3.scan.dir_insert_list,
      ∃ f, heap_get m3.disk.dirmem g = .ok f ∧ f.present = true := by
    intro g hg
    rcases List.mem_append.1 hg with hg | hg
    · exact dp3 g hg
    · exact i3.dstaged g hg
  refine ⟨⟨?_, ?_⟩, ⟨?_, ?_⟩, ⟨?_, ?_⟩⟩
  · intro p hp q hq x y hx hy hsub
    rw [hfl] at hp hq
    rcases core_eq_get hfm hx with ⟨x3, hx3, ex⟩
    rcases core_eq_get hfm hy with ⟨y3, hy3, ey⟩
    have e1 : x3.sub = x.sub := by
      have : (file_core x3).sub = (file_core x).sub := by rw [ex]
      exact this
    have e2 : y3.sub = y.sub := by
      have : (file_core y3).sub = (file_core y).sub := by rw [ey]
      exact this
    exact names_unique_of_pres i3.files hF p hp q hq x3 y3 hx3 hy3 (by rw [e1, e2]; exact hsub)
  · intro p hp
    rw [hfl] at hp
    rcases hF p hp with ⟨f, hf, _⟩
    rcases core_eq_get (core_eq_symm hfm) hf with ⟨f', hf', _⟩
    exact ⟨f', hf'⟩
  · rw [hlm, hll]
    exact names_unique_of_pres i3.links hL
  · intro p hp
    rw [hll] at hp
    rw [hlm]
    rcases hL p hp with ⟨f, hf, _⟩
    exact ⟨f, hf⟩
  · rw [hdm, hdl]
    exact names_unique_of_pres i3.dirs hD
  · intro p hp
    rw [hdl] at hp
    rw [hdm]
    rcases hD p hp with ⟨f, hf, _⟩
    exact ⟨f, hf⟩

theorem unique_path_witness :
    no_present ex_catalog ∧ (event_subs (disk_events ex_filters ex_tree_links ex_catalog)).Nodup ∧
    unique_paths ex_mem_links.disk ∧
    ex_mem_links.disk.filelist = [1, 2] ∧ ex_mem_links.disk.linklist = [0, 1] ∧
    ex_mem_links.disk.dirlist = [0] :=
  ⟨by decide, by decide,
    unique_path ex_filters ex_tree_links ex_state ex_catalog ex_mem_links
      (by decide) (by decide) (by rfl), by rfl, by rfl, by rfl⟩

theorem bind_error {ε α β : Type} {x : Except ε α} {f : α → Except ε β} {e : ε} :
    (x >>= f) = .error e ↔ x = .error e ∨ ∃ a, x = .ok a ∧ f a = .error e := by
  cases x with
  | error e' => simp [bind, Except.bind]
  | ok a => simp [bind, Except.bind]

theorem heap_get_error {α : Type} {mem : List (Option α)} {p : Nat} {e : Fatal}
    (h : heap_get mem p = .error e) : e = Fatal.memory_error := by
  unfold heap_get at h
  split at h
  · cases h
  · cases h; rfl

theorem scan_link_error {m : Mem} {sub linkto : String} {kind : LinkKind} {e : Fatal}
    (h : scan_link m sub linkto kind = .error e) :
    e = Fatal.memory_error ∨ e = Fatal.link_inconsistency := by
  unfold scan_link at h
  split at h
  · rcases bind_error.1 h with h | ⟨l, _, h⟩
    · exact Or.inl (heap_get_error h)
    · split at h
      · cases h; exact Or.inr rfl
      · dsimp only at h
        split at h <;> cases h
  · cases h

theorem scan_emptydir_error {m : Mem} {sub : String} {e : Fatal}
    (h : scan_emptydir m sub = .error e) :
    e = Fatal.memory_error ∨ e = Fatal.dir_inconsistency := by
  unfold scan_emptydir at h
  split at h
  · rcases bind_error.1 h with h | ⟨l, _, h⟩
    · exact Or.inl (heap_get_error h)
    · split at h
      · cases h; exact Or.inr rfl
      · cases h
  · cases h

theorem remove_block_error {disk : snapraid_disk} {block : snapraid_block} {e : Fatal}
    (h : scan_file_remove_block disk block = .error e) :
    e = Fatal.memory_error ∨ e = Fatal.block_state_inconsistency := by
  unfold scan_file_remove_block at h
  by_cases hlt : block.parity_pos < disk.blockarr.length <;>
  by_cases hff : disk.first_free_block > block.parity_pos <;>
  rcases hs : block.state with _ | _ | _ | _ <;>
  simp [hs, hlt, hff, block_state_get, bind, Except.bind, pure, Except.pure, throw, throwThe,
    MonadExceptOf.throw, tommy_array_set, deleted_dup] at h <;>
  (subst h; simp)

theorem foldlM_error {α β : Type} (P : Fatal → Prop) (f : β → α → Except Fatal β)
    (hf : ∀ b a e, f b a = .error e → P e) :
    ∀ (l : List α) (b : β) (e : Fatal), l.foldlM f b = .error e → P e
  | [], b, e, h => by cases h
  | a :: l, b, e, h => by
    rw [List.foldlM_cons] at h
    rcases bind_error.1 h with h | ⟨b1, _, h⟩
    · exact hf b a e h
    · exact foldlM_error P f hf l b1 e h

theorem scan_file_remove_error_kind {m : Mem} {file : Nat} {e : Fatal}
    (h : scan_file_remove m file = .error e) :
    e = Fatal.memory_error ∨ e = Fatal.block_state_inconsistency := by
  unfold scan_file_remove at h
  rcases bind_error.1 h with h | ⟨f, _, h⟩
  · exact Or.inl (heap_get_error h)
  · rcases bind_error.1 h with h | ⟨d, _, h⟩
    · exact foldlM_error _ scan_file_remove_block (fun _ _ _ h => remove_block_error h) _ _ _ h
    · cases h

/-- The errors of `scan_file`: none is the unsupported name error or an error
of the walker. -/
theorem scan_file_error {m : Mem} {sub : String} {st : Stat} {e : Fatal}
    (h : scan_file m sub st = .error e) :
    e = Fatal.memory_error ∨ e = Fatal.link_inconsistency ∨
    e = Fatal.block_state_inconsistency ∨ e = Fatal.inode_present_inconsistency ∨
    e = Fatal.inode_inconsistency ∨ e = Fatal.zero_size := by
  unfold scan_file at h
  split at h
  · rcases bind_error.1 h with h | ⟨f, _, h⟩
    · exact Or.inl (heap_get_error h)
    · split at h
      · split at h
        · rcases scan_link_error h with h | h
          · exact Or.inl h
          · exact Or.inr (Or.inl h)
        · cases h; simp
      · split at h
        · unfold scan_file_unchanged at h
          simp only [] at h
          split at h
          · split at h
            · cases h; simp
            · cases h
          · split at h <;> cases h
        · unfold scan_file_changed at h
          split at h
          · cases h; simp
          · rcases bind_error.1 h with h | ⟨m1, _, h⟩
            · rcases scan_file_remove_error_kind h with h | h
              · exact Or.inl h
              · exact Or.inr (Or.inr (Or.inl h))
            · cases h
  · cases h

theorem scan_dir_loop_unsupported (flt : Filters) :
    ∀ (entries : FsEntries) (dir sub : String) (m : Mem) (q : Bool),
      scan_dir_loop flt dir sub entries m q = .error Fatal.unsupported_name →
      has_unsupported_name entries
  | .nil, _, _, m, q, h => by
    rw [scan_dir_loop_nil] at h
    cases h
  | .cons name node rest, dir, sub, m, q, h => by
    rw [scan_dir_loop_cons] at h
    have ih := scan_dir_loop_unsupported flt rest dir sub
    unfold has_unsupported_name
    split at h
    · exact Or.inr (Or.inr (ih _ _ h))
    · next c1 =>
      have c1' : name ≠ "." ∧ name ≠ ".." := by
        constructor
        · intro hc; exact c1 (Or.inl hc)
        · intro hc; exact c1 (Or.inr hc)
      split at h
      · next c2 => exact Or.inl ⟨c1'.1, c1'.2, c2⟩
      · split at h
        · exact Or.inr (Or.inr (ih _ _ h))
        · split at h
          · exact Or.inr (Or.inr (ih _ _ h))
          · cases node with
            | nostat => cases h
            | reg st =>
              simp only [] at h
              split at h
              · rcases bind_error.1 h with h | ⟨m1, _, h⟩
                · have := scan_file_error h
                  simp at this
                · exact Or.inr (Or.inr (ih _ _ h))
              · exact Or.inr (Or.inr (ih _ _ h))
            | lnk linkto =>
              simp only [] at h
              split at h
              · split at h
                · cases h
                · rcases bind_error.1 h with h | ⟨m1, _, h⟩
                  · have := scan_link_error h
                    simp at this
                  · exact Or.inr (Or.inr (ih _ _ h))
              · exact Or.inr (Or.inr (ih _ _ h))
            | dir entries =>
              simp only [] at h
              split at h
              · rcases bind_error.1 h with h | ⟨r, _, h⟩
                · exact Or.inr (Or.inl (scan_dir_loop_unsupported flt entries _ _ _ _ h))
                · rcases bind_error.1 h with h | ⟨m2, _, h⟩
                  · split at h
                    · have := scan_emptydir_error h
                      simp at this
                    · cases h
                  · exact Or.inr (Or.inr (ih _ _ h))
              · exact Or.inr (Or.inr (ih _ _ h))
            | dir_noopen =>
              simp only [] at h
              split at h
              · cases h
              · exact Or.inr (Or.inr (ih _ _ h))
            | special => exact Or.inr (Or.inr (ih _ _ h))

/-- C22 (name validation).  For an entry whose name is neither `.` nor `..`:
when the name is empty, contains a newline or ends with a carriage return, the
loop of `scan_dir` stops at the entry with the unsupported name error, whatever
the node and whatever the filters say, so also for an entry the hidden or the
content filter excludes; and the walk of a tree stops with that error only if
some entry of the tree, other than `.` and `..`, has such a name. -/
theorem name_validation :
    (∀ (flt : Filters) (dir sub name : String) (node : FsNode) (rest : FsEntries) (m : Mem)
      (q : Bool), name ≠ "." → name ≠ ".." →
      (name.data = [] ∨ Char.ofNat 10 ∈ name.data ∨ name.data.getLast? = some (Char.ofNat 13)) →
      scan_dir_loop flt dir sub (.cons name node rest) m q = .error Fatal.unsupported_name) ∧
    (∀ (flt : Filters) (dir sub : String) (entries : FsEntries) (m : Mem) (q : Bool),
      scan_dir_loop flt dir sub entries m q = .error Fatal.unsupported_name →
      has_unsupported_name entries) := by
  refine ⟨?_, fun flt dir sub entries m q h => scan_dir_loop_unsupported flt entries dir sub m q h⟩
  intro flt dir sub name node rest m q h1 h2 h3
  rw [scan_dir_loop_cons]
  have c1 : ¬ (name = "." ∨ name = "..") := fun hc => hc.elim h1 h2
  have c2 : name_unsupported name := h3
  rw [if_neg c1, if_pos c2]

theorem name_validation_witness :
    scan_dir_loop ex_filters_all "/mnt/d1/" ""
      (.cons "a\n" (.reg ex_stat_a) .nil) ex_scan_start false = .error Fatal.unsupported_name ∧
    scan_dir_loop ex_filters_all "/mnt/d1/" ""
      (.cons "a" (.reg ex_stat_a) .nil) ex_scan_start false = .ok (ex_scan_start, false) ∧
    has_unsupported_name (.cons "a\n" (.reg ex_stat_a) .nil) :=
  ⟨name_validation.1 ex_filters_all "/mnt/d1/" "" "a\n" (.reg ex_stat_a) .nil ex_scan_start false
      (by decide) (by decide) (by decide),
    by rfl,
    name_validation.2 ex_filters_all "/mnt/d1/" "" (.cons "a\n" (.reg ex_stat_a) .nil)
      ex_scan_start false (by rfl)⟩

theorem scan_link_name {m m' : Mem} {sub linkto : String} {kind : LinkKind}
    (h : scan_link m sub linkto kind = .ok m') : m'.disk.name = m.disk.name := by
  rcases scan_link_cases h with ⟨_, h2⟩ | ⟨l, ll, _, _, _, ⟨_, _, h2⟩ | ⟨_, h2⟩⟩ <;>
    (subst h2; rfl)

theorem scan_emptydir_name {m m' : Mem} {sub : String}
    (h : scan_emptydir m sub = .ok m') : m'.disk.name = m.disk.name := by
  rcases scan_emptydir_cases h with ⟨_, h2⟩ | ⟨d, dd, _, _, _, h2⟩ <;> (subst h2; rfl)

/-- The value of `processed` the loop of `scan_dir` returns. -/
theorem scan_dir_loop_processed (flt : Filters) :
    ∀ (entries : FsEntries) (dir sub : String) (m : Mem) (q : Bool) (r : Mem × Bool),
      scan_dir_loop flt dir sub entries m q = .ok r →
      r.1.disk.name = m.disk.name ∧ r.2 = (q || any_accepted flt m.disk.name dir sub entries)
  | .nil, _, _, m, q, r, h => by
    rw [scan_dir_loop_nil] at h
    cases h
    simp [any_accepted]
  | .cons name node rest, dir, sub, m, q, r, h => by
    rw [scan_dir_loop_cons] at h
    have ih := scan_dir_loop_processed flt rest dir sub
    unfold any_accepted entry_accepted
    split at h
    · next c1 =>
      rw [if_pos c1]
      simpa using ih _ _ _ h
    · next c1 =>
      rw [if_neg c1]
      split at h
      · cases h
      · split at h
        · next c3 =>
          rw [if_pos c3]
          simpa using ih _ _ _ h
        · next c3 =>
          rw [if_neg c3]
          split at h
          · next c4 =>
            rw [if_pos c4]
            simpa using ih _ _ _ h
          · next c4 =>
            rw [if_neg c4]
            cases node with
            | nostat => cases h
            | reg st =>
              simp only [] at h ⊢
              split at h
              · next c5 =>
                rcases bind_ok.1 h with ⟨m1, h1, h2⟩
                rcases ih _ _ _ h2 with ⟨a1, a2⟩
                have hn := (scan_file_name h1).1
                exact ⟨a1.trans hn, by rw [a2, c5]; simp⟩
              · next c5 =>
                rcases ih _ _ _ h with ⟨a1, a2⟩
                refine ⟨a1, ?_⟩
                rw [a2]
                simp only [Bool.not_eq_false] at c5
                simp [c5]
            | lnk linkto =>
              simp only [] at h ⊢
              split at h
              · next c5 =>
                split at h
                · cases h
                · rcases bind_ok.1 h with ⟨m1, h1, h2⟩
                  rcases ih _ _ _ h2 with ⟨a1, a2⟩
                  have hn := scan_link_name h1
                  exact ⟨a1.trans hn, by rw [a2, c5]; simp⟩
              · next c5 =>
                rcases ih _ _ _ h with ⟨a1, a2⟩
                refine ⟨a1, ?_⟩
                rw [a2]
                simp only [Bool.not_eq_false] at c5
                simp [c5]
            | dir entries =>
              simp only [] at h ⊢
              split at h
              · next c5 =>
                rcases bind_ok.1 h with ⟨r1, h1, h2⟩
                rcases scan_dir_loop_processed flt entries _ _ _ _ _ h1 with ⟨b1, _⟩
                rcases bind_ok.1 h2 with ⟨m2, h3, h4⟩
                have hn2 : m2.disk.name = m.disk.name := by
                  split at h3
                  · exact (scan_emptydir_name h3).trans b1
                  · cases h3; exact b1
                rcases ih _ _ _ h4 with ⟨a1, a2⟩
                exact ⟨a1.trans hn2, by rw [a2, c5]; simp⟩
              · next c5 =>
                rcases ih _ _ _ h with ⟨a1, a2⟩
                refine ⟨a1, ?_⟩
                rw [a2]
                simp only [Bool.not_eq_false] at c5
                simp [c5]
            | dir_noopen =>
              simp only [] at h ⊢
              split at h
              · cases h
              · next c5 =>
                rcases ih _ _ _ h with ⟨a1, a2⟩
                refine ⟨a1, ?_⟩
                rw [a2]
                simp only [Bool.not_eq_false] at c5
                simp [c5]
            | special =>
              simpa using ih _ _ _ h

/-- C21 (empty-directory recording).  The walk of a directory that returns,
started with `processed = 0`, returns false exactly when none of its entries,
after `.`, `..`, hidden entries and content files are skipped, is a regular
file or a symbolic link the path filter accepts or a directory the dir filter
accepts.  For a subdirectory the dir filter accepts, the loop of `scan_dir`
walks the subdirectory and then calls `scan_emptydir` for it exactly when that
walk has returned false; in both cases it goes on with `processed = 1`. -/
theorem emptydir_recording :
    (∀ (flt : Filters) (dir sub : String) (entries : FsEntries) (m : Mem) (r : Mem × Bool),
      scan_dir_loop flt dir sub entries m false = .ok r →
      (r.2 = false ↔ any_accepted flt m.disk.name dir sub entries = false)) ∧
    (∀ (flt : Filters) (dir sub name : String) (entries rest : FsEntries) (m : Mem) (q : Bool)
      (res : Mem × Bool),
      entry_accepted flt m.disk.name dir sub name (.dir entries) = true →
      scan_dir_loop flt dir sub (.cons name (.dir entries) rest) m q = .ok res →
      ∃ r, scan_dir_loop flt (pathslash (dir ++ name)) (pathslash (sub ++ name)) entries m false
          = .ok r ∧
        (r.2 = false →
          ∃ m1, scan_emptydir r.1 (sub ++ name) = .ok m1 ∧
            scan_dir_loop flt dir sub rest m1 true = .ok res) ∧
        (r.2 = true → scan_dir_loop flt dir sub rest r.1 true = .ok res)) := by
  refine ⟨?_, ?_⟩
  · intro flt dir sub entries m r h
    rcases scan_dir_loop_processed flt entries dir sub m false r h with ⟨_, a2⟩
    rw [a2]
    simp
  · intro flt dir sub name entries rest m q res hacc h
    unfold entry_accepted at hacc
    rw [scan_dir_loop_cons] at h
    split at hacc
    · cases hacc
    · next c1 =>
      rw [if_neg c1] at h
      split at hacc
      · cases hacc
      · next c3 =>
        split at hacc
        · cases hacc
        · next c4 =>
          simp only [Bool.not_eq_true', Bool.not_eq_true] at hacc c3 c4
          split at h
          · cases h
          · simp only [c3, c4, Bool.false_eq_true, ↓reduceIte, hacc] at h
            rcases bind_ok.1 h with ⟨r, h1, h2⟩
            rcases bind_ok.1 h2 with ⟨m2, h3, h4⟩
            refine ⟨r, h1, ?_, ?_⟩
            · intro hr
              rw [if_pos hr] at h3
              exact ⟨m2, h3, h4⟩
            · intro hr
              rw [if_neg (by simp [hr])] at h3
              cases h3
              exact h4

theorem emptydir_recording_witness :
    ((ex_dirs_walk.2 = false ↔
      any_accepted ex_filters_x "d1" "/mnt/d1/" "" ex_dirs_entries = false) ∧
     ex_dirs_walk.2 = true) ∧
    (∃ r, scan_dir_loop ex_filters_x (pathslash ("/mnt/d1/" ++ "d")) (pathslash ("" ++ "d"))
          (.cons "x" (.reg ex_stat_a) (.cons "s" .special .nil))
          { state := ex_state, disk := ex_catalog_none, scan := scan_init } false = .ok r ∧
        (r.2 = false →
          ∃ m1, scan_emptydir r.1 ("" ++ "d") = .ok m1 ∧
            scan_dir_loop ex_filters_x "/mnt/d1/" ""
              (.cons "p" (.dir (.cons "c" (.dir .nil) .nil)) .nil) m1 true = .ok ex_dirs_walk) ∧
        (r.2 = true →
          scan_dir_loop ex_filters_x "/mnt/d1/" ""
            (.cons "p" (.dir (.cons "c" (.dir .nil) .nil)) .nil) r.1 true = .ok ex_dirs_walk)) ∧
    (scan_disk ex_filters_x ex_tree_dirs ex_state ex_catalog_none).toOption.map
      (fun m => (m.disk.dirlist.map (fun d => (heap_get m.disk.dirmem d).toOption.map
        snapraid_dir.sub), m.disk.filelist, m.scan.count_insert)) =
      some ([some "d", some "p/c"], [], 2) :=
  ⟨⟨emptydir_recording.1 ex_filters_x "/mnt/d1/" "" ex_dirs_entries
      { state := ex_state, disk := ex_catalog_none, scan := scan_init } ex_dirs_walk (by rfl),
    by rfl⟩,
   emptydir_recording.2 ex_filters_x "/mnt/d1/" "" "d"
     (.cons "x" (.reg ex_stat_a) (.cons "s" .special .nil))
     (.cons "p" (.dir (.cons "c" (.dir .nil) .nil)) .nil)
     { state := ex_state, disk := ex_catalog_none, scan := scan_init } false ex_dirs_walk
     (by rfl) (by rfl),
   by rfl⟩

/-- The unchanged case stops with the inode inconsistency exactly when both
the sub-path and the inode of the file differ from those of the live entry. -/
theorem scan_file_unchanged_error (m : Mem) (file : Nat) (f : snapraid_file) (sub : String)
    (st : Stat) (e : Fatal) :
    scan_file_unchanged m file f sub st = .error e ↔
      (e = Fatal.inode_inconsistency ∧ f.sub ≠ sub ∧ f.inode ≠ st.st_ino) := by
  unfold scan_file_unchanged
  by_cases h1 : f.sub = sub <;> by_cases h2 : f.inode = st.st_ino <;>
    simp [h1, h2, pure, Except.pure, throw, throwThe, MonadExceptOf.throw, eq_comm]

theorem scan_file_changed_error_kind {m : Mem} {file : Nat} {f : snapraid_file} {sub : String}
    {st : Stat} {e : Fatal} (h : scan_file_changed m file f sub st = .error e) :
    e = Fatal.zero_size ∨ e = Fatal.memory_error ∨ e = Fatal.block_state_inconsistency := by
  unfold scan_file_changed at h
  split at h
  · cases h; exact Or.inl rfl
  · rcases bind_error.1 h with h | ⟨m1, _, h⟩
    · exact Or.inr (scan_file_remove_error_kind h)
    · cases h

/-- The file the lookup of `scan_file` returns has the searched key: the
sub-path by name, the inode otherwise. -/
theorem scan_file_lookup_match {m : Mem} {sub : String} {st : Stat} {file : Nat}
    (h : scan_file_lookup m sub st = some file) :
    ∃ f, heap_get m.disk.filemem file = .ok f ∧
      (if m.state.find_by_name then f.sub = sub else f.inode = st.st_ino) := by
  unfold scan_file_lookup at h
  split at h
  · next hb =>
    rcases tommy_hashdyn_search_some h with ⟨_, f, hf, hk⟩
    exact ⟨f, hf, by rw [if_pos hb]; exact hk⟩
  · next hb =>
    rcases tommy_hashdyn_search_some h with ⟨_, f, hf, hk⟩
    exact ⟨f, hf, by rw [if_neg hb]; exact hk⟩

/-- C25 (unreachable inconsistency branch).  The unchanged case of `scan_file`
stops with the inode inconsistency exactly when the sub-path and the inode of
the file both differ from those of the live entry.  The path table returns
only a file with the searched sub-path and the inode table only a file with
the searched inode, so, for either setting of `find_by_name`, no call of
`scan_file` stops with that error. -/
theorem inconsistency_unreachable :
    (∀ (m : Mem) (file : Nat) (f : snapraid_file) (sub : String) (st : Stat),
      scan_file_unchanged m file f sub st = .error Fatal.inode_inconsistency ↔
        (f.sub ≠ sub ∧ f.inode ≠ st.st_ino)) ∧
    (∀ (m : Mem) (sub : String) (st : Stat) (file : Nat),
      scan_file_lookup m sub st = some file →
      ∃ f, heap_get m.disk.filemem file = .ok f ∧
        (if m.state.find_by_name then f.sub = sub else f.inode = st.st_ino)) ∧
    (∀ (m : Mem) (sub : String) (st : Stat),
      scan_file m sub st ≠ .error Fatal.inode_inconsistency) := by
  refine ⟨?_, fun m sub st file h => scan_file_lookup_match h, ?_⟩
  · intro m file f sub st
    rw [scan_file_unchanged_error]
    simp
  · intro m sub st h
    unfold scan_file at h
    split at h
    · next file hl =>
      rcases scan_file_lookup_match hl with ⟨f0, hf0, hkey⟩
      rcases bind_error.1 h with h | ⟨f, hf, h⟩
      · have := heap_get_error h
        cases this
      · rw [hf0] at hf
        cases hf
        split at h
        · split at h
          · rcases scan_link_error h with h | h <;> cases h
          · cases h
        · split at h
          · rcases (scan_file_unchanged_error _ _ _ _ _ _).1 h with ⟨_, h1, h2⟩
            split at hkey
            · exact h1 hkey
            · exact h2 hkey
          · rcases scan_file_changed_error_kind h with h | h | h <;> cases h
    · cases h

theorem inconsistency_unreachable_witness :
    scan_file_unchanged ex_scan_start 0 ex_file_a "z"
        { ex_stat_a with st_ino := 999 } = .error Fatal.inode_inconsistency ∧
    scan_file ex_scan_start "z" { ex_stat_a with st_ino := 999 } ≠
      .error Fatal.inode_inconsistency ∧
    scan_file_lookup ex_scan_start "z" { ex_stat_a with st_ino := 999 } = none :=
  ⟨(inconsistency_unreachable.1 ex_scan_start 0 ex_file_a "z"
      { ex_stat_a with st_ino := 999 }).2 (by decide),
    inconsistency_unreachable.2.2 ex_scan_start "z" { ex_stat_a with st_ino := 999 },
    by rfl⟩

theorem slots_deref_get {disk : snapraid_disk} (h : slots_deref disk) {t : Nat} {p : BlockPtr}
    (ht : disk.blockarr[t]? = some (some p)) : ∃ b, block_get disk p = .ok b := by
  rcases List.getElem?_eq_some.1 ht with ⟨hl, he⟩
  have := h t hl
  rw [he] at this
  simp only [] at this
  cases hb : block_get disk p with
  | ok b => exact ⟨b, rfl⟩
  | error e => rw [hb] at this; cases this

theorem slots_deref_of {disk : snapraid_disk}
    (h : ∀ (t : Nat) (p : BlockPtr), disk.blockarr[t]? = some (some p) →
      ∃ b, block_get disk p = .ok b) :
    slots_deref disk := by
  intro t ht
  split
  · next p hp =>
    rcases h t p (by rw [List.getElem?_eq_getElem ht, hp]) with ⟨b, hb⟩
    rw [hb]; rfl
  · trivial

theorem remove_loop_bounds : ∀ (rest : List snapraid_block) (disk disk' : snapraid_disk),
    hint_in_bounds disk → rest.foldlM scan_file_remove_block disk = .ok disk' →
    hint_in_bounds disk' :=
  foldlM_preserves hint_in_bounds scan_file_remove_block (by
    intro d b d' hd h1
    rcases remove_block_ok h1 with ⟨_, _, hd1⟩
    rw [hd1]
    unfold hint_in_bounds at hd ⊢
    simp only [List.length_set]
    omega)

theorem scan_file_remove_bounds {m m' : Mem} {file : Nat} (hb : hint_in_bounds m.disk)
    (h : scan_file_remove m file = .ok m') : hint_in_bounds m'.disk := by
  unfold scan_file_remove at h
  rcases bind_ok.1 h with ⟨f, hf, h⟩
  rcases bind_ok.1 h with ⟨disk1, h1, h⟩
  simp only [pure, Except.pure, Except.ok.injEq] at h
  subst h
  exact remove_loop_bounds _ _ disk1 hb h1

theorem scan_file_insert_bounds {m m' : Mem} {file : Nat} (hb : hint_in_bounds m.disk)
    (h : scan_file_insert m file = .ok m') : hint_in_bounds m'.disk := by
  have hf : ∃ f, heap_get m.disk.filemem file = .ok f := by
    unfold scan_file_insert at h
    rcases bind_ok.1 h with ⟨f, hf, _⟩
    exact ⟨f, hf⟩
  rcases hf with ⟨f, hf⟩
  rcases scan_file_insert_loop hf h with ⟨s, fk, inv, _, harr, _, _, hff⟩
  unfold hint_in_bounds at hb ⊢
  rw [hff, harr]
  split
  · next hn =>
    have hn' : f.blockvec.length - 1 + 1 = f.blockvec.length := by omega
    rcases inv.last (f.blockvec.length - 1) hn' with ⟨b', hb', hpos⟩
    rcases inv.done (f.blockvec.length - 1) (by omega) with ⟨_, b'', _, hb'', _, _, _, hslot, _⟩
    rw [hb'] at hb''
    cases hb''
    rcases List.getElem?_eq_some.1 hslot with ⟨hl, _⟩
    omega
  · have := inv.len_ge
    omega

/-- The search loop returns whenever no pointer of the array dangles: its
reads of the array are below `block_max`, the length of the array. -/
theorem find_free_block_returns {disk : snapraid_disk} {block_max : Nat}
    (hmax : block_max = disk.blockarr.length) (hd : slots_deref disk) :
    ∀ (fuel pos : Nat), ∃ p, find_free_block disk block_max fuel pos = .ok p
  | 0, pos => ⟨pos, rfl⟩
  | fuel + 1, pos => by
    rw [find_free_block]
    split
    · next hlt =>
      have hl : pos < disk.blockarr.length := by omega
      have hget : tommy_array_get disk.blockarr pos = .ok disk.blockarr[pos] := by
        simp [tommy_array_get, List.getElem?_eq_getElem hl]
      rw [hget]
      simp only [bind, Except.bind]
      cases hc : disk.blockarr[pos] with
      | none =>
        simp [block_has_file, pure, Except.pure]
      | some p =>
        rcases @slots_deref_get disk hd pos p
          (by rw [List.getElem?_eq_getElem hl, hc]) with ⟨b, hb⟩
        simp only [block_has_file, hb, bind, Except.bind, pure, Except.pure]
        split
        · exact find_free_block_returns hmax hd fuel (pos + 1)
        · exact ⟨pos, rfl⟩
    · exact ⟨pos, rfl⟩

/-- Where the search stops: at most at `block_max`; every index it has read is
below the length of the array; and it has stopped by its own test, at
`block_max` or on a slot that is not live. -/
theorem find_free_block_bounds {s : InsertLoop} {pos : Nat}
    (hle : s.block_pos ≤ s.block_max) (hmax : s.block_max = s.disk.blockarr.length)
    (h : find_free_block s.disk s.block_max (s.block_max - s.block_pos) s.block_pos = .ok pos) :
    (∀ t, s.block_pos ≤ t → t < pos → t < s.disk.blockarr.length) ∧
    s.block_pos ≤ pos ∧ pos ≤ s.block_max ∧
    (pos = s.block_max ∨
      (pos < s.disk.blockarr.length ∧
        ∃ c, s.disk.blockarr[pos]? = some c ∧ block_has_file s.disk c = .ok false)) ∧
    (insert_grow s pos).blockarr.length =
      (if pos = s.block_max then s.disk.blockarr.length + 1 else s.disk.blockarr.length) ∧
    pos < (insert_grow s pos).blockarr.length := by
  rcases find_free_block_ok s.disk s.block_max _ _ _ (Nat.le_refl _) h with ⟨h1, h2, h3⟩
  have hpm : pos ≤ s.block_max := by
    by_contra hc
    have := (h2 s.block_max hle (by omega)).1
    omega
  have hlen : (insert_grow s pos).blockarr.length =
      (if pos = s.block_max then s.disk.blockarr.length + 1 else s.disk.blockarr.length) := by
    unfold insert_grow
    split
    · simp only [tommy_array_grow, List.length_append, List.length_replicate]; omega
    · rfl
  refine ⟨fun t ht1 ht2 => by have := (h2 t ht1 ht2).1; omega, h1, hpm, ?_, hlen, ?_⟩
  · rcases h3 with h3 | ⟨c, hc, hf⟩
    · exact Or.inl (by omega)
    · rcases List.getElem?_eq_some.1 hc with ⟨hl, _⟩
      exact Or.inr ⟨hl, c, hc, hf⟩
  · rw [hlen]
    split
    · omega
    · next hne => omega

theorem block_get_set_file {disk : snapraid_disk} {file k : Nat} {f : snapraid_file}
    {nb : snapraid_block} {arr : List (Option BlockPtr)}
    (hf : heap_get disk.filemem file = .ok f) {p : BlockPtr} {b : snapraid_block}
    (hb : block_get disk p = .ok b) :
    ∃ b', block_get { disk with
      filemem := heap_set disk.filemem file { f with blockvec := f.blockvec.set k nb }
      blockarr := arr } p = .ok b' := by
  cases p with
  | deleted d => exact ⟨b, hb⟩
  | file g j =>
    simp only [block_get] at hb ⊢
    rcases bind_ok.1 hb with ⟨fg, hfg, hb2⟩
    by_cases hg : file = g
    · subst hg
      rw [hf] at hfg
      cases hfg
      rw [heap_get_set_self hf]
      simp only [bind, Except.bind]
      cases hj : f.blockvec[j]? with
      | none => rw [hj] at hb2; cases hb2
      | some bj =>
        have hjl : j < f.blockvec.length := by
          rcases List.getElem?_eq_some.1 hj with ⟨hl, _⟩; exact hl
        have : j < (f.blockvec.set k nb).length := by simpa using hjl
        rw [List.getElem?_eq_getElem this]
        exact ⟨_, rfl⟩
    · rw [heap_get_set_ne hg, hfg]
      exact ⟨b, hb2⟩

/-- One iteration of the loop of `scan_file_insert` returns, with the
invariant, for a block index below the number of blocks of the file. -/
theorem insert_block_returns {file n k : Nat} {s : InsertLoop}
    (inv : BoundsInv file n s) (hk : k < n) :
    ∃ s', scan_file_insert_block file s k = .ok s' ∧ BoundsInv file n s' := by
  rcases inv.alloc with ⟨f, hf, hlen⟩
  rcases find_free_block_returns inv.max_eq inv.deref (s.block_max - s.block_pos) s.block_pos
    with ⟨pos, hpos⟩
  rcases find_free_block_bounds inv.pos_le inv.max_eq hpos with ⟨_, _, hpm, hstop, hglen, hplt⟩
  have hfm : (insert_grow s pos).filemem = s.disk.filemem := by
    unfold insert_grow; split <;> rfl
  have hbg : ∀ p, block_get (insert_grow s pos) p = block_get s.disk p := by
    intro p; unfold insert_grow; split <;> rfl
  have hkl : k < f.blockvec.length := by omega
  -- the slot read at `pos` and the block written
  have hslot : ∃ nb, insert_new_block s.disk f.blockvec[k] pos (insert_grow s pos).blockarr[pos]
      = .ok nb := by
    cases hc : (insert_grow s pos).blockarr[pos] with
    | none => exact ⟨_, rfl⟩
    | some p =>
      have hold := @insert_grow_get s pos pos p
        (by rw [List.getElem?_eq_getElem hplt, hc])
      rcases slots_deref_get inv.deref hold with ⟨b, hb⟩
      simp only [insert_new_block, hb, bind, Except.bind, pure, Except.pure]
      exact ⟨_, rfl⟩
  rcases hslot with ⟨nb, hnb⟩
  have hstep : scan_file_insert_block file s k = .ok
      { disk := { s.disk with
          filemem := heap_set s.disk.filemem file { f with blockvec := f.blockvec.set k nb }
          blockarr := (insert_grow s pos).blockarr.set pos (some (.file file k)) }
        block_pos := pos
        block_max := if pos = s.block_max then s.block_max + 1 else s.block_max } := by
    unfold scan_file_insert_block
    rw [hpos]
    simp only [bind, Except.bind]
    have hg : (if pos = s.block_max then
        { s.disk with blockarr := tommy_array_grow s.disk.blockarr (s.block_max + 1) }
      else s.disk) = insert_grow s pos := rfl
    simp only [hg, hfm, hf, List.getElem?_eq_getElem hkl, pure, Except.pure]
    have hget : tommy_array_get (insert_grow s pos).blockarr pos =
        .ok (insert_grow s pos).blockarr[pos] := by
      simp [tommy_array_get, List.getElem?_eq_getElem hplt]
    rw [hget]
    simp only []
    have hset : tommy_array_set (insert_grow s pos).blockarr pos (some (.file file k)) =
        .ok ((insert_grow s pos).blockarr.set pos (some (.file file k))) := by
      simp [tommy_array_set, hplt]
    cases hc : (insert_grow s pos).blockarr[pos] with
    | none =>
      rw [hc] at hnb
      simp only [insert_new_block, Except.ok.injEq] at hnb
      simp only [hset]
      rw [← hnb]
      unfold insert_grow
      split <;> rfl
    | some p =>
      rw [hc] at hnb
      simp only [insert_new_block, hbg] at hnb ⊢
      rcases bind_ok.1 hnb with ⟨old, hold, hnb2⟩
      simp only [pure, Except.pure, Except.ok.injEq] at hnb2
      rw [hold]
      simp only [hset]
      rw [← hnb2]
      unfold insert_grow
      split <;> rfl
  refine ⟨_, hstep, ?_, ?_, ?_, ?_⟩
  · show pos ≤ (if pos = s.block_max then s.block_max + 1 else s.block_max)
    split <;> omega
  · show (if pos = s.block_max then s.block_max + 1 else s.block_max) =
      ((insert_grow s pos).blockarr.set pos (some (.file file k))).length
    rw [List.length_set, hglen, inv.max_eq]
  · exact ⟨_, heap_get_set_self hf, by simpa using hlen⟩
  · refine slots_deref_of ?_
    intro t p ht
    simp only [] at ht
    by_cases htp : pos = t
    · subst htp
      rw [List.getElem?_set_self hplt] at ht
      simp only [Option.some.injEq] at ht
      subst ht
      simp only [block_get]
      rw [heap_get_set_self hf]
      simp only [bind, Except.bind]
      have : k < (f.blockvec.set k nb).length := by simpa using hkl
      rw [List.getElem?_eq_getElem this]
      exact ⟨_, rfl⟩
    · rw [List.getElem?_set_ne htp] at ht
      rcases slots_deref_get inv.deref (insert_grow_get ht) with ⟨b, hb⟩
      exact block_get_set_file hf hb

theorem insert_loop_returns {file n : Nat} : ∀ (k : Nat) (s0 : InsertLoop),
    BoundsInv file n s0 → k ≤ n →
    ∃ s, (List.range k).foldlM (scan_file_insert_block file) s0 = .ok s ∧ BoundsInv file n s := by
  intro k
  induction k with
  | zero => intro s0 inv _; exact ⟨s0, rfl, inv⟩
  | succ k ih =>
    intro s0 inv hk
    rcases ih s0 inv (by omega) with ⟨s1, h1, inv1⟩
    rcases insert_block_returns inv1 (show k < n by omega) with ⟨s2, h2, inv2⟩
    refine ⟨s2, ?_, inv2⟩
    rw [List.range_succ, List.foldlM_append, h1]
    simp only [bind, Except.bind, List.foldlM_cons, List.foldlM_nil]
    rw [h2]
    rfl

/-- The function `scan_file_insert` returns whenever the hint is in bounds,
the file is allocated and no pointer of the block array dangles. -/
theorem scan_file_insert_returns {m : Mem} {file : Nat} {f : snapraid_file}
    (hb : hint_in_bounds m.disk) (hf : heap_get m.disk.filemem file = .ok f)
    (hd : slots_deref m.disk) : ∃ m', scan_file_insert m file = .ok m' := by
  have inv0 : BoundsInv file f.blockvec.length
      { disk := m.disk, block_pos := m.disk.first_free_block,
        block_max := m.disk.blockarr.length } := ⟨hb, rfl, ⟨f, hf, rfl⟩, hd⟩
  rcases insert_loop_returns f.blockmax _ inv0 (Nat.le_refl _) with ⟨s, hs, _⟩
  unfold scan_file_insert
  rw [hf]
  simp only [bind, Except.bind]
  rw [hs]
  exact ⟨_, rfl⟩

/-- C26 (in-bounds allocation).  The predicate `first_free_block <= length of
the block array` is preserved by `scan_file_remove` and by `scan_file_insert`.
Under it, in an iteration of the loop of `scan_file_insert`, every index the
search reads is below the length of the array, the search stops by its own
test at most at the end of the array, the array is grown by one exactly when
the search stops at its end, and the index then read and written is below the
length of the array; so `scan_file_insert` on an allocated file returns (no
access outside the array, the search ends) whenever no pointer of the array
dangles, with the predicate holding again. -/
theorem in_bounds_allocation :
    (∀ (m m' : Mem) (file : Nat), hint_in_bounds m.disk →
      scan_file_remove m file = .ok m' → hint_in_bounds m'.disk) ∧
    (∀ (m m' : Mem) (file : Nat), hint_in_bounds m.disk →
      scan_file_insert m file = .ok m' → hint_in_bounds m'.disk) ∧
    (∀ (s : InsertLoop) (pos : Nat), s.block_pos ≤ s.block_max →
      s.block_max = s.disk.blockarr.length →
      find_free_block s.disk s.block_max (s.block_max - s.block_pos) s.block_pos = .ok pos →
      (∀ t, s.block_pos ≤ t → t < pos → t < s.disk.blockarr.length) ∧
      s.block_pos ≤ pos ∧ pos ≤ s.block_max ∧
      (pos = s.block_max ∨
        (pos < s.disk.blockarr.length ∧
          ∃ c, s.disk.blockarr[pos]? = some c ∧ block_has_file s.disk c = .ok false)) ∧
      (insert_grow s pos).blockarr.length =
        (if pos = s.block_max then s.disk.blockarr.length + 1 else s.disk.blockarr.length) ∧
      pos < (insert_grow s pos).blockarr.length) ∧
    (∀ (m : Mem) (file : Nat) (f : snapraid_file), hint_in_bounds m.disk →
      heap_get m.disk.filemem file = .ok f → slots_deref m.disk →
      ∃ m', scan_file_insert m file = .ok m' ∧ hint_in_bounds m'.disk) := by
  refine ⟨fun m m' file hb h => scan_file_remove_bounds hb h,
    fun m m' file hb h => scan_file_insert_bounds hb h,
    fun s pos h1 h2 h3 => find_free_block_bounds h1 h2 h3, ?_⟩
  intro m file f hb hf hd
  rcases scan_file_insert_returns hb hf hd with ⟨m', h⟩
  exact ⟨m', h, scan_file_insert_bounds hb h⟩

theorem in_bounds_allocation_witness :
    hint_in_bounds ex_mem_removed.disk ∧ hint_in_bounds ex_mem_inserted.disk ∧
    (∃ m', scan_file_insert ex_mem_removed 2 = .ok m' ∧ hint_in_bounds m'.disk) :=
  ⟨in_bounds_allocation.1 ex_mem ex_mem_removed 0 (by decide) (by rfl),
   in_bounds_allocation.2.1 ex_mem_removed ex_mem_inserted 2 (by decide) (by rfl),
   in_bounds_allocation.2.2.2 ex_mem_removed 2 ex_file_c (by decide) (by rfl) (by decide)⟩

theorem file_unplaced_get {disk : snapraid_disk} {file : Nat} (h : file_unplaced disk file)
    {t j : Nat} : disk.blockarr[t]? ≠ some (some (BlockPtr.file file j)) := by
  intro hc
  have := h _ (List.getElem?_mem hc)
  simp at this

theorem slot_live_past_end {disk : snapraid_disk} {t : Nat} (h : disk.blockarr.length ≤ t) :
    slot_live disk t = false := by
  unfold slot_live
  rw [List.getElem?_eq_none h]

theorem low_inv_step {file : Nat} {f0 : snapraid_file} {disk0 : snapraid_disk} {k : Nat}
    {s s' : InsertLoop} {fk : snapraid_file}
    (hfresh : file_unplaced disk0 file)
    (inv : LowInv file f0 disk0 k s fk)
    (h : scan_file_insert_block file s k = .ok s') :
    ∃ fk', LowInv file f0 disk0 (k + 1) s' fk' := by
  rcases insert_inv_step inv.base h with ⟨fk', base'⟩
  rcases insert_block_ok h with ⟨pos, f, b, c, nb, hpos, hf, hb, hc, hnb, hs'⟩
  have hffk : f = fk := by
    have := inv.base.file_eq
    rw [hf] at this
    cases this; rfl
  subst hffk
  rcases find_free_block_ok s.disk s.block_max _ _ _ (Nat.le_refl _) hpos with ⟨hle, hlive, hstop⟩
  have hklt : k < f.blockvec.length := by
    rcases List.getElem?_eq_some.1 hb with ⟨hl, _⟩; exact hl
  have hmem' : s'.disk.filemem =
      heap_set s.disk.filemem file { f with blockvec := f.blockvec.set k nb } := by rw [hs']
  have hpos' : s'.block_pos = pos := by rw [hs']
  have hfk' : fk' = { f with blockvec := f.blockvec.set k nb } := by
    have := base'.file_eq
    rw [hmem', heap_get_set_self hf] at this
    cases this; rfl
  have hold : ∀ i, i < k → fk'.blockvec[i]? = f.blockvec[i]? := by
    intro i hi
    rw [hfk']
    exact List.getElem?_set_ne (by omega)
  have hnew : fk'.blockvec[k]? = some nb := by
    rw [hfk']
    simp [List.getElem?_set_self hklt]
  have hnbpos : nb.parity_pos = pos := insert_new_block_pos hnb
  -- the slots assigned so far are live now
  have hassigned : ∀ (i : Nat) (b' : snapraid_block), i < k → f.blockvec[i]? = some b' →
      slot_live s.disk b'.parity_pos = true := by
    intro i b' hi hb'
    rcases inv.base.done i hi with ⟨_, b'', _, hb'', _, _, hst, hslot, _⟩
    rw [hb'] at hb''
    cases hb''
    exact slot_live_of_has_file hslot (block_has_file_live hf hb' hst)
  -- the slots not assigned so far are as live as before the loop
  have htransfer : ∀ t, (∀ (i : Nat) (b' : snapraid_block), i < k → f.blockvec[i]? = some b' → b'.parity_pos ≠ t) →
      slot_live s.disk t = slot_live disk0 t := by
    intro t ht
    have harr := inv.base.other t ht
    refine slot_live_congr harr ?_
    intro p hp
    cases p with
    | deleted d =>
      simp only [block_get]
      rw [inv.base.deleted_eq]
    | file g j =>
      have hg : g ≠ file := by
        rintro rfl
        exact file_unplaced_get hfresh hp
      simp only [block_get]
      rw [inv.mem_other g hg]
  refine ⟨fk', base', ?_, ?_, ?_⟩
  · intro g hg
    rw [hmem', heap_get_set_ne (Ne.symm hg)]
    exact inv.mem_other g hg
  · intro i b' hi hb'
    by_cases hik : i < k
    · rw [hold i hik] at hb'
      exact inv.free i b' hik hb'
    · have hie : k = i := by omega
      subst hie
      rw [hnew] at hb'
      cases hb'
      rw [hnbpos]
      rcases hstop with hge | ⟨c', hc', hf'⟩
      · have h1 := inv.base.max_eq
        have h2 := inv.base.len_ge
        exact slot_live_past_end (by omega)
      · have hdead : slot_live s.disk pos = false := slot_live_false_of_has_file hc' hf'
        have hun : ∀ (i : Nat) (b' : snapraid_block), i < k → f.blockvec[i]? = some b' → b'.parity_pos ≠ pos := by
          intro i b' hi hb' hc
          have := hassigned i b' hi hb'
          rw [hc, hdead] at this
          cases this
        rw [← htransfer pos hun]
        exact hdead
  · intro t ht1 ht2 hfree
    rw [hpos'] at ht2
    by_cases hlt : t < s.block_pos
    · rcases inv.lowest t ht1 hlt hfree with ⟨i, b', hi, hb', hbt⟩
      exact ⟨i, b', by omega, by rw [hold i hi]; exact hb', hbt⟩
    · by_contra hno
      have hun : ∀ (i : Nat) (b' : snapraid_block), i < k → f.blockvec[i]? = some b' → b'.parity_pos ≠ t := by
        intro i b' hi hb' hc
        exact hno ⟨i, b', by omega, by rw [hold i hi]; exact hb', hc⟩
      rcases hlive t (by omega) ht2 with ⟨_, c', hc', hf'⟩
      have hl := slot_live_of_has_file hc' hf'
      rw [htransfer t hun, hfree] at hl
      cases hl

theorem low_inv_loop {file : Nat} {f0 : snapraid_file} {disk0 : snapraid_disk}
    (hfresh : file_unplaced disk0 file) :
    ∀ (n : Nat) (s0 s : InsertLoop),
      LowInv file f0 disk0 0 s0 f0 →
      (List.range n).foldlM (scan_file_insert_block file) s0 = .ok s →
      ∃ fk, LowInv file f0 disk0 n s fk := by
  intro n
  induction n with
  | zero =>
    intro s0 s inv h
    simp [pure, Except.pure] at h
    subst h
    exact ⟨f0, inv⟩
  | succ n ih =>
    intro s0 s inv h
    rw [List.range_succ, List.foldlM_append] at h
    rcases bind_ok.1 h with ⟨s1, h1, h2⟩
    rcases ih s0 s1 inv h1 with ⟨fk, inv1⟩
    simp only [List.foldlM_cons, List.foldlM_nil] at h2
    rcases bind_ok.1 h2 with ⟨s2, h3, h4⟩
    simp only [pure, Except.pure, Except.ok.injEq] at h4
    subst h4
    exact low_inv_step hfresh inv1 h3

/-- The slots given to a file by a returning `scan_file_insert` are the lowest
not-live indices from the hint on. -/
theorem scan_file_insert_lowest (m m' : Mem) (file : Nat) (f : snapraid_file)
    (hf : heap_get m.disk.filemem file = .ok f)
    (hfresh : file_unplaced m.disk file)
    (h : scan_file_insert m file = .ok m') :
    ∃ f', heap_get m'.disk.filemem file = .ok f' ∧
      f'.blockvec.length = f.blockvec.length ∧
      (∀ (i : Nat) (b : snapraid_block), f'.blockvec[i]? = some b →
        m.disk.first_free_block ≤ b.parity_pos ∧ slot_live m.disk b.parity_pos = false ∧
        m'.disk.blockarr[b.parity_pos]? = some (some (BlockPtr.file file i))) ∧
      (∀ (i j : Nat) (bi bj : snapraid_block), i < j → f'.blockvec[i]? = some bi → f'.blockvec[j]? = some bj →
        bi.parity_pos < bj.parity_pos) ∧
      (∀ (t i : Nat) (b : snapraid_block), f'.blockvec[i]? = some b → m.disk.first_free_block ≤ t → t < b.parity_pos →
        slot_live m.disk t = false → ∃ (j : Nat) (bj : snapraid_block), f'.blockvec[j]? = some bj ∧ bj.parity_pos = t) ∧
      m.disk.blockarr.length ≤ m'.disk.blockarr.length ∧
      (∀ t, m.disk.blockarr.length ≤ t →
        (t < m'.disk.blockarr.length ↔ ∃ (i : Nat) (b : snapraid_block), f'.blockvec[i]? = some b ∧ b.parity_pos = t)) ∧
      (f.blockvec.length ≠ 0 →
        ∃ b, f'.blockvec[f.blockvec.length - 1]? = some b ∧
          m'.disk.first_free_block = b.parity_pos + 1) ∧
      (f.blockvec.length = 0 → m'.disk.first_free_block = m.disk.first_free_block) := by
  unfold scan_file_insert at h
  rw [hf] at h
  rcases bind_ok.1 h with ⟨f1, hf1, h⟩
  cases hf1
  rcases bind_ok.1 h with ⟨s, hs, h⟩
  simp only [pure, Except.pure, Except.ok.injEq] at h
  have inv0 : LowInv file f m.disk 0
      { disk := m.disk, block_pos := m.disk.first_free_block,
        block_max := m.disk.blockarr.length } f :=
    ⟨insert_inv_init hf, fun _ _ => rfl, fun _ _ hi => absurd hi (Nat.not_lt_zero _),
      fun t h1 h2 => by simp only [] at h2; omega⟩
  rcases low_inv_loop hfresh f.blockmax _ s inv0 hs with ⟨fk, inv⟩
  have hn : f.blockmax = f.blockvec.length := rfl
  rw [hn] at inv
  have hmem : m'.disk.filemem = s.disk.filemem := by
    rw [← h]; simp only []; split <;> rfl
  have harr : m'.disk.blockarr = s.disk.blockarr := by
    rw [← h]; simp only []; split <;> rfl
  have hff : m'.disk.first_free_block =
      (if f.blockvec.length ≠ 0 then s.block_pos + 1 else s.disk.first_free_block) := by
    rw [← h]; simp only [snapraid_file.blockmax]; split <;> rfl
  have hidx : ∀ (i : Nat) (b : snapraid_block), fk.blockvec[i]? = some b → i < f.blockvec.length := by
    intro i b hb
    rcases List.getElem?_eq_some.1 hb with ⟨hl, _⟩
    rw [inv.base.len_eq] at hl
    exact hl
  have hassigned : ∀ t, (∃ (i : Nat) (b : snapraid_block), fk.blockvec[i]? = some b ∧ b.parity_pos = t) ∨
      s.disk.blockarr[t]? = m.disk.blockarr[t]? := by
    intro t
    by_cases hex : ∃ (i : Nat) (b : snapraid_block), fk.blockvec[i]? = some b ∧ b.parity_pos = t
    · exact Or.inl hex
    · right
      refine inv.base.other t ?_
      intro i b' _ hb' hc
      exact hex ⟨i, b', hb', hc⟩
  refine ⟨fk, by rw [hmem]; exact inv.base.file_eq, inv.base.len_eq, ?_, ?_, ?_, ?_, ?_, ?_, ?_⟩
  · intro i b hb
    have hi := hidx i b hb
    rcases inv.base.done i hi with ⟨_, b', _, hb', _, hlo, _, hslot, _⟩
    rw [hb] at hb'
    cases hb'
    exact ⟨hlo, inv.free i b hi hb, by rw [harr]; exact hslot⟩
  · intro i j bi bj hij hbi hbj
    exact inv.base.mono i j bi bj hij (hidx j bj hbj) hbi hbj
  · intro t i b hb ht1 ht2 hfree
    have hi := hidx i b hb
    rcases inv.base.done i hi with ⟨_, b', _, hb', hle, _⟩
    rw [hb] at hb'
    cases hb'
    rcases inv.lowest t ht1 (by omega) hfree with ⟨j, bj, _, hbj, hbt⟩
    exact ⟨j, bj, hbj, hbt⟩
  · rw [harr]; exact inv.base.len_ge
  · intro t ht
    rw [harr]
    constructor
    · intro hlt
      rcases hassigned t with hex | heq
      · exact hex
      · rw [List.getElem?_eq_getElem hlt, List.getElem?_eq_none ht] at heq
        cases heq
    · rintro ⟨i, b, hb, rfl⟩
      have hi := hidx i b hb
      rcases inv.base.done i hi with ⟨_, b', _, hb', _, _, _, hslot, _⟩
      rw [hb] at hb'
      cases hb'
      rcases List.getElem?_eq_some.1 hslot with ⟨hl, _⟩
      exact hl
  · intro hne
    have hn' : f.blockvec.length - 1 + 1 = f.blockvec.length := by omega
    rcases inv.base.last (f.blockvec.length - 1) hn' with ⟨b', hb', hpos⟩
    exact ⟨b', hb', by rw [hff, if_pos hne, hpos]⟩
  · intro h0
    rw [hff, if_neg (by simpa using h0)]
    have hnil : List.range f.blockmax = [] := by rw [hn, h0]; rfl
    rw [hnil] at hs
    simp [pure, Except.pure] at hs
    rw [← hs]

/-- C24 (lowest-free allocation).  Take a disk with `first_free_block` at most the length of the block array and
no dangling pointer in the array, and an allocated file of `n` blocks to which
no slot of the array points.  Then `scan_file_insert` returns, the file has
its `n` blocks, and the slots assigned to them are the `n`
lowest indices at or above `first_free_block` that were not live (EMPTY,
a tombstone, or past the end of the array), in strictly increasing order: every
assigned slot is at or above the hint, was not live and now points to its
block; the positions increase strictly with the block index; and every index
between the hint and an assigned slot that was not live is itself assigned.
The array keeps its old slots and has grown by exactly the assigned indices
past its old end.  Afterwards `first_free_block` is the slot of the last
block plus one when `n > 0`, and is unchanged when `n == 0`. -/
theorem lowest_free_allocation (m : Mem) (file : Nat) (f : snapraid_file)
    (hb : hint_in_bounds m.disk) (hd : slots_deref m.disk)
    (hf : heap_get m.disk.filemem file = .ok f)
    (hfresh : file_unplaced m.disk file) :
    ∃ m', scan_file_insert m file = .ok m' ∧
      ∃ f', heap_get m'.disk.filemem file = .ok f' ∧
        f'.blockvec.length = f.blockvec.length ∧
        (∀ (i : Nat) (b : snapraid_block), f'.blockvec[i]? = some b →
          m.disk.first_free_block ≤ b.parity_pos ∧ slot_live m.disk b.parity_pos = false ∧
          m'.disk.blockarr[b.parity_pos]? = some (some (BlockPtr.file file i))) ∧
        (∀ (i j : Nat) (bi bj : snapraid_block), i < j → f'.blockvec[i]? = some bi → f'.blockvec[j]? = some bj →
          bi.parity_pos < bj.parity_pos) ∧
        (∀ (t i : Nat) (b : snapraid_block), f'.blockvec[i]? = some b → m.disk.first_free_block ≤ t → t < b.parity_pos →
          slot_live m.disk t = false → ∃ (j : Nat) (bj : snapraid_block), f'.blockvec[j]? = some bj ∧ bj.parity_pos = t) ∧
        m.disk.blockarr.length ≤ m'.disk.blockarr.length ∧
        (∀ t, m.disk.blockarr.length ≤ t →
          (t < m'.disk.blockarr.length ↔ ∃ (i : Nat) (b : snapraid_block), f'.blockvec[i]? = some b ∧ b.parity_pos = t)) ∧
        (f.blockvec.length ≠ 0 →
          ∃ b, f'.blockvec[f.blockvec.length - 1]? = some b ∧
            m'.disk.first_free_block = b.parity_pos + 1) ∧
        (f.blockvec.length = 0 → m'.disk.first_free_block = m.disk.first_free_block) := by
  rcases scan_file_insert_returns hb hf hd with ⟨m', h⟩
  exact ⟨m', h, scan_file_insert_lowest m m' file f hf hfresh h⟩

theorem lowest_free_allocation_witness :
    ∃ m', scan_file_insert ex_mem_removed 2 = .ok m' ∧
      ∃ f', heap_get m'.disk.filemem 2 = .ok f' ∧
        f'.blockvec.length = ex_file_c.blockvec.length ∧
        (∀ (i : Nat) (b : snapraid_block), f'.blockvec[i]? = some b →
          ex_mem_removed.disk.first_free_block ≤ b.parity_pos ∧ slot_live ex_mem_removed.disk b.parity_pos = false ∧
          m'.disk.blockarr[b.parity_pos]? = some (some (BlockPtr.file 2 i))) ∧
        (∀ (i j : Nat) (bi bj : snapraid_block), i < j → f'.blockvec[i]? = some bi → f'.blockvec[j]? = some bj →
          bi.parity_pos < bj.parity_pos) ∧
        (∀ (t i : Nat) (b : snapraid_block), f'.blockvec[i]? = some b → ex_mem_removed.disk.first_free_block ≤ t → t < b.parity_pos →
          slot_live ex_mem_removed.disk t = false → ∃ (j : Nat) (bj : snapraid_block), f'.blockvec[j]? = some bj ∧ bj.parity_pos = t) ∧
        ex_mem_removed.disk.blockarr.length ≤ m'.disk.blockarr.length ∧
        (∀ t, ex_mem_removed.disk.blockarr.length ≤ t →
          (t < m'.disk.blockarr.length ↔ ∃ (i : Nat) (b : snapraid_block), f'.blockvec[i]? = some b ∧ b.parity_pos = t)) ∧
        (ex_file_c.blockvec.length ≠ 0 →
          ∃ b, f'.blockvec[ex_file_c.blockvec.length - 1]? = some b ∧
            m'.disk.first_free_block = b.parity_pos + 1) ∧
        (ex_file_c.blockvec.length = 0 → m'.disk.first_free_block = ex_mem_removed.disk.first_free_block) :=
  lowest_free_allocation ex_mem_removed 2 ex_file_c (by decide) (by decide) (by rfl) (by decide)

theorem scan_file_lookup_mem {m : Mem} {sub : String} {st : Stat} {file : Nat}
    (h : scan_file_lookup m sub st = some file) :
    file ∈ m.disk.pathset ++ m.disk.inodeset := by
  unfold scan_file_lookup tommy_hashdyn_search at h
  split at h
  · exact List.mem_append_left _ (List.mem_of_find?_eq_some h)
  · exact List.mem_append_right _ (List.mem_of_find?_eq_some h)

theorem scan_link_count {T0 : Nat} {m m' : Mem} {sub linkto : String} {kind : LinkKind}
    (hi : CountInv T0 m) (h : scan_link m sub linkto kind = .ok m') :
    CountInv T0 m' ∧ count_calls m'.scan = count_calls m.scan + 1 := by
  have ht := hi.total
  have hl := hi.listed
  unfold scan_total list_total staged_total at ht
  rcases scan_link_cases h with ⟨_, rfl⟩ | ⟨l, ll, _, _, _, ⟨_, _, rfl⟩ | ⟨_, rfl⟩⟩
  · refine ⟨⟨hl, ?_⟩, ?_⟩
    · simp only [scan_total, list_total, staged_total, List.length_append, List.length_singleton]
      omega
    · simp only [count_calls]; omega
  · refine ⟨⟨hl, ?_⟩, ?_⟩
    · simp only [scan_total, list_total, staged_total]
      omega
    · simp only [count_calls]; omega
  · refine ⟨⟨hl, ?_⟩, ?_⟩
    · simp only [scan_total, list_total, staged_total]
      omega
    · simp only [count_calls]; omega

theorem scan_emptydir_count {T0 : Nat} {m m' : Mem} {sub : String}
    (hi : CountInv T0 m) (h : scan_emptydir m sub = .ok m') :
    CountInv T0 m' ∧ count_calls m'.scan = count_calls m.scan + 1 := by
  have ht := hi.total
  have hl := hi.listed
  unfold scan_total list_total staged_total at ht
  rcases scan_emptydir_cases h with ⟨_, rfl⟩ | ⟨l, ll, _, _, _, rfl⟩
  · refine ⟨⟨hl, ?_⟩, ?_⟩
    · simp only [scan_total, list_total, staged_total, List.length_append, List.length_singleton]
      omega
    · simp only [count_calls]; omega
  · refine ⟨⟨hl, ?_⟩, ?_⟩
    · simp only [scan_total, list_total, staged_total]
      omega
    · simp only [count_calls]; omega

/-- The staging of a new file keeps the invariant when its insertion has been
counted or is paid by a removal. -/
theorem scan_file_add_count {T0 : Nat} {m : Mem} {sub : String} {st : Stat}
    (hl : ∀ g f, g ∈ m.disk.pathset ++ m.disk.inodeset →
      heap_get m.disk.filemem g = .ok f → f.present = false → g ∈ m.disk.filelist)
    (ht : list_total m.disk + (staged_total m.scan + 1) + m.scan.count_remove =
      T0 + m.scan.count_insert) :
    CountInv T0 (scan_file_add m sub st) ∧ (scan_file_add m sub st).scan.count_equal =
      m.scan.count_equal ∧ (scan_file_add m sub st).scan.count_moved = m.scan.count_moved ∧
      (scan_file_add m sub st).scan.count_change = m.scan.count_change ∧
      (scan_file_add m sub st).scan.count_insert = m.scan.count_insert := by
  unfold list_total staged_total at ht
  refine ⟨⟨?_, ?_⟩, rfl, rfl, rfl, rfl⟩
  · intro g f hg hget hp
    simp only [scan_file_add, heap_alloc] at hg hget ⊢
    rcases heap_get_append hget with ⟨_, hold⟩ | ⟨_, rfl⟩
    · have hg' : g ∈ m.disk.pathset ++ m.disk.inodeset ∨ g = m.disk.filemem.length := by
        simp only [List.mem_append, List.mem_singleton] at hg ⊢
        tauto
      rcases hg' with hg' | rfl
      · exact hl g f hg' hold hp
      · have := heap_get_lt hold
        omega
    · simp at hp
  · simp only [scan_total, list_total, staged_total, scan_file_add, heap_alloc,
      List.length_append, List.length_singleton]
    omega

/-- The removal of a file of the file list shortens the list by one and keeps
the rest of the invariant. -/
theorem scan_file_remove_count {m m' : Mem} {file : Nat}
    (hl : ∀ g f, g ∈ m.disk.pathset ++ m.disk.inodeset →
      heap_get m.disk.filemem g = .ok f → f.present = false → g ∈ m.disk.filelist)
    (hmem : file ∈ m.disk.filelist)
    (h : scan_file_remove m file = .ok m') :
    (∀ g f, g ∈ m'.disk.pathset ++ m'.disk.inodeset →
      heap_get m'.disk.filemem g = .ok f → f.present = false → g ∈ m'.disk.filelist) ∧
    list_total m'.disk + 1 = list_total m.disk ∧ m'.scan = m.scan := by
  rcases scan_file_remove_frame h with
    ⟨hs, _, hfm, hfl, hps, his, _, hll, _, _, hdl, _, _, _, _⟩
  refine ⟨?_, ?_, hs⟩
  · intro g f hg hget hp
    rw [hfm] at hget
    rcases heap_get_free hget with ⟨hne, hold⟩
    rw [hps, his] at hg
    have hg' : g ∈ m.disk.pathset ++ m.disk.inodeset := by
      simp only [List.mem_append] at hg ⊢
      rcases hg with hg | hg
      · exact Or.inl (List.mem_of_mem_erase hg)
      · exact Or.inr (List.mem_of_mem_erase hg)
    rw [hfl]
    exact (List.mem_erase_of_ne hne).2 (hl g f hg' hold hp)
  · unfold list_total
    rw [hfl, hll, hdl, List.length_erase_of_mem hmem]
    have := List.length_pos_of_mem hmem
    omega

theorem scan_file_changed_count {m m' : Mem} {file : Nat} {f : snapraid_file} {sub : String}
    {st : Stat} (h : scan_file_changed m file f sub st = .ok m') :
    ∃ m1, scan_file_remove
        { m with scan :=
          if f.sub = sub then { m.scan with count_change := m.scan.count_change + 1 }
          else { m.scan with
            count_remove := m.scan.count_remove + 1
            count_insert := m.scan.count_insert + 1 } } file = .ok m1 ∧
      m' = scan_file_add m1 sub st := by
  unfold scan_file_changed at h
  split at h
  · cases h
  · rcases bind_ok.1 h with ⟨m1, h1, h2⟩
    simp only [pure, Except.pure, Except.ok.injEq] at h2
    exact ⟨m1, h1, h2.symm⟩

theorem scan_file_count {T0 : Nat} {m m' : Mem} {sub : String} {st : Stat}
    (hi : CountInv T0 m) (h : scan_file m sub st = .ok m') :
    CountInv T0 m' ∧ count_calls m'.scan = count_calls m.scan + 1 := by
  have ht := hi.total
  have hl := hi.listed
  unfold scan_total at ht
  rcases scan_file_cases h with ⟨_, rfl⟩ | ⟨file, f, _, _, _, _, hlk⟩ |
    ⟨file, f, hlook, hget, hpres, _, hu⟩ | ⟨file, f, hlook, hget, hpres, _, hc⟩
  · rcases @scan_file_add_count T0
      { m with scan := { m.scan with count_insert := m.scan.count_insert + 1 } } sub st hl
      (by simp only [staged_total] at ht ⊢; omega) with ⟨inv, e1, e2, e3, e4⟩
    refine ⟨inv, ?_⟩
    simp only [count_calls, e1, e2, e3, e4]
    omega
  · exact scan_link_count hi hlk
  · unfold list_total staged_total at ht
    rcases scan_file_unchanged_cases hu with ⟨nsec, nw, _, _, h1 | h1 | h1⟩ <;>
    · rcases h1 with ⟨_, _, rfl⟩
      refine ⟨⟨?_, ?_⟩, ?_⟩
      · intro g f' hg hget' hp
        simp only [] at hg hget' ⊢
        rcases heap_get_set hget' with ⟨_, rfl⟩ | ⟨hne, hold⟩
        · simp at hp
        · refine hl g f' ?_ hold hp
          simp only [List.mem_append, List.mem_singleton] at hg ⊢
          rcases hg with hg | hg
          · first
            | exact Or.inl hg
            | (rcases hg with hg | hg
               · exact Or.inl (List.mem_of_mem_erase hg)
               · exact absurd hg hne)
          · first
            | exact Or.inr hg
            | (rcases hg with hg | hg
               · exact Or.inr (List.mem_of_mem_erase hg)
               · exact absurd hg hne)
      · simp only [scan_total, list_total, staged_total]
        omega
      · simp only [count_calls]; omega
  · have hmem : file ∈ m.disk.filelist := hl file f (scan_file_lookup_mem hlook) hget hpres
    rcases scan_file_changed_count hc with ⟨m1, hr, rfl⟩
    rcases @scan_file_remove_count
      { m with scan :=
        if f.sub = sub then { m.scan with count_change := m.scan.count_change + 1 }
        else { m.scan with
          count_remove := m.scan.count_remove + 1
          count_insert := m.scan.count_insert + 1 } } m1 file hl hmem hr with ⟨hl1, ht1, hs1⟩
    have ht1' : list_total m1.disk + 1 = list_total m.disk := ht1
    by_cases hsub : f.sub = sub
    · rw [if_pos hsub] at hr hs1
      rcases @scan_file_add_count T0 m1 sub st hl1
        (by rw [hs1]; simp only [staged_total] at ht ⊢; omega) with ⟨inv, e1, e2, e3, e4⟩
      refine ⟨inv, ?_⟩
      simp only [count_calls, e1, e2, e3, e4, hs1]
      omega
    · rw [if_neg hsub] at hr hs1
      rcases @scan_file_add_count T0 m1 sub st hl1
        (by rw [hs1]; simp only [staged_total] at ht ⊢; omega) with ⟨inv, e1, e2, e3, e4⟩
      refine ⟨inv, ?_⟩
      simp only [count_calls, e1, e2, e3, e4, hs1]
      omega

theorem scan_event_count {T0 : Nat} {m m' : Mem} {e : Event}
    (hi : CountInv T0 m) (h : scan_event m e = .ok m') :
    CountInv T0 m' ∧ count_calls m'.scan = count_calls m.scan + 1 ∧ ∀ x, e ≠ Event.fail x := by
  cases e with
  | file sub st =>
    rcases scan_file_count hi h with ⟨a, b⟩
    exact ⟨a, b, fun x hx => by cases hx⟩
  | link sub linkto =>
    rcases scan_link_count hi h with ⟨a, b⟩
    exact ⟨a, b, fun x hx => by cases hx⟩
  | emptydir sub =>
    rcases scan_emptydir_count hi h with ⟨a, b⟩
    exact ⟨a, b, fun x hx => by cases hx⟩
  | fail x => cases h

/-- A walk that returns made one call for each of its events, none of them a
failure, and each call raised the sum of the four counters by one. -/
theorem walk_count {T0 : Nat} : ∀ (H : List Event) (m m' : Mem), CountInv T0 m →
    H.foldlM scan_event m = .ok m' →
    CountInv T0 m' ∧ count_calls m'.scan = count_calls m.scan + H.length ∧
      ∀ e ∈ H, ∀ x, e ≠ Event.fail x
  | [], m, m', hi, h => by
    simp only [List.foldlM_nil, pure, Except.pure, Except.ok.injEq] at h
    subst h
    exact ⟨hi, rfl, fun e he => by cases he⟩
  | e :: H, m, m', hi, h => by
    rw [List.foldlM_cons] at h
    rcases bind_ok.1 h with ⟨m1, h1, h2⟩
    rcases scan_event_count hi h1 with ⟨hi1, c1, n1⟩
    rcases walk_count H m1 m' hi1 h2 with ⟨hi2, c2, n2⟩
    refine ⟨hi2, ?_, ?_⟩
    · rw [c2, c1, List.length_cons]; omega
    · intro e' he'
      rcases List.mem_cons.1 he' with rfl | he'
      · exact n1
      · exact n2 e' he'

theorem erase_mid (K : List Nat) (x : Nat) (L : List Nat) :
    ∃ K', (K ++ x :: L).erase x = K' ++ L := by
  by_cases hx : x ∈ K
  · refine ⟨K.erase x ++ [x], ?_⟩
    rw [List.erase_append_left _ hx]
    simp
  · refine ⟨K, ?_⟩
    rw [List.erase_append_right _ hx, List.erase_cons_head]

/-- A removal sweep keeps the balance and the sum of the four counters: each
step either leaves the memory as it is or removes the element it visits from
the list swept, counting one removal. -/
theorem sweep_count {T0 : Nat} (sel : Mem → List Nat) (step : Mem → Nat → Except Fatal Mem)
    (hstep : ∀ m x m', step m x = .ok m' → m' = m ∨
      (sel m' = (sel m).erase x ∧ count_calls m'.scan = count_calls m.scan ∧
        (x ∈ sel m → scan_total T0 m → scan_total T0 m'))) :
    ∀ (L : List Nat) (m m' : Mem) (K : List Nat), sel m = K ++ L → scan_total T0 m →
      L.foldlM step m = .ok m' →
      scan_total T0 m' ∧ count_calls m'.scan = count_calls m.scan
  | [], m, m', K, _, ht, h => by
    simp only [List.foldlM_nil, pure, Except.pure, Except.ok.injEq] at h
    subst h
    exact ⟨ht, rfl⟩
  | x :: L, m, m', K, hK, ht, h => by
    rw [List.foldlM_cons] at h
    rcases bind_ok.1 h with ⟨m1, h1, h2⟩
    rcases hstep m x m1 h1 with rfl | ⟨hsel, hc, hT⟩
    · exact sweep_count sel step hstep L m1 m' (K ++ [x]) (by rw [hK]; simp) ht h2
    · rcases erase_mid K x L with ⟨K', hK'⟩
      have hx : x ∈ sel m := by rw [hK]; simp
      rcases sweep_count sel step hstep L m1 m' K' (by rw [hsel, hK, hK']) (hT hx ht) h2
        with ⟨a, b⟩
      exact ⟨a, b.trans hc⟩

theorem sweep_file_count {T0 : Nat} (m : Mem) (x : Nat) (m' : Mem)
    (h : sweep_file m x = .ok m') : m' = m ∨
      (m'.disk.filelist = m.disk.filelist.erase x ∧ count_calls m'.scan = count_calls m.scan ∧
        (x ∈ m.disk.filelist → scan_total T0 m → scan_total T0 m')) := by
  rcases sweep_file_cases h with ⟨f, _, ⟨_, rfl⟩ | ⟨_, hr⟩⟩
  · exact Or.inl rfl
  · right
    rcases scan_file_remove_frame hr with
      ⟨hs, _, _, hfl, _, _, _, hll, _, _, hdl, _, _, _, _⟩
    refine ⟨hfl, by rw [hs]; rfl, ?_⟩
    intro hx ht
    unfold scan_total list_total at ht ⊢
    rw [hs, hfl, hll, hdl]
    simp only [] at hx ⊢
    rw [List.length_erase_of_mem hx]
    have := List.length_pos_of_mem hx
    simp only [staged_total] at ht ⊢
    omega

theorem sweep_link_count {T0 : Nat} (m : Mem) (x : Nat) (m' : Mem)
    (h : sweep_link m x = .ok m') : m' = m ∨
      (m'.disk.linklist = m.disk.linklist.erase x ∧ count_calls m'.scan = count_calls m.scan ∧
        (x ∈ m.disk.linklist → scan_total T0 m → scan_total T0 m')) := by
  rcases sweep_link_cases h with ⟨f, _, ⟨_, rfl⟩ | ⟨_, rfl⟩⟩
  · exact Or.inl rfl
  · right
    refine ⟨rfl, rfl, ?_⟩
    intro hx ht
    unfold scan_total list_total at ht ⊢
    simp only [scan_link_remove, staged_total] at ht ⊢
    rw [List.length_erase_of_mem hx]
    have := List.length_pos_of_mem hx
    omega

theorem sweep_dir_count {T0 : Nat} (m : Mem) (x : Nat) (m' : Mem)
    (h : sweep_dir m x = .ok m') : m' = m ∨
      (m'.disk.dirlist = m.disk.dirlist.erase x ∧ count_calls m'.scan = count_calls m.scan ∧
        (x ∈ m.disk.dirlist → scan_total T0 m → scan_total T0 m')) := by
  rcases sweep_dir_cases h with ⟨f, _, ⟨_, rfl⟩ | ⟨_, rfl⟩⟩
  · exact Or.inl rfl
  · right
    refine ⟨rfl, rfl, ?_⟩
    intro hx ht
    unfold scan_total list_total at ht ⊢
    simp only [scan_emptydir_remove, staged_total] at ht ⊢
    rw [List.length_erase_of_mem hx]
    have := List.length_pos_of_mem hx
    omega

/-- The counters of the scan of one disk that returns. -/
theorem scan_disk_count {flt : Filters} {fs : String → FsNode} {state : snapraid_state}
    {disk : snapraid_disk} {m' : Mem} (hwf : tables_listed disk)
    (h : scan_disk flt fs state disk = .ok m') :
    list_total m'.disk + m'.scan.count_remove = list_total disk + m'.scan.count_insert ∧
    count_calls m'.scan = (disk_events flt fs disk).length ∧
    ∀ e ∈ disk_events flt fs disk, ∀ x, e ≠ Event.fail x := by
  rcases scan_disk_ok h with ⟨r, m1, m2, m3, m4, hw, h1, h2, h3, h4, h5⟩
  have hev := scan_dir_events flt fs { state := state, disk := disk, scan := scan_init }
  simp only [] at hev
  rw [hw] at hev
  have inv0 : CountInv (list_total disk) { state := state, disk := disk, scan := scan_init } :=
    ⟨fun g _ hg _ _ => hwf g hg, by simp [scan_total, staged_total, scan_init]⟩
  rcases walk_count _ _ r.1 inv0 hev.symm with ⟨invr, cr, nf⟩
  rcases sweep_count (fun m => m.disk.filelist) sweep_file sweep_file_count _ r.1 m1 []
    (by simp) invr.total h1 with ⟨t1, c1⟩
  rcases sweep_count (fun m => m.disk.linklist) sweep_link sweep_link_count _ m1 m2 []
    (by simp) t1 h2 with ⟨t2, c2⟩
  rcases sweep_count (fun m => m.disk.dirlist) sweep_dir sweep_dir_count _ m2 m3 []
    (by simp) t2 h3 with ⟨t3, c3⟩
  rcases insert_files_cat _ _ _ h4 with ⟨cat, s4⟩
  rcases insert_links_cat m4.scan.link_insert_list m4 with ⟨d5, s5⟩
  rcases insert_dirs_cat (m4.scan.link_insert_list.foldl scan_link_insert m4).scan.dir_insert_list
    (m4.scan.link_insert_list.foldl scan_link_insert m4) with ⟨d6, s6⟩
  rw [← h5] at d6 s6
  have hscan : m'.scan = m3.scan := by rw [s6, s5, s4]
  have hfl : m'.disk.filelist = m3.disk.filelist ++ m3.scan.file_insert_list := by
    rw [d6, d5]; exact cat.filelist
  have hll : m'.disk.linklist = m3.disk.linklist ++ m3.scan.link_insert_list := by
    rw [d6, d5]; simp only []; rw [cat.linklist, s4]
  have hdl : m'.disk.dirlist = m3.disk.dirlist ++ m3.scan.dir_insert_list := by
    rw [d6, s5, d5]; simp only []; rw [cat.dirlist, s4]
  refine ⟨?_, ?_, nf⟩
  · unfold scan_total list_total staged_total at t3
    unfold list_total
    rw [hfl, hll, hdl, hscan]
    simp only [List.length_append]
    omega
  · rw [hscan, c3, c2, c1, cr]
    simp [count_calls, scan_init]

/-- The results of the loop over the disks are those of the scans of the disks,
position by position. -/
theorem state_scan_disks_prefix (flt : Filters) (fs : String → FsNode) :
    ∀ (disklist : List snapraid_disk) (r0 r : ScanResult),
      state_scan_disks flt fs disklist r0 = .ok r →
      ∃ D S, r.disklist = r0.disklist ++ D ∧ r.scanlist = r0.scanlist ++ S
  | [], r0, r, h => by
    simp only [state_scan_disks, pure, Except.pure, Except.ok.injEq] at h
    subst h
    exact ⟨[], [], by simp, by simp⟩
  | disk :: rest, r0, r, h => by
    rw [state_scan_disks] at h
    rcases bind_ok.1 h with ⟨m, hm, h2⟩
    rcases state_scan_disks_prefix flt fs rest _ r h2 with ⟨D, S, hD, hS⟩
    exact ⟨m.disk :: D, m.scan :: S, by rw [hD]; simp, by rw [hS]; simp⟩

theorem state_scan_disks_nth (flt : Filters) (fs : String → FsNode) :
    ∀ (disklist : List snapraid_disk) (r0 r : ScanResult),
      state_scan_disks flt fs disklist r0 = .ok r →
      r0.disklist.length = r0.scanlist.length →
      ∀ (i : Nat) (d : snapraid_disk), disklist[i]? = some d →
        ∃ state m', scan_disk flt fs state d = .ok m' ∧
          r.disklist[r0.disklist.length + i]? = some m'.disk ∧
          r.scanlist[r0.disklist.length + i]? = some m'.scan
  | [], r0, r, h, _, i, d, hd => by simp at hd
  | disk :: rest, r0, r, h, hlen, i, d, hd => by
    rw [state_scan_disks] at h
    rcases bind_ok.1 h with ⟨m, hm, h2⟩
    have ih := state_scan_disks_nth flt fs rest _ r h2 (by simp [hlen])
    cases i with
    | zero =>
      simp only [List.getElem?_cons_zero, Option.some.injEq] at hd
      subst hd
      rcases state_scan_disks_prefix flt fs rest _ r h2 with ⟨D, S, hD, hS⟩
      refine ⟨r0.state, m, hm, ?_, ?_⟩
      · rw [hD]
        simp only [Nat.add_zero, List.append_assoc]
        rw [List.getElem?_append_right (Nat.le_refl _)]
        simp
      · rw [hS, hlen]
        simp only [Nat.add_zero, List.append_assoc]
        rw [List.getElem?_append_right (Nat.le_refl _)]
        simp
    | succ i =>
      simp only [List.getElem?_cons_succ] at hd
      rcases ih i d hd with ⟨st, m', a, b, c⟩
      simp only [List.length_append, List.length_singleton] at b c
      refine ⟨st, m', a, ?_, ?_⟩
      · rw [← b]; congr 1; omega
      · rw [← c]; congr 1; omega

/-- C27 (counter conservation).  For a disk whose two file tables hold only
files of the file list and whose scan returns: the number of entries of its
file, link and dir lists after the scan is the number before the scan plus
`count_insert` minus `count_remove`; the walk made no failing call, and the
number of calls of `scan_file`, `scan_link` and `scan_emptydir` it made is
`count_equal + count_moved + count_change + count_insert`.  The same holds for
each disk of a `state_scan` that returns, with the disk and the counters at the
position of the disk in the result. -/
theorem counter_conservation :
    (∀ (flt : Filters) (fs : String → FsNode) (state : snapraid_state) (disk : snapraid_disk)
      (m' : Mem), tables_listed disk → scan_disk flt fs state disk = .ok m' →
      list_total m'.disk = list_total disk + m'.scan.count_insert - m'.scan.count_remove ∧
      m'.scan.count_remove ≤ list_total disk + m'.scan.count_insert ∧
      (∀ e ∈ disk_events flt fs disk, ∀ x, e ≠ Event.fail x) ∧
      (disk_events flt fs disk).length =
        m'.scan.count_equal + m'.scan.count_moved + m'.scan.count_change +
          m'.scan.count_insert) ∧
    (∀ (flt : Filters) (fs : String → FsNode) (state : snapraid_state)
      (disklist : List snapraid_disk) (r : ScanResult),
      (∀ d ∈ disklist, tables_listed d) → state_scan flt fs state disklist = .ok r →
      ∀ (i : Nat) (d : snapraid_disk), disklist[i]? = some d →
        ∃ d' sc, r.disklist[i]? = some d' ∧ r.scanlist[i]? = some sc ∧
          list_total d' = list_total d + sc.count_insert - sc.count_remove ∧
          sc.count_remove ≤ list_total d + sc.count_insert ∧
          (disk_events flt fs d).length =
            sc.count_equal + sc.count_moved + sc.count_change + sc.count_insert) := by
  refine ⟨?_, ?_⟩
  · intro flt fs state disk m' hwf h
    rcases scan_disk_count hwf h with ⟨a, b, c⟩
    refine ⟨by omega, by omega, c, ?_⟩
    rw [← b]; rfl
  · intro flt fs state disklist r hwf h i d hd
    rcases state_scan_disks_nth flt fs disklist _ r (state_scan_ok h) rfl i d hd
      with ⟨st, m', hm, hD, hS⟩
    simp only [List.length_nil, Nat.zero_add] at hD hS
    rcases scan_disk_count (hwf d (List.getElem?_mem hd)) hm with ⟨a, b, _⟩
    refine ⟨m'.disk, m'.scan, hD, hS, by omega, by omega, ?_⟩
    rw [← b]; rfl

theorem counter_conservation_witness :
    tables_listed ex_catalog ∧
    (∃ d' sc, ex_scanned.disklist[0]? = some d' ∧ ex_scanned.scanlist[0]? = some sc ∧
      list_total d' = list_total ex_catalog + sc.count_insert - sc.count_remove ∧
      sc.count_remove ≤ list_total ex_catalog + sc.count_insert ∧
      (disk_events ex_filters ex_tree ex_catalog).length =
        sc.count_equal + sc.count_moved + sc.count_change + sc.count_insert) ∧
    ex_scanned.scanlist.map count_calls = [2] ∧
    ex_scanned.scanlist.map snapraid_scan.count_remove = [1] ∧
    ex_scanned.scanlist.map snapraid_scan.count_insert = [1] ∧
    ex_scanned.disklist.map list_total = [2] :=
  ⟨by decide,
   counter_conservation.2 ex_filters ex_tree ex_state [ex_catalog] ex_scanned
     (by decide) (by rfl) 0 ex_catalog (by rfl),
   by rfl, by rfl, by rfl, by rfl⟩

theorem keep_log_mem (t : Traced) (x : Except Fatal Mem) :
    (keep_log t x).map Traced.mem = x := by
  cases x <;> rfl

theorem record_mem (t : Traced) (o : Op) (x : Except Fatal Mem) :
    (record t o x).map Traced.mem = x := by
  cases x <;> rfl

theorem keep_log_ok {t t' : Traced} {x : Except Fatal Mem} (h : keep_log t x = .ok t') :
    t'.log = t.log := by
  cases x with
  | error e => cases h
  | ok m => cases h; rfl

theorem record_ok {t t' : Traced} {o : Op} {x : Except Fatal Mem}
    (h : record t o x = .ok t') : t'.log = t.log ++ [o] := by
  cases x with
  | error e => cases h
  | ok m => cases h; rfl

theorem scan_file_changed_traced_mem (t : Traced) (file : Nat) (f : snapraid_file)
    (sub : String) (st : Stat) :
    (scan_file_changed_traced t file f sub st).map Traced.mem =
      scan_file_changed t.mem file f sub st := by
  unfold scan_file_changed_traced scan_file_changed
  split
  · rfl
  · simp only []
    cases scan_file_remove _ file <;> rfl

theorem scan_file_traced_mem (t : Traced) (sub : String) (st : Stat) :
    (scan_file_traced t sub st).map Traced.mem = scan_file t.mem sub st := by
  unfold scan_file_traced scan_file
  cases scan_file_lookup t.mem sub st with
  | none => rfl
  | some file =>
    simp only []
    cases heap_get t.mem.disk.filemem file with
    | error e => rfl
    | ok f =>
      simp only [bind, Except.bind]
      split
      · split
        · exact keep_log_mem _ _
        · rfl
      · split
        · exact keep_log_mem _ _
        · exact scan_file_changed_traced_mem _ _ _ _ _

theorem scan_dir_loop_traced_nil (flt : Filters) (dir sub : String) (t : Traced) (q : Bool) :
    scan_dir_loop_traced flt dir sub .nil t q = .ok (t, q) := rfl

/-- One iteration of the recorded loop of `scan_dir`, by kind of entry. -/
theorem scan_dir_loop_traced_cons (flt : Filters) (dir sub : String) (t : Traced) (q : Bool)
    (name : String) (node : FsNode) (rest : FsEntries) :
    scan_dir_loop_traced flt dir sub (.cons name node rest) t q =
    if name = "." ∨ name = ".." then
      scan_dir_loop_traced flt dir sub rest t q
    else if name_unsupported name then
      .error Fatal.unsupported_name
    else if flt.filter_hidden name then
      scan_dir_loop_traced flt dir sub rest t q
    else if flt.filter_content (dir ++ name) then
      scan_dir_loop_traced flt dir sub rest t q
    else
      match node with
      | .nostat => .error Fatal.stat_error
      | .reg st =>
        if flt.filter_path t.mem.disk.name (sub ++ name) = false then
          scan_file_traced t (sub ++ name) st >>= fun t1 =>
            scan_dir_loop_traced flt dir sub rest t1 true
        else
          scan_dir_loop_traced flt dir sub rest t q
      | .lnk linkto =>
        if flt.filter_path t.mem.disk.name (sub ++ name) = false then
          if linkto.length ≥ flt.path_max then
            .error Fatal.readlink_too_long
          else
            keep_log t (scan_link t.mem (sub ++ name) linkto LinkKind.FILE_IS_SYMLINK) >>=
              fun t1 => scan_dir_loop_traced flt dir sub rest t1 true
        else
          scan_dir_loop_traced flt dir sub rest t q
      | .dir entries =>
        if flt.filter_dir t.mem.disk.name (sub ++ name) = false then
          scan_dir_loop_traced flt (pathslash (dir ++ name)) (pathslash (sub ++ name)) entries t
              false >>= fun r =>
            (if r.2 = false then keep_log r.1 (scan_emptydir r.1.mem (sub ++ name))
              else .ok r.1) >>= fun t2 =>
                scan_dir_loop_traced flt dir sub rest t2 true
        else
          scan_dir_loop_traced flt dir sub rest t q
      | .dir_noopen =>
        if flt.filter_dir t.mem.disk.name (sub ++ name) = false then
          .error Fatal.opendir_error
        else
          scan_dir_loop_traced flt dir sub rest t q
      | .special => scan_dir_loop_traced flt dir sub rest t q := by
  cases node <;> rfl

/-- The recorded loop of `scan_dir` computes the memory and the flag of the
loop of `scan_dir`, and fails when it fails. -/
theorem scan_dir_loop_traced_mem (flt : Filters) :
    ∀ (entries : FsEntries) (dir sub : String) (t : Traced) (q : Bool),
      (scan_dir_loop_traced flt dir sub entries t q).map traced_result =
        scan_dir_loop flt dir sub entries t.mem q
  | .nil, dir, sub, t, q => rfl
  | .cons name node rest, dir, sub, t, q => by
    rw [scan_dir_loop_traced_cons, scan_dir_loop_cons]
    have ih := scan_dir_loop_traced_mem flt rest dir sub
    by_cases c1 : name = "." ∨ name = ".."
    · rw [if_pos c1, if_pos c1]; exact ih t q
    rw [if_neg c1, if_neg c1]
    by_cases c2 : name_unsupported name
    · rw [if_pos c2, if_pos c2]; rfl
    rw [if_neg c2, if_neg c2]
    by_cases c3 : flt.filter_hidden name = true
    · rw [if_pos c3, if_pos c3]; exact ih t q
    rw [if_neg c3, if_neg c3]
    by_cases c4 : flt.filter_content (dir ++ name) = true
    · rw [if_pos c4, if_pos c4]; exact ih t q
    rw [if_neg c4, if_neg c4]
    cases node with
    | nostat => rfl
    | reg st =>
      simp only []
      by_cases c5 : flt.filter_path t.mem.disk.name (sub ++ name) = false
      · rw [if_pos c5, if_pos c5, ← scan_file_traced_mem]
        cases scan_file_traced t (sub ++ name) st with
        | error e => rfl
        | ok t1 => exact ih t1 true
      · rw [if_neg c5, if_neg c5]; exact ih t q
    | lnk linkto =>
      simp only []
      by_cases c5 : flt.filter_path t.mem.disk.name (sub ++ name) = false
      · rw [if_pos c5, if_pos c5]
        by_cases c6 : linkto.length ≥ flt.path_max
        · rw [if_pos c6, if_pos c6]; rfl
        · rw [if_neg c6, if_neg c6]
          cases scan_link t.mem (sub ++ name) linkto LinkKind.FILE_IS_SYMLINK with
          | error e => rfl
          | ok m1 => exact ih { mem := m1, log := t.log } true
      · rw [if_neg c5, if_neg c5]; exact ih t q
    | dir entries =>
      simp only []
      by_cases c5 : flt.filter_dir t.mem.disk.name (sub ++ name) = false
      · rw [if_pos c5, if_pos c5,
          ← scan_dir_loop_traced_mem flt entries (pathslash (dir ++ name))
            (pathslash (sub ++ name)) t false]
        cases scan_dir_loop_traced flt (pathslash (dir ++ name)) (pathslash (sub ++ name))
            entries t false with
        | error e => rfl
        | ok r =>
          simp only [Except.map, bind, Except.bind, traced_result]
          by_cases c6 : r.2 = false
          · rw [if_pos c6, if_pos c6]
            cases scan_emptydir r.1.mem (sub ++ name) with
            | error e => rfl
            | ok m2 => exact ih { mem := m2, log := r.1.log } true
          · rw [if_neg c6, if_neg c6]
            exact ih r.1 true
      · rw [if_neg c5, if_neg c5]; exact ih t q
    | dir_noopen =>
      simp only []
      by_cases c5 : flt.filter_dir t.mem.disk.name (sub ++ name) = false
      · rw [if_pos c5, if_pos c5]; rfl
      · rw [if_neg c5, if_neg c5]; exact ih t q
    | special => exact ih t q

theorem scan_dir_traced_mem (flt : Filters) (dir sub : String) (node : FsNode) (t : Traced) :
    (scan_dir_traced flt dir sub node t).map traced_result = scan_dir flt dir sub node t.mem := by
  cases node with
  | dir entries => exact scan_dir_loop_traced_mem flt entries dir sub t false
  | _ => rfl

theorem sweep_file_traced_mem (t : Traced) (file : Nat) :
    (sweep_file_traced t file).map Traced.mem = sweep_file t.mem file := by
  unfold sweep_file_traced sweep_file
  cases heap_get t.mem.disk.filemem file with
  | error e => rfl
  | ok f =>
    simp only [bind, Except.bind]
    split
    · exact record_mem _ _ _
    · rfl

theorem sweep_link_traced_mem (t : Traced) (link : Nat) :
    (sweep_link_traced t link).map Traced.mem = sweep_link t.mem link := by
  unfold sweep_link_traced sweep_link
  cases heap_get t.mem.disk.linkmem link with
  | error e => rfl
  | ok f =>
    simp only [bind, Except.bind]
    split
    · exact record_mem _ _ _
    · rfl

theorem sweep_dir_traced_mem (t : Traced) (dir : Nat) :
    (sweep_dir_traced t dir).map Traced.mem = sweep_dir t.mem dir := by
  unfold sweep_dir_traced sweep_dir
  cases heap_get t.mem.disk.dirmem dir with
  | error e => rfl
  | ok f =>
    simp only [bind, Except.bind]
    split
    · exact record_mem _ _ _
    · rfl

/-- A fold of recorded steps computes the memory of the fold of the steps. -/
theorem foldlM_traced_mem (ft : Traced → Nat → Except Fatal Traced)
    (f : Mem → Nat → Except Fatal Mem)
    (h : ∀ t a, (ft t a).map Traced.mem = f t.mem a) :
    ∀ (l : List Nat) (t : Traced), (l.foldlM ft t).map Traced.mem = l.foldlM f t.mem
  | [], t => rfl
  | a :: l, t => by
    rw [List.foldlM_cons, List.foldlM_cons, ← h t a]
    cases ft t a with
    | error e => rfl
    | ok t1 => exact foldlM_traced_mem ft f h l t1

theorem foldl_traced_mem (ft : Traced → Nat → Traced) (f : Mem → Nat → Mem)
    (h : ∀ t a, (ft t a).mem = f t.mem a) :
    ∀ (l : List Nat) (t : Traced), (l.foldl ft t).mem = l.foldl f t.mem
  | [], t => rfl
  | a :: l, t => by
    rw [List.foldl_cons, List.foldl_cons, ← h t a]
    exact foldl_traced_mem ft f h l (ft t a)

/-- The recorded scan of a disk computes the memory of the scan of the disk,
and fails when it fails. -/
theorem scan_disk_traced_mem (flt : Filters) (fs : String → FsNode) (state : snapraid_state)
    (disk : snapraid_disk) :
    (scan_disk_traced flt fs state disk).map Traced.mem = scan_disk flt fs state disk := by
  unfold scan_disk_traced scan_disk
  simp only []
  rw [← scan_dir_traced_mem flt disk.dir "" (fs disk.dir)
    { mem := { state := state, disk := disk, scan := scan_init }, log := [] }]
  cases scan_dir_traced flt disk.dir "" (fs disk.dir)
      { mem := { state := state, disk := disk, scan := scan_init }, log := [] } with
  | error e => rfl
  | ok r =>
    simp only [Except.map, bind, Except.bind, traced_result]
    have e1 := foldlM_traced_mem sweep_file_traced sweep_file sweep_file_traced_mem
      r.1.mem.disk.filelist r.1
    rw [← e1]
    cases List.foldlM sweep_file_traced r.1 r.1.mem.disk.filelist with
    | error e => rfl
    | ok t1 =>
      simp only [Except.map]
      have e2 := foldlM_traced_mem sweep_link_traced sweep_link sweep_link_traced_mem
        t1.mem.disk.linklist t1
      rw [← e2]
      cases List.foldlM sweep_link_traced t1 t1.mem.disk.linklist with
      | error e => rfl
      | ok t2 =>
        simp only [Except.map]
        have e3 := foldlM_traced_mem sweep_dir_traced sweep_dir sweep_dir_traced_mem
          t2.mem.disk.dirlist t2
        rw [← e3]
        cases List.foldlM sweep_dir_traced t2 t2.mem.disk.dirlist with
        | error e => rfl
        | ok t3 =>
          simp only [Except.map]
          have e4 := foldlM_traced_mem scan_file_insert_traced scan_file_insert
            (fun t a => record_mem t _ _) t3.mem.scan.file_insert_list t3
          rw [← e4]
          cases List.foldlM scan_file_insert_traced t3 t3.mem.scan.file_insert_list with
          | error e => rfl
          | ok t4 =>
            simp only [Except.map, pure, Except.pure, Except.ok.injEq]
            rw [foldl_traced_mem scan_emptydir_insert_traced scan_emptydir_insert
              (fun _ _ => rfl),
              foldl_traced_mem scan_link_insert_traced scan_link_insert (fun _ _ => rfl)]

theorem log_removals_keep {t t' : Traced} {x : Except Fatal Mem} (hp : log_removals t)
    (h : keep_log t x = .ok t') : log_removals t' := by
  intro o ho
  rw [keep_log_ok h] at ho
  exact hp o ho

theorem log_removals_record {t t' : Traced} {o : Op} {x : Except Fatal Mem}
    (hp : log_removals t) (ho : o.phase = 0) (h : record t o x = .ok t') : log_removals t' := by
  intro o' ho'
  rw [record_ok h] at ho'
  rcases List.mem_append.1 ho' with h1 | h1
  · exact hp o' h1
  · simp only [List.mem_singleton] at h1
    rw [h1]; exact ho

theorem scan_file_traced_removals {t t' : Traced} {sub : String} {st : Stat}
    (hp : log_removals t) (h : scan_file_traced t sub st = .ok t') : log_removals t' := by
  unfold scan_file_traced at h
  split at h
  · rcases bind_ok.1 h with ⟨f, _, h⟩
    split at h
    · split at h
      · exact log_removals_keep hp h
      · cases h
    · split at h
      · exact log_removals_keep hp h
      · unfold scan_file_changed_traced at h
        split at h
        · cases h
        · rcases bind_ok.1 h with ⟨t1, h1, h2⟩
          simp only [pure, Except.pure, Except.ok.injEq] at h2
          subst h2
          have hr : log_removals t1 := by
            refine log_removals_record hp ?_ h1
            rfl
          exact hr
  · simp only [pure, Except.pure, Except.ok.injEq] at h
    subst h
    exact hp

/-- The walk records removals only. -/
theorem scan_dir_loop_traced_removals (flt : Filters) :
    ∀ (entries : FsEntries) (dir sub : String) (t : Traced) (q : Bool) (r : Traced × Bool),
      log_removals t → scan_dir_loop_traced flt dir sub entries t q = .ok r → log_removals r.1
  | .nil, _, _, t, q, r, hP, h => by
    rw [scan_dir_loop_traced_nil] at h
    cases h; exact hP
  | .cons name node rest, dir, sub, t, q, r, hP, h => by
    rw [scan_dir_loop_traced_cons] at h
    have ih := scan_dir_loop_traced_removals flt rest dir sub
    split at h
    · exact ih _ _ _ hP h
    · split at h
      · cases h
      · split at h
        · exact ih _ _ _ hP h
        · split at h
          · exact ih _ _ _ hP h
          · cases node with
            | nostat => cases h
            | reg st =>
              simp only [] at h
              split at h
              · rcases bind_ok.1 h with ⟨m1, h1, h2⟩
                exact ih _ _ _ (scan_file_traced_removals hP h1) h2
              · exact ih _ _ _ hP h
            | lnk linkto =>
              simp only [] at h
              split at h
              · split at h
                · cases h
                · rcases bind_ok.1 h with ⟨m1, h1, h2⟩
                  exact ih _ _ _ (log_removals_keep hP h1) h2
              · exact ih _ _ _ hP h
            | dir entries =>
              simp only [] at h
              split at h
              · rcases bind_ok.1 h with ⟨r1, h1, h2⟩
                have hP1 := scan_dir_loop_traced_removals flt entries _ _ _ _ _ hP h1
                rcases bind_ok.1 h2 with ⟨m2, h3, h4⟩
                have hP2 : log_removals m2 := by
                  split at h3
                  · exact log_removals_keep hP1 h3
                  · cases h3; exact hP1
                exact ih _ _ _ hP2 h4
              · exact ih _ _ _ hP h
            | dir_noopen =>
              simp only [] at h
              split at h
              · cases h
              · exact ih _ _ _ hP h
            | special => exact ih _ _ _ hP h

theorem sweep_file_traced_removals (t : Traced) (file : Nat) (t' : Traced)
    (hp : log_removals t) (h : sweep_file_traced t file = .ok t') : log_removals t' := by
  unfold sweep_file_traced at h
  rcases bind_ok.1 h with ⟨f, _, h⟩
  split at h
  · refine log_removals_record hp ?_ h
    rfl
  · cases h; exact hp

theorem sweep_link_traced_removals (t : Traced) (link : Nat) (t' : Traced)
    (hp : log_removals t) (h : sweep_link_traced t link = .ok t') : log_removals t' := by
  unfold sweep_link_traced at h
  rcases bind_ok.1 h with ⟨f, _, h⟩
  split at h
  · refine log_removals_record hp ?_ h
    rfl
  · cases h; exact hp

theorem sweep_dir_traced_removals (t : Traced) (dir : Nat) (t' : Traced)
    (hp : log_removals t) (h : sweep_dir_traced t dir = .ok t') : log_removals t' := by
  unfold sweep_dir_traced at h
  rcases bind_ok.1 h with ⟨f, _, h⟩
  split at h
  · refine log_removals_record hp ?_ h
    rfl
  · cases h; exact hp

/-- The delayed insertion of the files records one call for each file of the
list, in the order of the list. -/
theorem insert_files_log : ∀ (S : List Nat) (t t' : Traced),
    S.foldlM scan_file_insert_traced t = .ok t' → t'.log = t.log ++ S.map Op.file_insert
  | [], t, t', h => by
    simp only [List.foldlM_nil, pure, Except.pure, Except.ok.injEq] at h
    subst h; simp
  | a :: S, t, t', h => by
    rw [List.foldlM_cons] at h
    rcases bind_ok.1 h with ⟨t1, h1, h2⟩
    rw [insert_files_log S t1 t' h2, record_ok h1]
    simp

theorem insert_links_log : ∀ (S : List Nat) (t : Traced),
    (S.foldl scan_link_insert_traced t).log = t.log ++ S.map Op.link_insert
  | [], t => by simp
  | a :: S, t => by
    rw [List.foldl_cons, insert_links_log S _]
    simp [scan_link_insert_traced]

theorem insert_dirs_log : ∀ (S : List Nat) (t : Traced),
    (S.foldl scan_emptydir_insert_traced t).log = t.log ++ S.map Op.dir_insert
  | [], t => by simp
  | a :: S, t => by
    rw [List.foldl_cons, insert_dirs_log S _]
    simp [scan_emptydir_insert_traced]

/-- The record of the scan of a disk that returns: removals, then one insertion
call for each file, then for each link, then for each dir. -/
theorem scan_disk_traced_log {flt : Filters} {fs : String → FsNode} {state : snapraid_state}
    {disk : snapraid_disk} {t : Traced} (h : scan_disk_traced flt fs state disk = .ok t) :
    ∃ (R : List Op) (F L D : List Nat), (∀ o ∈ R, o.phase = 0) ∧
      t.log = R ++ F.map Op.file_insert ++ L.map Op.link_insert ++ D.map Op.dir_insert := by
  unfold scan_disk_traced at h
  simp only [] at h
  rcases bind_ok.1 h with ⟨r, hw, h⟩
  rcases bind_ok.1 h with ⟨t1, h1, h⟩
  rcases bind_ok.1 h with ⟨t2, h2, h⟩
  rcases bind_ok.1 h with ⟨t3, h3, h⟩
  rcases bind_ok.1 h with ⟨t4, h4, h⟩
  simp only [pure, Except.pure, Except.ok.injEq] at h
  have p0 : log_removals r.1 := by
    cases hn : fs disk.dir with
    | dir entries =>
      rw [hn] at hw
      exact scan_dir_loop_traced_removals flt entries _ _ _ _ _ (fun o ho => by cases ho) hw
    | _ => rw [hn] at hw; cases hw
  have p1 := foldlM_preserves log_removals sweep_file_traced
    (fun b a b' => sweep_file_traced_removals b a b') _ _ _ p0 h1
  have p2 := foldlM_preserves log_removals sweep_link_traced
    (fun b a b' => sweep_link_traced_removals b a b') _ _ _ p1 h2
  have p3 := foldlM_preserves log_removals sweep_dir_traced
    (fun b a b' => sweep_dir_traced_removals b a b') _ _ _ p2 h3
  refine ⟨t3.log, t3.mem.scan.file_insert_list, t4.mem.scan.link_insert_list,
    (List.foldl scan_link_insert_traced t4 t4.mem.scan.link_insert_list).mem.scan.dir_insert_list,
    p3, ?_⟩
  rw [← h, insert_dirs_log, insert_links_log, insert_files_log _ _ _ h4]

/-- A record made of removals followed by insertions of files, of links and of
dirs is ordered by phase. -/
theorem phases_ordered {R : List Op} {F L D : List Nat} (hR : ∀ o ∈ R, o.phase = 0) :
    (R ++ F.map Op.file_insert ++ L.map Op.link_insert ++ D.map Op.dir_insert).Pairwise
      (fun a b => a.phase ≤ b.phase) := by
  have hF : ∀ o ∈ F.map Op.file_insert, o.phase = 1 := by
    intro o ho
    rcases List.mem_map.1 ho with ⟨x, _, rfl⟩
    rfl
  have hL : ∀ o ∈ L.map Op.link_insert, o.phase = 2 := by
    intro o ho
    rcases List.mem_map.1 ho with ⟨x, _, rfl⟩
    rfl
  have hD : ∀ o ∈ D.map Op.dir_insert, o.phase = 3 := by
    intro o ho
    rcases List.mem_map.1 ho with ⟨x, _, rfl⟩
    rfl
  have same : ∀ (c : Nat) (l : List Op), (∀ o ∈ l, o.phase = c) →
      l.Pairwise (fun a b => a.phase ≤ b.phase) := by
    intro c l hl
    refine List.pairwise_of_forall_mem_list ?_
    intro a ha b hb
    rw [hl a ha, hl b hb]
  refine List.pairwise_append.2 ⟨List.pairwise_append.2 ⟨List.pairwise_append.2
    ⟨same 0 R hR, same 1 _ hF, ?_⟩, same 2 _ hL, ?_⟩, same 3 _ hD, ?_⟩
  · intro a ha b hb
    rw [hR a ha, hF b hb]; omega
  · intro a ha b hb
    rw [hL b hb]
    rcases List.mem_append.1 ha with ha | ha
    · rw [hR a ha]; omega
    · rw [hF a ha]; omega
  · intro a ha b hb
    rw [hD b hb]
    rcases List.mem_append.1 ha with ha | ha
    · rcases List.mem_append.1 ha with ha | ha
      · rw [hR a ha]; omega
      · rw [hF a ha]; omega
    · rw [hL a ha]; omega

/-- In a record ordered by phase a call of a later phase is never followed by
a call of an earlier phase. -/
theorem phase_order_nth {log : List Op} (h : log.Pairwise (fun a b => a.phase ≤ b.phase))
    {i j : Nat} {a b : Op} (hi : log[i]? = some a) (hj : log[j]? = some b)
    (hlt : b.phase < a.phase) : j < i := by
  by_contra hc
  have hij : i ≤ j := by omega
  rcases Nat.lt_or_eq_of_le hij with hij | rfl
  · rcases List.getElem?_eq_some.1 hi with ⟨hil, rfl⟩
    rcases List.getElem?_eq_some.1 hj with ⟨hjl, rfl⟩
    have := List.pairwise_iff_getElem.1 h i j hil hjl hij
    omega
  · rw [hi] at hj
    cases hj
    omega

/-- C23 (two-phase order).  The scan of one disk with the record of its removal
and insertion calls computes the memory of `scan_disk` and fails when it
fails.  When the scan of a disk returns, its record is ordered by phase: the
removals, made by the walk for a rewritten file or by the removal sweeps, then
the calls of `scan_file_insert`, then those of `scan_link_insert`, then those
of `scan_emptydir_insert`.  So every call of `scan_file_remove` precedes every
call of `scan_file_insert`, and every insertion of a file precedes every
insertion of a link, which precedes every insertion of a dir. -/
theorem two_phase_order :
    (∀ (flt : Filters) (fs : String → FsNode) (state : snapraid_state) (disk : snapraid_disk),
      (scan_disk_traced flt fs state disk).map Traced.mem = scan_disk flt fs state disk) ∧
    (∀ (flt : Filters) (fs : String → FsNode) (state : snapraid_state) (disk : snapraid_disk)
      (m' : Mem), scan_disk flt fs state disk = .ok m' →
      ∃ log, scan_disk_traced flt fs state disk = .ok { mem := m', log := log } ∧
        log.Pairwise (fun a b => a.phase ≤ b.phase) ∧
        (∃ (R : List Op) (F L D : List Nat), (∀ o ∈ R, o.phase = 0) ∧
          log = R ++ F.map Op.file_insert ++ L.map Op.link_insert ++ D.map Op.dir_insert) ∧
        (∀ (i j g f : Nat), log[i]? = some (Op.file_insert f) →
          log[j]? = some (Op.file_remove g) → j < i) ∧
        (∀ (i j l f : Nat), log[i]? = some (Op.link_insert l) →
          log[j]? = some (Op.file_insert f) → j < i) ∧
        (∀ (i j d l : Nat), log[i]? = some (Op.dir_insert d) →
          log[j]? = some (Op.link_insert l) → j < i)) := by
  refine ⟨scan_disk_traced_mem, ?_⟩
  intro flt fs state disk m' h
  have hm := scan_disk_traced_mem flt fs state disk
  rw [h] at hm
  cases ht : scan_disk_traced flt fs state disk with
  | error e => rw [ht] at hm; cases hm
  | ok t =>
    rw [ht] at hm
    simp only [Except.map, Except.ok.injEq] at hm
    subst hm
    rcases scan_disk_traced_log ht with ⟨R, F, L, D, hR, hlog⟩
    have hord : t.log.Pairwise (fun a b => a.phase ≤ b.phase) := by
      rw [hlog]; exact phases_ordered hR
    refine ⟨t.log, rfl, hord, ⟨R, F, L, D, hR, hlog⟩, ?_, ?_, ?_⟩
    · intro i j g f hi hj
      exact phase_order_nth hord hi hj (by simp [Op.phase])
    · intro i j l f hi hj
      exact phase_order_nth hord hi hj (by simp [Op.phase])
    · intro i j d l hi hj
      exact phase_order_nth hord hi hj (by simp [Op.phase])

theorem two_phase_order_witness :
    (∃ log, scan_disk_traced ex_filters ex_tree_order ex_state ex_catalog =
        .ok { mem := ex_mem_order, log := log } ∧
      log.Pairwise (fun a b => a.phase ≤ b.phase) ∧
      (∃ (R : List Op) (F L D : List Nat), (∀ o ∈ R, o.phase = 0) ∧
        log = R ++ F.map Op.file_insert ++ L.map Op.link_insert ++ D.map Op.dir_insert) ∧
      (∀ (i j g f : Nat), log[i]? = some (Op.file_insert f) →
        log[j]? = some (Op.file_remove g) → j < i) ∧
      (∀ (i j l f : Nat), log[i]? = some (Op.link_insert l) →
        log[j]? = some (Op.file_insert f) → j < i) ∧
      (∀ (i j d l : Nat), log[i]? = some (Op.dir_insert d) →
        log[j]? = some (Op.link_insert l) → j < i)) ∧
    (scan_disk_traced ex_filters ex_tree_order ex_state ex_catalog).map Traced.log =
      .ok [Op.file_remove 0, Op.file_remove 1, Op.file_insert 2, Op.link_insert 0,
        Op.dir_insert 0] :=
  ⟨two_phase_order.2 ex_filters ex_tree_order ex_state ex_catalog ex_mem_order (by rfl),
   by rfl⟩

theorem mem_removed_slots {disk : snapraid_disk} {t : Nat} : ∀ {rm : List Nat},
    t ∈ removed_slots disk rm ↔
      ∃ g ∈ rm, ∃ f b, heap_get disk.filemem g = .ok f ∧ b ∈ f.blockvec ∧ b.parity_pos = t
  | [] => by simp [removed_slots]
  | g :: rest => by
    rw [removed_slots, List.mem_append, @mem_removed_slots disk t rest]
    constructor
    · rintro (h | ⟨g', hg', f, b, hf, hb, ht⟩)
      · cases hf : heap_get disk.filemem g with
        | error e => rw [hf] at h; simp at h
        | ok f =>
          rw [hf] at h
          simp only [List.mem_map] at h
          rcases h with ⟨b, hb, ht⟩
          exact ⟨g, by simp, f, b, hf, hb, ht⟩
      · exact ⟨g', List.mem_cons_of_mem _ hg', f, b, hf, hb, ht⟩
    · rintro ⟨g', hg', f, b, hf, hb, ht⟩
      rcases List.mem_cons.1 hg' with rfl | hg'
      · left
        rw [hf]
        simp only [List.mem_map]
        exact ⟨b, hb, ht⟩
      · exact Or.inr ⟨g', hg', f, b, hf, hb, ht⟩

theorem removed_slots_length (disk : snapraid_disk) : ∀ (rm : List Nat),
    (removed_slots disk rm).length = block_count disk rm
  | [] => rfl
  | g :: rest => by
    rw [removed_slots, List.length_append, removed_slots_length disk rest]
    simp only [block_count, List.map_cons, List.sum_cons, file_blocks]
    cases heap_get disk.filemem g with
    | error e => simp
    | ok f => simp [snapraid_file.blockmax]

theorem removed_slots_congr {d d' : snapraid_disk} : ∀ (rm : List Nat),
    (∀ g ∈ rm, heap_get d'.filemem g = heap_get d.filemem g) →
    removed_slots d' rm = removed_slots d rm
  | [], _ => rfl
  | g :: rest, h => by
    rw [removed_slots, removed_slots, h g (by simp),
      removed_slots_congr rest (fun x hx => h x (List.mem_cons_of_mem _ hx))]

theorem remove_loop_slots : ∀ (rest : List snapraid_block) (d d' : snapraid_disk),
    rest.foldlM scan_file_remove_block d = .ok d' →
    (∀ t, (∀ b ∈ rest, b.parity_pos ≠ t) → d'.blockarr[t]? = d.blockarr[t]?) ∧
    ∃ extra, d'.deletedlist = d.deletedlist ++ extra
  | [], d, d', h => by
    simp only [List.foldlM_nil, pure, Except.pure, Except.ok.injEq] at h
    subst h
    exact ⟨fun _ _ => rfl, [], by simp⟩
  | b :: rest, d, d', h => by
    rw [List.foldlM_cons] at h
    rcases bind_ok.1 h with ⟨d1, h1, h2⟩
    rcases remove_loop_slots rest d1 d' h2 with ⟨a1, extra, a2⟩
    rcases remove_block_ok h1 with ⟨_, _, hd1⟩
    refine ⟨?_, tombstone_of b :: extra, ?_⟩
    · intro t ht
      rw [a1 t (fun b' hb' => ht b' (List.mem_cons_of_mem _ hb')), hd1]
      exact List.getElem?_set_ne (ht b (List.mem_cons_self _ _))
    · rw [a2, hd1]
      simp [tombstone_of]

/-- The removals leave the slots of the other blocks, the other files and the
tombstones that were there as they are. -/
theorem remove_files_frame : ∀ (rm : List Nat) (m m1 : Mem),
    rm.Nodup → rm.foldlM scan_file_remove m = .ok m1 →
    (∀ t, t ∉ removed_slots m.disk rm → m1.disk.blockarr[t]? = m.disk.blockarr[t]?) ∧
    (∀ g, g ∉ rm → heap_get m1.disk.filemem g = heap_get m.disk.filemem g) ∧
    ∃ extra, m1.disk.deletedlist = m.disk.deletedlist ++ extra
  | [], m, m1, _, h => by
    simp only [List.foldlM_nil, pure, Except.pure, Except.ok.injEq] at h
    subst h
    exact ⟨fun _ _ => rfl, fun _ _ => rfl, [], by simp⟩
  | file :: rest, m, m1, hnd, h => by
    rw [List.foldlM_cons] at h
    rcases bind_ok.1 h with ⟨m', h1, h2⟩
    rcases List.nodup_cons.1 hnd with ⟨hfile, hnd'⟩
    have hfg : ∃ f, heap_get m.disk.filemem file = .ok f := by
      unfold scan_file_remove at h1
      rcases bind_ok.1 h1 with ⟨f, hf, _⟩
      exact ⟨f, hf⟩
    rcases hfg with ⟨f, hf⟩
    rcases scan_file_remove_loop hf h1 with ⟨disk1, hl, harr, hdl, _⟩
    rcases scan_file_remove_frame h1 with ⟨_, _, hmem, _⟩
    rcases remove_loop_slots _ _ _ hl with ⟨b1, extra1, b2⟩
    have hmem_ne : ∀ g, g ≠ file → heap_get m'.disk.filemem g = heap_get m.disk.filemem g := by
      intro g hg
      rw [hmem]
      exact heap_get_free_ne hg
    rcases remove_files_frame rest m' m1 hnd' h2 with ⟨r1, r2, extra2, r3⟩
    have hsl : removed_slots m'.disk rest = removed_slots m.disk rest :=
      removed_slots_congr rest (fun x hx => hmem_ne x (fun e => hfile (e ▸ hx)))
    refine ⟨?_, ?_, extra1 ++ extra2, ?_⟩
    · intro t ht
      rw [removed_slots, hf, List.mem_append, not_or] at ht
      rw [r1 t (by rw [hsl]; exact ht.2), harr]
      apply b1
      intro b hb hpp
      exact ht.1 (List.mem_map.2 ⟨b, hb, hpp⟩)
    · intro g hg
      rw [List.mem_cons, not_or] at hg
      rw [r2 g hg.2, hmem_ne g hg.1]
    · rw [r3, hdl, b2, List.append_assoc]

/-- A slot that is not the slot of a removed block is as live after the
removals as it was before. -/
theorem remove_files_live {rm : List Nat} {m m1 : Mem} (hown : slot_ownership m.disk)
    (hnd : rm.Nodup) (h : rm.foldlM scan_file_remove m = .ok m1) {t : Nat}
    (ht : t ∉ removed_slots m.disk rm) : slot_live m1.disk t = slot_live m.disk t := by
  rcases remove_files_frame rm m m1 hnd h with ⟨a1, a2, extra, a3⟩
  apply slot_live_congr (a1 t ht)
  intro p hp
  have key := (slot_ownership_iff m.disk).1 hown t _ hp
  cases p with
  | deleted d =>
    simp only [slot_owned] at key
    rcases key with ⟨blk, hblk, _⟩
    rw [hblk]
    exact block_get_deleted_append a3 hblk
  | file g i =>
    simp only [slot_owned] at key
    rcases key with ⟨_, blk, hblk, hpos⟩
    have hg : g ∉ rm := by
      intro hg
      apply ht
      simp only [block_get] at hblk
      rcases bind_ok.1 hblk with ⟨f, hf, hb⟩
      cases hbi : f.blockvec[i]? with
      | none => rw [hbi] at hb; cases hb
      | some b =>
        rw [hbi] at hb
        simp only [pure, Except.pure, Except.ok.injEq] at hb
        subst hb
        exact mem_removed_slots.2 ⟨g, hg, f, b, hf, List.getElem?_mem hbi, hpos⟩
    simp only [block_get, a2 g hg]

/-- One delayed insertion writes below the hint it leaves only, and leaves the
other files and the tombstones as they are. -/
theorem insert_file_above {m m' : Mem} {file : Nat} (h : scan_file_insert m file = .ok m') :
    m.disk.first_free_block ≤ m'.disk.first_free_block ∧
    (∀ t, m'.disk.first_free_block ≤ t → m'.disk.blockarr[t]? = m.disk.blockarr[t]?) ∧
    m'.disk.deletedlist = m.disk.deletedlist ∧
    (∀ g, g ≠ file → heap_get m'.disk.filemem g = heap_get m.disk.filemem g) := by
  have hfg : ∃ f, heap_get m.disk.filemem file = .ok f := by
    unfold scan_file_insert at h
    rcases bind_ok.1 h with ⟨f, hf, _⟩
    exact ⟨f, hf⟩
  rcases hfg with ⟨f, hf⟩
  rcases scan_file_insert_loop hf h with ⟨s, fk, inv, hmem, harr, hdl, _, hff⟩
  have hother : ∀ g, g ≠ file → heap_get s.disk.filemem g = heap_get m.disk.filemem g := by
    unfold scan_file_insert at h
    rw [hf] at h
    rcases bind_ok.1 h with ⟨f1, hf1, h⟩
    cases hf1
    rcases bind_ok.1 h with ⟨s1, hs1, h⟩
    have e := insert_loop_mem_other file _ _ s1 hs1
    rcases insert_inv_loop _ _ s1 (insert_inv_init hf) hs1 with ⟨fk1, inv1⟩
    intro g hg
    have e1 := e g hg
    simp only [pure, Except.pure, Except.ok.injEq] at h
    have : m'.disk.filemem = s1.disk.filemem := by
      rw [← h]; simp only []; split <;> rfl
    rw [← hmem, this]
    exact e1
  refine ⟨?_, ?_, by rw [hdl, inv.deleted_eq], ?_⟩
  · rw [hff]
    split
    · next hn =>
      rcases inv.done 0 (by omega) with ⟨_, b', _, _, h1, h2, _⟩
      omega
    · exact Nat.le_refl _
  · intro t ht
    rw [harr]
    apply inv.other
    intro i b' hi hb' hpp
    rcases inv.done i hi with ⟨_, b'', _, hb'', h1, _⟩
    rw [hb'] at hb''
    cases hb''
    rw [hff, if_pos (by omega)] at ht
    omega
  · intro g hg
    rw [hmem]
    exact hother g hg

theorem insert_files_above : ∀ (ins : List Nat) (m m' : Mem),
    ins.foldlM scan_file_insert m = .ok m' →
    m.disk.first_free_block ≤ m'.disk.first_free_block ∧
    (∀ t, m'.disk.first_free_block ≤ t → m'.disk.blockarr[t]? = m.disk.blockarr[t]?) ∧
    m'.disk.deletedlist = m.disk.deletedlist ∧
    (∀ g, g ∉ ins → heap_get m'.disk.filemem g = heap_get m.disk.filemem g)
  | [], m, m', h => by
    simp only [List.foldlM_nil, pure, Except.pure, Except.ok.injEq] at h
    subst h
    exact ⟨Nat.le_refl _, fun _ _ => rfl, rfl, fun _ _ => rfl⟩
  | g :: rest, m, m', h => by
    rw [List.foldlM_cons] at h
    rcases bind_ok.1 h with ⟨m1, h1, h2⟩
    rcases insert_file_above h1 with ⟨a1, a2, a3, a4⟩
    rcases insert_files_above rest m1 m' h2 with ⟨r1, r2, r3, r4⟩
    refine ⟨Nat.le_trans a1 r1, ?_, by rw [r3, a3], ?_⟩
    · intro t ht
      rw [r2 t ht, a2 t (Nat.le_trans r1 ht)]
    · intro x hx
      rw [List.mem_cons, not_or] at hx
      rw [r4 x hx.2, a4 x hx.1]

/-- A slot at or above the hint the delayed insertions leave is as live after
them as it was before. -/
theorem insert_files_live {ins : List Nat} {m m' : Mem} (hown : slot_ownership m.disk)
    (hfresh : ∀ g ∈ ins, g ∉ m.disk.filelist)
    (h : ins.foldlM scan_file_insert m = .ok m') {t : Nat}
    (ht : m'.disk.first_free_block ≤ t) : slot_live m'.disk t = slot_live m.disk t := by
  rcases insert_files_above ins m m' h with ⟨_, a2, a3, a4⟩
  apply slot_live_congr (a2 t ht)
  intro p hp
  have key := (slot_ownership_iff m.disk).1 hown t _ hp
  cases p with
  | deleted d => simp only [block_get, a3]
  | file g i =>
    simp only [slot_owned] at key
    have hg : g ∉ ins := fun hg => hfresh g hg key.1
    simp only [block_get, a4 g hg]

/-- C4, as amended (two-phase reuse).  Take a disk with slot ownership, a list
of distinct files that own their blocks, and a list of distinct files not in
the file list.  If the files of the first list are removed, then those of the
second inserted, the two lists having the same total number of blocks, and if
before the removals every slot between the hint as lowered by the removals and
a slot freed by them was live (no EMPTY slot and no tombstone below a freed
slot from the hint on), then the slots occupied by file blocks after the
insertions are exactly those occupied before the removals. -/
theorem two_phase_reuse (m m1 m2 : Mem) (rm ins : List Nat)
    (hown : slot_ownership m.disk)
    (hrm : rm.Nodup)
    (hlive : ∀ g ∈ rm, file_owns_blocks m.disk g)
    (hfresh : ∀ g ∈ ins, g ∉ m.disk.filelist)
    (hins : ins.Nodup)
    (h1 : rm.foldlM scan_file_remove m = .ok m1)
    (h2 : ins.foldlM scan_file_insert m1 = .ok m2)
    (hcount : block_count m1.disk ins = block_count m.disk rm)
    (hfull : ∀ s ∈ removed_slots m.disk rm, ∀ t, t < s → m1.disk.first_free_block ≤ t →
      slot_live m.disk t = true) :
    occupied_slots m2.disk = occupied_slots m.disk := by
  -- the hint after the removals is below every removed slot
  rcases remove_files_nonlive 0 rm m m1 _ hrm hown
    (fun g hg f i b hf hb => ⟨Nat.zero_le _, file_owns_blocks_get (hlive g hg) hf hb⟩) rfl h1
    with ⟨_, _, _, _, _, q6, _⟩
  rcases remove_files_nonlive m1.disk.first_free_block rm m m1 _ hrm hown
    (fun g hg f i b hf hb =>
      ⟨q6 g hg f b hf (List.getElem?_mem hb), file_owns_blocks_get (hlive g hg) hf hb⟩)
    rfl h1 with ⟨own1, card1, len1, low1, _, _, fresh1⟩
  have fresh : ∀ g ∈ ins, g ∉ m1.disk.filelist := fun g hg => fresh1 g (hfresh g hg)
  -- the slots that are not live after the removals: those that were not, and the removed ones
  obtain ⟨T, hT⟩ : ∃ T, T = nonlive m.disk m1.disk.first_free_block := ⟨_, rfl⟩
  obtain ⟨U, hU⟩ : ∃ U, U = nonlive m1.disk m1.disk.first_free_block := ⟨_, rfl⟩
  obtain ⟨S, hS⟩ : ∃ S, S = (removed_slots m.disk rm).toFinset := ⟨_, rfl⟩
  have hSmem : ∀ t, t ∈ S ↔ t ∈ removed_slots m.disk rm := by
    intro t; rw [hS, List.mem_toFinset]
  have hTmem : ∀ t, t ∈ T ↔ t < m.disk.blockarr.length ∧ m1.disk.first_free_block ≤ t ∧
      slot_live m.disk t = false := by
    intro t; rw [hT, mem_nonlive]
  have hUmem : ∀ t, t ∈ U ↔ t < m.disk.blockarr.length ∧ m1.disk.first_free_block ≤ t ∧
      slot_live m1.disk t = false := by
    intro t; rw [hU, mem_nonlive, len1]
  rw [← hT, ← hU] at card1
  have hSN : S.card ≤ block_count m.disk rm := by
    rw [← removed_slots_length, hS]
    exact List.toFinset_card_le _
  have hUsub : U ⊆ T ∪ S := by
    intro t ht
    by_cases hs : t ∈ S
    · exact Finset.mem_union_right _ hs
    · apply Finset.mem_union_left
      rcases (hUmem t).1 ht with ⟨k1, k2, k3⟩
      rw [remove_files_live hown hrm h1 (fun hc => hs ((hSmem t).2 hc))] at k3
      exact (hTmem t).2 ⟨k1, k2, k3⟩
  have hle1 : U.card ≤ (T ∪ S).card := Finset.card_le_card hUsub
  have hle2 : (T ∪ S).card ≤ T.card + S.card := Finset.card_union_le _ _
  have hScard : S.card = block_count m.disk rm := by omega
  have hdisj : Disjoint T S := by
    rw [← Finset.card_union_eq_card_add_card]
    omega
  have hUeq : U = T ∪ S :=
    Finset.eq_of_subset_of_card_le hUsub (by omega)
  have hSU : S ⊆ U := by rw [hUeq]; exact Finset.subset_union_right
  have hTU : T ⊆ U := by rw [hUeq]; exact Finset.subset_union_left
  -- the insertions take as many slots as were removed
  rcases reuse_files ins m1 m2 T.card own1 fresh hins len1
    (Nat.le_refl _) (fun t k1 k2 => by omega) low1
    (by rw [← hU, card1, hcount]; omega) h2 with ⟨own2, len2, lo2, below2, low2, card2⟩
  have hX : nonlive m2.disk m2.disk.first_free_block =
      U.filter (fun t => m2.disk.first_free_block ≤ t) := by
    ext t
    rw [Finset.mem_filter, mem_nonlive, hUmem, len2]
    constructor
    · rintro ⟨k1, k2, k3⟩
      rw [insert_files_live own1 fresh h2 k2] at k3
      exact ⟨⟨k1, Nat.le_trans lo2 k2, k3⟩, k2⟩
    · rintro ⟨⟨k1, _, k3⟩, k2⟩
      exact ⟨k1, k2, by rw [insert_files_live own1 fresh h2 k2]; exact k3⟩
  have hTabove : ∀ s ∈ S, ∀ t ∈ T, s < t := by
    intro s hs t ht
    rcases (hTmem t).1 ht with ⟨_, k2, k3⟩
    have hne : t ≠ s := fun e => (Finset.disjoint_left.1 hdisj ht) (e ▸ hs)
    by_contra hc
    have hlt : t < s := by omega
    have := hfull s ((hSmem s).1 hs) t hlt k2
    rw [this] at k3
    cases k3
  -- every removed slot lies below the hint the insertions leave
  have hSbelow : ∀ s ∈ S, s < m2.disk.first_free_block := by
    intro s hs
    by_contra hc
    have hge : m2.disk.first_free_block ≤ s := by omega
    have hsub : insert s T ⊆ U.filter (fun t => m2.disk.first_free_block ≤ t) := by
      intro t ht
      rw [Finset.mem_filter]
      rcases Finset.mem_insert.1 ht with rfl | ht
      · exact ⟨hSU hs, hge⟩
      · exact ⟨hTU ht, by have := hTabove s hs t ht; omega⟩
    have hnot : s ∉ T := fun hsT => (Finset.disjoint_left.1 hdisj hsT) hs
    have := Finset.card_le_card hsub
    rw [Finset.card_insert_of_not_mem hnot, ← hX, card2] at this
    omega
  -- the slots below that hint that are not live after the removals are the removed ones
  have hlow : ∀ t ∈ U, t < m2.disk.first_free_block → t ∈ S := by
    have hsplit : (U.filter (fun t => t < m2.disk.first_free_block)).card +
        (U.filter (fun t => m2.disk.first_free_block ≤ t)).card = U.card := by
      have := @Finset.filter_card_add_filter_neg_card_eq_card _ U
        (fun t => t < m2.disk.first_free_block) _ _
      simpa [Nat.not_lt] using this
    have hsub : S ⊆ U.filter (fun t => t < m2.disk.first_free_block) := by
      intro s hs
      rw [Finset.mem_filter]
      exact ⟨hSU hs, hSbelow s hs⟩
    have heq : S = U.filter (fun t => t < m2.disk.first_free_block) :=
      Finset.eq_of_subset_of_card_le hsub (by rw [← hX, card2] at hsplit; omega)
    intro t ht hlt
    rw [heq, Finset.mem_filter]
    exact ⟨ht, hlt⟩
  unfold occupied_slots
  rw [len2]
  apply List.filter_congr
  intro t ht
  have htl : t < m.disk.blockarr.length := List.mem_range.1 ht
  by_cases hlo : t < m1.disk.first_free_block
  · unfold slot_occupied
    rw [low2 t hlo]
  · by_cases hhi : t < m2.disk.first_free_block
    · rw [slot_occupied_of_live own2 (below2 t (by omega) hhi)]
      by_cases hs : t ∈ S
      · rcases mem_removed_slots.1 ((hSmem t).1 hs) with ⟨g, hg, f, b, hf, hb, hpos⟩
        rcases List.getElem?_of_mem hb with ⟨i, hi⟩
        have := file_owns_blocks_get (hlive g hg) hf hi
        rw [hpos] at this
        unfold slot_occupied
        rw [this]
      · have hnu : t ∉ U := fun hu => hs (hlow t hu hhi)
        have hnt : t ∉ T := fun htT => hnu (hTU htT)
        have hl : slot_live m.disk t = true := by
          by_contra hc
          exact hnt ((hTmem t).2 ⟨htl, by omega, by simpa using hc⟩)
        rw [slot_occupied_of_live hown hl]
    · have hs : t ∉ removed_slots m.disk rm := by
        intro hs
        have := hSbelow t ((hSmem t).2 hs)
        omega
      rcases insert_files_above ins m1 m2 h2 with ⟨_, a2, _, _⟩
      rcases remove_files_frame rm m m1 hrm h1 with ⟨b1, _, _⟩
      unfold slot_occupied
      rw [a2 t (by omega), b1 t hs]

theorem two_phase_reuse_witness :
    occupied_slots ex_mem_inserted.disk = occupied_slots ex_mem.disk ∧
    occupied_slots ex_mem_hole_inserted.disk = occupied_slots ex_mem_hole.disk ∧
    ex_mem_hole.disk.blockarr = [some (BlockPtr.file 0 0), none, some (BlockPtr.file 1 0)] ∧
    ex_mem_hole_inserted.disk.blockarr =
      [some (BlockPtr.file 2 0), none, some (BlockPtr.file 1 0)] :=
  ⟨two_phase_reuse ex_mem ex_mem_removed ex_mem_inserted [0] [2] (by decide) (by decide)
    (by decide) (by decide) (by decide) (by rfl) (by rfl) (by decide) (by decide),
   two_phase_reuse ex_mem_hole ex_mem_hole_removed ex_mem_hole_inserted [0] [2] (by decide)
    (by decide) (by decide) (by decide) (by decide) (by rfl) (by rfl) (by decide) (by decide),
   by rfl, by rfl⟩

end Snapraid
